import Mathlib

/-!
# PerfectScramble: face pattern table and corner index

A shallow embedding of `ScrambleEvaluation.cpp` and `ScrambleSearcher.cpp`.
C arrays are lists read with `List.getD`, the 6^9-entry `face_table` is a
function from index to stored value, and loops are folds or recursions over
the same index ranges as the source.
-/

set_option autoImplicit false

namespace PerfectScramble

/-! ## Constants of `ScrambleEvaluation.h` -/

def FACE_ARRANGEMENTS : Nat := 10077696
def CUBE_SURFACES : Nat := 54
def CUBE_FACES : Nat := 6
def CUBE_CORNERS : Nat := 8
def CUBE_EDGES : Nat := 12
def CUBE_COLORS : Nat := 6

def SIDES_TOUCHING : Nat := 0
def CORNERS_TOUCHING : Nat := 1
def ADJACENT_FACES_TOUCHING : Nat := 2
def NOTHING_TOUCHING : Nat := 3

/-- The sentinel `const __int16 NOT_SET = 32767`. -/
def NOT_SET : Int := 32767

/-- Conversion of an `int` to `__int16` (two's complement wrap), as done by the
store `face_table[idx] = pattern_id`. -/
def toInt16 (x : Int) : Int := (x + 32768) % 65536 - 32768

/-- The macro `SWAP(a[x], a[y])`: `temp = a[x]; a[x] = a[y]; a[y] = temp`. -/
def swapAt (a : List Nat) (x y : Nat) : List Nat :=
  (a.set x (a.getD y 0)).set y (a.getD x 0)

/-! ## Scramble criteria -/

/-- State of the loop of `GetFaceColorCounts`: `color_counts`, `*count`, `*max_instances`. -/
structure ColorCountState where
  color_counts : List Nat
  count : Nat
  max_instances : Nat
deriving DecidableEq, Repr

/-- One iteration of the loop of `GetFaceColorCounts` for the cell colour `color`. -/
def colorCountStep (st : ColorCountState) (color : Nat) : ColorCountState :=
  let count := if 0 = st.color_counts.getD color 0 then st.count + 1 else st.count
  let color_counts := st.color_counts.set color (st.color_counts.getD color 0 + 1)
  let max_instances :=
    if st.max_instances < color_counts.getD color 0 then color_counts.getD color 0
    else st.max_instances
  ⟨color_counts, count, max_instances⟩

/-- The function `GetFaceColorCounts`: the pair `(*count, *max_instances)`. -/
def GetFaceColorCounts (face_colors : List Nat) : Nat × Nat :=
  let st := face_colors.foldl colorCountStep ⟨[0, 0, 0, 0, 0, 0], 0, 0⟩
  (st.count, st.max_instances)

/-- The table `sides_to_compare` of `GetFaceColorConnectedness`. -/
def sides_to_compare : List (Nat × Nat) :=
  [(0, 1), (1, 2), (3, 4), (4, 5), (6, 7), (7, 8),
   (0, 3), (3, 6), (1, 4), (4, 7), (2, 5), (5, 8)]

/-- The table `corners_to_compare` of `GetFaceColorConnectedness`. -/
def corners_to_compare : List (Nat × Nat) :=
  [(0, 4), (2, 4), (6, 4), (8, 4), (1, 3), (3, 7), (7, 5), (5, 1)]

/-- The function `GetFaceColorConnectedness`: the side pairs are tested first, then
the diagonal pairs. -/
def GetFaceColorConnectedness (face_colors : List Nat) : Nat :=
  if sides_to_compare.any (fun p => face_colors.getD p.1 0 == face_colors.getD p.2 0) then
    SIDES_TOUCHING
  else if corners_to_compare.any
      (fun p => face_colors.getD p.1 0 == face_colors.getD p.2 0) then
    CORNERS_TOUCHING
  else NOTHING_TOUCHING

/-! ## Colour pattern ids -/

/-- The loop of `FaceIndexToColors`: `colors[i] = index % CUBE_COLORS; index /= CUBE_COLORS`. -/
def faceIndexDigits : Nat → Nat → List Nat
  | 0, _ => []
  | n + 1, index => (index % CUBE_COLORS) :: faceIndexDigits n (index / CUBE_COLORS)

/-- The function `FaceIndexToColors`: the nine cell colours of a face index. -/
def FaceIndexToColors (index : Nat) : List Nat := faceIndexDigits 9 index

/-- The table `symmetries` of `BuildFaceTable`. -/
def symmetries : List (List Nat) :=
  [[0, 1, 2, 3, 4, 5, 6, 7, 8],
   [2, 5, 8, 1, 4, 7, 0, 3, 6],
   [8, 7, 6, 5, 4, 3, 2, 1, 0],
   [6, 3, 0, 7, 4, 1, 8, 5, 2],
   [2, 1, 0, 5, 4, 3, 8, 7, 6],
   [8, 5, 2, 7, 4, 1, 6, 3, 0],
   [6, 7, 8, 3, 4, 5, 0, 1, 2],
   [0, 3, 6, 1, 4, 7, 2, 5, 8]]

/-- The innermost index computation of `BuildFaceTable`:
`for surface = 8 downto 0: idx = idx * CUBE_COLORS + color_swaps[face_colors[sym[surface]]]`. -/
def transformedIndex (color_swaps face_colors sym : List Nat) : Nat :=
  ([8, 7, 6, 5, 4, 3, 2, 1, 0] : List Nat).foldl
    (fun idx surface =>
      idx * CUBE_COLORS + color_swaps.getD (face_colors.getD (sym.getD surface 0) 0) 0) 0

/-- The mutable state of the nested loops: `face_table` and `color_swaps`. -/
structure SwapState where
  face_table : Nat → Int
  color_swaps : List Nat

/-- The innermost body: `if (face_table[idx] == NOT_SET) face_table[idx] = pattern_id`. -/
def markBody (face_colors sym : List Nat) (pattern_id : Int) (st : SwapState) : SwapState :=
  let idx := transformedIndex st.color_swaps face_colors sym
  if st.face_table idx = NOT_SET then
    ⟨Function.update st.face_table idx (toInt16 pattern_id), st.color_swaps⟩
  else st

/-- One of the loops `for (c = k; c < CUBE_COLORS; ++c) { SWAP(color_swaps[k], color_swaps[c]);
body; SWAP(color_swaps[k], color_swaps[c]); }`. -/
def swapLoop (k : Nat) (body : SwapState → SwapState) (st : SwapState) : SwapState :=
  (List.range' k (CUBE_COLORS - k)).foldl
    (fun s c =>
      let s1 : SwapState := ⟨s.face_table, swapAt s.color_swaps k c⟩
      let s2 := body s1
      ⟨s2.face_table, swapAt s2.color_swaps k c⟩) st

/-- The loop over `symmetry` with the five nested colour loops `c0 .. c4`. -/
def symmetryLoop (face_colors : List Nat) (pattern_id : Int) (st : SwapState) : SwapState :=
  symmetries.foldl
    (fun s sym =>
      swapLoop 0 (swapLoop 1 (swapLoop 2 (swapLoop 3 (swapLoop 4
        (markBody face_colors sym pattern_id))))) s) st

/-- The state of the outer loop of `BuildFaceTable`. -/
structure BuildState where
  face_table : Nat → Int
  next_perfect_pattern_id : Nat
  next_regular_pattern_id : Nat

/-- The test `(color_count == CUBE_COLORS) && (max_instances == 2) &&
(color_connectedness == NOTHING_TOUCHING)` on the colours decoded from `i`. -/
def isPerfectIndex (i : Nat) : Bool :=
  let face_colors := FaceIndexToColors i
  let cm := GetFaceColorCounts face_colors
  (cm.1 == CUBE_COLORS) && (cm.2 == 2) &&
    (GetFaceColorConnectedness face_colors == NOTHING_TOUCHING)

/-- The body of the outer loop of `BuildFaceTable` for the index `i`. -/
def buildStep (st : BuildState) (i : Nat) : BuildState :=
  if st.face_table i ≠ NOT_SET then st
  else
    let face_colors := FaceIndexToColors i
    let perfect := isPerfectIndex i
    let pattern_id : Nat :=
      if perfect then st.next_perfect_pattern_id else st.next_regular_pattern_id
    let st1 := symmetryLoop face_colors (pattern_id : Int) ⟨st.face_table, [0, 1, 2, 3, 4, 5]⟩
    if perfect then ⟨st1.face_table, st.next_perfect_pattern_id + 1, st.next_regular_pattern_id⟩
    else ⟨st1.face_table, st.next_perfect_pattern_id, st.next_regular_pattern_id + 1⟩

/-- The state of `BuildFaceTable` after the outer loop has run for `i = 0 .. n - 1`;
all entries start as `NOT_SET`, the perfect ids at 0 and the regular ids at 16. -/
def buildLoop : Nat → BuildState
  | 0 => ⟨fun _ => NOT_SET, 0, 16⟩
  | n + 1 => buildStep (buildLoop n) n

/-- The array `face_table` after the outer loop has run for `i = 0 .. n - 1`. -/
def faceTableAfter (n : Nat) : Nat → Int := (buildLoop n).face_table

/-- The function `BuildFaceTable`: `face_table` after the outer loop has run for every
`i < FACE_ARRANGEMENTS`. -/
def BuildFaceTable : Nat → Int := faceTableAfter FACE_ARRANGEMENTS

/-! ## Faces, face indexes and the symmetry action -/

/-- A coloured face: the colour of each of the nine cells. -/
abbrev Face := Fin 9 → Fin 6

/-- The colour of cell `k` of a face as a number (0 outside the face). -/
def cell (c : Face) (k : Nat) : Nat := if h : k < 9 then (c ⟨k, h⟩).val else 0

/-- The face whose cell `s` has the `s`-th base-6 digit of `i` as colour. -/
def faceOf (i : Nat) : Face := fun s => ⟨i / 6 ^ s.val % 6, Nat.mod_lt _ (by decide)⟩

/-- The face index of a face: cell `s` is the digit of weight `6 ^ s`. -/
def indexOf (c : Face) : Nat :=
  cell c 0 + 6 * (cell c 1 + 6 * (cell c 2 + 6 * (cell c 3 + 6 * (cell c 4 +
    6 * (cell c 5 + 6 * (cell c 6 + 6 * (cell c 7 + 6 * cell c 8)))))))

/-- The nine colours of a face as a list, cell 0 first. -/
def colorsOf (c : Face) : List Nat :=
  [cell c 0, cell c 1, cell c 2, cell c 3, cell c 4, cell c 5, cell c 6, cell c 7, cell c 8]

/-- Entry `s` of row `r` of the table `symmetries`. -/
def symNat (r s : Nat) : Nat := (symmetries.getD r []).getD s 0

/-- A colour permutation as the array `color_swaps` holds it. -/
def permList (p : Equiv.Perm (Fin 6)) : List Nat := List.ofFn (fun v => (p v).val)

/-- The face obtained by permuting the cells by row `r` of `symmetries` and relabelling
the colours by `p`. -/
def act (r : Fin 8) (p : Equiv.Perm (Fin 6)) (c : Face) : Face :=
  fun s => p (c ⟨symNat r.val s.val % 9, Nat.mod_lt _ (by decide)⟩)

/-- Row `r` of the table `symmetries` as a map of the nine cells. -/
def symF (r : Fin 8) (s : Fin 9) : Fin 9 := ⟨symNat r.val s.val % 9, Nat.mod_lt _ (by decide)⟩

/-- Two faces are in the same orbit when one is obtained from the other by one of the
eight rows of `symmetries` and a relabelling of the six colours. -/
def Orb (c d : Face) : Prop := ∃ r : Fin 8, ∃ p : Equiv.Perm (Fin 6), d = act r p c

/-- The values `color_swaps` can hold at the innermost body: `swapReach n k cs cs'` says
that `cs'` is obtained from `cs` by the swaps of the `n` nested loops `c_k, c_(k+1), ...`. -/
def swapReach : Nat → Nat → List Nat → List Nat → Prop
  | 0, _, cs, cs' => cs' = cs
  | n + 1, k, cs, cs' =>
    ∃ c, k ≤ c ∧ c < CUBE_COLORS ∧ swapReach n (k + 1) (swapAt cs k c) cs'

/-- The table `t'` is `t` with the value `v` written into every unset slot of `S`. -/
def MarkedFrom (t : Nat → Int) (v : Int) (S : Nat → Prop) (t' : Nat → Int) : Prop :=
  ∀ x, (t x = NOT_SET ∧ S x → t' x = v) ∧ (¬(t x = NOT_SET ∧ S x) → t' x = t x)

/-- A loop body that restores `color_swaps` and writes `v` into the unset slots of
`S color_swaps`. -/
def Marks (body : SwapState → SwapState) (v : Int) (S : List Nat → Nat → Prop) : Prop :=
  ∀ st : SwapState, st.color_swaps.length = 6 →
    (body st).color_swaps = st.color_swaps ∧
      MarkedFrom st.face_table v (S st.color_swaps) (body st).face_table

/-- Cells `a` and `b` of the 3x3 face touch along an edge or at a corner: their rows
and their columns differ by at most one. -/
def touching (a b : Nat) : Prop :=
  a / 3 ≤ b / 3 + 1 ∧ b / 3 ≤ a / 3 + 1 ∧ a % 3 ≤ b % 3 + 1 ∧ b % 3 ≤ a % 3 + 1

instance touchingDecidable (a b : Nat) : Decidable (touching a b) := by
  unfold touching; infer_instance

/-- A perfect face: all six colours are present, no colour occurs more than twice, and no two
distinct touching cells have the same colour. -/
def PerfectFace (cs : List Nat) : Prop :=
  (∀ col, col < 6 → col ∈ cs) ∧ (∀ col, cs.count col ≤ 2) ∧
    (∀ a b, a < 9 → b < 9 → a ≠ b → touching a b → cs.getD a 0 ≠ cs.getD b 0)

/-- The loop invariant of `GetFaceColorCounts` after the cells `pre` have been read, in terms
of the numbers `n0 .. n5` of cells of each colour. -/
def CountInv (st : ColorCountState) (n0 n1 n2 n3 n4 n5 : Nat) : Prop :=
  st.color_counts = [n0, n1, n2, n3, n4, n5] ∧
  st.count = min 1 n0 + min 1 n1 + min 1 n2 + min 1 n3 + min 1 n4 + min 1 n5 ∧
  (n0 ≤ st.max_instances ∧ n1 ≤ st.max_instances ∧ n2 ≤ st.max_instances ∧
    n3 ≤ st.max_instances ∧ n4 ≤ st.max_instances ∧ n5 ≤ st.max_instances) ∧
  (st.max_instances = 0 ∨ st.max_instances = n0 ∨ st.max_instances = n1 ∨
    st.max_instances = n2 ∨ st.max_instances = n3 ∨ st.max_instances = n4 ∨
    st.max_instances = n5)

/-- The face `c` is perfect. -/
def Perf (c : Face) : Prop := PerfectFace (colorsOf c)

/-- Restricted growth of a list of colours read from the most significant cell: every
colour is at most the number `m` of colours already in use. -/
def RGSList : Nat → List Nat → Prop
  | _, [] => True
  | m, d :: rest => d ≤ m ∧ d < 6 ∧ RGSList (max m (d + 1)) rest

/-- The number of restricted growth lists of length `n` when `m` colours are in use. -/
def rgsCount : Nat → Nat → Nat
  | 0, _ => 1
  | n + 1, m => ((List.range (min (m + 1) 6)).map (fun d => rgsCount n (max m (d + 1)))).sum

/-- All restricted growth lists of length `n` when `m` colours are in use. -/
def rgsLists : Nat → Nat → List (List Nat)
  | 0, _ => [[]]
  | n + 1, m =>
    (List.range (min (m + 1) 6)).flatMap
      (fun d => (rgsLists n (max m (d + 1))).map (fun l => d :: l))

/-- On a list of nine colours: no pair of `sides_to_compare` or `corners_to_compare` has
equal colours. -/
def noTouchB : List Nat → Bool
  | [a0, a1, a2, a3, a4, a5, a6, a7, a8] =>
    (a0 != a1) && (a1 != a2) && (a3 != a4) && (a4 != a5) && (a6 != a7) && (a7 != a8) &&
    (a0 != a3) && (a3 != a6) && (a1 != a4) && (a4 != a7) && (a2 != a5) && (a5 != a8) &&
    (a0 != a4) && (a2 != a4) && (a6 != a4) && (a8 != a4) && (a1 != a3) && (a3 != a7) &&
    (a7 != a5) && (a5 != a1)
  | _ => false

/-- The cells already chosen (the last `pre.length` cells of the face), preceded by
pairwise distinct placeholders that are no colours for the cells not yet chosen. -/
def padTo9 (pre : List Nat) : List Nat :=
  ([100, 101, 102, 103, 104, 105, 106, 107, 108] : List Nat).take (9 - pre.length) ++ pre

/-- Among the cells already chosen, no pair of `sides_to_compare` or `corners_to_compare` has
equal colours. -/
def partialOkB (pre : List Nat) : Bool := noTouchB (padTo9 pre)

/-- The test `P` holds for every face without equal touching cells whose colours, read from
cell 8 down to cell 0, form a restricted growth list; `pre` holds the cells chosen so far,
lowest cell first, and a branch is left as soon as two touching cells are equal. -/
def rgsAll (P : List Nat → Bool) : Nat → Nat → List Nat → Bool
  | 0, _, pre => P pre
  | n + 1, m, pre =>
    (List.range (min (m + 1) 6)).all
      (fun d => !partialOkB (d :: pre) || rgsAll P n (max m (d + 1)) (d :: pre))

/-- The index `i` is the smallest index of its orbit. -/
def IsFirst (i : Nat) : Prop := ∀ j, j < i → ¬ Orb (faceOf j) (faceOf i)

/-- The cell colours (cell 0 first) of the first face index of each of the 16 orbits of
perfect faces, in increasing order of face index. -/
def perfectReps : List (List Nat) :=
  [[5, 4, 1, 2, 3, 2, 0, 1, 0], [5, 1, 4, 2, 3, 2, 0, 1, 0], [4, 5, 4, 2, 3, 2, 0, 1, 0],
   [2, 5, 1, 4, 3, 2, 0, 1, 0], [5, 1, 4, 4, 3, 2, 0, 1, 0], [2, 5, 4, 4, 3, 2, 0, 1, 0],
   [5, 1, 5, 4, 3, 2, 0, 1, 0], [5, 4, 1, 0, 3, 2, 2, 1, 0], [5, 1, 4, 0, 3, 2, 2, 1, 0],
   [0, 5, 1, 4, 3, 2, 2, 1, 0], [5, 0, 4, 4, 3, 2, 2, 1, 0], [5, 1, 4, 4, 3, 2, 2, 1, 0],
   [0, 5, 4, 4, 3, 2, 2, 1, 0], [0, 1, 5, 4, 3, 2, 2, 1, 0], [5, 1, 2, 3, 4, 3, 2, 1, 0],
   [0, 5, 2, 3, 4, 3, 2, 1, 0]]

/-- For each perfect face with restricted growth that is not in `perfectReps`: its face
index, a row `r` of `symmetries` and the position `k` of the face of `perfectReps` that has
the same pairs of equal cells as the face permuted by row `r`. -/
def orbitHints : List (Nat × Nat × Nat) :=
  [(299983, 4, 0), (300415, 4, 3), (300428, 4, 4), (392863, 4, 7), (392866, 2, 5),
   (393563, 7, 0), (393583, 7, 3), (393593, 7, 7), (393727, 2, 10), (393733, 1, 10),
   (393737, 6, 3), (393743, 2, 4), (401813, 7, 10), (401828, 1, 3), (401829, 6, 10),
   (401843, 4, 13), (401863, 1, 9), (401865, 4, 12), (401948, 1, 0), (401949, 4, 11),
   (401951, 6, 4), (401953, 1, 7), (401955, 4, 10), (401957, 2, 3), (402419, 3, 1),
   (402425, 7, 4), (402439, 3, 4), (402440, 1, 6), (402449, 3, 8), (402461, 5, 11),
   (402474, 7, 13), (402476, 5, 4), (402485, 3, 13), (402511, 1, 13), (402589, 1, 11),
   (402590, 1, 4), (402593, 6, 0), (402594, 1, 14), (402596, 1, 1), (402599, 2, 1),
   (402600, 5, 13), (402601, 1, 8), (402605, 2, 0), (402848, 1, 2), (402849, 3, 0),
   (402853, 3, 5), (402855, 3, 3), (402878, 1, 5), (402879, 3, 7), (402888, 5, 12),
   (402891, 5, 10), (402913, 1, 12), (402915, 3, 9), (402918, 1, 15), (402921, 6, 13),
   (403021, 3, 10), (403022, 5, 3), (403023, 6, 7), (403026, 2, 13), (403028, 5, 0),
   (403029, 2, 8), (403032, 2, 9), (403033, 5, 7), (403035, 2, 7)]

/-- The face index of a list of cell colours, cell 0 first. -/
def listIndex (l : List Nat) : Nat := l.foldr (fun d acc => d + 6 * acc) 0

/-- A boolean test of `PerfectFace` for lists of nine colours below 6. -/
def perfB (l : List Nat) : Bool :=
  noTouchB l && (List.range 6).all (fun v => decide (1 ≤ l.count v) && decide (l.count v ≤ 2))

/-- The colours of a face after its cells are permuted by row `r` of `symmetries`. -/
def permuted : List Nat → Nat → List Nat
  | [a0, a1, a2, a3, a4, a5, a6, a7, a8], r =>
    (symmetries.getD r []).map (fun s =>
      match s with
      | 0 => a0 | 1 => a1 | 2 => a2 | 3 => a3 | 4 => a4 | 5 => a5 | 6 => a6 | 7 => a7 | _ => a8)
  | _, _ => []

/-- Two lists of colours have the same pairs of equal cells. -/
def sameKernelB (a b : List Nat) : Bool :=
  (a.zip b).all (fun x => (a.zip b).all (fun y => (x.1 == y.1) == (x.2 == y.2)))

/-- The hint `h` shows a face of `perfectReps` with a smaller index in the orbit of `l`. -/
def hintOkB (l : List Nat) (h : Nat × Nat × Nat) : Bool :=
  Nat.beq h.1 (listIndex l) && (Nat.blt h.2.1 8 && (Nat.blt h.2.2 16 &&
    (Nat.blt (listIndex (perfectReps.getD h.2.2 [])) (listIndex l) &&
      sameKernelB (permuted l h.2.1) (perfectReps.getD h.2.2 []))))

/-- A perfect face is in `perfectReps` or has a smaller face of `perfectReps` in its orbit. -/
def leafCheck (l : List Nat) : Bool :=
  !perfB l || (perfectReps.contains l || orbitHints.any (hintOkB l))

/-- The face with the given list of cell colours. -/
def faceOfList (l : List Nat) : Face := fun s => ⟨l.getD s.val 0 % 6, Nat.mod_lt _ (by decide)⟩

/-- Some index below `n` lies in the orbit of the index `k`. -/
def Seen (n k : Nat) : Prop := ∃ j, j < n ∧ Orb (faceOf j) (faceOf k)

/-- The invariant of the outer loop of `BuildFaceTable` after the indexes below `n`. -/
structure BuildInv (n : Nat) (s : BuildState) : Prop where
  unset : ∀ k, k < FACE_ARRANGEMENTS → (s.face_table k = NOT_SET ↔ ¬ Seen n k)
  perfect_ids : ∀ k, k < FACE_ARRANGEMENTS → Seen n k → Perf (faceOf k) →
    0 ≤ s.face_table k ∧ s.face_table k < (s.next_perfect_pattern_id : Int)
  regular_ids : ∀ k, k < FACE_ARRANGEMENTS → Seen n k → ¬ Perf (faceOf k) →
    16 ≤ s.face_table k ∧ s.face_table k < (s.next_regular_pattern_id : Int)
  inj : ∀ k k', k < FACE_ARRANGEMENTS → k' < FACE_ARRANGEMENTS → Seen n k → Seen n k' →
    s.face_table k = s.face_table k' → Orb (faceOf k) (faceOf k')
  const : ∀ k k', k < FACE_ARRANGEMENTS → k' < FACE_ARRANGEMENTS →
    Orb (faceOf k) (faceOf k') → s.face_table k = s.face_table k'
  perfect_count : ∃ L : List Nat, L.Nodup ∧
    (∀ i, i ∈ L ↔ i < n ∧ IsFirst i ∧ Perf (faceOf i)) ∧ s.next_perfect_pattern_id = L.length
  regular_count : ∃ L : List Nat, L.Nodup ∧
    (∀ i, i ∈ L ↔ i < n ∧ IsFirst i ∧ ¬ Perf (faceOf i)) ∧
    s.next_regular_pattern_id = 16 + L.length
  perfect_onto : ∀ v : Nat, v < s.next_perfect_pattern_id →
    ∃ k, k < FACE_ARRANGEMENTS ∧ Seen n k ∧ Perf (faceOf k) ∧ s.face_table k = (v : Int)

/-- The index `j` is one of the 5760 indexes the innermost body of `BuildFaceTable` computes
for the index `i`: the cells of `i` permuted by a row of `symmetries` and its colours
relabelled by a permutation of the six colours. -/
def InOrbit (i j : Nat) : Prop :=
  ∃ sym ∈ symmetries, ∃ p : Equiv.Perm (Fin 6),
    j = transformedIndex (permList p) (FaceIndexToColors i) sym

/-- The face indexes of the faces of `perfectReps`. -/
def perfectRepIndexes : List Nat := perfectReps.map listIndex

/-! ## Corner arrangements and their index (`ScrambleSearcher.cpp`) -/

/-- The struct `CornerArrangement`: the corner stickers of the cube, the corners' contribution
to each face index, and for each face the index of the first later entry with a different
value (`unsigned int`, with `-1` stored as `4294967295`). -/
structure CornerArrangement where
  arrangement : List Nat
  faceIds : List Nat
  nextIndex : List Nat
deriving DecidableEq, Repr

/-- An entry of the zero-initialised global arrays `ep_corner_arrangements` and
`op_corner_arrangements`. -/
def zeroArrangement : CornerArrangement :=
  ⟨List.replicate 54 0, List.replicate 6 0, List.replicate 6 0⟩

/-- Conversion of an `int` to `unsigned int`. -/
def toUInt32 (x : Int) : Nat := (x % 4294967296).toNat

/-- Conversion of an `unsigned int` to `int`. -/
def toInt32 (x : Nat) : Int :=
  if x % 4294967296 < 2147483648 then (x % 4294967296 : Nat) else (x % 4294967296 : Nat) - 4294967296

/-- The loop of `compareFaceIds` from position `i` for `count` more positions. -/
def compareFrom (a b : List Nat) : Nat → Nat → Int
  | _, 0 => 0
  | i, count + 1 =>
    if a.getD i 0 < b.getD i 0 then -1
    else if a.getD i 0 > b.getD i 0 then 1
    else compareFrom a b (i + 1) count

/-- The function `compareFaceIds`: compare the first `count` entries of two arrays of face ids. -/
def compareFaceIds (a b : List Nat) (count : Nat) : Int := compareFrom a b 0 count

/-- The scan `for (next = arrangement + 1; next < count && compareFaceIds(...) == 0; ++next)`
of `FillCornerIndexes`, started at `next`; it makes at most `fuel` steps. -/
def scanNext (arr : List CornerArrangement) (count arrangement index : Nat) : Nat → Nat → Nat
  | 0, next => next
  | fuel + 1, next =>
    if next < count ∧
        compareFaceIds (arr.getD arrangement zeroArrangement).faceIds
          (arr.getD next zeroArrangement).faceIds (index + 1) = 0 then
      scanNext arr count arrangement index fuel (next + 1)
    else next

/-- The body of the inner loop of `FillCornerIndexes`: it sets `nextIndex[index]` of the entry
`arrangement`. -/
def fillEntry (arr : List CornerArrangement) (count arrangement index : Nat) :
    List CornerArrangement :=
  let cur := arr.getD arrangement zeroArrangement
  let value : Nat :=
    if arrangement > 0 ∧
        compareFaceIds cur.faceIds (arr.getD (arrangement - 1) zeroArrangement).faceIds
          (index + 1) = 0 then
      (arr.getD (arrangement - 1) zeroArrangement).nextIndex.getD index 0
    else
      let next := scanNext arr count arrangement index (count - arrangement) (arrangement + 1)
      if next ≥ count then toUInt32 (-1) else toUInt32 (next : Int)
  arr.set arrangement { cur with nextIndex := cur.nextIndex.set index value }

/-- The function `FillCornerIndexes` on the first `count` entries of the array. -/
def FillCornerIndexes (arr : List CornerArrangement) (count : Nat) : List CornerArrangement :=
  (List.range count).foldl
    (fun a arrangement =>
      (List.range CUBE_FACES).foldl (fun a' index => fillEntry a' count arrangement index) a) arr

/-- The loop of `GetCornerArrangementsIndex` at the state `(index, face_num)`; `none` when the
`fuel` iterations do not reach the `return`. -/
def cornerIndexLoop (face_table : Nat → Int) (arr : List CornerArrangement) (face_ids : List Nat)
    (face_id_count : Nat) : Nat → Int → Nat → Option Int
  | 0, _, _ => none
  | fuel + 1, index, face_num =>
    if face_num < face_id_count then
      let face_idx := (arr.getD index.toNat zeroArrangement).faceIds.getD face_num 0 +
        face_ids.getD face_num 0
      let face_id := face_table face_idx
      if face_id < 16 then
        cornerIndexLoop face_table arr face_ids face_id_count fuel index (face_num + 1)
      else
        let index' := toInt32 ((arr.getD index.toNat zeroArrangement).nextIndex.getD face_num 0)
        if index' = -1 then some index'
        else cornerIndexLoop face_table arr face_ids face_id_count fuel index' 0
    else some index

/-- The function `GetCornerArrangementsIndex`, its loop run for at most `fuel` iterations. -/
def GetCornerArrangementsIndex (fuel : Nat) (face_table : Nat → Int) (index : Int)
    (arr : List CornerArrangement) (face_ids : List Nat) (face_id_count : Nat)
    (max_index : Int) : Option Int :=
  if index > max_index ∨ index = -1 then some (-1)
  else cornerIndexLoop face_table arr face_ids face_id_count fuel index 0

/-- The entries `i` and `j` of the array agree on `faceIds[0 .. k)`. -/
def SamePrefix (arr : List CornerArrangement) (i j k : Nat) : Prop :=
  ∀ g, g < k → (arr.getD i zeroArrangement).faceIds.getD g 0 =
    (arr.getD j zeroArrangement).faceIds.getD g 0

/-- The stored value `v` is the index of the first entry after `i` (below `n`) that differs
from entry `i` on `faceIds[0 .. k)`, or `-1` when there is none. -/
def NextOK (arr : List CornerArrangement) (n i k : Nat) (v : Nat) : Prop :=
  (toInt32 v = -1 ∧ ∀ j, i < j → j < n → SamePrefix arr i j k) ∨
  (∃ j : Nat, toInt32 v = (j : Int) ∧ i < j ∧ j < n ∧ ¬ SamePrefix arr i j k ∧
    ∀ j', i < j' → j' < j → SamePrefix arr i j' k)

/-- All six faces of the first `m` of entry `j` combine with `face_ids` to a perfect face
pattern: `face_table[arr[j].faceIds[f] + face_ids[f]] < 16` for all `f < m`. -/
def CornerMatch (face_table : Nat → Int) (arr : List CornerArrangement) (face_ids : List Nat)
    (m j : Nat) : Prop :=
  ∀ f, f < m → face_table ((arr.getD j zeroArrangement).faceIds.getD f 0 + face_ids.getD f 0) < 16

/-- The invariant of `FillCornerIndexes` when the entries below `a` are finished and the
entry `a` has its first `idx` fields set; `arr0` is the array at the start. -/
structure FillInv (arr0 : List CornerArrangement) (n a idx : Nat)
    (cur : List CornerArrangement) : Prop where
  len : cur.length = arr0.length
  faces : ∀ i, (cur.getD i zeroArrangement).faceIds = (arr0.getD i zeroArrangement).faceIds
  cubes : ∀ i, (cur.getD i zeroArrangement).arrangement =
    (arr0.getD i zeroArrangement).arrangement
  nlen : ∀ i, i < cur.length → (cur.getD i zeroArrangement).nextIndex.length = 6
  done : ∀ i f, i < a → f < 6 →
    NextOK arr0 n i (f + 1) ((cur.getD i zeroArrangement).nextIndex.getD f 0)
  part : ∀ f, f < idx →
    NextOK arr0 n a (f + 1) ((cur.getD a zeroArrangement).nextIndex.getD f 0)

/-- The result `r` of a search from the index `i`: the smallest index `j` with `i ≤ j < n`
whose first `m` faces all combine to perfect patterns, or `-1` when there is none. -/
def FirstMatch (face_table : Nat → Int) (arr : List CornerArrangement) (face_ids : List Nat)
    (m n i : Nat) (r : Int) : Prop :=
  (r = -1 ∧ ∀ j, i ≤ j → j < n → ¬ CornerMatch face_table arr face_ids m j) ∨
  (∃ j : Nat, r = (j : Int) ∧ i ≤ j ∧ j < n ∧ CornerMatch face_table arr face_ids m j ∧
    ∀ j', i ≤ j' → j' < j → ¬ CornerMatch face_table arr face_ids m j')

/-- A small array of three arrangements (only `faceIds` matters for the index). -/
def sampleArrangements : List CornerArrangement :=
  [⟨[], [1, 0, 0, 0, 0, 0], [0, 0, 0, 0, 0, 0]⟩, ⟨[], [1, 0, 0, 0, 0, 0], [0, 0, 0, 0, 0, 0]⟩,
   ⟨[], [2, 0, 0, 0, 0, 0], [0, 0, 0, 0, 0, 0]⟩]

/-! ## Edge arrangements (`ScrambleSearcher.cpp`) -/

/-- The table `colors`: the colour of each of the 54 surfaces. -/
def colors : List Nat :=
  [0, 0, 0, 0, 0, 0, 0, 0, 0, 1, 1, 1, 1, 1, 1, 1, 1, 1, 2, 2, 2, 2, 2, 2, 2, 2, 2,
   3, 3, 3, 3, 3, 3, 3, 3, 3, 4, 4, 4, 4, 4, 4, 4, 4, 4, 5, 5, 5, 5, 5, 5, 5, 5, 5]

/-- The function `ColorOf`. -/
def ColorOf (x : Nat) : Nat := colors.getD x 0

/-- The table `corners`: the surfaces of each corner piece. -/
def corners : List (List Nat) :=
  [[18, 11, 6], [20, 8, 27], [24, 36, 17], [26, 33, 38],
   [45, 15, 42], [47, 44, 35], [51, 0, 9], [53, 29, 2]]

/-- The table `edges`: the surfaces of each edge piece. -/
def edges : List (List Nat) :=
  [[52, 1], [3, 10], [5, 28], [19, 7], [48, 12], [21, 14],
   [39, 16], [23, 30], [25, 37], [50, 32], [41, 34], [46, 43]]

/-- The table `edge_diagonal_checks`. -/
def edge_diagonal_checks : List (List Nat) :=
  [[1, 3], [1, 5], [3, 7], [5, 7], [10, 12], [48, 52],
   [10, 14], [19, 21], [12, 16], [14, 16], [19, 23], [28, 30],
   [21, 25], [23, 25], [37, 39], [28, 32], [50, 52], [30, 34],
   [32, 34], [37, 41], [39, 43], [41, 43], [46, 48], [46, 50]]

def edge_diagonal_checks_start : List Nat := [99, 0, 1, 2, 4, 6, 8, 10, 12, 15, 17, 20]
def edge_diagonal_checks_end : List Nat := [98, 0, 1, 3, 5, 7, 9, 11, 14, 16, 19, 23]
def edge_face_id_checks_start : List Int := [-1, -1, -1, 0, -1, -1, 1, -1, 2, -1, 3, 4]
def edge_face_id_checks_end : List Int := [-2, -2, -2, 0, -2, -1, 1, -2, 2, -2, 3, 5]

/-- Entry `t[i][j]` of a two-dimensional table. -/
def tab2 (t : List (List Nat)) (i j : Nat) : Nat := (t.getD i []).getD j 0

/-- The arguments of one call of `RecordSolution`: the edges' face ids, the edge cube, the
corner array (`ep_corner_arrangements` when `swap_parity` is 0, else `op_corner_arrangements`)
and the index into it. -/
structure SolutionCall where
  face_ids : List Nat
  cube : List Nat
  swap_parity : Nat
  corner_arrangements_index : Int
deriving DecidableEq, Repr

/-- The arrays the edge enumeration changes through pointers, and the calls of
`RecordSolution` made so far. -/
structure EdgeState where
  pieces : List Nat
  cube : List Nat
  face_ids : List Nat
  solutions : List SolutionCall
deriving DecidableEq, Repr

/-- Place the piece: `cube[edges[edge_num][0]] = edges[piece][ori];
cube[edges[edge_num][1]] = edges[piece][1 ^ ori]`. -/
def placeEdge (cube : List Nat) (edge_num piece ori : Nat) : List Nat :=
  (cube.set (tab2 edges edge_num 0) (tab2 edges piece ori)).set
    (tab2 edges edge_num 1) (tab2 edges piece (1 ^^^ ori))

/-- The check that an edge surface of the placed piece has the colour of its centre. -/
def edgeTouchesCenter (cube : List Nat) (edge_num : Nat) : Bool :=
  (ColorOf (cube.getD (tab2 edges edge_num 0) 0) == ColorOf (tab2 edges edge_num 0)) ||
  (ColorOf (cube.getD (tab2 edges edge_num 1) 0) == ColorOf (tab2 edges edge_num 1))

/-- The loop over `edge_diagonal_checks_start[edge_num] .. edge_diagonal_checks_end[edge_num]`:
two edge surfaces touching at a diagonal have the same colour. -/
def edgeDiagonalsTouching (cube : List Nat) (edge_num : Nat) : Bool :=
  (List.range' (edge_diagonal_checks_start.getD edge_num 0)
    (edge_diagonal_checks_end.getD edge_num 0 + 1 - edge_diagonal_checks_start.getD edge_num 0)).any
    (fun i => ColorOf (cube.getD (tab2 edge_diagonal_checks i 0) 0) ==
      ColorOf (cube.getD (tab2 edge_diagonal_checks i 1) 0))

/-- The edges' contribution to the face id of the face `face_index`. -/
def edgeFaceId (cube : List Nat) (face_index : Nat) : Nat :=
  ((((cube.getD (face_index * 9 + 1) 0 / 9) * 36 + cube.getD (face_index * 9 + 3) 0 / 9) * 36 +
    cube.getD (face_index * 9 + 5) 0 / 9) * 36 + cube.getD (face_index * 9 + 7) 0 / 9) *
    CUBE_COLORS

/-- The loop `for (face_index = first; face_index < count; ++face_index)
face_ids[face_index] = ...`. -/
def fillEdgeFaceIds (cube face_ids : List Nat) (first count : Nat) : List Nat :=
  (List.range' first (count - first)).foldl (fun ids f => ids.set f (edgeFaceId cube f)) face_ids

/-- The number of loop iterations granted to `GetCornerArrangementsIndex` on the array. -/
def searchFuel (arr : List CornerArrangement) : Nat := 7 * arr.length + 7

/-- The loop `while (corner_arrangements_index != -1)` of `PlaceLastEdgePiece`. -/
def recordLoop (face_table : Nat → Int) (arr : List CornerArrangement) (face_ids cube : List Nat)
    (swap_parity face_id_count : Nat) (max_index : Int) :
    Nat → Int → List SolutionCall → Option (List SolutionCall)
  | 0, _, _ => none
  | fuel + 1, index, sols =>
    if index = -1 then some sols
    else
      let sols' := sols ++ [⟨face_ids, cube, swap_parity, index⟩]
      if index ≥ max_index then some sols'
      else
        match GetCornerArrangementsIndex (searchFuel arr) face_table (index + 1) arr face_ids
            face_id_count max_index with
        | none => none
        | some index' =>
          recordLoop face_table arr face_ids cube swap_parity face_id_count max_index fuel
            index' sols'

/-- The function `PlaceLastEdgePiece`; the arrays `ep` and `op` are the global
`ep_corner_arrangements` and `op_corner_arrangements`, and their lengths the constants
`EP_CORNER_ARRANGEMENT_COUNT` and `OP_CORNER_ARRANGEMENT_COUNT`. -/
def PlaceLastEdgePiece (face_table : Nat → Int) (ep op : List CornerArrangement)
    (edge_num : Nat) (st : EdgeState) (swap_parity flip_parity : Nat)
    (corner_arrangements_index : Int) : Option EdgeState :=
  let ori := flip_parity
  let cube := placeEdge st.cube edge_num (st.pieces.getD edge_num 0) ori
  if edgeTouchesCenter cube edge_num then some { st with cube := cube }
  else if edgeDiagonalsTouching cube edge_num then some { st with cube := cube }
  else
    let face_id_count := (edge_face_id_checks_end.getD edge_num 0 + 1).toNat
    let face_ids := fillEdgeFaceIds cube st.face_ids
      (edge_face_id_checks_start.getD edge_num 0).toNat face_id_count
    let arrangements := if swap_parity = 0 then ep else op
    let max_index : Int := (arrangements.length : Int) - 1
    match GetCornerArrangementsIndex (searchFuel arrangements) face_table
        corner_arrangements_index arrangements face_ids face_id_count max_index with
    | none => none
    | some index =>
      match recordLoop face_table arrangements face_ids cube swap_parity face_id_count max_index
          (arrangements.length + 1) index st.solutions with
      | none => none
      | some sols => some ⟨st.pieces, cube, face_ids, sols⟩

/-- The state of the loops of `PlaceEdgePiece`: the arrays and the two parity variables. -/
structure EdgeLoopState where
  st : EdgeState
  swap_parity : Nat
  flip_parity : Nat
deriving DecidableEq, Repr

/-- The body of the loop `for (ori = 0; ori < 2; ++ori)` of `PlaceEdgePiece`; `next` is the
recursive call `PlaceEdgePiece(edge_num + 1, ...)`. -/
def edgeOriBody (face_table : Nat → Int) (ep op : List CornerArrangement)
    (next : EdgeState → Nat → Nat → Int → Int → Option EdgeState)
    (edge_num : Nat) (ep_index op_index : Int) (s : EdgeLoopState) (ori : Nat) :
    Option EdgeLoopState :=
  let flip_parity := s.flip_parity ^^^ ori
  let cube := placeEdge s.st.cube edge_num (s.st.pieces.getD edge_num 0) ori
  if edgeTouchesCenter cube edge_num then
    some ⟨{ s.st with cube := cube }, s.swap_parity, flip_parity ^^^ ori⟩
  else if edgeDiagonalsTouching cube edge_num then
    some ⟨{ s.st with cube := cube }, s.swap_parity, flip_parity ^^^ ori⟩
  else
    let checks := decide (edge_face_id_checks_start.getD edge_num 0 ≥ 0)
    let face_id_count := (edge_face_id_checks_end.getD edge_num 0 + 1).toNat
    let face_ids :=
      if checks then
        fillEdgeFaceIds cube s.st.face_ids (edge_face_id_checks_start.getD edge_num 0).toNat
          face_id_count
      else s.st.face_ids
    let next_ep : Option Int :=
      if checks then
        GetCornerArrangementsIndex (searchFuel ep) face_table ep_index ep face_ids face_id_count
          ((ep.length : Int) - 1)
      else some ep_index
    let next_op : Option Int :=
      if checks then
        GetCornerArrangementsIndex (searchFuel op) face_table op_index op face_ids face_id_count
          ((op.length : Int) - 1)
      else some op_index
    match next_ep, next_op with
    | some next_ep_index, some next_op_index =>
      let st1 : EdgeState := ⟨s.st.pieces, cube, face_ids, s.st.solutions⟩
      let indices_ok : Bool :=
        if checks then decide (next_ep_index ≠ -1 ∨ next_op_index ≠ -1) else true
      if indices_ok then
        match next st1 s.swap_parity flip_parity next_ep_index next_op_index with
        | none => none
        | some st2 => some ⟨st2, s.swap_parity, flip_parity ^^^ ori⟩
      else some ⟨st1, s.swap_parity, flip_parity ^^^ ori⟩
    | _, _ => none

/-- The body of the loop `for (pos = edge_num; pos < CUBE_EDGES; ++pos)` of `PlaceEdgePiece`. -/
def edgePosBody (face_table : Nat → Int) (ep op : List CornerArrangement)
    (next : EdgeState → Nat → Nat → Int → Int → Option EdgeState)
    (edge_num : Nat) (ep_index op_index : Int) (s : EdgeLoopState) (pos : Nat) :
    Option EdgeLoopState :=
  let s1 : EdgeLoopState :=
    if pos ≠ edge_num then
      ⟨{ s.st with pieces := swapAt s.st.pieces edge_num pos }, s.swap_parity ^^^ 1, s.flip_parity⟩
    else s
  match ([0, 1] : List Nat).foldlM (edgeOriBody face_table ep op next edge_num ep_index op_index)
      s1 with
  | none => none
  | some s2 =>
    if pos ≠ edge_num then
      some ⟨{ s2.st with pieces := swapAt s2.st.pieces edge_num pos }, s2.swap_parity ^^^ 1,
        s2.flip_parity⟩
    else some s2

/-- The function `PlaceEdgePiece` for `edge_num = CUBE_EDGES - remaining`; the call with
`edge_num = 12` (made by the loop at `edge_num = 11`) runs no loop iteration. -/
def PlaceEdgePiece (face_table : Nat → Int) (ep op : List CornerArrangement) :
    Nat → EdgeState → Nat → Nat → Int → Int → Option EdgeState
  | 0, st, _, _, _, _ => some st
  | remaining + 1, st, swap_parity, flip_parity, ep_index, op_index =>
    let edge_num := CUBE_EDGES - (remaining + 1)
    let first : Option EdgeState :=
      if edge_num = 11 then
        PlaceLastEdgePiece face_table ep op edge_num st swap_parity flip_parity
          (if swap_parity = 0 then ep_index else op_index)
      else some st
    match first with
    | none => none
    | some st0 =>
      match (List.range' edge_num (CUBE_EDGES - edge_num)).foldlM
          (edgePosBody face_table ep op (PlaceEdgePiece face_table ep op remaining) edge_num
            ep_index op_index) ⟨st0, swap_parity, flip_parity⟩ with
      | none => none
      | some s => some s.st

/-- The edge cube at the start of `TryEdgeArrangements`: 99 on the edge surfaces, 0 on the
corner surfaces, the centres as they are. -/
def initialEdgeCube : List Nat :=
  [0, 99, 0, 99, 4, 99, 0, 99, 0, 0, 99, 0, 99, 13, 99, 0, 99, 0, 0, 99, 0, 99, 22, 99, 0, 99, 0,
   0, 99, 0, 99, 31, 99, 0, 99, 0, 0, 99, 0, 99, 40, 99, 0, 99, 0, 0, 99, 0, 99, 49, 99, 0, 99, 0]

/-- The function `TryEdgeArrangements`: the calls of `RecordSolution` it makes, in order. -/
def TryEdgeArrangements (face_table : Nat → Int) (ep op : List CornerArrangement) :
    Option (List SolutionCall) :=
  match PlaceEdgePiece face_table ep op 12
      ⟨[0, 1, 2, 3, 4, 5, 6, 7, 8, 9, 10, 11], initialEdgeCube, [0, 0, 0, 0, 0, 0], []⟩ 0 0 0 0 with
  | none => none
  | some st => some st.solutions

/-! ## Placements of the edge cubies and the cubes they give -/

/-- The array `pieces` holding the permutation `σ`: the slot `k` holds the cubie `σ k`. -/
def edgePermList (σ : Equiv.Perm (Fin 12)) : List Nat := List.ofFn (fun k => (σ k).val)

/-- The value of `swap_parity` for a permutation: 0 when it is even, 1 when it is odd. -/
def parityBit {n : Nat} (σ : Equiv.Perm (Fin n)) : Nat := if Equiv.Perm.sign σ = 1 then 0 else 1

/-- The cube obtained by placing, in each slot `k`, the cubie `P[k]` with the flip `O[k]`. -/
def edgeCube (P O : List Nat) : List Nat :=
  (List.range 12).foldl (fun c k => placeEdge c k (P.getD k 0) (O.getD k 0)) initialEdgeCube

/-- The edges' contributions to the six face ids of a cube. -/
def edgeFaceIds (cube : List Nat) : List Nat := (List.range 6).map (edgeFaceId cube)

/-- The corners' contribution to the face id of the face `f`, as `StoreCornerArrangement`
computes it. -/
def cornerFaceId (cube : List Nat) (f : Nat) : Nat :=
  ((((cube.getD (f * 9) 0 / 9) * 36 + cube.getD (f * 9 + 2) 0 / 9) * 36 +
    cube.getD (f * 9 + 4) 0 / 9) * 36 + cube.getD (f * 9 + 6) 0 / 9) * 36 +
    cube.getD (f * 9 + 8) 0 / 9

/-- The cube `solution_cube` that `RecordSolution` assembles:
`solution_cube[i] = cube[i] | corner_arrangements[index].arrangement[i]`. -/
def solutionCube (cube arrangement : List Nat) : List Nat :=
  (List.range 54).map (fun i => cube.getD i 0 ||| arrangement.getD i 0)

/-- The nine colours (sticker value / 9) of the face `f` of a cube, cell 0 first. -/
def faceColors (cube : List Nat) (f : Nat) : List Nat :=
  (List.range 9).map (fun s => cube.getD (9 * f + s) 0 / 9)

/-- The corner array that `PlaceLastEdgePiece` selects for a swap parity. -/
def cornerArray (ep op : List CornerArrangement) (swap_parity : Nat) : List CornerArrangement :=
  if swap_parity = 0 then ep else op

/-- An entry as `StoreCornerArrangement` writes it: 54 stickers with the centres in place, the
edge surfaces 0 and sticker ids on the corner surfaces, and the corners' contributions to the
face ids computed from them. -/
def StoredEntry (c : CornerArrangement) : Prop :=
  c.arrangement.length = 54 ∧ c.nextIndex.length = 6 ∧
  (∀ f, f < 6 → c.faceIds.getD f 0 = cornerFaceId c.arrangement f) ∧
  (∀ x, x < 54 → (x % 9 % 2 = 1 → c.arrangement.getD x 0 = 0) ∧
    (x % 9 = 4 → c.arrangement.getD x 0 = x) ∧ c.arrangement.getD x 0 < 54)

instance storedEntryDecidable (c : CornerArrangement) : Decidable (StoredEntry c) := by
  unfold StoredEntry; infer_instance

/-- The number of faces whose four edge surfaces belong to the slots below `e`: the largest
`edge_face_id_checks_end[k] + 1` over the slots `k < e`. -/
def doneFaces (e : Nat) : Nat :=
  (List.range e).foldl (fun m k => max m (edge_face_id_checks_end.getD k 0 + 1).toNat) 0

/-- The cube has the cubies `P[k]` with the flips `O[k]` in the slots `k < e`, and its corner
and centre surfaces are as `TryEdgeArrangements` sets them. -/
def CubeInv (e : Nat) (P O cube : List Nat) : Prop :=
  cube.length = 54 ∧
  (∀ x, x < 54 → x % 9 % 2 = 0 → cube.getD x 0 = initialEdgeCube.getD x 0) ∧
  (∀ k, k < e → cube.getD (tab2 edges k 0) 0 = tab2 edges (P.getD k 0) (O.getD k 0) ∧
    cube.getD (tab2 edges k 1) 0 = tab2 edges (P.getD k 0) (1 ^^^ O.getD k 0))

/-- The position `2 * k + j` of the surface `x` in the table `edges` (24 when it is not there). -/
def edgeSlotOf (x : Nat) : Nat :=
  ((List.range 24).find? (fun i => tab2 edges (i / 2) (i % 2) == x)).getD 24

/-- The result `r` of a search that starts at the index `start` (an `int`, possibly `-1`): the
smallest index `j ≥ start` of the array whose first `m` faces all combine to perfect patterns, or
`-1` when there is none or `start` is `-1`. -/
def SearchSpec (face_table : Nat → Int) (arr : List CornerArrangement) (face_ids : List Nat)
    (m : Nat) (start r : Int) : Prop :=
  (r = -1 ∧ ∀ c : Nat, 0 ≤ start → start ≤ (c : Int) → c < arr.length →
    ¬ CornerMatch face_table arr face_ids m c) ∨
  (∃ j : Nat, r = (j : Int) ∧ 0 ≤ start ∧ start ≤ (j : Int) ∧ j < arr.length ∧
    CornerMatch face_table arr face_ids m j ∧
    ∀ c : Nat, start ≤ (c : Int) → c < j → ¬ CornerMatch face_table arr face_ids m c)

/-- What the edge enumeration needs of a corner array: every entry is as
`StoreCornerArrangement` writes it, and `GetCornerArrangementsIndex` with the last index of the
array as `max_index` returns the first match. -/
structure FilledArray (arr : List CornerArrangement) : Prop where
  stored : ∀ i, i < arr.length → StoredEntry (arr.getD i zeroArrangement)
  search : ∀ (face_table : Nat → Int) (face_ids : List Nat) (m : Nat) (start : Int), m ≤ 6 →
    -1 ≤ start →
    ∃ r : Int, GetCornerArrangementsIndex (searchFuel arr) face_table start arr face_ids m
        ((arr.length : Int) - 1) = some r ∧ SearchSpec face_table arr face_ids m start r

/-- The invariant of the arrays at a call of `PlaceEdgePiece` for the slot `e`: `pieces` holds
the permutation `σ`, the slots below `e` hold their cubies with the flips `O`, and the face ids
of the faces completed by these slots are filled in. -/
structure EdgeInv (e : Nat) (σ : Equiv.Perm (Fin 12)) (O : List Nat) (st : EdgeState) :
    Prop where
  pieces : st.pieces = edgePermList σ
  cube : CubeInv e (edgePermList σ) O st.cube
  flen : st.face_ids.length = 6
  faces : ∀ f, f < doneFaces e → st.face_ids.getD f 0 = edgeFaceId st.cube f
  olen : O.length = e
  obit : ∀ k, k < e → O.getD k 0 < 2

/-- The placement `(τ, O')` of all twelve cubies, with an even number of flips, continues the
partial placement `(σ, O)` of the slots below `e`. -/
def Completes (e : Nat) (σ : Equiv.Perm (Fin 12)) (O : List Nat) (τ : Equiv.Perm (Fin 12))
    (O' : List Nat) : Prop :=
  (∀ k : Fin 12, k.val < e → τ k = σ k) ∧ O'.length = 12 ∧ (∀ k, k < 12 → O'.getD k 0 < 2) ∧
  (∀ k, k < e → O'.getD k 0 = O.getD k 0) ∧ O'.sum % 2 = 0

/-- The call of `RecordSolution` for the placement `(τ, O')` and the entry `c` of the corner
array of the parity of `τ`. -/
def solutionCallOf (τ : Equiv.Perm (Fin 12)) (O' : List Nat) (c : Nat) : SolutionCall :=
  ⟨edgeFaceIds (edgeCube (edgePermList τ) O'), edgeCube (edgePermList τ) O', parityBit τ, (c : Int)⟩

/-- The entry `c` of the corner array of the parity of `τ` lies at or after the start index of
that array and combines with the placement `(τ, O')` to a perfect pattern on all six faces. -/
def MatchFrom (face_table : Nat → Int) (ep op : List CornerArrangement) (ei oi : Int)
    (τ : Equiv.Perm (Fin 12)) (O' : List Nat) (c : Nat) : Prop :=
  c < (cornerArray ep op (parityBit τ)).length ∧
  0 ≤ (if parityBit τ = 0 then ei else oi) ∧ (if parityBit τ = 0 then ei else oi) ≤ (c : Int) ∧
  CornerMatch face_table (cornerArray ep op (parityBit τ))
    (edgeFaceIds (edgeCube (edgePermList τ) O')) 6 c

/-- The calls of `RecordSolution` that `PlaceEdgePiece` has to make for the slot `e` after the
partial placement `(σ, O)`, with the start indexes `ei` and `oi` of the two corner arrays. -/
def RecordedSpec (face_table : Nat → Int) (ep op : List CornerArrangement) (e : Nat)
    (σ : Equiv.Perm (Fin 12)) (O : List Nat) (ei oi : Int) (call : SolutionCall) : Prop :=
  ∃ (τ : Equiv.Perm (Fin 12)) (O' : List Nat) (c : Nat), Completes e σ O τ O' ∧
    call = solutionCallOf τ O' c ∧ MatchFrom face_table ep op ei oi τ O' c

/-- The invariant of the loops of `PlaceEdgePiece` for the slot `e`: the arrays satisfy
`EdgeInv`, `swap_parity` is the parity of the permutation in `pieces`, and `flip_parity` the
parity of the number of flips so far. -/
structure EdgeLoopInv (e : Nat) (σ : Equiv.Perm (Fin 12)) (O : List Nat) (s : EdgeLoopState) :
    Prop where
  inv : EdgeInv e σ O s.st
  swap : s.swap_parity = parityBit σ
  flip : s.flip_parity = O.sum % 2

/-- The specification of `PlaceEdgePiece` with `remaining` slots to fill: it returns, restores
the arrays of the slots filled before, and records exactly the calls of `RecordedSpec`, each of
them once. -/
def PlaceSpec (face_table : Nat → Int) (ep op : List CornerArrangement) (remaining : Nat) : Prop :=
  ∀ (σ : Equiv.Perm (Fin 12)) (O : List Nat) (st : EdgeState) (ei oi : Int),
    EdgeInv (12 - remaining) σ O st → -1 ≤ ei → -1 ≤ oi →
    ∃ st' L, PlaceEdgePiece face_table ep op remaining st (parityBit σ) (O.sum % 2) ei oi =
        some st' ∧ EdgeInv (12 - remaining) σ O st' ∧ st'.solutions = st.solutions ++ L ∧
      L.Nodup ∧
      ∀ call, call ∈ L ↔ RecordedSpec face_table ep op (12 - remaining) σ O ei oi call

/-- The cube `solution_cube` that `RecordSolution` assembles for a call: the edge cube combined
with the arrangement at the index of the call in the corner array of its swap parity. -/
def recordedCube (ep op : List CornerArrangement) (call : SolutionCall) : List Nat :=
  solutionCube call.cube ((cornerArray ep op call.swap_parity).getD
    call.corner_arrangements_index.toNat zeroArrangement).arrangement

/-- The edge slot `k` of the cube holds the edge cubie `τ k`, in one of its two orientations,
for every `k`. -/
def EdgePermOf (cube : List Nat) (τ : Equiv.Perm (Fin 12)) : Prop :=
  ∀ k : Fin 12, ∃ o, o < 2 ∧ cube.getD (tab2 edges k.val 0) 0 = tab2 edges (τ k).val o ∧
    cube.getD (tab2 edges k.val 1) 0 = tab2 edges (τ k).val (1 - o)

/-- The corner slot `k` of the cube holds the corner cubie `π k`, in one of its three
orientations, for every `k`. -/
def CornerPermOf (cube : List Nat) (π : Equiv.Perm (Fin 8)) : Prop :=
  ∀ k : Fin 8, ∃ t, t < 3 ∧ ∀ j, j < 3 →
    cube.getD (tab2 corners k.val j) 0 = tab2 corners (π k).val ((j + t) % 3)

/-- The position `3 * k + j` of the surface `x` in the table `corners` (24 when it is not
there). -/
def cornerSlotOf (x : Nat) : Nat :=
  ((List.range 24).find? (fun i => tab2 corners (i / 3) (i % 3) == x)).getD 24

/-- The entry that `StoreCornerArrangement` writes for a cube: the cube and the corners'
contributions to its six face ids (the `nextIndex` fields are still zero). -/
def storedEntryOf (cube : List Nat) : CornerArrangement :=
  ⟨cube, (List.range 6).map (cornerFaceId cube), List.replicate 6 0⟩

/-- The corner surfaces and centres of a sample cube whose six faces are perfect. -/
def sampleCorners : List Nat :=
  [53, 0, 44, 0, 4, 0, 26, 0, 15, 29, 0, 38, 0, 13, 0, 8, 0, 36, 33, 0, 45, 0, 22, 0, 17, 0, 11,
   42, 0, 47, 0, 31, 0, 6, 0, 51, 24, 0, 18, 0, 40, 0, 27, 0, 9, 20, 0, 0, 0, 49, 0, 2, 0, 35]

/-- The edge cubies of the sample cube, slot by slot. -/
def sampleEdgePieces : List Nat := [5, 2, 3, 0, 7, 10, 4, 8, 9, 6, 11, 1]

/-- The flips of the edge cubies of the sample cube, slot by slot. -/
def sampleEdgeFlips : List Nat := [0, 1, 0, 1, 1, 0, 1, 1, 0, 0, 0, 1]

/-- The corner cubies of the sample cube, slot by slot: `[3, 4, 2, 0, 1, 6, 7, 5]`. -/
def sampleCornerPerm : Equiv.Perm (Fin 8) :=
  Equiv.swap 0 3 * Equiv.swap 1 4 * (Equiv.swap 5 6 * Equiv.swap 6 7)

/-- The permutation of the edge cubies of the sample cube: `sampleEdgePieces`. -/
def sampleEdgePerm : Equiv.Perm (Fin 12) :=
  (Equiv.swap 0 5 * Equiv.swap 5 10 * Equiv.swap 10 11 * Equiv.swap 11 1 * Equiv.swap 1 2 *
    Equiv.swap 2 3) * (Equiv.swap 4 7 * Equiv.swap 7 8 * Equiv.swap 8 9 * Equiv.swap 9 6)

/-- The number of flipped edge cubies among the slots below `n` of a cube whose slots hold the
cubies `τ`: the slot `k` holding the cubie `p` is flipped iff `cube[edges[k][0]] = edges[p][1]`. -/
def flippedEdges (n : Nat) (cube : List Nat) (τ : Equiv.Perm (Fin 12)) : Nat :=
  ((List.range n).filter (fun k =>
    cube.getD (tab2 edges k 0) 0 == tab2 edges ((edgePermList τ).getD k 0) 1)).length

/-- The FaceIndex of nine cell colours as the spec defines it: the sum over the cells `i` of
`color(cell i) * 6 ^ i`. -/
def faceIndexOfColors (cs : List Nat) : Nat := cs.foldr (fun c acc => c + 6 * acc) 0

/-- The sample cube: the corner arrangement `sampleCorners` combined with the edge cube of
`sampleEdgePieces` and `sampleEdgeFlips`. -/
def sampleCube : List Nat :=
  solutionCube (edgeCube sampleEdgePieces sampleEdgeFlips) sampleCorners

/-! ## Evaluation of the entire cube (`ScrambleEvaluation.cpp`) -/

/-- The table `sides` of `GetColorConnectedness`. -/
def cube_sides : List (Nat × Nat) :=
  [(0, 1), (1, 2), (3, 4), (4, 5), (6, 7), (7, 8), (0, 3), (1, 4), (2, 5), (3, 6), (4, 7), (5, 8),
   (9, 10), (10, 11), (12, 13), (13, 14), (15, 16), (16, 17), (9, 12), (10, 13), (11, 14),
   (12, 15), (13, 16), (14, 17),
   (18, 19), (19, 20), (21, 22), (22, 23), (24, 25), (25, 26), (18, 21), (19, 22), (20, 23),
   (21, 24), (22, 25), (23, 26),
   (27, 28), (28, 29), (30, 31), (31, 32), (33, 34), (34, 35), (27, 30), (28, 31), (29, 32),
   (30, 33), (31, 34), (32, 35),
   (36, 37), (37, 38), (39, 40), (40, 41), (42, 43), (43, 44), (36, 39), (37, 40), (38, 41),
   (39, 42), (40, 43), (41, 44),
   (45, 46), (46, 47), (48, 49), (49, 50), (51, 52), (52, 53), (45, 48), (46, 49), (47, 50),
   (48, 51), (49, 52), (50, 53)]

/-- The table `corners` of `GetColorConnectedness`. -/
def cube_corners : List (Nat × Nat) :=
  [(0, 4), (2, 4), (6, 4), (8, 4), (1, 3), (1, 5), (7, 3), (7, 5),
   (9, 13), (11, 13), (15, 13), (17, 13), (10, 12), (10, 14), (16, 12), (16, 14),
   (18, 22), (20, 22), (24, 22), (26, 22), (19, 21), (19, 23), (25, 21), (25, 23),
   (27, 31), (29, 31), (33, 31), (35, 31), (28, 30), (28, 32), (34, 30), (34, 32),
   (36, 40), (38, 40), (42, 40), (44, 40), (37, 39), (37, 41), (43, 39), (43, 41),
   (45, 49), (47, 49), (51, 49), (53, 49), (46, 48), (46, 50), (52, 48), (52, 50)]

/-- The table `fcorners` of `GetColorConnectedness`. -/
def cube_fcorners : List (Nat × Nat) :=
  [(19, 6), (19, 8), (21, 11), (21, 17), (23, 27), (23, 33), (25, 36), (25, 38),
   (37, 24), (37, 26), (39, 17), (39, 15), (41, 33), (41, 35), (43, 45), (43, 47),
   (46, 42), (46, 44), (48, 15), (48, 9), (50, 35), (50, 29), (52, 0), (52, 2),
   (1, 51), (1, 53), (3, 9), (3, 11), (5, 29), (5, 27), (7, 18), (7, 20),
   (10, 0), (10, 6), (12, 51), (12, 45), (14, 18), (14, 24), (16, 42), (16, 36),
   (28, 8), (28, 2), (30, 20), (30, 26), (32, 53), (32, 47), (34, 38), (34, 44)]

/-- The array `colors` of `GetColorConnectedness`: `colors[i] = cube[i] / 9`. -/
def cubeColors (cube : List Nat) : List Nat :=
  (List.range CUBE_SURFACES).map (fun i => cube.getD i 0 / 9)

/-- The function `GetColorConnectedness`. -/
def GetColorConnectedness (cube : List Nat) : Nat :=
  if cube_sides.any (fun p => (cubeColors cube).getD p.1 0 == (cubeColors cube).getD p.2 0) then
    SIDES_TOUCHING
  else if cube_corners.any
      (fun p => (cubeColors cube).getD p.1 0 == (cubeColors cube).getD p.2 0) then
    CORNERS_TOUCHING
  else if cube_fcorners.any
      (fun p => (cubeColors cube).getD p.1 0 == (cubeColors cube).getD p.2 0) then
    ADJACENT_FACES_TOUCHING
  else NOTHING_TOUCHING

/-! ## Corner arrangements (`ScrambleSearcher.cpp`) -/

def EP_CORNER_ARRANGEMENT_COUNT : Nat := 375336
def OP_CORNER_ARRANGEMENT_COUNT : Nat := 375304

/-- The table `corner_count_checks`. -/
def corner_count_checks : List (List Nat) :=
  [[18, 20, 24],
   [18, 20, 26], [18, 24, 26], [20, 24, 26],
   [11, 15, 17], [36, 38, 42],
   [27, 33, 35], [36, 38, 44], [36, 42, 44], [38, 42, 44],
   [0, 6, 8], [45, 47, 51], [9, 11, 15], [9, 11, 17], [9, 15, 17],
   [0, 2, 6], [0, 2, 8], [2, 6, 8], [27, 29, 33], [27, 29, 35],
   [29, 33, 35], [45, 47, 53], [45, 51, 53], [47, 51, 53]]

def corner_count_checks_start : List Nat := [99, 99, 0, 1, 4, 6, 10, 15]
def corner_count_checks_end : List Nat := [98, 98, 0, 3, 5, 9, 14, 23]

/-- The arrays that are global in the source: the two arrays of corner arrangements and the
numbers of entries stored in them. -/
structure CornerGlobals where
  ep_corner_arrangements : List CornerArrangement
  op_corner_arrangements : List CornerArrangement
  ep_corner_arrangement_count : Nat
  op_corner_arrangement_count : Nat
deriving DecidableEq, Repr

/-- The arrays the corner enumeration changes through pointers, and the globals. -/
structure CornerState where
  pieces : List Nat
  cube : List Nat
  globals : CornerGlobals
deriving DecidableEq, Repr

/-- The loop `while (lower + 1 < upper)` of `StoreCornerArrangement`; `none` when the `fuel`
iterations do not reach its end. -/
def insertSearch (face_ids : List Nat) (arr : List CornerArrangement) : Nat → Nat → Nat → Option Nat
  | 0, _, _ => none
  | fuel + 1, lower, upper =>
    if lower + 1 < upper then
      let mid := (upper + lower) / 2
      if compareFaceIds face_ids (arr.getD mid zeroArrangement).faceIds CUBE_FACES < 0 then
        insertSearch face_ids arr fuel lower mid
      else insertSearch face_ids arr fuel mid upper
    else some upper

/-- The position `insert_at` that `StoreCornerArrangement` finds. -/
def insertPosition (face_ids : List Nat) (arr : List CornerArrangement) (count : Nat) :
    Option Nat :=
  if count = 0 then some 0
  else if compareFaceIds face_ids (arr.getD 0 zeroArrangement).faceIds CUBE_FACES < 0 then some 0
  else if compareFaceIds face_ids (arr.getD (count - 1) zeroArrangement).faceIds CUBE_FACES > 0
    then some (count - 1 + 1)
  else insertSearch face_ids arr (count + 1) 0 (count - 1)

/-- The loop `for (i = count - 1; i >= insert_at; --i) arr[i + 1] = arr[i]`. -/
def shiftEntries (arr : List CornerArrangement) (insert_at count : Nat) : List CornerArrangement :=
  (List.range' insert_at (count - insert_at)).reverse.foldl
    (fun a i => a.set (i + 1) (a.getD i zeroArrangement)) arr

/-- The function `StoreCornerArrangement`; `none` when the array has no room for another entry
(the source then writes past the end of the array) or the search runs out of fuel. -/
def StoreCornerArrangement (cube : List Nat) (corner_arrangements : List CornerArrangement)
    (corner_arrangement_count : Nat) : Option (List CornerArrangement) :=
  if corner_arrangements.length ≤ corner_arrangement_count then none
  else
    let face_ids := (List.range CUBE_FACES).map (cornerFaceId cube)
    match insertPosition face_ids corner_arrangements corner_arrangement_count with
    | none => none
    | some insert_at =>
      let shifted := shiftEntries corner_arrangements insert_at corner_arrangement_count
      some (shifted.set insert_at
        { shifted.getD insert_at zeroArrangement with arrangement := cube, faceIds := face_ids })

/-- Place the piece: `cube[corners[corner_num][j]] = corners[piece][(j + ori) % 3]`. -/
def placeCorner (cube : List Nat) (corner_num piece ori : Nat) : List Nat :=
  ((cube.set (tab2 corners corner_num 0) (tab2 corners piece ((0 + ori) % 3))).set
    (tab2 corners corner_num 1) (tab2 corners piece ((1 + ori) % 3))).set
    (tab2 corners corner_num 2) (tab2 corners piece ((2 + ori) % 3))

/-- The check that a corner surface of the placed piece has the colour of its centre. -/
def cornerTouchesCenter (cube : List Nat) (corner_num : Nat) : Bool :=
  (ColorOf (cube.getD (tab2 corners corner_num 0) 0) == ColorOf (tab2 corners corner_num 0)) ||
  (ColorOf (cube.getD (tab2 corners corner_num 1) 0) == ColorOf (tab2 corners corner_num 1)) ||
  (ColorOf (cube.getD (tab2 corners corner_num 2) 0) == ColorOf (tab2 corners corner_num 2))

/-- The three surfaces of the check `i` have one colour. -/
def threeSameColor (cube : List Nat) (i : Nat) : Bool :=
  (ColorOf (cube.getD (tab2 corner_count_checks i 0) 0) ==
      ColorOf (cube.getD (tab2 corner_count_checks i 1) 0)) &&
    (ColorOf (cube.getD (tab2 corner_count_checks i 0) 0) ==
      ColorOf (cube.getD (tab2 corner_count_checks i 2) 0))

/-- The loop of `PlaceCornerPiece` over `corner_count_checks_start[corner_num] ..
corner_count_checks_end[corner_num]`: some check finds three surfaces of one colour. -/
def cornerThreeSame (cube : List Nat) (corner_num : Nat) : Bool :=
  (List.range' (corner_count_checks_start.getD corner_num 0)
    (corner_count_checks_end.getD corner_num 0 + 1 -
      corner_count_checks_start.getD corner_num 0)).any (threeSameColor cube)

/-- The loop of `PlaceLastCornerPiece` over the same checks: `color_count_passed &=
(c0 != c1) || (c0 != c2)`. -/
def cornerCountPassed (cube : List Nat) (corner_num : Nat) : Bool :=
  (List.range' (corner_count_checks_start.getD corner_num 0)
    (corner_count_checks_end.getD corner_num 0 + 1 -
      corner_count_checks_start.getD corner_num 0)).foldl
    (fun passed i => passed &&
      ((ColorOf (cube.getD (tab2 corner_count_checks i 0) 0) !=
          ColorOf (cube.getD (tab2 corner_count_checks i 1) 0)) ||
        (ColorOf (cube.getD (tab2 corner_count_checks i 0) 0) !=
          ColorOf (cube.getD (tab2 corner_count_checks i 2) 0)))) true

/-- The block of `PlaceLastCornerPiece` that stores the cube in the array of its swap parity
and counts it. -/
def storeByParity (cube : List Nat) (swap_parity : Nat) (g : CornerGlobals) :
    Option CornerGlobals :=
  if swap_parity = 0 then
    match StoreCornerArrangement cube g.ep_corner_arrangements g.ep_corner_arrangement_count with
    | none => none
    | some ep => some { g with ep_corner_arrangements := ep,
                               ep_corner_arrangement_count := g.ep_corner_arrangement_count + 1 }
  else
    match StoreCornerArrangement cube g.op_corner_arrangements g.op_corner_arrangement_count with
    | none => none
    | some op => some { g with op_corner_arrangements := op,
                               op_corner_arrangement_count := g.op_corner_arrangement_count + 1 }

/-- The function `PlaceLastCornerPiece`. -/
def PlaceLastCornerPiece (corner_num : Nat) (st : CornerState) (swap_parity rotation_parity : Nat) :
    Option CornerState :=
  let ori := (3 - rotation_parity) % 3
  let cube := placeCorner st.cube corner_num (st.pieces.getD corner_num 0) ori
  if cornerTouchesCenter cube corner_num then some { st with cube := cube }
  else if !cornerCountPassed cube corner_num then some { st with cube := cube }
  else
    match storeByParity cube swap_parity st.globals with
    | none => none
    | some g => some ⟨st.pieces, cube, g⟩

/-- The state of the loops of `PlaceCornerPiece`: the arrays and the two parity variables. -/
structure CornerLoopState where
  st : CornerState
  swap_parity : Nat
  rotation_parity : Nat
deriving DecidableEq, Repr

/-- The body of the loop `for (ori = 0; ori < 3; ++ori)` of `PlaceCornerPiece`; `next` is the
recursive call `PlaceCornerPiece(corner_num + 1, ...)`. -/
def cornerOriBody (next : CornerState → Nat → Nat → Option CornerState) (corner_num : Nat)
    (s : CornerLoopState) (ori : Nat) : Option CornerLoopState :=
  let rotation_parity := (s.rotation_parity + ori) % 3
  let cube := placeCorner s.st.cube corner_num (s.st.pieces.getD corner_num 0) ori
  if cornerTouchesCenter cube corner_num then
    some ⟨{ s.st with cube := cube }, s.swap_parity, (rotation_parity + 3 - ori) % 3⟩
  else if cornerThreeSame cube corner_num then
    some ⟨{ s.st with cube := cube }, s.swap_parity, (rotation_parity + 3 - ori) % 3⟩
  else
    match next { s.st with cube := cube } s.swap_parity rotation_parity with
    | none => none
    | some st2 => some ⟨st2, s.swap_parity, (rotation_parity + 3 - ori) % 3⟩

/-- The body of the loop `for (pos = corner_num; pos < CUBE_CORNERS; ++pos)` of
`PlaceCornerPiece`. -/
def cornerPosBody (next : CornerState → Nat → Nat → Option CornerState) (corner_num : Nat)
    (s : CornerLoopState) (pos : Nat) : Option CornerLoopState :=
  let s1 : CornerLoopState :=
    if pos ≠ corner_num then
      ⟨{ s.st with pieces := swapAt s.st.pieces corner_num pos }, s.swap_parity ^^^ 1,
        s.rotation_parity⟩
    else s
  match ([0, 1, 2] : List Nat).foldlM (cornerOriBody next corner_num) s1 with
  | none => none
  | some s2 =>
    if pos ≠ corner_num then
      some ⟨{ s2.st with pieces := swapAt s2.st.pieces corner_num pos }, s2.swap_parity ^^^ 1,
        s2.rotation_parity⟩
    else some s2

/-- The function `PlaceCornerPiece` for `corner_num = CUBE_CORNERS - remaining`; the call with
`corner_num = 8` (made by the loop at `corner_num = 7`) runs no loop iteration. -/
def PlaceCornerPiece : Nat → CornerState → Nat → Nat → Option CornerState
  | 0, st, _, _ => some st
  | remaining + 1, st, swap_parity, rotation_parity =>
    let corner_num := CUBE_CORNERS - (remaining + 1)
    let first : Option CornerState :=
      if corner_num = 7 then PlaceLastCornerPiece corner_num st swap_parity rotation_parity
      else some st
    match first with
    | none => none
    | some st0 =>
      match (List.range' corner_num (CUBE_CORNERS - corner_num)).foldlM
          (cornerPosBody (PlaceCornerPiece remaining) corner_num)
          ⟨st0, swap_parity, rotation_parity⟩ with
      | none => none
      | some s => some s.st

/-- The corner cube at the start of `CreateCornerArrangements`: 99 on the corner surfaces, 0 on
the edge surfaces, the centres as they are. -/
def initialCornerCube : List Nat :=
  [99, 0, 99, 0, 4, 0, 99, 0, 99, 99, 0, 99, 0, 13, 0, 99, 0, 99, 99, 0, 99, 0, 22, 0, 99, 0, 99,
   99, 0, 99, 0, 31, 0, 99, 0, 99, 99, 0, 99, 0, 40, 0, 99, 0, 99, 99, 0, 99, 0, 49, 0, 99, 0, 99]

/-- The function `CreateCornerArrangements` on global arrays of `capE` and `capO` entries (in
the source `EP_CORNER_ARRANGEMENT_COUNT` and `OP_CORNER_ARRANGEMENT_COUNT`), all zero at the
start: the globals after the enumeration and the two calls of `FillCornerIndexes`. -/
def CreateCornerArrangements (capE capO : Nat) : Option CornerGlobals :=
  match PlaceCornerPiece 8
      ⟨[0, 1, 2, 3, 4, 5, 6, 7], initialCornerCube,
        ⟨List.replicate capE zeroArrangement, List.replicate capO zeroArrangement, 0, 0⟩⟩ 0 0 with
  | none => none
  | some st =>
    some { st.globals with
      ep_corner_arrangements :=
        FillCornerIndexes st.globals.ep_corner_arrangements st.globals.ep_corner_arrangement_count,
      op_corner_arrangements :=
        FillCornerIndexes st.globals.op_corner_arrangements
          st.globals.op_corner_arrangement_count }

/-- The first `n` entries of the array are lexicographically non-decreasing by `faceIds`, as
`compareFaceIds` over all six faces orders them. -/
def SortedPrefix (arr : List CornerArrangement) (n : Nat) : Prop :=
  ∀ i j, i ≤ j → j < n →
    compareFaceIds (arr.getD i zeroArrangement).faceIds (arr.getD j zeroArrangement).faceIds
      CUBE_FACES ≤ 0

/-- The array `pieces` of the corner enumeration holding the permutation `σ`. -/
def cornerPermList (σ : Equiv.Perm (Fin 8)) : List Nat := List.ofFn (fun k => (σ k).val)

/-- The cube obtained by placing, in each corner slot `k`, the cubie `P[k]` with the
orientation `T[k]`. -/
def cornerCube (P T : List Nat) : List Nat :=
  (List.range 8).foldl (fun c k => placeCorner c k (P.getD k 0) (T.getD k 0)) initialCornerCube

/-- The cube has the cubies `P[k]` with the orientations `T[k]` in the corner slots `k < e`, and
its edge and centre surfaces are as `CreateCornerArrangements` sets them. -/
def CornerCubeInv (e : Nat) (P T cube : List Nat) : Prop :=
  cube.length = 54 ∧
  (∀ x, x < 54 → (x % 9 % 2 = 1 ∨ x % 9 = 4) → cube.getD x 0 = initialCornerCube.getD x 0) ∧
  (∀ k, k < e → ∀ j, j < 3 →
    cube.getD (tab2 corners k j) 0 = tab2 corners (P.getD k 0) ((j + T.getD k 0) % 3))

/-- The checks that `PlaceCornerPiece` makes after placing the cubie of the slot `k` pass. -/
def cornerLocalOK (cube : List Nat) (k : Nat) : Prop :=
  cornerTouchesCenter cube k = false ∧ cornerThreeSame cube k = false

instance cornerLocalOKDecidable (cube : List Nat) (k : Nat) : Decidable (cornerLocalOK cube k) := by
  unfold cornerLocalOK; infer_instance

/-- The calls of the storing block of `PlaceLastCornerPiece` for the cubes and swap parities of
the list `L`, one after the other. -/
def storeAll (L : List (List Nat × Nat)) (g : CornerGlobals) : Option CornerGlobals :=
  L.foldlM (fun g x => storeByParity x.1 x.2 g) g

/-- The loop state with the globals replaced. -/
def withGlobals (s : CornerLoopState) (g : CornerGlobals) : CornerLoopState :=
  ⟨{ s.st with globals := g }, s.swap_parity, s.rotation_parity⟩

/-- The placement `(π, T')` of all eight corner cubies, with a sum of orientations that is a
multiple of three, continues the partial placement `(σ, T)` of the slots below `e`. -/
def CornerCompletes (e : Nat) (σ : Equiv.Perm (Fin 8)) (T : List Nat) (π : Equiv.Perm (Fin 8))
    (T' : List Nat) : Prop :=
  (∀ k : Fin 8, k.val < e → π k = σ k) ∧ T'.length = 8 ∧ (∀ k, k < 8 → T'.getD k 0 < 3) ∧
  (∀ k, k < e → T'.getD k 0 = T.getD k 0) ∧ T'.sum % 3 = 0

/-- The cube and the swap parity `x` belong to a placement that continues `(σ, T)` and passes
the checks of the slots from `m` on. -/
def StoredFrom (m e : Nat) (σ : Equiv.Perm (Fin 8)) (T : List Nat) (x : List Nat × Nat) : Prop :=
  ∃ (π : Equiv.Perm (Fin 8)) (T' : List Nat), CornerCompletes e σ T π T' ∧
    x = (cornerCube (cornerPermList π) T', parityBit π) ∧
    ∀ k, m ≤ k → k < 8 → cornerLocalOK (cornerCube (cornerPermList π) T') k

/-- The invariant of the loops of `PlaceCornerPiece` for the slot `e`: `pieces` holds the
permutation `σ`, the slots below `e` hold their cubies with the orientations `T`,
`swap_parity` is the parity of `σ` and `rotation_parity` the sum of the orientations so far. -/
structure CornerLoopInv (e : Nat) (σ : Equiv.Perm (Fin 8)) (T : List Nat) (s : CornerLoopState) :
    Prop where
  pieces : s.st.pieces = cornerPermList σ
  cube : CornerCubeInv e (cornerPermList σ) T s.st.cube
  tlen : T.length = e
  tlt : ∀ k, k < e → T.getD k 0 < 3
  swap : s.swap_parity = parityBit σ
  rot : s.rotation_parity = T.sum % 3

/-- The specification of `PlaceCornerPiece` with `remaining` slots to fill: it restores the
cube of the slots filled before and makes exactly the stores of `StoredFrom`, each of them
once, whatever the globals are. -/
def CornerPlaceSpec (remaining : Nat) : Prop :=
  ∀ (σ : Equiv.Perm (Fin 8)) (T : List Nat) (cube : List Nat),
    CornerCubeInv (8 - remaining) (cornerPermList σ) T cube → T.length = 8 - remaining →
    (∀ k, k < 8 - remaining → T.getD k 0 < 3) →
    ∃ cube2 L, CornerCubeInv (8 - remaining) (cornerPermList σ) T cube2 ∧ L.Nodup ∧
      (∀ x, x ∈ L ↔ StoredFrom (8 - remaining) (8 - remaining) σ T x) ∧
      ∀ g, PlaceCornerPiece remaining ⟨cornerPermList σ, cube, g⟩ (parityBit σ) (T.sum % 3) =
        (storeAll L g).map (fun g2 => ⟨cornerPermList σ, cube2, g2⟩)

/-- The first `n` entries of a corner array. -/
def storedPrefix (arr : List CornerArrangement) (n : Nat) : List CornerArrangement :=
  (List.range n).map (fun i => arr.getD i zeroArrangement)

/-- The state of a corner array and its count after the cubes of the list `cubes` have been
stored: the first `n` entries are the entries of these cubes in some order, sorted by their
face ids, and the other entries are still zero. -/
structure StoredArr (arr : List CornerArrangement) (n : Nat) (cubes : List (List Nat)) :
    Prop where
  perm : (storedPrefix arr n).Perm (cubes.map storedEntryOf)
  rest : ∀ i, n ≤ i → arr.getD i zeroArrangement = zeroArrangement
  sorted : SortedPrefix arr n

/-- The cubes of the stores with swap parity 0, in the order of the stores. -/
def evenStores (L : List (List Nat × Nat)) : List (List Nat) :=
  (L.filter (fun x => decide (x.2 = 0))).map (fun x => x.1)

/-- The cubes of the stores with another swap parity, in the order of the stores. -/
def oddStores (L : List (List Nat × Nat)) : List (List Nat) :=
  (L.filter (fun x => !decide (x.2 = 0))).map (fun x => x.1)

/-- The state of the globals after the cubes of `LE` have been stored in the even array and
those of `LO` in the odd array, the arrays having `capE` and `capO` entries. -/
structure GlobalsInv (capE capO : Nat) (g : CornerGlobals) (LE LO : List (List Nat)) : Prop where
  elen : g.ep_corner_arrangements.length = capE
  olen : g.op_corner_arrangements.length = capO
  ep : StoredArr g.ep_corner_arrangements g.ep_corner_arrangement_count LE
  op : StoredArr g.op_corner_arrangements g.op_corner_arrangement_count LO

/-- A placement of the eight corner cubies, `π k` in the slot `k` with the orientation `T[k]`,
whose orientations add up to a multiple of three and which passes the checks of every slot. -/
def ValidCornerPlacement (π : Equiv.Perm (Fin 8)) (T : List Nat) : Prop :=
  T.length = 8 ∧ (∀ k, k < 8 → T.getD k 0 < 3) ∧ T.sum % 3 = 0 ∧
  ∀ k, k < 8 → cornerLocalOK (cornerCube (cornerPermList π) T) k

/-- The store of the cube of a valid corner placement, with the parity of its permutation. -/
def ValidStore (x : List Nat × Nat) : Prop :=
  ∃ (π : Equiv.Perm (Fin 8)) (T : List Nat), ValidCornerPlacement π T ∧
    x = (cornerCube (cornerPermList π) T, parityBit π)

/-- The arrays of `capE` and `capO` entries have room for the valid corner placements: among
valid placements that differ from each other, at most `capE` have an even permutation and at
most `capO` an odd one. -/
def CornerRoom (capE capO : Nat) : Prop :=
  ∀ L : List (List Nat × Nat), L.Nodup → (∀ x, x ∈ L → ValidStore x) →
    (evenStores L).length ≤ capE ∧ (oddStores L).length ≤ capO

/-- The state of a corner array after `FillCornerIndexes`: the arrangements of its first `n`
entries are the cubes of the list `cubes` in some order, every entry has the corners'
contributions of its arrangement as face ids, and the entries are sorted by their face ids. -/
structure FinalArr (arr : List CornerArrangement) (n : Nat) (cubes : List (List Nat)) :
    Prop where
  perm : ((storedPrefix arr n).map (fun c => c.arrangement)).Perm cubes
  faces : ∀ i, i < n → (arr.getD i zeroArrangement).faceIds =
    (List.range 6).map (cornerFaceId (arr.getD i zeroArrangement).arrangement)
  nlen : ∀ i, i < arr.length → (arr.getD i zeroArrangement).nextIndex.length = 6
  sorted : SortedPrefix arr n

/-- The colours of the four corner cells of the face `f`. -/
def faceCornerColors (cube : List Nat) (f : Nat) : List Nat :=
  [0, 2, 6, 8].map (fun s => ColorOf (cube.getD (9 * f + s) 0))

/-- The first corner constraint in the words of the specification: no corner sticker has the
colour of the centre of the face it sits on. -/
def NoCornerCentreMatch (cube : List Nat) : Prop :=
  ∀ f, f < 6 → ∀ c, c ∈ faceCornerColors cube f → c ≠ ColorOf (cube.getD (9 * f + 4) 0)

/-- The second corner constraint in the words of the specification: on no face do three of
the four corner cells share a colour. -/
def NoThreeCornersSame (cube : List Nat) : Prop :=
  ∀ f, f < 6 → ∀ c, (faceCornerColors cube f).count c < 3

instance noCornerCentreMatchDecidable (cube : List Nat) : Decidable (NoCornerCentreMatch cube) := by
  unfold NoCornerCentreMatch; infer_instance

/-- The number of pairs of a permutation of the eight corner cubies and eight orientations:
`8! * 3 ^ 8`. -/
def CORNER_PLACEMENT_BOUND : Nat := 264539520

/-- The arrangements of the first `n` entries of a corner array. -/
def storedCubes (arr : List CornerArrangement) (n : Nat) : List (List Nat) :=
  (storedPrefix arr n).map (fun c => c.arrangement)

/-! ## Sample faces and the geometry of the 3x3 grid -/

/-- The face with cell colours 0,1,2 / 3,4,5 / 0,1,2 (cells 0..8 in reading order). -/
def sampleFaceRows : List Nat := [0, 1, 2, 3, 4, 5, 0, 1, 2]

/-- The face index of `sampleFaceRows`: cell `s` has weight `6 ^ s`. -/
def sampleFaceRowsIndex : Nat := 3683958

/-- The face with cell colours 0,1,2 / 3,4,5 / 1,2,3 (cells 0..8 in reading order). -/
def sampleFaceShifted : List Nat := [0, 1, 2, 3, 4, 5, 1, 2, 3]

/-- Cells `a` and `b` of the 3x3 grid (cell `s` is in row `s / 3` and column `s % 3`) are
horizontally or vertically adjacent. -/
def sideAdjacent (a b : Nat) : Prop :=
  (a / 3 = b / 3 ∧ (a % 3 + 1 = b % 3 ∨ b % 3 + 1 = a % 3)) ∨
    (a % 3 = b % 3 ∧ (a / 3 + 1 = b / 3 ∨ b / 3 + 1 = a / 3))

instance sideAdjacentDecidable (a b : Nat) : Decidable (sideAdjacent a b) := by
  unfold sideAdjacent; infer_instance

/-- Cells `a` and `b` of the 3x3 grid are diagonally adjacent: their rows differ by one and
their columns differ by one. -/
def diagAdjacent (a b : Nat) : Prop :=
  (a / 3 + 1 = b / 3 ∨ b / 3 + 1 = a / 3) ∧ (a % 3 + 1 = b % 3 ∨ b % 3 + 1 = a % 3)

instance diagAdjacentDecidable (a b : Nat) : Decidable (diagAdjacent a b) := by
  unfold diagAdjacent; infer_instance

/-- Some pair of side-adjacent cells of the face has equal colours. -/
def SidePairMatches (face_colors : List Nat) : Prop :=
  ∃ a b, a < 9 ∧ b < 9 ∧ sideAdjacent a b ∧ face_colors.getD a 0 = face_colors.getD b 0

/-- Some pair of diagonally adjacent cells of the face has equal colours. -/
def DiagPairMatches (face_colors : List Nat) : Prop :=
  ∃ a b, a < 9 ∧ b < 9 ∧ diagAdjacent a b ∧ face_colors.getD a 0 = face_colors.getD b 0

/-- Some pair of the table `pairs` has equal colours (sticker value / 9) in `cube`. -/
def CubePairMatches (pairs : List (Nat × Nat)) (cube : List Nat) : Prop :=
  ∃ p ∈ pairs, cube.getD p.1 0 / 9 = cube.getD p.2 0 / 9

/-- The composition of two rows of `symmetries` as cell maps: cell `s` goes to
`r1[r2[s]]`. -/
def composeRows (r1 r2 : List Nat) : List Nat :=
  (List.range 9).map (fun s => r1.getD (r2.getD s 0) 0)

/-- The image of a table of cell pairs under a row of `symmetries`. -/
def mapPairs (row : List Nat) (pairs : List (Nat × Nat)) : List (Nat × Nat) :=
  pairs.map (fun p => (row.getD p.1 0, row.getD p.2 0))

/-- Two tables of cell pairs hold the same unordered pairs. -/
def SamePairSet (P Q : List (Nat × Nat)) : Prop :=
  (∀ p ∈ P, p ∈ Q ∨ (p.2, p.1) ∈ Q) ∧ (∀ q ∈ Q, q ∈ P ∨ (q.2, q.1) ∈ P)

instance samePairSetDecidable (P Q : List (Nat × Nat)) : Decidable (SamePairSet P Q) := by
  unfold SamePairSet; infer_instance

/-! ## `RecordSolution` (`ScrambleSearcher.cpp`) -/

/-- The locals `solution_face_ids` and `unique_patterns` of `RecordSolution`. -/
structure PatternCountState where
  solution_face_ids : List Int
  unique_patterns : Int
deriving DecidableEq, Repr

/-- The inner loop `for (j = 0; j < i; ++j)` of `RecordSolution`, which stops at the first `j`
with `solution_face_ids[j] == solution_face_ids[i]`: whether it finds such a `j`. -/
def earlierFaceMatches (solution_face_ids : List Int) (i : Nat) : Bool :=
  (List.range i).any (fun j => solution_face_ids.getD j 0 == solution_face_ids.getD i 0)

/-- One iteration of the loop over `i` of `RecordSolution`: `solution_face_ids[i]` is set to
the pattern id `value i` of face `i`, and `unique_patterns` is decremented when an earlier
face has the same id. -/
def patternCountStep (value : Nat → Int) (st : PatternCountState) (i : Nat) :
    PatternCountState :=
  let solution_face_ids := st.solution_face_ids.set i (value i)
  if earlierFaceMatches solution_face_ids i then ⟨solution_face_ids, st.unique_patterns - 1⟩
  else ⟨solution_face_ids, st.unique_patterns⟩

/-- The loop `for (i = 0; i < CUBE_FACES; ++i)` of `RecordSolution`, started with
`unique_patterns = 6` and `solution_face_ids = {0, 0, 0, 0, 0, 0}`. -/
def countUniquePatterns (value : Nat → Int) : PatternCountState :=
  (List.range CUBE_FACES).foldl (patternCountStep value) ⟨[0, 0, 0, 0, 0, 0], 6⟩

/-- The value `unique_patterns` of a call of `RecordSolution`: face `i` has the pattern id
`face_table[face_ids[i] + corner_arrangements[index].faceIds[i]]`. -/
def recordedUniquePatterns (face_table : Nat → Int) (face_ids : List Nat)
    (corner_arrangements : List CornerArrangement) (corner_arrangements_index : Int) : Int :=
  (countUniquePatterns (fun i => face_table (face_ids.getD i 0 +
    (corner_arrangements.getD corner_arrangements_index.toNat zeroArrangement).faceIds.getD
      i 0))).unique_patterns

/-- The value `connectedness` of a call of `RecordSolution`. -/
def recordedConnectedness (cube : List Nat) (corner_arrangements : List CornerArrangement)
    (corner_arrangements_index : Int) : Nat :=
  GetColorConnectedness (solutionCube cube
    (corner_arrangements.getD corner_arrangements_index.toNat zeroArrangement).arrangement)

/-- The file name `"Solutions_%i_patterns%s.txt"` that `RecordSolution` builds. -/
def solutionFileName (unique_patterns : Int) (connectedness : Nat) : String :=
  "Solutions_" ++ toString unique_patterns ++ "_patterns" ++
    (if connectedness = ADJACENT_FACES_TOUCHING then "" else "_Perfect") ++ ".txt"

/-- The index `unique_patterns - 1 + ((connectedness == ADJACENT_FACES_TOUCHING) ? 0 : 6)` of
the counter that `RecordSolution` increments. -/
def solutionCountIndex (unique_patterns : Int) (connectedness : Nat) : Int :=
  unique_patterns - 1 + (if connectedness = ADJACENT_FACES_TOUCHING then 0 else 6)

/-- The statics `solution_counts` and `total_solutions` of `RecordSolution`. -/
structure SolutionCounts where
  solution_counts : List Int
  total_solutions : Int
deriving DecidableEq, Repr

/-- The line that `RecordSolution` appends to a file: the file name and the cube. -/
structure SolutionRecord where
  filename : String
  solution_cube : List Nat
deriving DecidableEq, Repr

/-- The function `RecordSolution`; `file_opens` tells of each file name whether `fopen_s`
opens that file for appending. When `connectedness` is below `ADJACENT_FACES_TOUCHING` the
function only reports on `stderr` and returns; when the file does not open it reports on
`stderr` and returns, before it writes the line and before it counts; otherwise it appends
the cube to the file and increments `total_solutions` and one entry of `solution_counts`. The
result is the new statics and the line written, if any. -/
def RecordSolution (face_table : Nat → Int) (file_opens : String → Bool)
    (face_ids cube : List Nat) (corner_arrangements : List CornerArrangement)
    (corner_arrangements_index : Int) (st : SolutionCounts) :
    SolutionCounts × Option SolutionRecord :=
  let unique_patterns :=
    recordedUniquePatterns face_table face_ids corner_arrangements corner_arrangements_index
  let solution_cube := solutionCube cube
    (corner_arrangements.getD corner_arrangements_index.toNat zeroArrangement).arrangement
  let connectedness := recordedConnectedness cube corner_arrangements corner_arrangements_index
  if connectedness < ADJACENT_FACES_TOUCHING then (st, none)
  else
    let filename := solutionFileName unique_patterns connectedness
    if !file_opens filename then (st, none)
    else
      let k := (solutionCountIndex unique_patterns connectedness).toNat
      (⟨st.solution_counts.set k (st.solution_counts.getD k 0 + 1), st.total_solutions + 1⟩,
        some ⟨filename, solution_cube⟩)

/-- The number of faces `i < n` whose pattern id occurs at an earlier face. -/
def repeatedCount (value : Nat → Int) (n : Nat) : Nat :=
  ((List.range n).filter (fun i => (List.range i).any (fun j => value j == value i))).length

/-- A face-id function for sample calls of `RecordSolution`. -/
def sampleFaceTable (i : Nat) : Int := (i % 3 : Nat)

/-! ## The order in which the colour loops visit the relabelings -/

/-- The values of `color_swaps` at the innermost body, in order of execution, for `n` nested
loops `for (c = k; c < CUBE_COLORS; ++c) { SWAP(color_swaps[k], color_swaps[c]); ...;
SWAP(color_swaps[k], color_swaps[c]); }` with first loop variable `k`, entered with
`color_swaps = cs`. -/
def swapOrderFrom : Nat → Nat → List Nat → List (List Nat)
  | 0, _, cs => [cs]
  | n + 1, k, cs =>
    ((List.range' k (CUBE_COLORS - k)).map
      (fun c => swapOrderFrom n (k + 1) (swapAt cs k c))).flatten

/-- The values of `color_swaps` at the innermost body of the five loops `c0 .. c4` of
`BuildFaceTable`, entered with the identity. -/
def swapOrder : List (List Nat) := swapOrderFrom 5 0 [0, 1, 2, 3, 4, 5]

/-- The effect on `face_table` of running `body` once for each value of `color_swaps` in
`order`, in this order. -/
def runBodies (body : SwapState → SwapState) (order : List (List Nat)) (t : Nat → Int) :
    Nat → Int :=
  order.foldl (fun t cs => (body ⟨t, cs⟩).face_table) t

/-- The `n` nested colour loops with first loop variable `k` around `body`. -/
def nestedSwapLoops : Nat → Nat → (SwapState → SwapState) → SwapState → SwapState
  | 0, _, body => body
  | n + 1, k, body => swapLoop k (nestedSwapLoops n (k + 1) body)

/-- The number of executions of the innermost body of `n` nested colour loops with first
loop variable `k`. -/
def swapOrderCount : Nat → Nat → Nat
  | 0, _ => 1
  | n + 1, k => (CUBE_COLORS - k) * swapOrderCount n (k + 1)

/-! ## The last corner depth as a pure leaf -/

/-- The variant of `PlaceCornerPiece` that treats the last depth as a pure leaf: for
`corner_num = 7` it returns right after the call of `PlaceLastCornerPiece` instead of falling
through into the selection loop. -/
def PlaceCornerPieceLeaf : Nat → CornerState → Nat → Nat → Option CornerState
  | 0, st, _, _ => some st
  | remaining + 1, st, swap_parity, rotation_parity =>
    let corner_num := CUBE_CORNERS - (remaining + 1)
    if corner_num = 7 then PlaceLastCornerPiece corner_num st swap_parity rotation_parity
    else
      match (List.range' corner_num (CUBE_CORNERS - corner_num)).foldlM
          (cornerPosBody (PlaceCornerPieceLeaf remaining) corner_num)
          ⟨st, swap_parity, rotation_parity⟩ with
      | none => none
      | some s => some s.st

/-- The function `CreateCornerArrangements` with `PlaceCornerPieceLeaf` in the place of
`PlaceCornerPiece`. -/
def CreateCornerArrangementsLeaf (capE capO : Nat) : Option CornerGlobals :=
  match PlaceCornerPieceLeaf 8
      ⟨[0, 1, 2, 3, 4, 5, 6, 7], initialCornerCube,
        ⟨List.replicate capE zeroArrangement, List.replicate capO zeroArrangement, 0, 0⟩⟩ 0 0 with
  | none => none
  | some st =>
    some { st.globals with
      ep_corner_arrangements :=
        FillCornerIndexes st.globals.ep_corner_arrangements st.globals.ep_corner_arrangement_count,
      op_corner_arrangements :=
        FillCornerIndexes st.globals.op_corner_arrangements
          st.globals.op_corner_arrangement_count }

/-- Two cubes have the same entries except possibly on the three surfaces of the last corner
slot. -/
def AgreeOffLastCorner (c1 c2 : List Nat) : Prop :=
  c1.length = c2.length ∧
    ∀ x, x ≠ tab2 corners 7 0 → x ≠ tab2 corners 7 1 → x ≠ tab2 corners 7 2 →
      c1.getD x 0 = c2.getD x 0

/-- Two states of the corner enumeration with the same `pieces`, the same global arrays and
counts, and cubes that differ at most on the surfaces of the last corner slot. -/
def SameStores (st1 st2 : CornerState) : Prop :=
  st1.pieces = st2.pieces ∧ st1.globals = st2.globals ∧ AgreeOffLastCorner st1.cube st2.cube

/-- Two loop states with `SameStores` arrays and the same parities. -/
def SameLoopStores (s1 s2 : CornerLoopState) : Prop :=
  SameStores s1.st s2.st ∧ s1.swap_parity = s2.swap_parity ∧
    s1.rotation_parity = s2.rotation_parity

/-- Two results are both failures, or both states and these are related by `R`. -/
def OptionRel {α β : Type} (R : α → β → Prop) : Option α → Option β → Prop
  | some a, some b => R a b
  | none, none => True
  | _, _ => False

/-! ## Diagonal neighbours across the seam between two faces -/

/-- The cell `c` is a corner cell of the face of the edge cell `b`, next to `b` along a side
of the face. -/
def CornerNextTo (b c : Nat) : Prop :=
  c < 54 ∧ c / 9 = b / 9 ∧ (c % 9 = 0 ∨ c % 9 = 2 ∨ c % 9 = 6 ∨ c % 9 = 8) ∧
    sideAdjacent (b % 9) (c % 9)

instance cornerNextToDecidable (b c : Nat) : Decidable (CornerNextTo b c) := by
  unfold CornerNextTo; infer_instance

/-- The sticker slot `a` belongs to an edge cubie `{a, b}` of the table `edges`, and `c` is one
of the two corner cells next to `b` on the face of `b`: `a` and `c` are diagonal neighbours
across the seam between two faces. -/
def CrossSeamDiagonal (a c : Nat) : Prop :=
  ∃ e ∈ edges, (a = e.getD 0 0 ∧ CornerNextTo (e.getD 1 0) c) ∨
    (a = e.getD 1 0 ∧ CornerNextTo (e.getD 0 0) c)

instance crossSeamDiagonalDecidable (a c : Nat) : Decidable (CrossSeamDiagonal a c) := by
  unfold CrossSeamDiagonal; infer_instance

/-- No two side-adjacent and no two diagonally adjacent cells of one face of the cube have the
same colour. -/
def FaceClean (cube : List Nat) : Prop :=
  ∀ f, f < 6 → GetFaceColorConnectedness (faceColors cube f) = NOTHING_TOUCHING

/-! ## The number of iterations of the loop of `GetCornerArrangementsIndex` -/

/-- The loop of `GetCornerArrangementsIndex` at the state `(index, face_num)` as in
`cornerIndexLoop`, with the number of iterations of the loop body made so far: the result is
the returned index and the total number of iterations; `none` when the `fuel` iterations do
not reach the `return`. -/
def cornerIndexSteps (face_table : Nat → Int) (arr : List CornerArrangement) (face_ids : List Nat)
    (face_id_count : Nat) : Nat → Int → Nat → Nat → Option (Int × Nat)
  | 0, _, _, _ => none
  | fuel + 1, index, face_num, iterations =>
    if face_num < face_id_count then
      let face_idx := (arr.getD index.toNat zeroArrangement).faceIds.getD face_num 0 +
        face_ids.getD face_num 0
      let face_id := face_table face_idx
      if face_id < 16 then
        cornerIndexSteps face_table arr face_ids face_id_count fuel index (face_num + 1)
          (iterations + 1)
      else
        let index' := toInt32 ((arr.getD index.toNat zeroArrangement).nextIndex.getD face_num 0)
        if index' = -1 then some (index', iterations + 1)
        else cornerIndexSteps face_table arr face_ids face_id_count fuel index' 0 (iterations + 1)
    else some (index, iterations)

/-- The function `GetCornerArrangementsIndex` with the number of iterations of its loop. -/
def GetCornerArrangementsIndexSteps (fuel : Nat) (face_table : Nat → Int) (index : Int)
    (arr : List CornerArrangement) (face_ids : List Nat) (face_id_count : Nat)
    (max_index : Int) : Option (Int × Nat) :=
  if index > max_index ∨ index = -1 then some (-1, 0)
  else cornerIndexSteps face_table arr face_ids face_id_count fuel index 0 0

/-! ## The enumerations with every table lookup guarded

The functions below are the two enumerations again, with a guard in front of each loop body:
the guard lists the values the body passes to `ColorOf`, the values it divides by 9 to form a
face contribution, and the indexes it uses on `face_table`, and the guarded body gives up
(`none`) when one of them is out of range. -/

/-- The values that the body of `PlaceCornerPiece` (and `PlaceLastCornerPiece`) passes to
`ColorOf` after placing the cubie of the slot `corner_num` are below 54: the three surfaces of
the slot, their contents, and the contents of the surfaces of the checks
`corner_count_checks_start[corner_num] .. corner_count_checks_end[corner_num]`. -/
def cornerReadsInRange (cube : List Nat) (corner_num : Nat) : Bool :=
  ([0, 1, 2] : List Nat).all (fun j =>
    decide (cube.getD (tab2 corners corner_num j) 0 < 54) &&
      decide (tab2 corners corner_num j < 54)) &&
  (List.range' (corner_count_checks_start.getD corner_num 0)
    (corner_count_checks_end.getD corner_num 0 + 1 -
      corner_count_checks_start.getD corner_num 0)).all (fun i =>
    ([0, 1, 2] : List Nat).all (fun j =>
      decide (cube.getD (tab2 corner_count_checks i j) 0 < 54)))

/-- The values that `StoreCornerArrangement` divides by 9 are below 54: the contents of the
surfaces `start`, `start + 2`, `start + 4`, `start + 6`, `start + 8` of the six faces. -/
def storeReadsInRange (cube : List Nat) : Bool :=
  (List.range CUBE_FACES).all (fun i =>
    ([0, 2, 4, 6, 8] : List Nat).all (fun d => decide (cube.getD (i * 9 + d) 0 < 54)))

/-- The function `PlaceLastCornerPiece` with its lookups guarded; the values divided by 9 are
read only when the checks pass. -/
def PlaceLastCornerPieceGuarded (corner_num : Nat) (st : CornerState)
    (swap_parity rotation_parity : Nat) : Option CornerState :=
  let ori := (3 - rotation_parity) % 3
  let cube := placeCorner st.cube corner_num (st.pieces.getD corner_num 0) ori
  if decide (st.pieces.getD corner_num 0 < CUBE_CORNERS) && cornerReadsInRange cube corner_num &&
      (cornerTouchesCenter cube corner_num || !cornerCountPassed cube corner_num ||
        storeReadsInRange cube) then
    PlaceLastCornerPiece corner_num st swap_parity rotation_parity
  else none

/-- The body of the loop over `ori` of `PlaceCornerPiece` with its lookups guarded. -/
def cornerOriBodyGuarded (next : CornerState → Nat → Nat → Option CornerState) (corner_num : Nat)
    (s : CornerLoopState) (ori : Nat) : Option CornerLoopState :=
  let cube := placeCorner s.st.cube corner_num (s.st.pieces.getD corner_num 0) ori
  if decide (s.st.pieces.getD corner_num 0 < CUBE_CORNERS) && cornerReadsInRange cube corner_num
    then cornerOriBody next corner_num s ori
  else none

/-- The body of the loop over `pos` of `PlaceCornerPiece`, over the guarded body of the loop
over `ori`. -/
def cornerPosBodyGuarded (next : CornerState → Nat → Nat → Option CornerState) (corner_num : Nat)
    (s : CornerLoopState) (pos : Nat) : Option CornerLoopState :=
  let s1 : CornerLoopState :=
    if pos ≠ corner_num then
      ⟨{ s.st with pieces := swapAt s.st.pieces corner_num pos }, s.swap_parity ^^^ 1,
        s.rotation_parity⟩
    else s
  match ([0, 1, 2] : List Nat).foldlM (cornerOriBodyGuarded next corner_num) s1 with
  | none => none
  | some s2 =>
    if pos ≠ corner_num then
      some ⟨{ s2.st with pieces := swapAt s2.st.pieces corner_num pos }, s2.swap_parity ^^^ 1,
        s2.rotation_parity⟩
    else some s2

/-- The function `PlaceCornerPiece` with every lookup guarded. -/
def PlaceCornerPieceGuarded : Nat → CornerState → Nat → Nat → Option CornerState
  | 0, st, _, _ => some st
  | remaining + 1, st, swap_parity, rotation_parity =>
    let corner_num := CUBE_CORNERS - (remaining + 1)
    let first : Option CornerState :=
      if corner_num = 7 then PlaceLastCornerPieceGuarded corner_num st swap_parity rotation_parity
      else some st
    match first with
    | none => none
    | some st0 =>
      match (List.range' corner_num (CUBE_CORNERS - corner_num)).foldlM
          (cornerPosBodyGuarded (PlaceCornerPieceGuarded remaining) corner_num)
          ⟨st0, swap_parity, rotation_parity⟩ with
      | none => none
      | some s => some s.st

/-- The function `CreateCornerArrangements` with every lookup guarded. -/
def CreateCornerArrangementsGuarded (capE capO : Nat) : Option CornerGlobals :=
  match PlaceCornerPieceGuarded 8
      ⟨[0, 1, 2, 3, 4, 5, 6, 7], initialCornerCube,
        ⟨List.replicate capE zeroArrangement, List.replicate capO zeroArrangement, 0, 0⟩⟩ 0 0 with
  | none => none
  | some st =>
    some { st.globals with
      ep_corner_arrangements :=
        FillCornerIndexes st.globals.ep_corner_arrangements st.globals.ep_corner_arrangement_count,
      op_corner_arrangements :=
        FillCornerIndexes st.globals.op_corner_arrangements
          st.globals.op_corner_arrangement_count }

/-- The values that the body of `PlaceEdgePiece` (and `PlaceLastEdgePiece`) passes to `ColorOf`
after placing the cubie of the slot `edge_num` are below 54: the two surfaces of the slot,
their contents, and the contents of the surfaces of the checks
`edge_diagonal_checks_start[edge_num] .. edge_diagonal_checks_end[edge_num]`. -/
def edgeReadsInRange (cube : List Nat) (edge_num : Nat) : Bool :=
  ([0, 1] : List Nat).all (fun j =>
    decide (cube.getD (tab2 edges edge_num j) 0 < 54) &&
      decide (tab2 edges edge_num j < 54)) &&
  (List.range' (edge_diagonal_checks_start.getD edge_num 0)
    (edge_diagonal_checks_end.getD edge_num 0 + 1 -
      edge_diagonal_checks_start.getD edge_num 0)).all (fun i =>
    decide (cube.getD (tab2 edge_diagonal_checks i 0) 0 < 54) &&
      decide (cube.getD (tab2 edge_diagonal_checks i 1) 0 < 54))

/-- The values divided by 9 to form the edges' contributions to the face ids of the faces
`first .. count - 1` are below 54: the contents of the surfaces `start + 1`, `start + 3`,
`start + 5`, `start + 7` of these faces. -/
def faceIdReadsInRange (cube : List Nat) (first count : Nat) : Bool :=
  (List.range' first (count - first)).all (fun face_index =>
    ([1, 3, 5, 7] : List Nat).all (fun d => decide (cube.getD (face_index * 9 + d) 0 < 54)))

/-- Every index `corner_arrangements[index].faceIds[face_num] + face_ids[face_num]` with
`face_num < face_id_count` that a search of the array (or `RecordSolution`) can use on
`face_table` is below `6 ^ 9`. -/
def faceTableReadsInRange (arr : List CornerArrangement) (face_ids : List Nat)
    (face_id_count : Nat) : Bool :=
  arr.all (fun c => (List.range face_id_count).all (fun face_num =>
    decide (c.faceIds.getD face_num 0 + face_ids.getD face_num 0 < FACE_ARRANGEMENTS)))

/-- The function `PlaceLastEdgePiece` with its lookups guarded; the face contributions and the
face table are read only when the checks pass. -/
def PlaceLastEdgePieceGuarded (face_table : Nat → Int) (ep op : List CornerArrangement)
    (edge_num : Nat) (st : EdgeState) (swap_parity flip_parity : Nat)
    (corner_arrangements_index : Int) : Option EdgeState :=
  let cube := placeEdge st.cube edge_num (st.pieces.getD edge_num 0) flip_parity
  let face_id_count := (edge_face_id_checks_end.getD edge_num 0 + 1).toNat
  let face_ids := fillEdgeFaceIds cube st.face_ids
    (edge_face_id_checks_start.getD edge_num 0).toNat face_id_count
  if decide (st.pieces.getD edge_num 0 < CUBE_EDGES) && edgeReadsInRange cube edge_num &&
      (edgeTouchesCenter cube edge_num || edgeDiagonalsTouching cube edge_num ||
        (faceIdReadsInRange cube (edge_face_id_checks_start.getD edge_num 0).toNat face_id_count &&
          faceTableReadsInRange (if swap_parity = 0 then ep else op) face_ids face_id_count &&
          faceTableReadsInRange (if swap_parity = 0 then ep else op) face_ids CUBE_FACES)) then
    PlaceLastEdgePiece face_table ep op edge_num st swap_parity flip_parity
      corner_arrangements_index
  else none

/-- The body of the loop over `ori` of `PlaceEdgePiece` with its lookups guarded; the face
contributions and the face table are read only when the checks pass and the slot completes a
face. -/
def edgeOriBodyGuarded (face_table : Nat → Int) (ep op : List CornerArrangement)
    (next : EdgeState → Nat → Nat → Int → Int → Option EdgeState)
    (edge_num : Nat) (ep_index op_index : Int) (s : EdgeLoopState) (ori : Nat) :
    Option EdgeLoopState :=
  let cube := placeEdge s.st.cube edge_num (s.st.pieces.getD edge_num 0) ori
  let face_id_count := (edge_face_id_checks_end.getD edge_num 0 + 1).toNat
  let face_ids := fillEdgeFaceIds cube s.st.face_ids
    (edge_face_id_checks_start.getD edge_num 0).toNat face_id_count
  if decide (s.st.pieces.getD edge_num 0 < CUBE_EDGES) && edgeReadsInRange cube edge_num &&
      (edgeTouchesCenter cube edge_num || edgeDiagonalsTouching cube edge_num ||
        !decide (edge_face_id_checks_start.getD edge_num 0 ≥ 0) ||
        (faceIdReadsInRange cube (edge_face_id_checks_start.getD edge_num 0).toNat face_id_count &&
          faceTableReadsInRange ep face_ids face_id_count &&
          faceTableReadsInRange op face_ids face_id_count)) then
    edgeOriBody face_table ep op next edge_num ep_index op_index s ori
  else none

/-- The body of the loop over `pos` of `PlaceEdgePiece`, over the guarded body of the loop over
`ori`. -/
def edgePosBodyGuarded (face_table : Nat → Int) (ep op : List CornerArrangement)
    (next : EdgeState → Nat → Nat → Int → Int → Option EdgeState)
    (edge_num : Nat) (ep_index op_index : Int) (s : EdgeLoopState) (pos : Nat) :
    Option EdgeLoopState :=
  let s1 : EdgeLoopState :=
    if pos ≠ edge_num then
      ⟨{ s.st with pieces := swapAt s.st.pieces edge_num pos }, s.swap_parity ^^^ 1, s.flip_parity⟩
    else s
  match ([0, 1] : List Nat).foldlM
      (edgeOriBodyGuarded face_table ep op next edge_num ep_index op_index) s1 with
  | none => none
  | some s2 =>
    if pos ≠ edge_num then
      some ⟨{ s2.st with pieces := swapAt s2.st.pieces edge_num pos }, s2.swap_parity ^^^ 1,
        s2.flip_parity⟩
    else some s2

/-- The function `PlaceEdgePiece` with every lookup guarded. -/
def PlaceEdgePieceGuarded (face_table : Nat → Int) (ep op : List CornerArrangement) :
    Nat → EdgeState → Nat → Nat → Int → Int → Option EdgeState
  | 0, st, _, _, _, _ => some st
  | remaining + 1, st, swap_parity, flip_parity, ep_index, op_index =>
    let edge_num := CUBE_EDGES - (remaining + 1)
    let first : Option EdgeState :=
      if edge_num = 11 then
        PlaceLastEdgePieceGuarded face_table ep op edge_num st swap_parity flip_parity
          (if swap_parity = 0 then ep_index else op_index)
      else some st
    match first with
    | none => none
    | some st0 =>
      match (List.range' edge_num (CUBE_EDGES - edge_num)).foldlM
          (edgePosBodyGuarded face_table ep op (PlaceEdgePieceGuarded face_table ep op remaining)
            edge_num ep_index op_index) ⟨st0, swap_parity, flip_parity⟩ with
      | none => none
      | some s => some s.st

/-- The function `TryEdgeArrangements` with every lookup guarded. -/
def TryEdgeArrangementsGuarded (face_table : Nat → Int) (ep op : List CornerArrangement) :
    Option (List SolutionCall) :=
  match PlaceEdgePieceGuarded face_table ep op 12
      ⟨[0, 1, 2, 3, 4, 5, 6, 7, 8, 9, 10, 11], initialEdgeCube, [0, 0, 0, 0, 0, 0], []⟩ 0 0 0 0 with
  | none => none
  | some st => some st.solutions

/-! ## Digits of a face index -/

theorem cell_lt (c : Face) (k : Nat) : cell c k < 6 := by
  unfold cell; split
  · exact (c _).isLt
  · decide

theorem cell_faceOf (i k : Nat) (h : k < 9) : cell (faceOf i) k = i / 6 ^ k % 6 := by
  simp [cell, faceOf, h]

theorem face_ext (c d : Face) (h : ∀ k < 9, cell c k = cell d k) : c = d := by
  funext s
  have := h s.val s.isLt
  simp only [cell, s.isLt, dite_true] at this
  exact Fin.ext this

theorem indexOf_lt (c : Face) : indexOf c < FACE_ARRANGEMENTS := by
  unfold indexOf FACE_ARRANGEMENTS
  have h0 := cell_lt c 0; have h1 := cell_lt c 1; have h2 := cell_lt c 2
  have h3 := cell_lt c 3; have h4 := cell_lt c 4; have h5 := cell_lt c 5
  have h6 := cell_lt c 6; have h7 := cell_lt c 7; have h8 := cell_lt c 8
  omega

theorem digit_of_horner (a0 a1 a2 a3 a4 a5 a6 a7 a8 : Nat) (h0 : a0 < 6) (h1 : a1 < 6)
    (h2 : a2 < 6) (h3 : a3 < 6) (h4 : a4 < 6) (h5 : a5 < 6) (h6 : a6 < 6) (h7 : a7 < 6)
    (h8 : a8 < 6) (k : Nat) (hk : k < 9) :
    (a0 + 6 * (a1 + 6 * (a2 + 6 * (a3 + 6 * (a4 + 6 * (a5 + 6 * (a6 + 6 * (a7 + 6 * a8)))))))) /
      6 ^ k % 6 = [a0, a1, a2, a3, a4, a5, a6, a7, a8].getD k 0 := by
  interval_cases k <;> norm_num <;> omega

theorem colorsOf_getD (c : Face) (k : Nat) : (colorsOf c).getD k 0 = cell c k := by
  by_cases h : k < 9
  · interval_cases k <;> rfl
  · have h9 : (colorsOf c).length ≤ k := by simp [colorsOf]; omega
    rw [List.getD_eq_default _ _ h9]
    simp [cell, h]

theorem faceOf_indexOf (c : Face) : faceOf (indexOf c) = c := by
  apply face_ext
  intro k hk
  rw [cell_faceOf _ _ hk, ← colorsOf_getD]
  exact digit_of_horner _ _ _ _ _ _ _ _ _ (cell_lt c 0) (cell_lt c 1) (cell_lt c 2) (cell_lt c 3)
    (cell_lt c 4) (cell_lt c 5) (cell_lt c 6) (cell_lt c 7) (cell_lt c 8) k hk

theorem indexOf_faceOf (i : Nat) (h : i < FACE_ARRANGEMENTS) : indexOf (faceOf i) = i := by
  unfold FACE_ARRANGEMENTS at h
  unfold indexOf
  rw [cell_faceOf _ _ (by decide : 0 < 9), cell_faceOf _ _ (by decide : 1 < 9),
    cell_faceOf _ _ (by decide : 2 < 9), cell_faceOf _ _ (by decide : 3 < 9),
    cell_faceOf _ _ (by decide : 4 < 9), cell_faceOf _ _ (by decide : 5 < 9),
    cell_faceOf _ _ (by decide : 6 < 9), cell_faceOf _ _ (by decide : 7 < 9),
    cell_faceOf _ _ (by decide : 8 < 9)]
  norm_num
  omega

theorem FaceIndexToColors_eq (i : Nat) : FaceIndexToColors i = colorsOf (faceOf i) := by
  unfold colorsOf
  rw [cell_faceOf _ _ (by decide : 0 < 9), cell_faceOf _ _ (by decide : 1 < 9),
    cell_faceOf _ _ (by decide : 2 < 9), cell_faceOf _ _ (by decide : 3 < 9),
    cell_faceOf _ _ (by decide : 4 < 9), cell_faceOf _ _ (by decide : 5 < 9),
    cell_faceOf _ _ (by decide : 6 < 9), cell_faceOf _ _ (by decide : 7 < 9),
    cell_faceOf _ _ (by decide : 8 < 9)]
  simp [FaceIndexToColors, faceIndexDigits, CUBE_COLORS, Nat.div_div_eq_div_mul]

theorem symNat_lt (r : Fin 8) (s : Fin 9) : symNat r.val s.val < 9 := by
  revert r s; decide

theorem permList_getD (p : Equiv.Perm (Fin 6)) (v : Nat) (h : v < 6) :
    (permList p).getD v 0 = (p ⟨v, h⟩).val := by
  unfold permList
  rw [List.getD_eq_getElem _ _ (by simpa using h), List.getElem_ofFn]

theorem cell_act (r : Fin 8) (p : Equiv.Perm (Fin 6)) (c : Face) (k : Nat) (h : k < 9) :
    cell (act r p c) k = (permList p).getD (cell c (symNat r.val k)) 0 := by
  have hs := symNat_lt r ⟨k, h⟩
  simp only at hs
  rw [permList_getD _ _ (cell_lt _ _)]
  simp only [cell, act, h, hs, dite_true, Nat.mod_eq_of_lt hs]

theorem transformedIndex_eq (r : Fin 8) (p : Equiv.Perm (Fin 6)) (c : Face) :
    transformedIndex (permList p) (colorsOf c) (symmetries.getD r.val []) =
      indexOf (act r p c) := by
  unfold indexOf
  rw [cell_act _ _ _ _ (by decide : 0 < 9), cell_act _ _ _ _ (by decide : 1 < 9),
    cell_act _ _ _ _ (by decide : 2 < 9), cell_act _ _ _ _ (by decide : 3 < 9),
    cell_act _ _ _ _ (by decide : 4 < 9), cell_act _ _ _ _ (by decide : 5 < 9),
    cell_act _ _ _ _ (by decide : 6 < 9), cell_act _ _ _ _ (by decide : 7 < 9),
    cell_act _ _ _ _ (by decide : 8 < 9)]
  simp only [transformedIndex, List.foldl_cons, List.foldl_nil, colorsOf_getD, CUBE_COLORS, symNat]
  ring

/-! ## The orbit relation -/

theorem act_apply (r : Fin 8) (p : Equiv.Perm (Fin 6)) (c : Face) (s : Fin 9) :
    act r p c s = p (c (symF r s)) := rfl

theorem symF_zero (s : Fin 9) : symF 0 s = s := by revert s; decide

theorem symF_comp : ∀ r1 r2 : Fin 8, ∃ r3 : Fin 8, ∀ s : Fin 9, symF r1 (symF r2 s) = symF r3 s := by
  decide

theorem symF_inv : ∀ r : Fin 8, ∃ r' : Fin 8, ∀ s : Fin 9, symF r (symF r' s) = s := by
  decide

theorem Orb.refl (c : Face) : Orb c c :=
  ⟨0, 1, by funext s; simp [act_apply, symF_zero]⟩

theorem Orb.symm {c d : Face} (h : Orb c d) : Orb d c := by
  obtain ⟨r, p, rfl⟩ := h
  obtain ⟨r', hr'⟩ := symF_inv r
  exact ⟨r', p⁻¹, by funext s; simp [act_apply, hr']⟩

theorem Orb.trans {c d e : Face} (h1 : Orb c d) (h2 : Orb d e) : Orb c e := by
  obtain ⟨r1, p1, rfl⟩ := h1
  obtain ⟨r2, p2, rfl⟩ := h2
  obtain ⟨r3, hr3⟩ := symF_comp r1 r2
  exact ⟨r3, p2 * p1, by funext s; simp [act_apply, hr3]⟩

/-! ## The nested swap loops -/

theorem MarkedFrom.comp {t t' t'' : Nat → Int} {v : Int} {S S' : Nat → Prop}
    (h1 : MarkedFrom t v S t') (h2 : MarkedFrom t' v S' t'') :
    MarkedFrom t v (fun x => S x ∨ S' x) t'' := by
  intro x
  obtain ⟨a1, b1⟩ := h1 x
  obtain ⟨a2, b2⟩ := h2 x
  by_cases hx : t x = NOT_SET
  · by_cases hS : S x
    · have e1 := a1 ⟨hx, hS⟩
      refine ⟨fun _ => ?_, fun hn => absurd ⟨hx, Or.inl hS⟩ hn⟩
      by_cases hc : t' x = NOT_SET ∧ S' x
      · exact a2 hc
      · rw [b2 hc, e1]
    · have e1 := b1 (fun h => hS h.2)
      by_cases hS' : S' x
      · refine ⟨fun _ => a2 ⟨by rw [e1, hx], hS'⟩, fun hn => absurd ⟨hx, Or.inr hS'⟩ hn⟩
      · refine ⟨fun h => (h.2.elim hS hS').elim, fun _ => ?_⟩
        rw [b2 (fun h => hS' h.2), e1]
  · have e1 := b1 (fun h => hx h.1)
    refine ⟨fun h => absurd h.1 hx, fun _ => ?_⟩
    rw [b2 (fun h => hx (by rw [← e1]; exact h.1)), e1]

theorem MarkedFrom.none (t : Nat → Int) (v : Int) : MarkedFrom t v (fun _ => False) t :=
  fun _ => ⟨fun h => h.2.elim, fun _ => rfl⟩

theorem MarkedFrom.congr {t t' : Nat → Int} {v : Int} {S S' : Nat → Prop}
    (h : MarkedFrom t v S t') (hS : ∀ x, S x ↔ S' x) : MarkedFrom t v S' t' := by
  intro x
  obtain ⟨a, b⟩ := h x
  exact ⟨fun hx => a ⟨hx.1, (hS x).2 hx.2⟩, fun hx => b (fun h' => hx ⟨h'.1, (hS x).1 h'.2⟩)⟩

theorem marks_markBody (face_colors sym : List Nat) (pattern_id : Int) :
    Marks (markBody face_colors sym pattern_id) (toInt16 pattern_id)
      (fun cs x => x = transformedIndex cs face_colors sym) := by
  intro st _
  unfold markBody
  by_cases h : st.face_table (transformedIndex st.color_swaps face_colors sym) = NOT_SET
  · simp only [h, if_true, true_and]
    intro x
    constructor
    · rintro ⟨_, rfl⟩; simp
    · intro hx
      have : x ≠ transformedIndex st.color_swaps face_colors sym := by
        intro e; subst e; exact hx ⟨h, rfl⟩
      simp [Function.update, this]
  · simp only [h, if_false, true_and]
    intro x
    refine ⟨?_, fun _ => rfl⟩
    rintro ⟨hx, rfl⟩
    exact absurd hx h

theorem swapAt_length (a : List Nat) (x y : Nat) : (swapAt a x y).length = a.length := by
  simp [swapAt]

theorem swapAt_getD (a : List Nat) (x y j : Nat) (hx : x < a.length) (hy : y < a.length) :
    (swapAt a x y).getD j 0 =
      if j = y then a.getD x 0 else if j = x then a.getD y 0 else a.getD j 0 := by
  unfold swapAt
  simp only [List.getD_eq_getElem?_getD, List.getElem?_set]
  by_cases h1 : j = y
  · subst h1; simp [hy]
  · by_cases h2 : j = x
    · subst h2; simp [h1, hx, Ne.symm h1]
    · simp [h1, h2, Ne.symm h1, Ne.symm h2]

theorem list_ext_getD (a b : List Nat) (hl : a.length = b.length)
    (h : ∀ j, j < a.length → a.getD j 0 = b.getD j 0) : a = b := by
  apply List.ext_getElem hl
  intro j h1 h2
  have := h j h1
  rwa [List.getD_eq_getElem _ _ h1, List.getD_eq_getElem _ _ h2] at this

theorem swapAt_swapAt (a : List Nat) (x y : Nat) (hx : x < a.length) (hy : y < a.length) :
    swapAt (swapAt a x y) x y = a := by
  apply list_ext_getD
  · simp [swapAt_length]
  · intro j _
    rw [swapAt_getD _ _ _ _ (by simpa [swapAt_length] using hx)
      (by simpa [swapAt_length] using hy), swapAt_getD _ _ _ _ hx hy,
      swapAt_getD _ _ _ _ hx hy, swapAt_getD _ _ _ _ hx hy]
    by_cases h1 : j = y
    · subst h1
      by_cases h3 : x = j
      · subst h3; simp
      · simp [h3]
    · by_cases h2 : j = x
      · subst h2; simp [h1]
      · simp [h1, h2]

theorem marks_fold (body : SwapState → SwapState) (v : Int) (S : List Nat → Nat → Prop)
    (hb : Marks body v S) (k : Nat) (hk : k < 6) (L : List Nat) (hL : ∀ c ∈ L, c < 6)
    (st : SwapState) (hst : st.color_swaps.length = 6) :
    (L.foldl (fun s c =>
        let s1 : SwapState := ⟨s.face_table, swapAt s.color_swaps k c⟩
        let s2 := body s1
        (⟨s2.face_table, swapAt s2.color_swaps k c⟩ : SwapState)) st).color_swaps
      = st.color_swaps ∧
    MarkedFrom st.face_table v (fun x => ∃ c ∈ L, S (swapAt st.color_swaps k c) x)
      (L.foldl (fun s c =>
        let s1 : SwapState := ⟨s.face_table, swapAt s.color_swaps k c⟩
        let s2 := body s1
        (⟨s2.face_table, swapAt s2.color_swaps k c⟩ : SwapState)) st).face_table := by
  induction L generalizing st with
  | nil =>
    refine ⟨rfl, ?_⟩
    exact (MarkedFrom.none _ _).congr (by simp)
  | cons c L ih =>
    have hc : c < 6 := hL c (List.mem_cons_self _ _)
    simp only [List.foldl_cons]
    obtain ⟨e1, m1⟩ := hb ⟨st.face_table, swapAt st.color_swaps k c⟩
      (by simp [swapAt_length, hst])
    simp only at e1 m1
    have e2 : swapAt (body ⟨st.face_table, swapAt st.color_swaps k c⟩).color_swaps k c
        = st.color_swaps := by
      rw [e1]; exact swapAt_swapAt _ _ _ (by omega) (by omega)
    rw [e2]
    obtain ⟨e3, m3⟩ := ih (fun c' h' => hL c' (List.mem_cons_of_mem _ h'))
      ⟨(body ⟨st.face_table, swapAt st.color_swaps k c⟩).face_table, st.color_swaps⟩ hst
    simp only at e3 m3
    refine ⟨e3, ?_⟩
    refine (m1.comp m3).congr ?_
    intro x
    simp

theorem marks_swapLoop (body : SwapState → SwapState) (v : Int) (S : List Nat → Nat → Prop)
    (hb : Marks body v S) (k : Nat) (hk : k < 6) :
    Marks (swapLoop k body) v
      (fun cs x => ∃ c, k ≤ c ∧ c < CUBE_COLORS ∧ S (swapAt cs k c) x) := by
  intro st hst
  obtain ⟨e, m⟩ := marks_fold body v S hb k hk (List.range' k (CUBE_COLORS - k))
    (by intro c hc; rw [List.mem_range'_1] at hc; unfold CUBE_COLORS at hc; omega) st hst
  refine ⟨e, m.congr ?_⟩
  intro x
  constructor
  · rintro ⟨c, hc, hS⟩
    rw [List.mem_range'_1] at hc
    exact ⟨c, hc.1, by omega, hS⟩
  · rintro ⟨c, h1, h2, hS⟩
    exact ⟨c, by rw [List.mem_range'_1]; omega, hS⟩

theorem marks_nested (face_colors sym : List Nat) (pattern_id : Int) :
    Marks (swapLoop 0 (swapLoop 1 (swapLoop 2 (swapLoop 3 (swapLoop 4
        (markBody face_colors sym pattern_id)))))) (toInt16 pattern_id)
      (fun cs x => ∃ cs', swapReach 5 0 cs cs' ∧ x = transformedIndex cs' face_colors sym) := by
  have h := marks_swapLoop _ _ _ (marks_swapLoop _ _ _ (marks_swapLoop _ _ _
    (marks_swapLoop _ _ _ (marks_swapLoop _ _ _ (marks_markBody face_colors sym pattern_id)
    4 (by decide)) 3 (by decide)) 2 (by decide)) 1 (by decide)) 0 (by decide)
  intro st hst
  obtain ⟨e, m⟩ := h st hst
  refine ⟨e, m.congr ?_⟩
  intro x
  simp only [swapReach]
  constructor
  · rintro ⟨c0, a0, b0, c1, a1, b1, c2, a2, b2, c3, a3, b3, c4, a4, b4, hx⟩
    exact ⟨_, ⟨c0, a0, b0, c1, a1, b1, c2, a2, b2, c3, a3, b3, c4, a4, b4, rfl⟩, hx⟩
  · rintro ⟨cs', ⟨c0, a0, b0, c1, a1, b1, c2, a2, b2, c3, a3, b3, c4, a4, b4, rfl⟩, hx⟩
    exact ⟨c0, a0, b0, c1, a1, b1, c2, a2, b2, c3, a3, b3, c4, a4, b4, hx⟩

theorem marks_symmetryFold (face_colors : List Nat) (pattern_id : Int) (L : List (List Nat))
    (st : SwapState) (hst : st.color_swaps.length = 6) :
    (L.foldl (fun s sym =>
      swapLoop 0 (swapLoop 1 (swapLoop 2 (swapLoop 3 (swapLoop 4
        (markBody face_colors sym pattern_id))))) s) st).color_swaps = st.color_swaps ∧
    MarkedFrom st.face_table (toInt16 pattern_id)
      (fun x => ∃ sym ∈ L, ∃ cs', swapReach 5 0 st.color_swaps cs' ∧
        x = transformedIndex cs' face_colors sym)
      (L.foldl (fun s sym =>
      swapLoop 0 (swapLoop 1 (swapLoop 2 (swapLoop 3 (swapLoop 4
        (markBody face_colors sym pattern_id))))) s) st).face_table := by
  induction L generalizing st with
  | nil => exact ⟨rfl, (MarkedFrom.none _ _).congr (by simp)⟩
  | cons sym L ih =>
    simp only [List.foldl_cons]
    obtain ⟨e1, m1⟩ := marks_nested face_colors sym pattern_id st hst
    obtain ⟨e2, m2⟩ := ih _ (by rw [e1]; exact hst)
    refine ⟨by rw [e2, e1], ?_⟩
    simp only [e1] at m2
    refine (m1.comp m2).congr ?_
    intro x
    simp

theorem permList_length (p : Equiv.Perm (Fin 6)) : (permList p).length = 6 := by
  simp [permList]

theorem permList_one : permList 1 = [0, 1, 2, 3, 4, 5] := by
  simp [permList, List.ofFn_succ]

theorem swapAt_permList (t : Equiv.Perm (Fin 6)) (k c : Fin 6) :
    swapAt (permList t) k.val c.val = permList (t * Equiv.swap k c) := by
  apply list_ext_getD
  · simp [swapAt_length, permList_length]
  · intro j hj
    rw [swapAt_length, permList_length] at hj
    rw [swapAt_getD _ _ _ _ (by rw [permList_length]; exact k.isLt)
      (by rw [permList_length]; exact c.isLt), permList_getD _ _ k.isLt, permList_getD _ _ c.isLt,
      permList_getD _ _ hj, permList_getD _ _ hj]
    simp only [Equiv.Perm.mul_apply, Equiv.swap_apply_def]
    by_cases h1 : j = c.val
    · have : (⟨j, hj⟩ : Fin 6) = c := Fin.ext h1
      by_cases h2 : c = k
      · simp [h1, this, h2]
      · simp [h1, this, h2]
    · have n1 : (⟨j, hj⟩ : Fin 6) ≠ c := fun h => h1 (congrArg Fin.val h)
      by_cases h2 : j = k.val
      · have : (⟨j, hj⟩ : Fin 6) = k := Fin.ext h2
        have hkc : k ≠ c := fun h => n1 (this.trans h)
        have hv : k.val ≠ c.val := fun h => hkc (Fin.ext h)
        simp [this, hkc, h1, h2, hv]
      · have n2 : (⟨j, hj⟩ : Fin 6) ≠ k := fun h => h2 (congrArg Fin.val h)
        simp [h1, h2, n1, n2]

theorem swapReach_of_perm (n : Nat) : ∀ (k : Nat), n + k = 5 → ∀ (t r : Equiv.Perm (Fin 6)),
    (∀ j : Fin 6, j.val < k → r j = j) → swapReach n k (permList t) (permList (t * r)) := by
  induction n with
  | zero =>
    intro k hk t r hr
    have h5 : r = 1 := by
      ext j
      show (r j).val = j.val
      by_cases hj : j.val < k
      · rw [hr j hj]
      · by_contra hne
        have hlt : (r j).val < k := by have := (r j).isLt; have := j.isLt; omega
        have h1 := r.injective (hr (r j) hlt)
        exact hne (by rw [h1])
    simp [swapReach, h5]
  | succ n ih =>
    intro k hk t r hr
    have hk6 : k < 6 := by omega
    have hc : k ≤ (r ⟨k, hk6⟩).val := by
      by_contra hlt
      have := hr (r ⟨k, hk6⟩) (by omega)
      have := r.injective this
      have := congrArg Fin.val this
      simp at this
      omega
    refine ⟨(r ⟨k, hk6⟩).val, hc, (r ⟨k, hk6⟩).isLt, ?_⟩
    have e := swapAt_permList t ⟨k, hk6⟩ (r ⟨k, hk6⟩)
    simp only at e
    rw [e]
    have := ih (k + 1) (by omega) (t * Equiv.swap ⟨k, hk6⟩ (r ⟨k, hk6⟩))
      (Equiv.swap ⟨k, hk6⟩ (r ⟨k, hk6⟩) * r) (by
        intro j hj
        simp only [Equiv.Perm.mul_apply]
        by_cases hjk : j.val = k
        · have : j = ⟨k, hk6⟩ := Fin.ext hjk
          subst this
          simp
        · have hj' := hr j (by omega)
          rw [hj']
          apply Equiv.swap_apply_of_ne_of_ne
          · intro h; exact hjk (congrArg Fin.val h)
          · intro h; rw [h] at hj; omega)
    rwa [mul_assoc, ← mul_assoc (Equiv.swap _ _), Equiv.swap_mul_self, one_mul] at this

theorem perm_of_swapReach (n : Nat) : ∀ (k : Nat), n + k = 5 → ∀ (t : Equiv.Perm (Fin 6))
    (cs' : List Nat), swapReach n k (permList t) cs' → ∃ p : Equiv.Perm (Fin 6), cs' = permList p := by
  induction n with
  | zero => intro k _ t cs' h; exact ⟨t, h⟩
  | succ n ih =>
    intro k hk t cs' h
    obtain ⟨c, h1, h2, h3⟩ := h
    have e := swapAt_permList t ⟨k, by omega⟩ ⟨c, h2⟩
    simp only at e
    rw [e] at h3
    exact ih (k + 1) (by omega) _ _ h3

theorem swapReach_iff (cs' : List Nat) :
    swapReach 5 0 [0, 1, 2, 3, 4, 5] cs' ↔ ∃ p : Equiv.Perm (Fin 6), cs' = permList p := by
  rw [← permList_one]
  constructor
  · exact perm_of_swapReach 5 0 rfl 1 cs'
  · rintro ⟨p, rfl⟩
    have := swapReach_of_perm 5 0 rfl 1 p (by intro j hj; omega)
    simpa using this

theorem mem_symmetries_iff (sym : List Nat) :
    sym ∈ symmetries ↔ ∃ r : Fin 8, sym = symmetries.getD r.val [] := by
  constructor
  · intro h
    simp only [symmetries, List.mem_cons, List.mem_singleton, List.not_mem_nil, or_false] at h
    rcases h with h | h | h | h | h | h | h | h
    · exact ⟨0, h⟩
    · exact ⟨1, h⟩
    · exact ⟨2, h⟩
    · exact ⟨3, h⟩
    · exact ⟨4, h⟩
    · exact ⟨5, h⟩
    · exact ⟨6, h⟩
    · exact ⟨7, h⟩
  · rintro ⟨r, rfl⟩
    revert r; decide

/-- The effect of the 5760 innermost bodies run for the index `i`: the id is written into every
unset slot of the orbit of `i`. -/
theorem symmetryLoop_marks (i : Nat) (pattern_id : Int) (t : Nat → Int) :
    MarkedFrom t (toInt16 pattern_id)
      (fun x => ∃ r : Fin 8, ∃ p : Equiv.Perm (Fin 6), x = indexOf (act r p (faceOf i)))
      (symmetryLoop (FaceIndexToColors i) pattern_id ⟨t, [0, 1, 2, 3, 4, 5]⟩).face_table := by
  obtain ⟨_, m⟩ := marks_symmetryFold (FaceIndexToColors i) pattern_id symmetries
    ⟨t, [0, 1, 2, 3, 4, 5]⟩ rfl
  refine m.congr ?_
  intro x
  simp only
  constructor
  · rintro ⟨sym, hs, cs', hc, rfl⟩
    obtain ⟨r, rfl⟩ := (mem_symmetries_iff sym).1 hs
    obtain ⟨p, rfl⟩ := (swapReach_iff cs').1 hc
    exact ⟨r, p, by rw [FaceIndexToColors_eq, transformedIndex_eq]⟩
  · rintro ⟨r, p, rfl⟩
    exact ⟨_, (mem_symmetries_iff _).2 ⟨r, rfl⟩, _, (swapReach_iff _).2 ⟨p, rfl⟩,
      by rw [FaceIndexToColors_eq, transformedIndex_eq]⟩

/-! ## The perfect-face test -/

theorem countInv_step (st : ColorCountState) (n0 n1 n2 n3 n4 n5 : Nat) (c : Nat) (hc : c < 6)
    (h : CountInv st n0 n1 n2 n3 n4 n5) :
    CountInv (colorCountStep st c) (n0 + if c = 0 then 1 else 0) (n1 + if c = 1 then 1 else 0)
      (n2 + if c = 2 then 1 else 0) (n3 + if c = 3 then 1 else 0)
      (n4 + if c = 4 then 1 else 0) (n5 + if c = 5 then 1 else 0) := by
  obtain ⟨h1, h2, h3, h4⟩ := h
  unfold CountInv colorCountStep
  rw [h1, h2]
  interval_cases c <;>
  · simp only [List.getD_cons_zero, List.getD_cons_succ, List.set_cons_zero, List.set_cons_succ,
      if_true, if_false, Nat.reduceEqDiff, Nat.add_zero, OfNat.ofNat_ne_zero, OfNat.zero_ne_ofNat,
      one_ne_zero, zero_ne_one]
    refine ⟨trivial, ?_, ?_, ?_⟩
    · split_ifs <;> omega
    · split_ifs <;> omega
    · split_ifs <;> omega

theorem countInv_fold (l : List Nat) (hl : ∀ x ∈ l, x < 6) (pre : List Nat)
    (st : ColorCountState)
    (h : CountInv st (pre.count 0) (pre.count 1) (pre.count 2) (pre.count 3) (pre.count 4)
      (pre.count 5)) :
    CountInv (l.foldl colorCountStep st) ((pre ++ l).count 0) ((pre ++ l).count 1)
      ((pre ++ l).count 2) ((pre ++ l).count 3) ((pre ++ l).count 4) ((pre ++ l).count 5) := by
  induction l generalizing pre st with
  | nil => simpa using h
  | cons c l ih =>
    have hc : c < 6 := hl c (List.mem_cons_self _ _)
    have hcount : ∀ v, (pre ++ [c]).count v = pre.count v + (if c = v then 1 else 0) := by
      intro v
      rw [List.count_append, List.count_singleton]
      by_cases hv : c = v <;> simp [hv]
    have := ih (fun x hx => hl x (List.mem_cons_of_mem _ hx)) (pre ++ [c]) (colorCountStep st c)
      (by simp only [hcount]; exact countInv_step st _ _ _ _ _ _ c hc h)
    simpa using this

theorem count_sum (l : List Nat) (hl : ∀ x ∈ l, x < 6) :
    l.count 0 + l.count 1 + l.count 2 + l.count 3 + l.count 4 + l.count 5 = l.length := by
  induction l with
  | nil => rfl
  | cons c l ih =>
    have hc : c < 6 := hl c (List.mem_cons_self _ _)
    have := ih (fun x hx => hl x (List.mem_cons_of_mem _ hx))
    simp only [List.count_cons, List.length_cons]
    interval_cases c <;> simp <;> omega

theorem getFaceColorCounts_inv (l : List Nat) (hl : ∀ x ∈ l, x < 6) :
    CountInv ⟨(List.foldl colorCountStep ⟨[0, 0, 0, 0, 0, 0], 0, 0⟩ l).color_counts,
        (GetFaceColorCounts l).1, (GetFaceColorCounts l).2⟩
      (l.count 0) (l.count 1) (l.count 2) (l.count 3) (l.count 4) (l.count 5) := by
  have := countInv_fold l hl [] ⟨[0, 0, 0, 0, 0, 0], 0, 0⟩ (by simp [CountInv])
  simpa [GetFaceColorCounts] using this

theorem counts_perfect_iff (l : List Nat) (hl : ∀ x ∈ l, x < 6) (h9 : l.length = 9) :
    ((GetFaceColorCounts l).1 = 6 ∧ (GetFaceColorCounts l).2 = 2) ↔
      ((∀ col, col < 6 → col ∈ l) ∧ (∀ col, l.count col ≤ 2)) := by
  obtain ⟨-, h2, ⟨a0, a1, a2, a3, a4, a5⟩, h4⟩ := getFaceColorCounts_inv l hl
  simp only at h2 a0 a1 a2 a3 a4 a5 h4
  have hs := count_sum l hl
  rw [h9] at hs
  constructor
  · rintro ⟨e1, e2⟩
    rw [e1] at h2
    rw [e2] at a0 a1 a2 a3 a4 a5
    constructor
    · intro col hcol
      rw [← List.count_pos_iff]
      interval_cases col <;> omega
    · intro col
      by_cases hcol : col < 6
      · interval_cases col <;> assumption
      · rw [List.count_eq_zero_of_not_mem (fun hm => hcol (hl col hm))]; omega
  · rintro ⟨e1, e2⟩
    have p0 := List.count_pos_iff.2 (e1 0 (by decide))
    have p1 := List.count_pos_iff.2 (e1 1 (by decide))
    have p2 := List.count_pos_iff.2 (e1 2 (by decide))
    have p3 := List.count_pos_iff.2 (e1 3 (by decide))
    have p4 := List.count_pos_iff.2 (e1 4 (by decide))
    have p5 := List.count_pos_iff.2 (e1 5 (by decide))
    have q0 := e2 0; have q1 := e2 1; have q2 := e2 2
    have q3 := e2 3; have q4 := e2 4; have q5 := e2 5
    constructor
    · omega
    · omega

theorem touching_iff_tables : ∀ a b : Fin 9, (a ≠ b ∧ touching a.val b.val) ↔
    ((a.val, b.val) ∈ sides_to_compare ++ corners_to_compare ∨
      (b.val, a.val) ∈ sides_to_compare ++ corners_to_compare) := by
  decide

theorem tables_lt : ∀ p ∈ sides_to_compare ++ corners_to_compare, p.1 < 9 ∧ p.2 < 9 := by
  decide

theorem connectedness_iff (l : List Nat) :
    GetFaceColorConnectedness l = NOTHING_TOUCHING ↔
      ∀ a b, a < 9 → b < 9 → a ≠ b → touching a b → l.getD a 0 ≠ l.getD b 0 := by
  have key : GetFaceColorConnectedness l = NOTHING_TOUCHING ↔
      ∀ p ∈ sides_to_compare ++ corners_to_compare, l.getD p.1 0 ≠ l.getD p.2 0 := by
    unfold GetFaceColorConnectedness
    by_cases h1 : sides_to_compare.any (fun p => l.getD p.1 0 == l.getD p.2 0) = true
    · simp only [h1, if_true]
      constructor
      · intro h; exact absurd h (by decide)
      · intro h
        obtain ⟨p, hp, he⟩ := List.any_eq_true.1 h1
        exact absurd (by simpa using he) (h p (List.mem_append_left _ hp))
    · by_cases h2 : corners_to_compare.any (fun p => l.getD p.1 0 == l.getD p.2 0) = true
      · simp only [h1, h2, if_true, if_false]
        constructor
        · intro h; exact absurd h (by decide)
        · intro h
          obtain ⟨p, hp, he⟩ := List.any_eq_true.1 h2
          exact absurd (by simpa using he) (h p (List.mem_append_right _ hp))
      · simp only [h1, h2, if_false, Bool.false_eq_true, true_iff]
        intro p hp he
        rcases List.mem_append.1 hp with hp | hp
        · exact h1 (List.any_eq_true.2 ⟨p, hp, by simpa using he⟩)
        · exact h2 (List.any_eq_true.2 ⟨p, hp, by simpa using he⟩)
  rw [key]
  constructor
  · intro h a b ha hb hab ht
    rcases (touching_iff_tables ⟨a, ha⟩ ⟨b, hb⟩).1 ⟨by simpa [Fin.ext_iff] using hab, ht⟩ with hm | hm
    · exact h _ hm
    · exact fun e => h _ hm e.symm
  · intro h p hp
    obtain ⟨h1, h2⟩ := tables_lt p hp
    have := (touching_iff_tables ⟨p.1, h1⟩ ⟨p.2, h2⟩).2 (Or.inl hp)
    exact h p.1 p.2 h1 h2 (by simpa [Fin.ext_iff] using this.1) this.2

theorem colorsOf_lt (c : Face) : ∀ x ∈ colorsOf c, x < 6 := by
  intro x hx
  simp only [colorsOf, List.mem_cons, List.mem_singleton, List.not_mem_nil, or_false] at hx
  rcases hx with h | h | h | h | h | h | h | h | h <;> rw [h] <;> exact cell_lt _ _

/-- The test of `BuildFaceTable` accepts exactly the perfect faces. -/
theorem isPerfectIndex_iff (i : Nat) :
    isPerfectIndex i = true ↔ PerfectFace (FaceIndexToColors i) := by
  have hl := colorsOf_lt (faceOf i)
  have h9 : (colorsOf (faceOf i)).length = 9 := rfl
  rw [← FaceIndexToColors_eq] at hl h9
  unfold isPerfectIndex PerfectFace
  simp only [Bool.and_eq_true, beq_iff_eq, CUBE_COLORS]
  rw [connectedness_iff, counts_perfect_iff _ hl h9, and_assoc]

/-! ## Perfectness is constant on orbits -/

theorem colorsOf_eq_map (c : Face) : colorsOf c = (List.ofFn c).map Fin.val := by
  simp [colorsOf, cell, List.ofFn_succ]
  exact ⟨rfl, rfl, rfl, rfl, rfl, rfl⟩

theorem count_colorsOf (c : Face) (v : Fin 6) :
    (colorsOf c).count v.val = (List.ofFn c).count v := by
  rw [colorsOf_eq_map]
  exact List.count_map_of_injective _ _ Fin.val_injective v

theorem symF_perm : ∀ r : Fin 8, ∃ r' : Fin 8,
    (∀ s : Fin 9, symF r (symF r' s) = s) ∧ (∀ s : Fin 9, symF r' (symF r s) = s) := by
  decide

theorem count_act (r : Fin 8) (p : Equiv.Perm (Fin 6)) (c : Face) (v : Fin 6) :
    (colorsOf (act r p c)).count (p v).val = (colorsOf c).count v.val := by
  obtain ⟨r', h1, h2⟩ := symF_perm r
  let e : Equiv.Perm (Fin 9) := ⟨symF r, symF r', h2, h1⟩
  have hact : act r p c = p ∘ (c ∘ e) := rfl
  rw [count_colorsOf, count_colorsOf, hact, ← List.map_ofFn,
    List.count_map_of_injective _ _ p.injective]
  exact (Equiv.Perm.ofFn_comp_perm e c).count_eq v

theorem touching_symF : ∀ (r : Fin 8) (a b : Fin 9), touching a.val b.val →
    touching (symF r a).val (symF r b).val := by
  decide

theorem symF_injective (r : Fin 8) : Function.Injective (symF r) := by
  obtain ⟨r', _, h2⟩ := symF_perm r
  intro a b h
  rw [← h2 a, ← h2 b, h]

theorem cell_val (c : Face) (s : Fin 9) : cell c s.val = (c s).val := by
  simp [cell, s.isLt]

theorem perf_act (r : Fin 8) (p : Equiv.Perm (Fin 6)) (c : Face) (h : Perf c) :
    Perf (act r p c) := by
  obtain ⟨h1, h2, h3⟩ := h
  refine ⟨?_, ?_, ?_⟩
  · intro col hcol
    rw [← List.count_pos_iff]
    have e := count_act r p c (p⁻¹ ⟨col, hcol⟩)
    simp only [Equiv.Perm.apply_inv_self] at e
    rw [e, List.count_pos_iff]
    exact h1 _ (Fin.isLt _)
  · intro col
    by_cases hcol : col < 6
    · have e := count_act r p c (p⁻¹ ⟨col, hcol⟩)
      simp only [Equiv.Perm.apply_inv_self] at e
      rw [e]
      exact h2 _
    · rw [List.count_eq_zero_of_not_mem (fun hm => hcol (colorsOf_lt _ col hm))]; omega
  · intro a b ha hb hab ht
    rw [colorsOf_getD, colorsOf_getD]
    have ea := cell_val (act r p c) ⟨a, ha⟩
    have eb := cell_val (act r p c) ⟨b, hb⟩
    simp only at ea eb
    rw [ea, eb, act_apply, act_apply]
    intro he
    have he' := p.injective (Fin.ext he)
    have hne : symF r ⟨a, ha⟩ ≠ symF r ⟨b, hb⟩ := fun h' =>
      hab (congrArg Fin.val (symF_injective r h'))
    have := h3 (symF r ⟨a, ha⟩).val (symF r ⟨b, hb⟩).val (Fin.isLt _) (Fin.isLt _)
      (fun h' => hne (Fin.ext h')) (touching_symF r ⟨a, ha⟩ ⟨b, hb⟩ ht)
    rw [colorsOf_getD, colorsOf_getD, cell_val, cell_val] at this
    exact this (congrArg Fin.val he')

theorem perf_orb {c d : Face} (h : Orb c d) : Perf c ↔ Perf d := by
  constructor
  · intro hc
    obtain ⟨r, p, rfl⟩ := h
    exact perf_act r p c hc
  · intro hd
    obtain ⟨r, p, rfl⟩ := h.symm
    exact perf_act r p d hd

theorem isPerfectIndex_iff_perf (i : Nat) : isPerfectIndex i = true ↔ Perf (faceOf i) := by
  rw [isPerfectIndex_iff, FaceIndexToColors_eq]; rfl

/-! ## The first index of an orbit has restricted growth -/

theorem rgs_violation (rs : List Nat) : ∀ m, ¬ RGSList m rs → (∀ x ∈ rs, x < 6) →
    ∃ t M, m ≤ M ∧ t < rs.length ∧ M < rs.getD t 0 ∧ ∀ u, u < t → rs.getD u 0 < M := by
  induction rs with
  | nil => intro m h; exact absurd trivial h
  | cons d rest ih =>
    intro m h hlt
    by_cases hd : d ≤ m
    · have hrest : ¬ RGSList (max m (d + 1)) rest := fun hr =>
        h ⟨hd, hlt d (List.mem_cons_self _ _), hr⟩
      obtain ⟨t, M, hmM, ht, hM, hu⟩ :=
        ih _ hrest (fun x hx => hlt x (List.mem_cons_of_mem _ hx))
      refine ⟨t + 1, M, le_trans (le_max_left _ _) hmM, by simpa using ht, by simpa using hM, ?_⟩
      intro u hu'
      cases u with
      | zero =>
        have : d + 1 ≤ M := le_trans (le_max_right _ _) hmM
        simpa using this
      | succ u => simpa using hu u (by omega)
    · exact ⟨0, m, le_refl _, by simp, by simpa using Nat.lt_of_not_le hd,
        fun u hu => absurd hu (by omega)⟩

theorem indexOf_lt_of_top (c d : Face) (s : Nat) (hs : s < 9)
    (hk : ∀ k, s < k → k < 9 → cell d k = cell c k) (hlt : cell d s < cell c s) :
    indexOf d < indexOf c := by
  unfold indexOf
  have c0 := cell_lt c 0; have c1 := cell_lt c 1; have c2 := cell_lt c 2
  have c3 := cell_lt c 3; have c4 := cell_lt c 4; have c5 := cell_lt c 5
  have c6 := cell_lt c 6; have c7 := cell_lt c 7; have c8 := cell_lt c 8
  have d0 := cell_lt d 0; have d1 := cell_lt d 1; have d2 := cell_lt d 2
  have d3 := cell_lt d 3; have d4 := cell_lt d 4; have d5 := cell_lt d 5
  have d6 := cell_lt d 6; have d7 := cell_lt d 7; have d8 := cell_lt d 8
  have e1 := hk 1; have e2 := hk 2; have e3 := hk 3; have e4 := hk 4
  have e5 := hk 5; have e6 := hk 6; have e7 := hk 7; have e8 := hk 8
  interval_cases s <;> simp only [Nat.lt_irrefl, Nat.reduceLT, forall_true_left,
    IsEmpty.forall_iff] at e1 e2 e3 e4 e5 e6 e7 e8 <;> omega

theorem reverse_colorsOf_getD (c : Face) (t : Nat) (ht : t < 9) :
    (colorsOf c).reverse.getD t 0 = cell c (8 - t) := by
  interval_cases t <;> rfl

theorem cell_act_zero (p : Equiv.Perm (Fin 6)) (c : Face) (k : Nat) (hk : k < 9) :
    cell (act 0 p c) k = (p ⟨cell c k, cell_lt c k⟩).val := by
  have e := cell_val (act 0 p c) ⟨k, hk⟩
  simp only at e
  rw [e, act_apply, symF_zero]
  congr 2
  exact Fin.ext (cell_val c ⟨k, hk⟩).symm

/-- A face whose colours do not have restricted growth has a smaller index in its orbit. -/
theorem exists_smaller_of_not_rgs (c : Face) (h : ¬ RGSList 0 (colorsOf c).reverse) :
    ∃ d, Orb c d ∧ indexOf d < indexOf c := by
  obtain ⟨t, M, _, ht, hM, hu⟩ := rgs_violation _ 0 h (by
    intro x hx; exact colorsOf_lt c x (List.mem_reverse.1 hx))
  have ht9 : t < 9 := by simpa [colorsOf] using ht
  rw [reverse_colorsOf_getD c t ht9] at hM
  have hw := cell_lt c (8 - t)
  have hM6 : M < 6 := by omega
  refine ⟨act 0 (Equiv.swap ⟨M, hM6⟩ ⟨cell c (8 - t), hw⟩) c, ⟨0, _, rfl⟩, ?_⟩
  apply indexOf_lt_of_top _ _ (8 - t) (by omega)
  · intro k hk1 hk2
    rw [cell_act_zero _ _ _ hk2]
    have hlt := hu (8 - k) (by omega)
    rw [reverse_colorsOf_getD c _ (by omega)] at hlt
    have e8 : 8 - (8 - k) = k := by omega
    rw [e8] at hlt
    rw [Equiv.swap_apply_of_ne_of_ne]
    · intro e; have := congrArg Fin.val e; simp at this; omega
    · intro e; have := congrArg Fin.val e; simp at this; omega
  · rw [cell_act_zero _ _ _ (by omega)]
    rw [Equiv.swap_apply_right]
    exact hM

theorem rgs_of_isFirst (i : Nat) (hi : i < FACE_ARRANGEMENTS) (h : IsFirst i) :
    RGSList 0 (FaceIndexToColors i).reverse := by
  by_contra hn
  rw [FaceIndexToColors_eq] at hn
  obtain ⟨d, ho, hlt⟩ := exists_smaller_of_not_rgs _ hn
  rw [indexOf_faceOf i hi] at hlt
  apply h (indexOf d) hlt
  rw [faceOf_indexOf]
  exact ho.symm

theorem mem_rgsLists (n : Nat) : ∀ (m : Nat) (rs : List Nat), rs.length = n → RGSList m rs →
    rs ∈ rgsLists n m := by
  induction n with
  | zero =>
    intro m rs hl _
    have : rs = [] := List.length_eq_zero.1 hl
    simp [rgsLists, this]
  | succ n ih =>
    intro m rs hl h
    cases rs with
    | nil => simp at hl
    | cons d rest =>
      obtain ⟨h1, h2, h3⟩ := h
      simp only [rgsLists, List.mem_flatMap, List.mem_range, List.mem_map]
      exact ⟨d, by omega, rest, ih _ rest (by simpa using hl) h3, rfl⟩

theorem length_rgsLists (n : Nat) : ∀ m, (rgsLists n m).length = rgsCount n m := by
  induction n with
  | zero => intro m; rfl
  | succ n ih =>
    intro m
    simp only [rgsLists, rgsCount, List.length_flatMap, List.length_map]
    congr 1
    apply List.map_congr_left
    intro d _
    simp only [Function.comp, List.length_map]
    exact ih _

theorem rgsCount_nine : rgsCount 9 0 = 20648 := by decide

theorem rgsAll_sound (P : List Nat → Bool) (n : Nat) : ∀ (m : Nat) (pre rs : List Nat),
    rgsAll P n m pre = true → rs.length = n → RGSList m rs →
    (∀ k, partialOkB ((rs.take k).reverse ++ pre) = true) → P (rs.reverse ++ pre) = true := by
  induction n with
  | zero =>
    intro m pre rs h hl _ _
    have : rs = [] := List.length_eq_zero.1 hl
    subst this
    simpa [rgsAll] using h
  | succ n ih =>
    intro m pre rs h hl hr hq
    cases rs with
    | nil => simp at hl
    | cons d rest =>
      obtain ⟨h1, h2, h3⟩ := hr
      simp only [rgsAll, List.all_eq_true, List.mem_range, Bool.or_eq_true,
        Bool.not_eq_true'] at h
      have hq1 := hq 1
      simp only [List.take_succ_cons, List.take_zero, List.reverse_singleton,
        List.singleton_append] at hq1
      have hd := (h d (by omega)).resolve_left (by rw [hq1]; decide)
      have := ih _ (d :: pre) rest hd (by simpa using hl) h3 (by
        intro k
        have := hq (k + 1)
        simpa using this)
      simpa using this

theorem noTouchB_iff (l : List Nat) (hl : l.length = 9) :
    noTouchB l = true ↔
      ∀ p ∈ sides_to_compare ++ corners_to_compare, l.getD p.1 0 ≠ l.getD p.2 0 := by
  match l, hl with
  | [a0, a1, a2, a3, a4, a5, a6, a7, a8], _ =>
    simp only [noTouchB, sides_to_compare, corners_to_compare, List.cons_append, List.nil_append,
      List.forall_mem_cons, List.getD_cons_zero, List.getD_cons_succ, Bool.and_eq_true,
      bne_iff_ne, ne_eq, List.not_mem_nil, IsEmpty.forall_iff, implies_true, and_true, and_assoc]

theorem partialOkB_drop (l : List Nat) (hl : l.length = 9) (h6 : ∀ x ∈ l, x < 6)
    (h : noTouchB l = true) (j : Nat) : partialOkB (l.drop j) = true := by
  match l, hl with
  | [a0, a1, a2, a3, a4, a5, a6, a7, a8], _ =>
    simp only [List.mem_cons, List.mem_singleton, List.not_mem_nil, or_false, forall_eq_or_imp,
      forall_eq] at h6
    obtain ⟨b0, b1, b2, b3, b4, b5, b6, b7, b8⟩ := h6
    simp only [noTouchB, Bool.and_eq_true, bne_iff_ne, ne_eq] at h
    obtain ⟨⟨⟨⟨⟨⟨⟨⟨⟨⟨⟨⟨⟨⟨⟨⟨⟨⟨⟨n1, n2⟩, n3⟩, n4⟩, n5⟩, n6⟩, n7⟩, n8⟩, n9⟩, n10⟩, n11⟩, n12⟩, n13⟩,
      n14⟩, n15⟩, n16⟩, n17⟩, n18⟩, n19⟩, n20⟩ := h
    have hj : j < 10 ∨ 10 ≤ j := by omega
    rcases hj with hj | hj
    · interval_cases j <;>
        simp only [partialOkB, padTo9, noTouchB, List.drop, List.length_cons, List.length_nil,
          List.take, List.cons_append, List.nil_append, Bool.and_eq_true, bne_iff_ne, ne_eq,
          Nat.reduceSub, Nat.reduceAdd] <;>
        refine ⟨⟨⟨⟨⟨⟨⟨⟨⟨⟨⟨⟨⟨⟨⟨⟨⟨⟨⟨?_, ?_⟩, ?_⟩, ?_⟩, ?_⟩, ?_⟩, ?_⟩, ?_⟩, ?_⟩, ?_⟩, ?_⟩, ?_⟩,
          ?_⟩, ?_⟩, ?_⟩, ?_⟩, ?_⟩, ?_⟩, ?_⟩, ?_⟩ <;> first | assumption | omega
    · have : List.drop j [a0, a1, a2, a3, a4, a5, a6, a7, a8] = [] :=
        List.drop_of_length_le (by simpa using by omega)
      rw [this]
      decide

/-- Every test that holds on all restricted growth faces without equal touching cells holds
at the first index of every orbit of such faces. -/
theorem rgsAll_isFirst (P : List Nat → Bool) (hP : rgsAll P 9 0 [] = true) (i : Nat)
    (hi : i < FACE_ARRANGEMENTS) (h : IsFirst i) (ht : noTouchB (FaceIndexToColors i) = true) :
    P (FaceIndexToColors i) = true := by
  have h9 : (FaceIndexToColors i).length = 9 := by rw [FaceIndexToColors_eq]; rfl
  have h6 : ∀ x ∈ FaceIndexToColors i, x < 6 := by
    rw [FaceIndexToColors_eq]; exact colorsOf_lt _
  have := rgsAll_sound P 9 0 [] (FaceIndexToColors i).reverse hP
    (by rw [List.length_reverse, h9]) (rgs_of_isFirst i hi h) (by
      intro k
      rw [List.append_nil, List.reverse_take, List.reverse_reverse]
      exact partialOkB_drop _ h9 h6 ht _)
  simpa using this

theorem faceIndexToColors_injOn (i j : Nat) (hi : i < FACE_ARRANGEMENTS)
    (hj : j < FACE_ARRANGEMENTS) (h : FaceIndexToColors i = FaceIndexToColors j) : i = j := by
  rw [FaceIndexToColors_eq, FaceIndexToColors_eq] at h
  have : faceOf i = faceOf j := by
    apply face_ext
    intro k _
    rw [← colorsOf_getD, ← colorsOf_getD, h]
  rw [← indexOf_faceOf i hi, ← indexOf_faceOf j hj, this]

/-- There are at most 20648 orbits: any duplicate-free list of first indexes is that short. -/
theorem length_le_of_isFirst (L : List Nat) (hnd : L.Nodup)
    (hL : ∀ i ∈ L, i < FACE_ARRANGEMENTS ∧ IsFirst i) : L.length ≤ 20648 := by
  have h1 : (L.map (fun i => (FaceIndexToColors i).reverse)).Nodup := by
    apply List.Nodup.map_on _ hnd
    intro x hx y hy hxy
    exact faceIndexToColors_injOn x y (hL x hx).1 (hL y hy).1 (List.reverse_injective hxy)
  have h2 : L.map (fun i => (FaceIndexToColors i).reverse) ⊆ rgsLists 9 0 := by
    intro rs hrs
    obtain ⟨i, hi, rfl⟩ := List.mem_map.1 hrs
    exact mem_rgsLists 9 0 _ (by rw [FaceIndexToColors_eq]; rfl)
      (rgs_of_isFirst i (hL i hi).1 (hL i hi).2)
  have := (List.subperm_of_subset h1 h2).length_le
  rwa [List.length_map, length_rgsLists, rgsCount_nine] at this

/-! ## The sixteen orbits of perfect faces -/

set_option maxRecDepth 100000 in
theorem leafCheck_all : rgsAll leafCheck 9 0 [] = true := by decide!

set_option maxRecDepth 100000 in
theorem perfectReps_distinct : ∀ y1 ∈ perfectReps, ∀ y2 ∈ perfectReps, y1 ≠ y2 →
    ∀ r ∈ List.range 8, sameKernelB (permuted y1 r) y2 = false := by decide!

theorem perfectReps_perf : ∀ y ∈ perfectReps, perfB y = true := by decide!

theorem perfectReps_face : ∀ y ∈ perfectReps, colorsOf (faceOfList y) = y := by decide!

theorem perfectReps_nodup : perfectReps.Nodup := by decide!

theorem touch_tables_iff (l : List Nat) :
    (∀ p ∈ sides_to_compare ++ corners_to_compare, l.getD p.1 0 ≠ l.getD p.2 0) ↔
      ∀ a b, a < 9 → b < 9 → a ≠ b → touching a b → l.getD a 0 ≠ l.getD b 0 := by
  constructor
  · intro h a b ha hb hab ht
    rcases (touching_iff_tables ⟨a, ha⟩ ⟨b, hb⟩).1 ⟨by simpa [Fin.ext_iff] using hab, ht⟩ with hm | hm
    · exact h _ hm
    · exact fun e => h _ hm e.symm
  · intro h p hp
    obtain ⟨h1, h2⟩ := tables_lt p hp
    have := (touching_iff_tables ⟨p.1, h1⟩ ⟨p.2, h2⟩).2 (Or.inl hp)
    exact h p.1 p.2 h1 h2 (by simpa [Fin.ext_iff] using this.1) this.2

theorem perfB_iff (l : List Nat) (h9 : l.length = 9) (h6 : ∀ x ∈ l, x < 6) :
    perfB l = true ↔ PerfectFace l := by
  unfold perfB PerfectFace
  rw [Bool.and_eq_true, noTouchB_iff l h9, touch_tables_iff]
  simp only [List.all_eq_true, List.mem_range, Bool.and_eq_true, decide_eq_true_eq]
  constructor
  · rintro ⟨ht, hc⟩
    refine ⟨fun col hcol => List.count_pos_iff.1 (hc col hcol).1, fun col => ?_, ht⟩
    by_cases hcol : col < 6
    · exact (hc col hcol).2
    · rw [List.count_eq_zero_of_not_mem (fun hm => hcol (h6 col hm))]; omega
  · rintro ⟨h1, h2, ht⟩
    exact ⟨ht, fun col hcol => ⟨List.count_pos_iff.2 (h1 col hcol), h2 col⟩⟩

theorem perfB_colorsOf (c : Face) : perfB (colorsOf c) = true ↔ Perf c :=
  perfB_iff _ rfl (colorsOf_lt c)

theorem zip_mem_iff (a b : List Nat) (x : Nat × Nat) :
    x ∈ a.zip b ↔ ∃ p, p < a.length ∧ p < b.length ∧ x = (a.getD p 0, b.getD p 0) := by
  rw [List.mem_iff_getElem]
  constructor
  · rintro ⟨p, hp, rfl⟩
    have hp' : p < a.length ∧ p < b.length := by simpa [List.length_zip] using hp
    refine ⟨p, hp'.1, hp'.2, ?_⟩
    rw [List.getElem_zip, List.getD_eq_getElem _ _ hp'.1, List.getD_eq_getElem _ _ hp'.2]
  · rintro ⟨p, h1, h2, rfl⟩
    refine ⟨p, by simpa [List.length_zip] using ⟨h1, h2⟩, ?_⟩
    rw [List.getElem_zip, List.getD_eq_getElem _ _ h1, List.getD_eq_getElem _ _ h2]

theorem sameKernelB_iff (a b : List Nat) (ha : a.length = 9) (hb : b.length = 9) :
    sameKernelB a b = true ↔ ∀ p q, p < 9 → q < 9 →
      (a.getD p 0 = a.getD q 0 ↔ b.getD p 0 = b.getD q 0) := by
  unfold sameKernelB
  simp only [List.all_eq_true, zip_mem_iff, ha, hb]
  constructor
  · intro h p q hp hq
    have := h _ ⟨p, hp, hp, rfl⟩ _ ⟨q, hq, hq, rfl⟩
    simpa using this
  · rintro h x ⟨p, hp, _, rfl⟩ y ⟨q, hq, _, rfl⟩
    have := h p q hp hq
    simpa using this

theorem permuted_length (c : Face) (r : Fin 8) : (permuted (colorsOf c) r.val).length = 9 := by
  fin_cases r <;> rfl

theorem permuted_getD (c : Face) (r : Fin 8) (p : Fin 9) :
    (permuted (colorsOf c) r.val).getD p.val 0 = (c (symF r p)).val := by
  rw [← cell_val]
  fin_cases r <;> fin_cases p <;> rfl

theorem exists_perm_of_kernel (f g : Face) (hf : Function.Surjective f)
    (hk : ∀ p q, f p = f q ↔ g p = g q) : ∃ e : Equiv.Perm (Fin 6), g = e ∘ f := by
  obtain ⟨s, hs⟩ := hf.hasRightInverse
  have hinj : Function.Injective (g ∘ s) := by
    intro v w h
    have := (hk (s v) (s w)).2 h
    rwa [hs v, hs w] at this
  have hbij : Function.Bijective (g ∘ s) := Finite.injective_iff_bijective.1 hinj
  refine ⟨Equiv.ofBijective _ hbij, ?_⟩
  funext p
  simp only [Function.comp, Equiv.ofBijective_apply]
  exact ((hk (s (f p)) p).1 (hs (f p))).symm

theorem surjective_of_perf (c : Face) (h : Perf c) : Function.Surjective c := by
  intro v
  have hm := h.1 v.val v.isLt
  rw [colorsOf_eq_map, List.mem_map] at hm
  obtain ⟨x, hx, hv⟩ := hm
  obtain ⟨s, rfl⟩ := (List.mem_ofFn _ _).1 hx
  exact ⟨s, Fin.ext hv⟩

theorem orb_of_sameKernel (c d : Face) (hc : Perf c) (r : Fin 8)
    (h : sameKernelB (permuted (colorsOf c) r.val) (colorsOf d) = true) : Orb c d := by
  rw [sameKernelB_iff _ (colorsOf d) (permuted_length c r) rfl] at h
  obtain ⟨r', h1, h2⟩ := symF_perm r
  have hsurj : Function.Surjective (fun s => c (symF r s)) := by
    intro v
    obtain ⟨s, hs⟩ := surjective_of_perf c hc v
    exact ⟨symF r' s, by simp only [h1, hs]⟩
  obtain ⟨e, he⟩ := exists_perm_of_kernel (fun s => c (symF r s)) d hsurj (by
    intro p q
    have := h p.val q.val p.isLt q.isLt
    rw [permuted_getD, permuted_getD, colorsOf_getD, colorsOf_getD, cell_val, cell_val] at this
    simpa [Fin.ext_iff] using this)
  exact ⟨r, e, he⟩

theorem sameKernel_of_orb (c d : Face) (h : Orb c d) :
    ∃ r : Fin 8, sameKernelB (permuted (colorsOf c) r.val) (colorsOf d) = true := by
  obtain ⟨r, e, rfl⟩ := h
  refine ⟨r, ?_⟩
  rw [sameKernelB_iff _ (colorsOf (act r e c)) (permuted_length c r) rfl]
  intro p q hp hq
  have e1 := permuted_getD c r ⟨p, hp⟩
  have e2 := permuted_getD c r ⟨q, hq⟩
  have e3 := cell_val (act r e c) ⟨p, hp⟩
  have e4 := cell_val (act r e c) ⟨q, hq⟩
  simp only at e1 e2 e3 e4
  rw [e1, e2, colorsOf_getD, colorsOf_getD, e3, e4, act_apply, act_apply]
  constructor
  · intro h; rw [Fin.ext h]
  · intro h; exact congrArg Fin.val (e.injective (Fin.ext h))

theorem listIndex_colorsOf (c : Face) : listIndex (colorsOf c) = indexOf c := rfl

theorem perfectReps_getD_mem (k : Nat) (hk : k < 16) : perfectReps.getD k [] ∈ perfectReps := by
  rw [List.getD_eq_getElem _ _ (by simpa [perfectReps] using hk)]
  exact List.getElem_mem _

/-- The first index of an orbit of perfect faces is one of the sixteen listed faces. -/
theorem perfect_first_mem (i : Nat) (hi : i < FACE_ARRANGEMENTS) (hf : IsFirst i)
    (hp : Perf (faceOf i)) : FaceIndexToColors i ∈ perfectReps := by
  have hperf : perfB (FaceIndexToColors i) = true := by
    rw [FaceIndexToColors_eq]; exact (perfB_colorsOf _).2 hp
  have hnt : noTouchB (FaceIndexToColors i) = true := by
    unfold perfB at hperf
    exact (Bool.and_eq_true _ _ ▸ hperf).1
  have h := rgsAll_isFirst leafCheck leafCheck_all i hi hf hnt
  unfold leafCheck at h
  rw [hperf] at h
  simp only [Bool.not_true, Bool.false_or, Bool.or_eq_true, List.any_eq_true] at h
  rcases h with h | ⟨hint, _, hok⟩
  · simpa using h
  · exfalso
    unfold hintOkB at hok
    simp only [Bool.and_eq_true, Nat.blt_eq] at hok
    obtain ⟨_, hr, hk, hlt, hsame⟩ := hok
    have hy := perfectReps_getD_mem hint.2.2 hk
    have hface := perfectReps_face _ hy
    have horb := orb_of_sameKernel (faceOf i) (faceOfList (perfectReps.getD hint.2.2 [])) hp
      ⟨hint.2.1, hr⟩ (by rw [hface, ← FaceIndexToColors_eq]; exact hsame)
    have hlt' : indexOf (faceOfList (perfectReps.getD hint.2.2 [])) < i := by
      rw [← listIndex_colorsOf, hface]
      rw [FaceIndexToColors_eq, listIndex_colorsOf, indexOf_faceOf i hi] at hlt
      exact hlt
    apply hf _ hlt'
    rw [faceOf_indexOf]
    exact horb.symm

theorem exists_first_in_orbit (c : Face) :
    ∃ j, IsFirst j ∧ Orb (faceOf j) c ∧ j ≤ indexOf c := by
  classical
  have hex : ∃ j, Orb (faceOf j) c := ⟨indexOf c, by rw [faceOf_indexOf]; exact Orb.refl c⟩
  refine ⟨Nat.find hex, ?_, Nat.find_spec hex, Nat.find_min' hex
    (by rw [faceOf_indexOf]; exact Orb.refl c)⟩
  intro j hj ho
  exact Nat.find_min hex hj (ho.trans (Nat.find_spec hex))

/-- Each of the sixteen listed faces is perfect and has the first index of its orbit. -/
theorem reps_isFirst (y : List Nat) (hy : y ∈ perfectReps) :
    IsFirst (listIndex y) ∧ Perf (faceOfList y) := by
  have hface := perfectReps_face y hy
  have hperf : Perf (faceOfList y) := by
    rw [← perfB_colorsOf, hface]; exact perfectReps_perf y hy
  refine ⟨?_, hperf⟩
  obtain ⟨j, hjf, hjo, hjle⟩ := exists_first_in_orbit (faceOfList y)
  have hjlt : j < FACE_ARRANGEMENTS := lt_of_le_of_lt hjle (indexOf_lt _)
  have hjp : Perf (faceOf j) := (perf_orb hjo).2 hperf
  have hjm := perfect_first_mem j hjlt hjf hjp
  by_cases heq : FaceIndexToColors j = y
  · have : listIndex y = j := by
      rw [← heq, FaceIndexToColors_eq, listIndex_colorsOf, indexOf_faceOf j hjlt]
    rw [this]; exact hjf
  · exfalso
    obtain ⟨r, hr⟩ := sameKernel_of_orb _ _ hjo
    rw [hface, ← FaceIndexToColors_eq] at hr
    have := perfectReps_distinct _ hjm y hy heq r.val (List.mem_range.2 r.isLt)
    rw [this] at hr
    exact Bool.false_ne_true hr

/-- A duplicate-free list of first indexes of orbits of perfect faces has at most 16 members. -/
theorem length_le_of_isFirst_perf (L : List Nat) (hnd : L.Nodup)
    (hL : ∀ i ∈ L, i < FACE_ARRANGEMENTS ∧ IsFirst i ∧ Perf (faceOf i)) : L.length ≤ 16 := by
  have h1 : (L.map FaceIndexToColors).Nodup := by
    apply List.Nodup.map_on _ hnd
    intro x hx y hy hxy
    exact faceIndexToColors_injOn x y (hL x hx).1 (hL y hy).1 hxy
  have h2 : L.map FaceIndexToColors ⊆ perfectReps := by
    intro rs hrs
    obtain ⟨i, hi, rfl⟩ := List.mem_map.1 hrs
    exact perfect_first_mem i (hL i hi).1 (hL i hi).2.1 (hL i hi).2.2
  have := (List.subperm_of_subset h1 h2).length_le
  rwa [List.length_map] at this

/-- A list that holds the first index of every orbit of perfect faces has at least 16 members. -/
theorem length_ge_of_all_first_perf (L : List Nat)
    (hL : ∀ i, i < FACE_ARRANGEMENTS → IsFirst i → Perf (faceOf i) → i ∈ L) :
    16 ≤ L.length := by
  have h1 : (perfectReps.map listIndex).Nodup := by decide
  have h2 : perfectReps.map listIndex ⊆ L := by
    intro i hi
    obtain ⟨y, hy, rfl⟩ := List.mem_map.1 hi
    have hface := perfectReps_face y hy
    obtain ⟨hf, hp⟩ := reps_isFirst y hy
    have e : listIndex y = indexOf (faceOfList y) := by rw [← listIndex_colorsOf, hface]
    apply hL _ (by rw [e]; exact indexOf_lt _) hf
    rw [e, faceOf_indexOf]; exact hp
  have := (List.subperm_of_subset h1 h2).length_le
  simpa [perfectReps] using this

/-! ## The loop invariant of `BuildFaceTable` -/

theorem toInt16_of_lt (x : Nat) (h : x < 32767) : toInt16 (x : Int) = (x : Int) := by
  unfold toInt16; omega

theorem orbit_index_iff (n k : Nat) (hk : k < FACE_ARRANGEMENTS) :
    (∃ r : Fin 8, ∃ p : Equiv.Perm (Fin 6), k = indexOf (act r p (faceOf n))) ↔
      Orb (faceOf n) (faceOf k) := by
  constructor
  · rintro ⟨r, p, rfl⟩
    exact ⟨r, p, by rw [faceOf_indexOf]⟩
  · rintro ⟨r, p, h⟩
    exact ⟨r, p, by rw [← h, indexOf_faceOf k hk]⟩

theorem seen_succ_iff (n k : Nat) :
    Seen (n + 1) k ↔ Seen n k ∨ Orb (faceOf n) (faceOf k) := by
  constructor
  · rintro ⟨j, hj, ho⟩
    by_cases h : j = n
    · subst h; exact Or.inr ho
    · exact Or.inl ⟨j, by omega, ho⟩
  · rintro (⟨j, hj, ho⟩ | ho)
    · exact ⟨j, by omega, ho⟩
    · exact ⟨n, by omega, ho⟩

theorem isFirst_iff_not_seen (n : Nat) : IsFirst n ↔ ¬ Seen n n := by
  constructor
  · rintro h ⟨j, hj, ho⟩; exact h j hj ho
  · intro h j hj ho; exact h ⟨j, hj, ho⟩

theorem buildInv_zero : BuildInv 0 (buildLoop 0) := by
  have hs : ∀ k, ¬ Seen 0 k := by rintro k ⟨j, hj, _⟩; omega
  refine ⟨?_, ?_, ?_, ?_, ?_, ?_, ?_, ?_⟩
  · intro k _; simp [buildLoop, hs]
  · intro k _ h; exact absurd h (hs k)
  · intro k _ h; exact absurd h (hs k)
  · intro k k' _ _ h; exact absurd h (hs k)
  · intro k k' _ _ _; rfl
  · exact ⟨[], List.nodup_nil, by simp, rfl⟩
  · exact ⟨[], List.nodup_nil, by simp, rfl⟩
  · intro v hv; simp [buildLoop] at hv

/-- An index that was already written leaves the state unchanged and starts no new orbit. -/
theorem buildInv_skip (n : Nat) (hn : n < FACE_ARRANGEMENTS) (s : BuildState)
    (h : BuildInv n s) (hset : s.face_table n ≠ NOT_SET) : BuildInv (n + 1) s := by
  have hseen : Seen n n := by
    by_contra hc; exact hset ((h.unset n hn).2 hc)
  have hiff : ∀ k, Seen (n + 1) k ↔ Seen n k := by
    intro k
    rw [seen_succ_iff]
    constructor
    · rintro (h1 | h1)
      · exact h1
      · obtain ⟨j, hj, ho⟩ := hseen
        exact ⟨j, hj, ho.trans h1⟩
    · exact Or.inl
  have hnf : ¬ IsFirst n := fun hf => (isFirst_iff_not_seen n).1 hf hseen
  have hlt : ∀ (i : Nat) (P : Prop), (i < n + 1 ∧ IsFirst i ∧ P) ↔ (i < n ∧ IsFirst i ∧ P) := by
    intro i P
    constructor
    · rintro ⟨h1, h2, h3⟩
      have : i ≠ n := by rintro rfl; exact hnf h2
      exact ⟨by omega, h2, h3⟩
    · rintro ⟨h1, h2, h3⟩; exact ⟨by omega, h2, h3⟩
  refine ⟨?_, ?_, ?_, ?_, h.const, ?_, ?_, ?_⟩
  · intro k hk; rw [hiff]; exact h.unset k hk
  · intro k hk hs; exact h.perfect_ids k hk ((hiff k).1 hs)
  · intro k hk hs; exact h.regular_ids k hk ((hiff k).1 hs)
  · intro k k' hk hk' hs hs'; exact h.inj k k' hk hk' ((hiff k).1 hs) ((hiff k').1 hs')
  · obtain ⟨L, h1, h2, h3⟩ := h.perfect_count
    exact ⟨L, h1, fun i => by rw [hlt]; exact h2 i, h3⟩
  · obtain ⟨L, h1, h2, h3⟩ := h.regular_count
    exact ⟨L, h1, fun i => by rw [hlt]; exact h2 i, h3⟩
  · intro v hv
    obtain ⟨k, h1, h2, h3, h4⟩ := h.perfect_onto v hv
    exact ⟨k, h1, (hiff k).2 h2, h3, h4⟩

/-- The pattern ids stay far from the sentinel: at most 16 perfect and 20648 orbits at all. -/
theorem inv_bounds (n : Nat) (hn : n < FACE_ARRANGEMENTS) (s : BuildState) (h : BuildInv n s)
    (hfirst : IsFirst n) :
    s.next_perfect_pattern_id ≤ 16 ∧ 16 ≤ s.next_regular_pattern_id ∧
    (Perf (faceOf n) → s.next_perfect_pattern_id < 16) ∧
    (¬ Perf (faceOf n) → s.next_regular_pattern_id < 16 + 20648) := by
  obtain ⟨L, h1, h2, h3⟩ := h.perfect_count
  obtain ⟨R, r1, r2, r3⟩ := h.regular_count
  refine ⟨?_, by omega, ?_, ?_⟩
  · rw [h3]
    exact length_le_of_isFirst_perf L h1 (fun i hi =>
      ⟨by have := ((h2 i).1 hi).1; omega, ((h2 i).1 hi).2⟩)
  · intro hp
    have hnL : n ∉ L := fun hm => by have := ((h2 n).1 hm).1; omega
    have := length_le_of_isFirst_perf (n :: L) (List.nodup_cons.2 ⟨hnL, h1⟩) (by
      intro i hi
      rcases List.mem_cons.1 hi with rfl | hi
      · exact ⟨hn, hfirst, hp⟩
      · exact ⟨by have := ((h2 i).1 hi).1; omega, ((h2 i).1 hi).2⟩)
    rw [List.length_cons] at this
    omega
  · intro hp
    have hnR : n ∉ R := fun hm => by have := ((r2 n).1 hm).1; omega
    have := length_le_of_isFirst (n :: R) (List.nodup_cons.2 ⟨hnR, r1⟩) (by
      intro i hi
      rcases List.mem_cons.1 hi with rfl | hi
      · exact ⟨hn, hfirst⟩
      · exact ⟨by have := ((r2 i).1 hi).1; omega, ((r2 i).1 hi).2.1⟩)
    rw [List.length_cons] at this
    omega

theorem new_orbit_table (n : Nat) (hn : n < FACE_ARRANGEMENTS) (s : BuildState)
    (h : BuildInv n s) (hunset : s.face_table n = NOT_SET) (pid : Int) (k : Nat)
    (hk : k < FACE_ARRANGEMENTS) :
    (Orb (faceOf n) (faceOf k) →
      (symmetryLoop (FaceIndexToColors n) pid ⟨s.face_table, [0, 1, 2, 3, 4, 5]⟩).face_table k
        = toInt16 pid) ∧
    (¬ Orb (faceOf n) (faceOf k) →
      (symmetryLoop (FaceIndexToColors n) pid ⟨s.face_table, [0, 1, 2, 3, 4, 5]⟩).face_table k
        = s.face_table k) := by
  obtain ⟨a, b⟩ := symmetryLoop_marks n pid s.face_table k
  constructor
  · intro ho
    apply a
    refine ⟨?_, (orbit_index_iff n k hk).2 ho⟩
    rw [h.unset k hk]
    rintro ⟨j, hj, hjo⟩
    exact ((h.unset n hn).1 hunset) ⟨j, hj, hjo.trans ho.symm⟩
  · intro hno
    apply b
    intro hc
    exact hno ((orbit_index_iff n k hk).1 hc.2)

/-- The invariant after a new orbit has been given the id `v`. -/
theorem buildInv_new (n : Nat) (hn : n < FACE_ARRANGEMENTS) (s : BuildState)
    (h : BuildInv n s) (hunset : s.face_table n = NOT_SET) (v : Int) (t' : Nat → Int)
    (nP nR : Nat)
    (htab : ∀ k, k < FACE_ARRANGEMENTS →
      (Orb (faceOf n) (faceOf k) → t' k = v) ∧
      (¬ Orb (faceOf n) (faceOf k) → t' k = s.face_table k))
    (hcase : (Perf (faceOf n) ∧ v = (s.next_perfect_pattern_id : Int) ∧
        nP = s.next_perfect_pattern_id + 1 ∧ nR = s.next_regular_pattern_id) ∨
      (¬ Perf (faceOf n) ∧ v = (s.next_regular_pattern_id : Int) ∧
        nP = s.next_perfect_pattern_id ∧ nR = s.next_regular_pattern_id + 1)) :
    BuildInv (n + 1) ⟨t', nP, nR⟩ := by
  have hns : ¬ Seen n n := (h.unset n hn).1 hunset
  have hfirst : IsFirst n := (isFirst_iff_not_seen n).2 hns
  obtain ⟨bP, bR, bP', bR'⟩ := inv_bounds n hn s h hfirst
  have hnotO : ∀ k, Seen n k → ¬ Orb (faceOf n) (faceOf k) := by
    rintro k ⟨j, hj, hjo⟩ ho
    exact hns ⟨j, hj, hjo.trans ho.symm⟩
  have hv : v ≠ NOT_SET := by
    unfold NOT_SET
    rcases hcase with ⟨hp, e, _, _⟩ | ⟨hp, e, _, _⟩
    · have := bP' hp; omega
    · have := bR' hp; omega
  have hnew : ∀ k, k < FACE_ARRANGEMENTS → Seen n k → ¬ (v = s.face_table k) := by
    intro k hk hs he
    by_cases hpk : Perf (faceOf k)
    · have := h.perfect_ids k hk hs hpk
      rcases hcase with ⟨hp, e, _, _⟩ | ⟨hp, e, _, _⟩ <;> omega
    · have := h.regular_ids k hk hs hpk
      rcases hcase with ⟨hp, e, _, _⟩ | ⟨hp, e, _, _⟩
      · have := bP' hp; omega
      · omega
  refine ⟨?_, ?_, ?_, ?_, ?_, ?_, ?_, ?_⟩
  · intro k hk
    simp only
    rw [seen_succ_iff]
    by_cases ho : Orb (faceOf n) (faceOf k)
    · rw [(htab k hk).1 ho]
      exact ⟨fun e => absurd e hv, fun hc => absurd (Or.inr ho) hc⟩
    · rw [(htab k hk).2 ho, h.unset k hk]
      exact ⟨fun hc hc' => hc'.elim hc ho, fun hc hc' => hc (Or.inl hc')⟩
  · intro k hk hs hp
    simp only
    rw [seen_succ_iff] at hs
    by_cases ho : Orb (faceOf n) (faceOf k)
    · rw [(htab k hk).1 ho]
      have hpn : Perf (faceOf n) := (perf_orb ho).2 hp
      rcases hcase with ⟨_, e, e', _⟩ | ⟨hp', _⟩
      · omega
      · exact absurd hpn hp'
    · rw [(htab k hk).2 ho]
      have := h.perfect_ids k hk (hs.resolve_right ho) hp
      rcases hcase with ⟨_, _, e', _⟩ | ⟨_, _, e', _⟩ <;> omega
  · intro k hk hs hp
    simp only
    rw [seen_succ_iff] at hs
    by_cases ho : Orb (faceOf n) (faceOf k)
    · rw [(htab k hk).1 ho]
      have hpn : ¬ Perf (faceOf n) := fun hc => hp ((perf_orb ho).1 hc)
      rcases hcase with ⟨hp', _⟩ | ⟨_, e, _, e'⟩
      · exact absurd hp' hpn
      · omega
    · rw [(htab k hk).2 ho]
      have := h.regular_ids k hk (hs.resolve_right ho) hp
      rcases hcase with ⟨_, _, _, e'⟩ | ⟨_, _, _, e'⟩ <;> omega
  · intro k k' hk hk' hs hs' he
    simp only at he
    rw [seen_succ_iff] at hs hs'
    by_cases ho : Orb (faceOf n) (faceOf k)
    · by_cases ho' : Orb (faceOf n) (faceOf k')
      · exact ho.symm.trans ho'
      · rw [(htab k hk).1 ho, (htab k' hk').2 ho'] at he
        exact absurd he (hnew k' hk' (hs'.resolve_right ho'))
    · by_cases ho' : Orb (faceOf n) (faceOf k')
      · rw [(htab k hk).2 ho, (htab k' hk').1 ho'] at he
        exact absurd he.symm (hnew k hk (hs.resolve_right ho))
      · rw [(htab k hk).2 ho, (htab k' hk').2 ho'] at he
        exact h.inj k k' hk hk' (hs.resolve_right ho) (hs'.resolve_right ho') he
  · intro k k' hk hk' hkk
    simp only
    by_cases ho : Orb (faceOf n) (faceOf k)
    · rw [(htab k hk).1 ho, (htab k' hk').1 (ho.trans hkk)]
    · have ho' : ¬ Orb (faceOf n) (faceOf k') := fun hc => ho (hc.trans hkk.symm)
      rw [(htab k hk).2 ho, (htab k' hk').2 ho']
      exact h.const k k' hk hk' hkk
  · obtain ⟨L, h1, h2, h3⟩ := h.perfect_count
    rcases hcase with ⟨hp, _, e, _⟩ | ⟨hp, _, e, _⟩
    · have hnL : n ∉ L := fun hm => by have := ((h2 n).1 hm).1; omega
      refine ⟨n :: L, List.nodup_cons.2 ⟨hnL, h1⟩, ?_, by simp [e, h3]⟩
      intro i
      rw [List.mem_cons, h2]
      constructor
      · rintro (rfl | ⟨a, b, c⟩)
        · exact ⟨by omega, hfirst, hp⟩
        · exact ⟨by omega, b, c⟩
      · rintro ⟨a, b, c⟩
        by_cases hi : i = n
        · exact Or.inl hi
        · exact Or.inr ⟨by omega, b, c⟩
    · refine ⟨L, h1, ?_, by simp [e, h3]⟩
      intro i
      rw [h2]
      constructor
      · rintro ⟨a, b, c⟩; exact ⟨by omega, b, c⟩
      · rintro ⟨a, b, c⟩
        have : i ≠ n := by rintro rfl; exact hp c
        exact ⟨by omega, b, c⟩
  · obtain ⟨L, h1, h2, h3⟩ := h.regular_count
    rcases hcase with ⟨hp, _, _, e⟩ | ⟨hp, _, _, e⟩
    · refine ⟨L, h1, ?_, by simp [e, h3]⟩
      intro i
      rw [h2]
      constructor
      · rintro ⟨a, b, c⟩; exact ⟨by omega, b, c⟩
      · rintro ⟨a, b, c⟩
        have : i ≠ n := by rintro rfl; exact c hp
        exact ⟨by omega, b, c⟩
    · have hnL : n ∉ L := fun hm => by have := ((h2 n).1 hm).1; omega
      refine ⟨n :: L, List.nodup_cons.2 ⟨hnL, h1⟩, ?_, by simp [e, h3]; omega⟩
      intro i
      rw [List.mem_cons, h2]
      constructor
      · rintro (rfl | ⟨a, b, c⟩)
        · exact ⟨by omega, hfirst, hp⟩
        · exact ⟨by omega, b, c⟩
      · rintro ⟨a, b, c⟩
        by_cases hi : i = n
        · exact Or.inl hi
        · exact Or.inr ⟨by omega, b, c⟩
  · intro w hw
    simp only at hw ⊢
    have hold : w < s.next_perfect_pattern_id →
        ∃ k, k < FACE_ARRANGEMENTS ∧ Seen (n + 1) k ∧ Perf (faceOf k) ∧ t' k = (w : Int) := by
      intro hw'
      obtain ⟨k, a, b, c, d⟩ := h.perfect_onto w hw'
      exact ⟨k, a, (seen_succ_iff n k).2 (Or.inl b), c, by rw [(htab k a).2 (hnotO k b)]; exact d⟩
    rcases hcase with ⟨hp, ev, e, _⟩ | ⟨hp, _, e, _⟩
    · by_cases hw' : w < s.next_perfect_pattern_id
      · exact hold hw'
      · have : w = s.next_perfect_pattern_id := by omega
        subst this
        exact ⟨n, hn, (seen_succ_iff n n).2 (Or.inr (Orb.refl _)), hp,
          by rw [(htab n hn).1 (Orb.refl _), ev]⟩
    · exact hold (by omega)

theorem buildStep_skip (s : BuildState) (n : Nat) (h : s.face_table n ≠ NOT_SET) :
    buildStep s n = s := by
  simp [buildStep, h]

theorem buildStep_perfect (s : BuildState) (n : Nat) (h : s.face_table n = NOT_SET)
    (hp : isPerfectIndex n = true) :
    buildStep s n = ⟨(symmetryLoop (FaceIndexToColors n) (s.next_perfect_pattern_id : Int)
      ⟨s.face_table, [0, 1, 2, 3, 4, 5]⟩).face_table, s.next_perfect_pattern_id + 1,
      s.next_regular_pattern_id⟩ := by
  simp [buildStep, h, hp]

theorem buildStep_regular (s : BuildState) (n : Nat) (h : s.face_table n = NOT_SET)
    (hp : isPerfectIndex n = false) :
    buildStep s n = ⟨(symmetryLoop (FaceIndexToColors n) (s.next_regular_pattern_id : Int)
      ⟨s.face_table, [0, 1, 2, 3, 4, 5]⟩).face_table, s.next_perfect_pattern_id,
      s.next_regular_pattern_id + 1⟩ := by
  simp [buildStep, h, hp]

/-- The loop invariant holds after every number of iterations of the outer loop. -/
theorem buildInv_all (n : Nat) (hn : n ≤ FACE_ARRANGEMENTS) : BuildInv n (buildLoop n) := by
  induction n with
  | zero => exact buildInv_zero
  | succ n ih =>
    have hn' : n < FACE_ARRANGEMENTS := by omega
    have h := ih (by omega)
    show BuildInv (n + 1) (buildStep (buildLoop n) n)
    by_cases hset : (buildLoop n).face_table n = NOT_SET
    · have hfirst : IsFirst n := (isFirst_iff_not_seen n).2 ((h.unset n hn').1 hset)
      obtain ⟨bP, bR, bP', bR'⟩ := inv_bounds n hn' _ h hfirst
      by_cases hp : isPerfectIndex n = true
      · rw [buildStep_perfect _ _ hset hp]
        have hperf := (isPerfectIndex_iff_perf n).1 hp
        apply buildInv_new n hn' _ h hset ((buildLoop n).next_perfect_pattern_id : Int)
        · intro k hk
          have := new_orbit_table n hn' _ h hset ((buildLoop n).next_perfect_pattern_id : Int) k hk
          rwa [toInt16_of_lt _ (by have := bP' hperf; omega)] at this
        · exact Or.inl ⟨hperf, rfl, rfl, rfl⟩
      · have hp' : isPerfectIndex n = false := by simpa using hp
        rw [buildStep_regular _ _ hset hp']
        have hperf : ¬ Perf (faceOf n) := fun hc => hp ((isPerfectIndex_iff_perf n).2 hc)
        apply buildInv_new n hn' _ h hset ((buildLoop n).next_regular_pattern_id : Int)
        · intro k hk
          have := new_orbit_table n hn' _ h hset ((buildLoop n).next_regular_pattern_id : Int) k hk
          rwa [toInt16_of_lt _ (by have := bR' hperf; omega)] at this
        · exact Or.inr ⟨hperf, rfl, rfl, rfl⟩
    · rw [buildStep_skip _ _ hset]
      exact buildInv_skip n hn' _ h hset

theorem buildInv_final : BuildInv FACE_ARRANGEMENTS (buildLoop FACE_ARRANGEMENTS) :=
  buildInv_all _ (le_refl _)

theorem seen_self (n k : Nat) (h : k < n) : Seen n k := ⟨k, h, Orb.refl _⟩

theorem inOrbit_iff (i j : Nat) (hj : j < FACE_ARRANGEMENTS) :
    InOrbit i j ↔ Orb (faceOf i) (faceOf j) := by
  rw [← orbit_index_iff i j hj]
  constructor
  · rintro ⟨sym, hs, p, rfl⟩
    obtain ⟨r, rfl⟩ := (mem_symmetries_iff sym).1 hs
    exact ⟨r, p, by rw [FaceIndexToColors_eq, transformedIndex_eq]⟩
  · rintro ⟨r, p, rfl⟩
    exact ⟨_, (mem_symmetries_iff _).2 ⟨r, rfl⟩, p, by rw [FaceIndexToColors_eq, transformedIndex_eq]⟩

theorem inOrbit_lt (i j : Nat) (h : InOrbit i j) : j < FACE_ARRANGEMENTS := by
  obtain ⟨sym, hs, p, rfl⟩ := h
  obtain ⟨r, rfl⟩ := (mem_symmetries_iff sym).1 hs
  rw [FaceIndexToColors_eq, transformedIndex_eq]
  exact indexOf_lt _

theorem final_perfect_le : (buildLoop FACE_ARRANGEMENTS).next_perfect_pattern_id ≤ 16 := by
  obtain ⟨L, h1, h2, h3⟩ := buildInv_final.perfect_count
  rw [h3]
  exact length_le_of_isFirst_perf L h1 (fun i hi => (h2 i).1 hi)

/-! ## The claims about `BuildFaceTable` -/

theorem faceTableAfter_eq (n : Nat) : faceTableAfter n = (buildLoop n).face_table := rfl

theorem BuildFaceTable_eq : BuildFaceTable = (buildLoop FACE_ARRANGEMENTS).face_table :=
  Eq.trans (rfl : BuildFaceTable = faceTableAfter FACE_ARRANGEMENTS)
    (faceTableAfter_eq FACE_ARRANGEMENTS)

theorem inv_bounds_all (n : Nat) (hn : n ≤ FACE_ARRANGEMENTS) :
    (buildLoop n).next_perfect_pattern_id ≤ 16 ∧
      (buildLoop n).next_regular_pattern_id ≤ 16 + 20648 := by
  have h := buildInv_all n hn
  obtain ⟨L, h1, h2, h3⟩ := h.perfect_count
  obtain ⟨R, r1, r2, r3⟩ := h.regular_count
  constructor
  · rw [h3]
    exact length_le_of_isFirst_perf L h1 (fun i hi =>
      ⟨by have := ((h2 i).1 hi).1; omega, ((h2 i).1 hi).2⟩)
  · rw [r3]
    have := length_le_of_isFirst R r1 (fun i hi =>
      ⟨by have := ((r2 i).1 hi).1; omega, ((r2 i).1 hi).2.1⟩)
    omega

theorem final_perfect_eq : (buildLoop FACE_ARRANGEMENTS).next_perfect_pattern_id = 16 := by
  obtain ⟨L, h1, h2, h3⟩ := buildInv_final.perfect_count
  have hle := (inv_bounds_all _ (le_refl _)).1
  have hge := length_ge_of_all_first_perf L (fun i hi hf hp => (h2 i).2 ⟨hi, hf, hp⟩)
  omega

theorem table_lt_iff (i : Nat) (hi : i < FACE_ARRANGEMENTS) :
    BuildFaceTable i < 16 ↔ Perf (faceOf i) := by
  have h := buildInv_final
  have hs := seen_self _ i hi
  constructor
  · intro hlt
    by_contra hp
    have := h.regular_ids i hi hs hp
    rw [BuildFaceTable_eq] at hlt
    omega
  · intro hp
    have := h.perfect_ids i hi hs hp
    have := final_perfect_le
    rw [BuildFaceTable_eq]
    omega

theorem table_eq_iff (i j : Nat) (hi : i < FACE_ARRANGEMENTS) (hj : j < FACE_ARRANGEMENTS) :
    BuildFaceTable i = BuildFaceTable j ↔ InOrbit i j := by
  rw [inOrbit_iff i j hj, BuildFaceTable_eq]
  exact ⟨buildInv_final.inj i j hi hj (seen_self _ i hi) (seen_self _ j hj),
    buildInv_final.const i j hi hj⟩

theorem perfectRepIndexes_spec (a : Nat) (ha : a ∈ perfectRepIndexes) :
    a < FACE_ARRANGEMENTS ∧ IsFirst a ∧ Perf (faceOf a) := by
  obtain ⟨y, hy, rfl⟩ := List.mem_map.1 ha
  have hface := perfectReps_face y hy
  obtain ⟨hf, hp⟩ := reps_isFirst y hy
  have e : listIndex y = indexOf (faceOfList y) := by rw [← listIndex_colorsOf, hface]
  refine ⟨by rw [e]; exact indexOf_lt _, hf, ?_⟩
  rw [e, faceOf_indexOf]; exact hp

theorem perfectRepIndexes_cover (i : Nat) (hi : i < FACE_ARRANGEMENTS) (hp : Perf (faceOf i)) :
    ∃ a ∈ perfectRepIndexes, Orb (faceOf a) (faceOf i) := by
  obtain ⟨j, hjf, hjo, hjle⟩ := exists_first_in_orbit (faceOf i)
  rw [indexOf_faceOf i hi] at hjle
  have hjlt : j < FACE_ARRANGEMENTS := by omega
  have hm := perfect_first_mem j hjlt hjf ((perf_orb hjo).2 hp)
  refine ⟨j, ?_, hjo⟩
  have : listIndex (FaceIndexToColors j) = j := by
    rw [FaceIndexToColors_eq, listIndex_colorsOf, indexOf_faceOf j hjlt]
  rw [← this]
  exact List.mem_map_of_mem _ hm

/-- C1: after `BuildFaceTable`, for every face index `i` below 6^9, `face_table[i] < 16` holds
if and only if the nine colours decoded from `i` form a perfect face: all six colours are
present, no colour occurs more than twice, and no two equal-coloured cells touch along an
edge or at a corner of the 3x3 face. -/
theorem C1_face_table_lt_16_iff_perfect (i : Nat) (hi : i < FACE_ARRANGEMENTS) :
    BuildFaceTable i < 16 ↔ PerfectFace (FaceIndexToColors i) := by
  rw [table_lt_iff i hi, FaceIndexToColors_eq]
  rfl

theorem C1_witness : 299873 < FACE_ARRANGEMENTS ∧
    (BuildFaceTable 299873 < 16 ↔ PerfectFace (FaceIndexToColors 299873)) :=
  ⟨by decide, C1_face_table_lt_16_iff_perfect 299873 (by decide)⟩

/-- C2: after `BuildFaceTable`, for every face index `i` below 6^9, every row `sym` of the
table `symmetries` and every permutation `p` of the six colours, the index obtained by
permuting the cells of `i` by `sym` and relabelling its colours by `p` has the same table
entry as `i`. -/
theorem C2_face_table_invariant (i : Nat) (hi : i < FACE_ARRANGEMENTS) (sym : List Nat)
    (hs : sym ∈ symmetries) (p : Equiv.Perm (Fin 6)) :
    BuildFaceTable (transformedIndex (permList p) (FaceIndexToColors i) sym) =
      BuildFaceTable i := by
  have ho : InOrbit i (transformedIndex (permList p) (FaceIndexToColors i) sym) :=
    ⟨sym, hs, p, rfl⟩
  exact ((table_eq_iff i _ hi (inOrbit_lt _ _ ho)).2 ho).symm

theorem C2_witness : 299873 < FACE_ARRANGEMENTS ∧
    [2, 5, 8, 1, 4, 7, 0, 3, 6] ∈ symmetries ∧
    BuildFaceTable (transformedIndex (permList (Equiv.swap 0 1)) (FaceIndexToColors 299873)
      [2, 5, 8, 1, 4, 7, 0, 3, 6]) = BuildFaceTable 299873 :=
  ⟨by decide, by decide,
    C2_face_table_invariant 299873 (by decide) [2, 5, 8, 1, 4, 7, 0, 3, 6] (by decide)
      (Equiv.swap 0 1)⟩

/-- C3: the face table is canonical: two face indexes below 6^9 have the same entry exactly
when one lies in the orbit of the other under the 8 face symmetries and the 720 colour
relabelings, and when the index `i` is visited with its slot still unset, no slot of its
orbit has been set before. -/
theorem C3_face_table_canonical (i j : Nat) (hi : i < FACE_ARRANGEMENTS)
    (hj : j < FACE_ARRANGEMENTS) :
    (BuildFaceTable i = BuildFaceTable j ↔ InOrbit i j) ∧
    ((buildLoop i).face_table i = NOT_SET →
      ∀ k, InOrbit i k → (buildLoop i).face_table k = NOT_SET) := by
  refine ⟨table_eq_iff i j hi hj, ?_⟩
  intro hunset k hk
  have hklt := inOrbit_lt _ _ hk
  have h := buildInv_all i (by omega)
  rw [h.unset k hklt]
  rintro ⟨j', hj', hjo⟩
  exact (h.unset i hi).1 hunset ⟨j', hj', hjo.trans ((inOrbit_iff i k hklt).1 hk).symm⟩

theorem C3_witness : 299873 < FACE_ARRANGEMENTS ∧ 0 < FACE_ARRANGEMENTS ∧
    ((BuildFaceTable 299873 = BuildFaceTable 0 ↔ InOrbit 299873 0) ∧
    ((buildLoop 299873).face_table 299873 = NOT_SET →
      ∀ k, InOrbit 299873 k → (buildLoop 299873).face_table k = NOT_SET)) :=
  ⟨by decide, by decide, C3_face_table_canonical 299873 0 (by decide) (by decide)⟩

/-- C4: among the 6^9 face indexes there are exactly 16 orbits of faces with 6 distinct
colours, maximum multiplicity 2 and connectedness `NOTHING_TOUCHING` (the sixteen indexes
`perfectRepIndexes` are such faces, lie in pairwise different orbits and every such face is in
the orbit of one of them); the ids `BuildFaceTable` gives to these faces are exactly
0, ..., 15, and `next_perfect_pattern_id` ends at 16. -/
theorem C4_sixteen_perfect_orbits :
    (perfectRepIndexes.length = 16 ∧
      (∀ a ∈ perfectRepIndexes, a < FACE_ARRANGEMENTS ∧ isPerfectIndex a = true) ∧
      perfectRepIndexes.Pairwise (fun a b => ¬ InOrbit a b) ∧
      (∀ i, i < FACE_ARRANGEMENTS → isPerfectIndex i = true →
        ∃ a ∈ perfectRepIndexes, InOrbit a i)) ∧
    (∀ v : Int, (∃ i, i < FACE_ARRANGEMENTS ∧ isPerfectIndex i = true ∧ BuildFaceTable i = v) ↔
      (0 ≤ v ∧ v < 16)) ∧
    (buildLoop FACE_ARRANGEMENTS).next_perfect_pattern_id = 16 := by
  refine ⟨⟨rfl, ?_, ?_, ?_⟩, ?_, final_perfect_eq⟩
  · intro a ha
    obtain ⟨h1, _, h3⟩ := perfectRepIndexes_spec a ha
    exact ⟨h1, (isPerfectIndex_iff_perf a).2 h3⟩
  · apply List.Nodup.pairwise_of_forall_ne (by decide)
    intro a ha b hb hne hab
    obtain ⟨a1, a2, _⟩ := perfectRepIndexes_spec a ha
    obtain ⟨b1, b2, _⟩ := perfectRepIndexes_spec b hb
    have ho := (inOrbit_iff a b b1).1 hab
    rcases Nat.lt_or_gt_of_ne hne with hlt | hlt
    · exact b2 a hlt ho
    · exact a2 b hlt ho.symm
  · intro i hi hp
    obtain ⟨a, ha, ho⟩ := perfectRepIndexes_cover i hi ((isPerfectIndex_iff_perf i).1 hp)
    exact ⟨a, ha, (inOrbit_iff a i hi).2 ho⟩
  · intro v
    constructor
    · rintro ⟨i, hi, hp, rfl⟩
      have := buildInv_final.perfect_ids i hi (seen_self _ i hi) ((isPerfectIndex_iff_perf i).1 hp)
      have := final_perfect_le
      rw [BuildFaceTable_eq]
      omega
    · rintro ⟨h0, h16⟩
      obtain ⟨k, hk, _, hp, hv⟩ := buildInv_final.perfect_onto v.toNat (by
        rw [final_perfect_eq]; omega)
      exact ⟨k, hk, (isPerfectIndex_iff_perf k).2 hp, by
        rw [BuildFaceTable_eq, hv]; omega⟩

/-- C5: after `BuildFaceTable` no entry below 6^9 is the unset sentinel 32767: entry `i` is
written at the latest when `i` itself is visited, and the two id counters never reach 32767
(at most 16 perfect and 20648 regular ids are handed out). -/
theorem C5_face_table_set (i : Nat) (hi : i < FACE_ARRANGEMENTS) :
    BuildFaceTable i ≠ NOT_SET ∧ (buildLoop (i + 1)).face_table i ≠ NOT_SET ∧
    (∀ n, n ≤ FACE_ARRANGEMENTS →
      ((buildLoop n).next_perfect_pattern_id : Int) < NOT_SET ∧
      ((buildLoop n).next_regular_pattern_id : Int) < NOT_SET) := by
  refine ⟨?_, ?_, ?_⟩
  · intro h
    rw [BuildFaceTable_eq] at h
    exact (buildInv_final.unset i hi).1 h (seen_self _ i hi)
  · intro h
    exact ((buildInv_all (i + 1) (by omega)).unset i hi).1 h (seen_self _ i (by omega))
  · intro n hn
    have := inv_bounds_all n hn
    unfold NOT_SET
    omega

theorem C5_witness : 0 < FACE_ARRANGEMENTS ∧
    (BuildFaceTable 0 ≠ NOT_SET ∧ (buildLoop (0 + 1)).face_table 0 ≠ NOT_SET ∧
    (∀ n, n ≤ FACE_ARRANGEMENTS →
      ((buildLoop n).next_perfect_pattern_id : Int) < NOT_SET ∧
      ((buildLoop n).next_regular_pattern_id : Int) < NOT_SET)) :=
  ⟨by decide, C5_face_table_set 0 (by decide)⟩

/-! ## The corner index: `FillCornerIndexes` and `GetCornerArrangementsIndex` -/

theorem compareFrom_eq_zero (a b : List Nat) (count : Nat) : ∀ i,
    compareFrom a b i count = 0 ↔ ∀ g, i ≤ g → g < i + count → a.getD g 0 = b.getD g 0 := by
  induction count with
  | zero => intro i; simp [compareFrom]; intro g h1 h2; omega
  | succ count ih =>
    intro i
    unfold compareFrom
    by_cases h1 : a.getD i 0 < b.getD i 0
    · simp only [h1, if_true]
      constructor
      · intro h; omega
      · intro h; have := h i (le_refl _) (by omega); omega
    · by_cases h2 : a.getD i 0 > b.getD i 0
      · simp only [h1, h2, if_true, if_false]
        constructor
        · intro h; omega
        · intro h; have := h i (le_refl _) (by omega); omega
      · simp only [h1, h2, if_false]
        rw [ih (i + 1)]
        constructor
        · intro h g hg1 hg2
          by_cases hgi : g = i
          · subst hgi; omega
          · exact h g (by omega) (by omega)
        · intro h g hg1 hg2
          exact h g (by omega) (by omega)

theorem compareFaceIds_eq_zero (a b : List Nat) (count : Nat) :
    compareFaceIds a b count = 0 ↔ ∀ g, g < count → a.getD g 0 = b.getD g 0 := by
  unfold compareFaceIds
  rw [compareFrom_eq_zero]
  constructor
  · intro h g hg; exact h g (Nat.zero_le _) (by omega)
  · intro h g _ hg; exact h g (by omega)

theorem toInt32_neg_one : toInt32 (toUInt32 (-1)) = -1 := by decide

theorem toInt32_of_nat (x : Nat) (h : x < 2147483648) : toInt32 (toUInt32 (x : Int)) = (x : Int) := by
  unfold toInt32 toUInt32
  have e : ((x : Int) % 4294967296).toNat = x := by omega
  rw [e]
  have e2 : x % 4294967296 = x := by omega
  rw [e2]
  simp [h]

theorem getD_set_arr (arr : List CornerArrangement) (a i : Nat) (x : CornerArrangement) :
    (arr.set a x).getD i zeroArrangement =
      if i = a ∧ a < arr.length then x else arr.getD i zeroArrangement := by
  simp only [List.getD_eq_getElem?_getD, List.getElem?_set]
  by_cases h : a = i
  · subst h
    by_cases h2 : a < arr.length
    · simp [h2]
    · simp [h2]
      rw [List.getElem?_eq_none (by omega)]
      rfl
  · have : ¬ i = a := fun e => h e.symm
    simp [h, this]

theorem getD_set_nat (l : List Nat) (a i x : Nat) :
    (l.set a x).getD i 0 = if i = a ∧ a < l.length then x else l.getD i 0 := by
  simp only [List.getD_eq_getElem?_getD, List.getElem?_set]
  by_cases h : a = i
  · subst h
    by_cases h2 : a < l.length
    · simp [h2]
    · simp [h2]
      rw [List.getElem?_eq_none (by omega)]
      rfl
  · have : ¬ i = a := fun e => h e.symm
    simp [h, this]

theorem samePrefix_iff_compare (arr0 cur : List CornerArrangement)
    (hf : ∀ i, (cur.getD i zeroArrangement).faceIds = (arr0.getD i zeroArrangement).faceIds)
    (i j k : Nat) :
    compareFaceIds (cur.getD i zeroArrangement).faceIds (cur.getD j zeroArrangement).faceIds k = 0
      ↔ SamePrefix arr0 i j k := by
  rw [compareFaceIds_eq_zero, hf i, hf j]
  rfl

theorem samePrefix_symm {arr : List CornerArrangement} {i j k : Nat} (h : SamePrefix arr i j k) :
    SamePrefix arr j i k := fun g hg => (h g hg).symm

theorem samePrefix_trans {arr : List CornerArrangement} {i j l k : Nat}
    (h1 : SamePrefix arr i j k) (h2 : SamePrefix arr j l k) : SamePrefix arr i l k :=
  fun g hg => (h1 g hg).trans (h2 g hg)

theorem scanNext_spec (arr0 cur : List CornerArrangement)
    (hf : ∀ i, (cur.getD i zeroArrangement).faceIds = (arr0.getD i zeroArrangement).faceIds)
    (n a idx : Nat) : ∀ (fuel next : Nat), n ≤ next + fuel → a < next → next ≤ n →
    (∀ j, a < j → j < next → SamePrefix arr0 a j (idx + 1)) →
    (a < scanNext cur n a idx fuel next ∧ scanNext cur n a idx fuel next ≤ n ∧
      (∀ j, a < j → j < scanNext cur n a idx fuel next → SamePrefix arr0 a j (idx + 1)) ∧
      (scanNext cur n a idx fuel next < n →
        ¬ SamePrefix arr0 a (scanNext cur n a idx fuel next) (idx + 1))) := by
  intro fuel
  induction fuel with
  | zero =>
    intro next h1 h2 h3 h4
    have : next = n := by omega
    subst this
    simp only [scanNext]
    exact ⟨h2, le_refl _, h4, fun h => absurd h (lt_irrefl _)⟩
  | succ fuel ih =>
    intro next h1 h2 h3 h4
    unfold scanNext
    by_cases hc : next < n ∧ compareFaceIds (cur.getD a zeroArrangement).faceIds
        (cur.getD next zeroArrangement).faceIds (idx + 1) = 0
    · rw [if_pos hc]
      have hs := (samePrefix_iff_compare arr0 cur hf a next (idx + 1)).1 hc.2
      apply ih (next + 1) (by omega) (by omega) (by omega)
      intro j hj1 hj2
      by_cases hjn : j = next
      · subst hjn; exact hs
      · exact h4 j hj1 (by omega)
    · rw [if_neg hc]
      refine ⟨h2, h3, h4, fun hlt hs => hc ⟨hlt, ?_⟩⟩
      exact (samePrefix_iff_compare arr0 cur hf a next (idx + 1)).2 hs

theorem nextOK_copy (arr0 : List CornerArrangement) (n a k v : Nat) (ha : 0 < a)
    (hs : SamePrefix arr0 a (a - 1) k) (h : NextOK arr0 n (a - 1) k v) : NextOK arr0 n a k v := by
  rcases h with ⟨h1, h2⟩ | ⟨j, h1, h2, h3, h4, h5⟩
  · exact Or.inl ⟨h1, fun j hj1 hj2 => samePrefix_trans hs (h2 j (by omega) hj2)⟩
  · have hja : j ≠ a := by
      rintro rfl
      exact h4 (samePrefix_symm hs)
    refine Or.inr ⟨j, h1, by omega, h3, fun hc => h4 (samePrefix_trans (samePrefix_symm hs) hc), ?_⟩
    intro j' hj1 hj2
    exact samePrefix_trans hs (h5 j' (by omega) hj2)

theorem fillInv_step (arr0 cur : List CornerArrangement) (n a idx : Nat)
    (hn : n ≤ arr0.length) (h31 : n < 2147483648) (ha : a < n) (hidx : idx < 6)
    (h : FillInv arr0 n a idx cur) : FillInv arr0 n a (idx + 1) (fillEntry cur n a idx) := by
  have halen : a < cur.length := by rw [h.len]; omega
  have hval : ∀ v : Nat, NextOK arr0 n a (idx + 1) v →
      FillInv arr0 n a (idx + 1) (cur.set a { cur.getD a zeroArrangement with
        nextIndex := (cur.getD a zeroArrangement).nextIndex.set idx v }) := by
    intro v hv
    refine ⟨by rw [List.length_set]; exact h.len, ?_, ?_, ?_, ?_, ?_⟩
    · intro i
      rw [getD_set_arr]
      by_cases hi : i = a ∧ a < cur.length
      · rw [if_pos hi, hi.1]; exact h.faces a
      · rw [if_neg hi]; exact h.faces i
    · intro i
      rw [getD_set_arr]
      by_cases hi : i = a ∧ a < cur.length
      · rw [if_pos hi, hi.1]; exact h.cubes a
      · rw [if_neg hi]; exact h.cubes i
    · intro i hi
      rw [List.length_set] at hi
      rw [getD_set_arr]
      by_cases hia : i = a ∧ a < cur.length
      · rw [if_pos hia]
        simp only [List.length_set]
        exact h.nlen a halen
      · rw [if_neg hia]; exact h.nlen i hi
    · intro i f hi hf
      rw [getD_set_arr, if_neg (by omega)]
      exact h.done i f hi hf
    · intro f hf
      rw [getD_set_arr, if_pos ⟨rfl, halen⟩]
      simp only
      rw [getD_set_nat]
      by_cases hfi : f = idx
      · subst hfi
        rw [if_pos ⟨rfl, by rw [h.nlen a halen]; exact hidx⟩]
        exact hv
      · rw [if_neg (fun hc => hfi hc.1)]
        exact h.part f (by omega)
  unfold fillEntry
  simp only
  apply hval
  by_cases hc : a > 0 ∧ compareFaceIds (cur.getD a zeroArrangement).faceIds
      (cur.getD (a - 1) zeroArrangement).faceIds (idx + 1) = 0
  · rw [if_pos hc]
    exact nextOK_copy arr0 n a (idx + 1) _ hc.1
      ((samePrefix_iff_compare arr0 cur h.faces a (a - 1) (idx + 1)).1 hc.2)
      (h.done (a - 1) idx (by omega) hidx)
  · rw [if_neg hc]
    obtain ⟨s1, s2, s3, s4⟩ := scanNext_spec arr0 cur h.faces n a idx (n - a) (a + 1)
      (by omega) (by omega) (by omega) (fun j h1 h2 => by omega)
    by_cases hge : scanNext cur n a idx (n - a) (a + 1) ≥ n
    · rw [if_pos hge]
      exact Or.inl ⟨toInt32_neg_one, fun j hj1 hj2 => s3 j hj1 (by omega)⟩
    · rw [if_neg hge]
      exact Or.inr ⟨_, toInt32_of_nat _ (by omega), s1, by omega, s4 (by omega), s3⟩

theorem fillInv_inner (arr0 : List CornerArrangement) (n a : Nat)
    (hn : n ≤ arr0.length) (h31 : n < 2147483648) (ha : a < n) (k : Nat) (hk : k ≤ 6)
    (cur : List CornerArrangement) (h : FillInv arr0 n a 0 cur) :
    FillInv arr0 n a k ((List.range k).foldl (fun a' index => fillEntry a' n a index) cur) := by
  induction k with
  | zero => simpa using h
  | succ k ih =>
    rw [List.range_succ, List.foldl_append]
    simp only [List.foldl_cons, List.foldl_nil]
    exact fillInv_step arr0 _ n a k hn h31 ha (by omega) (ih (by omega))

theorem fillInv_next (arr0 cur : List CornerArrangement) (n a : Nat)
    (h : FillInv arr0 n a 6 cur) : FillInv arr0 n (a + 1) 0 cur := by
  refine ⟨h.len, h.faces, h.cubes, h.nlen, ?_, fun f hf => absurd hf (by omega)⟩
  intro i f hi hf
  by_cases hia : i = a
  · subst hia; exact h.part f hf
  · exact h.done i f (by omega) hf

theorem fillInv_outer (arr0 : List CornerArrangement) (n : Nat)
    (hn : n ≤ arr0.length) (h31 : n < 2147483648)
    (hwf : ∀ i, i < arr0.length → (arr0.getD i zeroArrangement).nextIndex.length = 6)
    (m : Nat) (hm : m ≤ n) :
    FillInv arr0 n m 0 ((List.range m).foldl (fun a arrangement =>
      (List.range CUBE_FACES).foldl (fun a' index => fillEntry a' n arrangement index) a)
      arr0) := by
  induction m with
  | zero =>
    exact ⟨rfl, fun _ => rfl, fun _ => rfl, hwf, fun i f hi => absurd hi (by omega),
      fun f hf => absurd hf (by omega)⟩
  | succ m ih =>
    rw [List.range_succ, List.foldl_append]
    simp only [List.foldl_cons, List.foldl_nil]
    exact fillInv_next arr0 _ n m (fillInv_inner arr0 n m hn h31 (by omega) 6 (le_refl _) _
      (ih (by omega)))

theorem fillCornerIndexes_inv (arr0 : List CornerArrangement) (n : Nat)
    (hn : n ≤ arr0.length) (h31 : n < 2147483648)
    (hwf : ∀ i, i < arr0.length → (arr0.getD i zeroArrangement).nextIndex.length = 6) :
    FillInv arr0 n n 0 (FillCornerIndexes arr0 n) :=
  fillInv_outer arr0 n hn h31 hwf n (le_refl _)

/-- C7: after `FillCornerIndexes` on an array of `n` arrangements, for every index `i < n` and
every prefix length `k` in 1..6, `nextIndex[k-1]` of entry `i` (read as an `int`) is the
smallest `j` with `i < j < n` whose `faceIds[0..k)` differs from that of entry `i`, and is `-1`
if there is no such `j`; the fields `faceIds` and `arrangement` are left as they were. -/
theorem C7_fillCornerIndexes_next (arr : List CornerArrangement) (n : Nat)
    (hn : n ≤ arr.length) (h31 : n < 2147483648)
    (hwf : ∀ i, i < arr.length → (arr.getD i zeroArrangement).nextIndex.length = 6)
    (i k : Nat) (hi : i < n) (hk1 : 1 ≤ k) (hk6 : k ≤ 6) :
    NextOK arr n i k
      (((FillCornerIndexes arr n).getD i zeroArrangement).nextIndex.getD (k - 1) 0) ∧
    ((FillCornerIndexes arr n).getD i zeroArrangement).faceIds =
      (arr.getD i zeroArrangement).faceIds ∧
    ((FillCornerIndexes arr n).getD i zeroArrangement).arrangement =
      (arr.getD i zeroArrangement).arrangement := by
  have h := fillCornerIndexes_inv arr n hn h31 hwf
  refine ⟨?_, h.faces i, h.cubes i⟩
  have := h.done i (k - 1) hi (by omega)
  have e : k - 1 + 1 = k := by omega
  rwa [e] at this

theorem cornerMatch_congr (face_table : Nat → Int) (arr0 cur : List CornerArrangement)
    (hf : ∀ i, (cur.getD i zeroArrangement).faceIds = (arr0.getD i zeroArrangement).faceIds)
    (face_ids : List Nat) (m j : Nat) :
    CornerMatch face_table cur face_ids m j ↔ CornerMatch face_table arr0 face_ids m j := by
  unfold CornerMatch
  rw [hf j]

theorem not_match_of_samePrefix (face_table : Nat → Int) (arr0 : List CornerArrangement)
    (face_ids : List Nat) (m index face_num j : Nat) (hfm : face_num < m)
    (hfail : ¬ face_table ((arr0.getD index zeroArrangement).faceIds.getD face_num 0 +
      face_ids.getD face_num 0) < 16)
    (hs : SamePrefix arr0 index j (face_num + 1)) :
    ¬ CornerMatch face_table arr0 face_ids m j := by
  intro hm
  apply hfail
  rw [hs face_num (by omega)]
  exact hm face_num hfm

theorem cornerIndexLoop_spec (face_table : Nat → Int) (arr0 cur : List CornerArrangement)
    (n : Nat) (face_ids : List Nat) (m : Nat) (hinv : FillInv arr0 n n 0 cur) (hm : m ≤ 6)
    (i : Nat) : ∀ (fuel index face_num : Nat), i ≤ index → index < n → face_num ≤ m →
    (n - index) * 7 + (m - face_num) < fuel →
    (∀ j, i ≤ j → j < index → ¬ CornerMatch face_table arr0 face_ids m j) →
    (∀ f, f < face_num → face_table ((arr0.getD index zeroArrangement).faceIds.getD f 0 +
      face_ids.getD f 0) < 16) →
    ∃ r : Int, cornerIndexLoop face_table cur face_ids m fuel (index : Int) face_num = some r ∧
      FirstMatch face_table arr0 face_ids m n i r := by
  intro fuel
  induction fuel with
  | zero => intro index face_num _ _ _ h; omega
  | succ fuel ih =>
    intro index face_num h1 h2 h3 h4 h5 h6
    unfold cornerIndexLoop
    simp only [Int.toNat_ofNat]
    by_cases hfm : face_num < m
    · rw [if_pos hfm, hinv.faces index]
      by_cases hv : face_table ((arr0.getD index zeroArrangement).faceIds.getD face_num 0 +
          face_ids.getD face_num 0) < 16
      · rw [if_pos hv]
        apply ih index (face_num + 1) h1 h2 (by omega) (by omega) h5
        intro f hf
        by_cases hff : f = face_num
        · subst hff; exact hv
        · exact h6 f (by omega)
      · rw [if_neg hv]
        have hidx : ¬ CornerMatch face_table arr0 face_ids m index := fun hc => hv (hc face_num hfm)
        rcases hinv.done index face_num h2 (by omega) with ⟨e, hs⟩ | ⟨j0, e, a1, a2, a3, a4⟩
        · rw [e]
          refine ⟨-1, by simp, Or.inl ⟨rfl, ?_⟩⟩
          intro j hj1 hj2
          by_cases hlt : j < index
          · exact h5 j hj1 hlt
          · by_cases heq : j = index
            · subst heq; exact hidx
            · exact not_match_of_samePrefix face_table arr0 face_ids m index face_num j hfm hv
                (hs j (by omega) hj2)
        · rw [e]
          have hne : ¬ ((j0 : Int) = -1) := by omega
          rw [if_neg hne]
          apply ih j0 0 (by omega) a2 (by omega)
          · have : (n - j0) * 7 + 7 ≤ (n - index) * 7 := by
              have : n - j0 + 1 ≤ n - index := by omega
              calc (n - j0) * 7 + 7 = (n - j0 + 1) * 7 := by ring
                _ ≤ (n - index) * 7 := Nat.mul_le_mul_right 7 this
            omega
          · intro j hj1 hj2
            by_cases hlt : j < index
            · exact h5 j hj1 hlt
            · by_cases heq : j = index
              · subst heq; exact hidx
              · exact not_match_of_samePrefix face_table arr0 face_ids m index face_num j hfm hv
                  (a4 j (by omega) hj2)
          · intro f hf; omega
    · rw [if_neg hfm]
      have : face_num = m := by omega
      subst this
      exact ⟨index, rfl, Or.inr ⟨index, rfl, h1, h2, h6, h5⟩⟩

theorem getCornerArrangementsIndex_spec (face_table : Nat → Int) (arr : List CornerArrangement)
    (n : Nat) (hn : n ≤ arr.length) (h31 : n < 2147483648)
    (hwf : ∀ i, i < arr.length → (arr.getD i zeroArrangement).nextIndex.length = 6)
    (i max_index : Nat) (hi : i ≤ max_index) (hmax : max_index < n) (face_ids : List Nat)
    (m : Nat) (hm : m ≤ 6) (fuel : Nat) (hfuel : 7 * n + 7 ≤ fuel) :
    ∃ r : Int, GetCornerArrangementsIndex fuel face_table (i : Int) (FillCornerIndexes arr n)
        face_ids m (max_index : Int) = some r ∧
      FirstMatch face_table (FillCornerIndexes arr n) face_ids m n i r := by
  have hinv := fillCornerIndexes_inv arr n hn h31 hwf
  unfold GetCornerArrangementsIndex
  have hc : ¬ ((i : Int) > (max_index : Int) ∨ (i : Int) = -1) := by omega
  rw [if_neg hc]
  obtain ⟨r, hr, hf⟩ := cornerIndexLoop_spec face_table arr (FillCornerIndexes arr n) n face_ids m
    hinv hm i fuel i 0 (le_refl _) (by omega) (by omega) (by omega)
    (fun j h1 h2 => by omega) (fun f hf => by omega)
  refine ⟨r, hr, ?_⟩
  unfold FirstMatch at hf ⊢
  simp only [cornerMatch_congr face_table arr (FillCornerIndexes arr n) hinv.faces]
  exact hf

/-- C6: on an array of `n` arrangements whose `nextIndex` fields were filled by
`FillCornerIndexes`, for every start index `i` with `0 ≤ i ≤ max_index < n`, every `m` in 0..6
and all edge contributions `face_ids`, `GetCornerArrangementsIndex` returns (its loop ends
within `7 * n + 7` iterations) the smallest `j ≥ i` with
`face_table[arr[j].faceIds[f] + face_ids[f]] < 16` for all `f < m`, and `-1` if there is no
such `j`: following `nextIndex` skips no matching arrangement. -/
theorem C6_getCornerArrangementsIndex_first (face_table : Nat → Int)
    (arr : List CornerArrangement) (n : Nat) (hn : n ≤ arr.length) (h31 : n < 2147483648)
    (hwf : ∀ i, i < arr.length → (arr.getD i zeroArrangement).nextIndex.length = 6)
    (i max_index : Nat) (hi : i ≤ max_index) (hmax : max_index < n) (face_ids : List Nat)
    (m : Nat) (hm : m ≤ 6) (fuel : Nat) (hfuel : 7 * n + 7 ≤ fuel) :
    ∃ r : Int, GetCornerArrangementsIndex fuel face_table (i : Int) (FillCornerIndexes arr n)
        face_ids m (max_index : Int) = some r ∧
      FirstMatch face_table (FillCornerIndexes arr n) face_ids m n i r :=
  getCornerArrangementsIndex_spec face_table arr n hn h31 hwf i max_index hi hmax face_ids m hm
    fuel hfuel

theorem C6_witness :
    (3 ≤ sampleArrangements.length ∧ 0 ≤ 2 ∧ 2 < 3 ∧ 1 ≤ 6 ∧ 7 * 3 + 7 ≤ 28) ∧
    ∃ r : Int, GetCornerArrangementsIndex 28 (fun x => if x = 2 then 0 else 16) ((0 : Nat) : Int)
        (FillCornerIndexes sampleArrangements 3) [0, 0, 0, 0, 0, 0] 1 ((2 : Nat) : Int) = some r ∧
      FirstMatch (fun x => if x = 2 then 0 else 16) (FillCornerIndexes sampleArrangements 3)
        [0, 0, 0, 0, 0, 0] 1 3 0 r :=
  ⟨by decide, C6_getCornerArrangementsIndex_first (fun x => if x = 2 then 0 else 16)
    sampleArrangements 3 (by decide) (by decide) (by decide) 0 2 (by decide) (by decide)
    [0, 0, 0, 0, 0, 0] 1 (by decide) 28 (by decide)⟩

theorem C7_witness :
    (3 ≤ sampleArrangements.length ∧ 0 < 3 ∧ 1 ≤ 1 ∧ 1 ≤ 6) ∧
    (NextOK sampleArrangements 3 0 1
      (((FillCornerIndexes sampleArrangements 3).getD 0 zeroArrangement).nextIndex.getD (1 - 1) 0) ∧
    ((FillCornerIndexes sampleArrangements 3).getD 0 zeroArrangement).faceIds =
      (sampleArrangements.getD 0 zeroArrangement).faceIds ∧
    ((FillCornerIndexes sampleArrangements 3).getD 0 zeroArrangement).arrangement =
      (sampleArrangements.getD 0 zeroArrangement).arrangement) :=
  ⟨by decide, C7_fillCornerIndexes_next sampleArrangements 3 (by decide) (by decide) (by decide)
    0 1 (by decide) (by decide) (by decide)⟩

theorem sample_fill_eval :
    ((FillCornerIndexes sampleArrangements 3).map (fun e => e.nextIndex.getD 0 0)) =
      [2, 2, 4294967295] ∧
    GetCornerArrangementsIndex 28 (fun x => if x = 2 then 0 else 16) 0
      (FillCornerIndexes sampleArrangements 3) [0, 0, 0, 0, 0, 0] 1 2 = some 2 := by
  decide

/-! ## The tables of the edge enumeration -/

theorem edge_cell_lt : ∀ k, k < 12 → ∀ j, j < 2 → tab2 edges k j < 54 := by decide!

theorem edge_cell_odd : ∀ k, k < 12 → ∀ j, j < 2 → tab2 edges k j % 9 % 2 = 1 := by decide!

theorem edgeSlotOf_cell : ∀ k, k < 12 → ∀ j, j < 2 → edgeSlotOf (tab2 edges k j) = 2 * k + j := by
  decide!

theorem edge_cell_inj (k j k' j' : Nat) (hk : k < 12) (hj : j < 2) (hk' : k' < 12) (hj' : j' < 2)
    (h : tab2 edges k j = tab2 edges k' j') : k = k' ∧ j = j' := by
  have h1 := edgeSlotOf_cell k hk j hj
  have h2 := edgeSlotOf_cell k' hk' j' hj'
  rw [h] at h1
  omega

theorem edge_cell_surj : ∀ x, x < 54 → x % 9 % 2 = 1 →
    ∃ k, k < 12 ∧ ∃ j, j < 2 ∧ tab2 edges k j = x := by decide!

theorem colorOf_eq : ∀ x, x < 54 → ColorOf x = x / 9 := by decide!

theorem doneFaces_step : ∀ e, e < 12 →
    (0 ≤ edge_face_id_checks_start.getD e 0 →
      (edge_face_id_checks_start.getD e 0).toNat = doneFaces e ∧
      (edge_face_id_checks_end.getD e 0 + 1).toNat = doneFaces (e + 1)) ∧
    (¬ 0 ≤ edge_face_id_checks_start.getD e 0 → doneFaces (e + 1) = doneFaces e) := by decide!

theorem doneFaces_mono : ∀ e, e < 12 → doneFaces e ≤ doneFaces (e + 1) ∧ doneFaces (e + 1) ≤ 6 := by
  decide!

theorem doneFaces_cells : ∀ e, e < 13 → ∀ f, f < doneFaces e → ∀ d, d < 4 →
    ∃ k, k < e ∧ ∃ j, j < 2 ∧ tab2 edges k j = f * 9 + (2 * d + 1) := by decide!

theorem diagonal_cells : ∀ e, e < 12 → ∀ i, edge_diagonal_checks_start.getD e 0 ≤ i →
    i < edge_diagonal_checks_end.getD e 0 + 1 → i < 24 ∧
    (∃ k, k < e + 1 ∧ ∃ j, j < 2 ∧ tab2 edges k j = tab2 edge_diagonal_checks i 0) ∧
    (∃ k, k < e + 1 ∧ ∃ j, j < 2 ∧ tab2 edges k j = tab2 edge_diagonal_checks i 1) := by
  intro e he
  interval_cases e <;> decide!

theorem diagonal_faces : ∀ i, i < 24 →
    tab2 edge_diagonal_checks i 0 / 9 = tab2 edge_diagonal_checks i 1 / 9 ∧
    tab2 edge_diagonal_checks i 0 % 9 ≠ tab2 edge_diagonal_checks i 1 % 9 ∧
    touching (tab2 edge_diagonal_checks i 0 % 9) (tab2 edge_diagonal_checks i 1 % 9) := by
  decide!

/-! ## Placing an edge cubie -/

theorem placeEdge_length (cube : List Nat) (e p o : Nat) :
    (placeEdge cube e p o).length = cube.length := by
  simp [placeEdge]

theorem placeEdge_getD (cube : List Nat) (e p o x : Nat) (hl : cube.length = 54) (he : e < 12) :
    (placeEdge cube e p o).getD x 0 =
      if x = tab2 edges e 1 then tab2 edges p (1 ^^^ o)
      else if x = tab2 edges e 0 then tab2 edges p o else cube.getD x 0 := by
  have h0 := edge_cell_lt e he 0 (by decide)
  have h1 := edge_cell_lt e he 1 (by decide)
  unfold placeEdge
  rw [getD_set_nat, getD_set_nat, List.length_set, hl]
  by_cases hx1 : x = tab2 edges e 1
  · simp [hx1, h1]
  · by_cases hx0 : x = tab2 edges e 0
    · subst hx0
      simp [h0, h1, hx1]
    · simp [hx0, hx1]

theorem placeEdge_getD_zero (cube : List Nat) (e p o : Nat) (hl : cube.length = 54) (he : e < 12) :
    (placeEdge cube e p o).getD (tab2 edges e 0) 0 = tab2 edges p o := by
  rw [placeEdge_getD cube e p o _ hl he]
  have := edge_cell_inj e 0 e 1 he (by decide) he (by decide)
  rw [if_neg (fun h => by have := this h; omega), if_pos rfl]

theorem placeEdge_getD_one (cube : List Nat) (e p o : Nat) (hl : cube.length = 54) (he : e < 12) :
    (placeEdge cube e p o).getD (tab2 edges e 1) 0 = tab2 edges p (1 ^^^ o) := by
  rw [placeEdge_getD cube e p o _ hl he, if_pos rfl]

theorem placeEdge_getD_slot (cube : List Nat) (e p o k j : Nat) (hl : cube.length = 54)
    (he : e < 12) (hk : k < 12) (hj : j < 2) (hne : k ≠ e) :
    (placeEdge cube e p o).getD (tab2 edges k j) 0 = cube.getD (tab2 edges k j) 0 := by
  rw [placeEdge_getD cube e p o _ hl he]
  rw [if_neg (fun h => hne (edge_cell_inj k j e 1 hk hj he (by decide) h).1),
    if_neg (fun h => hne (edge_cell_inj k j e 0 hk hj he (by decide) h).1)]

theorem placeEdge_getD_even (cube : List Nat) (e p o x : Nat) (hl : cube.length = 54)
    (he : e < 12) (hx : x % 9 % 2 = 0) :
    (placeEdge cube e p o).getD x 0 = cube.getD x 0 := by
  rw [placeEdge_getD cube e p o _ hl he]
  have h0 := edge_cell_odd e he 0 (by decide)
  have h1 := edge_cell_odd e he 1 (by decide)
  rw [if_neg (fun h => by rw [h] at hx; omega), if_neg (fun h => by rw [h] at hx; omega)]

/-! ## The invariant of the cube -/

theorem cubeInv_congr {e : Nat} {P O P' O' cube : List Nat} (h : CubeInv e P O cube)
    (hP : ∀ k, k < e → P'.getD k 0 = P.getD k 0) (hO : ∀ k, k < e → O'.getD k 0 = O.getD k 0) :
    CubeInv e P' O' cube := by
  refine ⟨h.1, h.2.1, fun k hk => ?_⟩
  rw [hP k hk, hO k hk]
  exact h.2.2 k hk

theorem cubeInv_mono {e e' : Nat} {P O cube : List Nat} (h : CubeInv e P O cube) (he : e' ≤ e) :
    CubeInv e' P O cube :=
  ⟨h.1, h.2.1, fun k hk => h.2.2 k (by omega)⟩

theorem cubeInv_place {e : Nat} {P O cube : List Nat} (h : CubeInv e P O cube) (he : e < 12)
    (P' O' : List Nat) (hP : ∀ k, k < e → P'.getD k 0 = P.getD k 0)
    (hO : ∀ k, k < e → O'.getD k 0 = O.getD k 0) :
    CubeInv (e + 1) P' O' (placeEdge cube e (P'.getD e 0) (O'.getD e 0)) := by
  refine ⟨by rw [placeEdge_length]; exact h.1, fun x hx hx2 => ?_, fun k hk => ?_⟩
  · rw [placeEdge_getD_even _ _ _ _ _ h.1 he hx2]
    exact h.2.1 x hx hx2
  · by_cases hke : k = e
    · subst hke
      exact ⟨placeEdge_getD_zero _ _ _ _ h.1 he, placeEdge_getD_one _ _ _ _ h.1 he⟩
    · have hk' : k < e := by omega
      rw [placeEdge_getD_slot _ _ _ _ _ _ h.1 he (by omega) (by decide) hke,
        placeEdge_getD_slot _ _ _ _ _ _ h.1 he (by omega) (by decide) hke, hP k hk', hO k hk']
      exact h.2.2 k hk'

/-- Placing a cubie in the slot `e` keeps the invariant for the slots below `e`. -/
theorem cubeInv_place_below {e : Nat} {P O cube : List Nat} (h : CubeInv e P O cube) (he : e < 12)
    (p o : Nat) : CubeInv e P O (placeEdge cube e p o) := by
  refine ⟨by rw [placeEdge_length]; exact h.1, fun x hx hx2 => ?_, fun k hk => ?_⟩
  · rw [placeEdge_getD_even _ _ _ _ _ h.1 he hx2]
    exact h.2.1 x hx hx2
  · rw [placeEdge_getD_slot _ _ _ _ _ _ h.1 he (by omega) (by decide) (by omega),
      placeEdge_getD_slot _ _ _ _ _ _ h.1 he (by omega) (by decide) (by omega)]
    exact h.2.2 k hk

theorem cubeInv_initial (P O : List Nat) : CubeInv 0 P O initialEdgeCube :=
  ⟨rfl, fun _ _ _ => rfl, fun k hk => by omega⟩

theorem cubeInv_fold (P O : List Nat) (n : Nat) (hn : n ≤ 12) :
    CubeInv n P O ((List.range n).foldl
      (fun c k => placeEdge c k (P.getD k 0) (O.getD k 0)) initialEdgeCube) := by
  induction n with
  | zero => exact cubeInv_initial P O
  | succ n ih =>
    rw [List.range_succ, List.foldl_append]
    exact cubeInv_place (ih (by omega)) (by omega) P O (fun _ _ => rfl) (fun _ _ => rfl)

theorem cubeInv_edgeCube (P O : List Nat) : CubeInv 12 P O (edgeCube P O) :=
  cubeInv_fold P O 12 (le_refl _)

/-- Two cubes that agree on the slots below `e` agree on every edge surface of those slots. -/
theorem cubeInv_agree {e : Nat} {P O c1 c2 : List Nat} (h1 : CubeInv e P O c1)
    (h2 : CubeInv e P O c2) (k j : Nat) (hk : k < e) (hj : j < 2) :
    c1.getD (tab2 edges k j) 0 = c2.getD (tab2 edges k j) 0 := by
  have a := h1.2.2 k hk
  have b := h2.2.2 k hk
  interval_cases j
  · rw [a.1, b.1]
  · rw [a.2, b.2]

theorem cubeInv_unique {P O c1 c2 : List Nat} (h1 : CubeInv 12 P O c1) (h2 : CubeInv 12 P O c2) :
    c1 = c2 := by
  apply list_ext_getD _ _ (by rw [h1.1, h2.1])
  intro x hx
  rw [h1.1] at hx
  by_cases hodd : x % 9 % 2 = 1
  · obtain ⟨k, hk, j, hj, rfl⟩ := edge_cell_surj x hx hodd
    exact cubeInv_agree h1 h2 k j hk hj
  · rw [h1.2.1 x hx (by omega), h2.2.1 x hx (by omega)]

/-- The value of an edge surface of a placed slot is a sticker id. -/
theorem cubeInv_cell_lt {e : Nat} {P O cube : List Nat} (h : CubeInv e P O cube) (k j : Nat)
    (hk : k < e) (hj : j < 2) (hP : P.getD k 0 < 12) (hO : O.getD k 0 < 2) :
    cube.getD (tab2 edges k j) 0 < 54 := by
  have a := h.2.2 k hk
  have hx : 1 ^^^ O.getD k 0 < 2 := by
    have : O.getD k 0 = 0 ∨ O.getD k 0 = 1 := by omega
    rcases this with h | h <;> rw [h] <;> decide
  interval_cases j
  · rw [a.1]; exact edge_cell_lt _ hP _ hO
  · rw [a.2]; exact edge_cell_lt _ hP _ hx

/-! ## The edges' contributions to the face ids -/

theorem edgeFaceId_agree {e : Nat} {P O c1 c2 : List Nat} (h1 : CubeInv e P O c1)
    (h2 : CubeInv e P O c2) (he : e ≤ 12) (f : Nat) (hf : f < doneFaces e) :
    edgeFaceId c1 f = edgeFaceId c2 f := by
  have key : ∀ d, d < 4 → c1.getD (f * 9 + (2 * d + 1)) 0 = c2.getD (f * 9 + (2 * d + 1)) 0 := by
    intro d hd
    obtain ⟨k, hk, j, hj, hkj⟩ := doneFaces_cells e (by omega) f hf d hd
    rw [← hkj]
    exact cubeInv_agree h1 h2 k j hk hj
  unfold edgeFaceId
  rw [key 0 (by decide), key 1 (by decide), key 2 (by decide), key 3 (by decide)]

theorem fillEdgeFaceIds_length (cube face_ids : List Nat) (first count : Nat) :
    (fillEdgeFaceIds cube face_ids first count).length = face_ids.length := by
  unfold fillEdgeFaceIds
  generalize List.range' first (count - first) = l
  induction l generalizing face_ids with
  | nil => rfl
  | cons a l ih => rw [List.foldl_cons, ih]; simp

theorem fillEdgeFaceIds_getD (cube face_ids : List Nat) (first count f : Nat)
    (hc : count ≤ face_ids.length) :
    (fillEdgeFaceIds cube face_ids first count).getD f 0 =
      if first ≤ f ∧ f < count then edgeFaceId cube f else face_ids.getD f 0 := by
  unfold fillEdgeFaceIds
  by_cases hfc : first ≤ count
  · obtain ⟨n, rfl⟩ : ∃ n, count = first + n := ⟨count - first, by omega⟩
    rw [Nat.add_sub_cancel_left]
    induction n generalizing first face_ids with
    | zero =>
      have : ¬ (first ≤ f ∧ f < first + 0) := by omega
      rw [if_neg this]
      rfl
    | succ n ih =>
      rw [List.range'_succ, List.foldl_cons]
      have e := ih (face_ids.set first (edgeFaceId cube first)) (first + 1)
        (by simp; omega) (by omega)
      rw [show first + 1 + n = first + (n + 1) by omega] at e
      rw [e, getD_set_nat]
      by_cases h1 : f = first
      · subst h1
        have : ¬ (f + 1 ≤ f ∧ f < f + (n + 1)) := by omega
        rw [if_neg this, if_pos ⟨rfl, by omega⟩, if_pos ⟨le_refl _, by omega⟩]
      · by_cases h2 : first + 1 ≤ f ∧ f < first + (n + 1)
        · rw [if_pos h2, if_pos ⟨by omega, h2.2⟩]
        · rw [if_neg h2, if_neg (fun h => h1 h.1), if_neg (by omega)]
  · have : count - first = 0 := by omega
    rw [this]
    have : ¬ (first ≤ f ∧ f < count) := by omega
    simp [this]

theorem edgeFaceIds_getD (cube : List Nat) (f : Nat) (hf : f < 6) :
    (edgeFaceIds cube).getD f 0 = edgeFaceId cube f := by
  unfold edgeFaceIds
  interval_cases f <;> rfl

/-! ## The array `pieces` as a permutation -/

theorem ofFn_perm_getD {n : Nat} (t : Equiv.Perm (Fin n)) (v : Nat) (h : v < n) :
    (List.ofFn (fun k => (t k).val)).getD v 0 = (t ⟨v, h⟩).val := by
  rw [List.getD_eq_getElem _ _ (by simpa using h), List.getElem_ofFn]

theorem swapAt_ofFn_perm {n : Nat} (t : Equiv.Perm (Fin n)) (k c : Fin n) :
    swapAt (List.ofFn (fun v => (t v).val)) k.val c.val =
      List.ofFn (fun v => ((t * Equiv.swap k c) v).val) := by
  apply list_ext_getD
  · simp [swapAt_length]
  · intro j hj
    rw [swapAt_length, List.length_ofFn] at hj
    rw [swapAt_getD _ _ _ _ (by rw [List.length_ofFn]; exact k.isLt)
      (by rw [List.length_ofFn]; exact c.isLt), ofFn_perm_getD _ _ k.isLt,
      ofFn_perm_getD _ _ c.isLt, ofFn_perm_getD _ _ hj, ofFn_perm_getD _ _ hj]
    simp only [Equiv.Perm.mul_apply, Equiv.swap_apply_def]
    by_cases h1 : j = c.val
    · have : (⟨j, hj⟩ : Fin n) = c := Fin.ext h1
      by_cases h2 : c = k
      · simp [h1, this, h2]
      · simp [h1, this, h2]
    · have n1 : (⟨j, hj⟩ : Fin n) ≠ c := fun h => h1 (congrArg Fin.val h)
      by_cases h2 : j = k.val
      · have : (⟨j, hj⟩ : Fin n) = k := Fin.ext h2
        have hkc : k ≠ c := fun h => n1 (this.trans h)
        have hv : k.val ≠ c.val := fun h => hkc (Fin.ext h)
        simp [this, hkc, h1, h2, hv]
      · have n2 : (⟨j, hj⟩ : Fin n) ≠ k := fun h => h2 (congrArg Fin.val h)
        simp [h1, h2, n1, n2]

theorem edgePermList_length (σ : Equiv.Perm (Fin 12)) : (edgePermList σ).length = 12 := by
  simp [edgePermList]

theorem edgePermList_getD (σ : Equiv.Perm (Fin 12)) (k : Nat) (h : k < 12) :
    (edgePermList σ).getD k 0 = (σ ⟨k, h⟩).val :=
  ofFn_perm_getD σ k h

theorem edgePermList_lt (σ : Equiv.Perm (Fin 12)) (k : Nat) (h : k < 12) :
    (edgePermList σ).getD k 0 < 12 := by
  rw [edgePermList_getD σ k h]
  exact (σ ⟨k, h⟩).isLt

theorem edgePermList_one : edgePermList 1 = [0, 1, 2, 3, 4, 5, 6, 7, 8, 9, 10, 11] := by
  simp [edgePermList, List.ofFn_succ]

theorem swapAt_edgePermList (σ : Equiv.Perm (Fin 12)) (k c : Fin 12) :
    swapAt (edgePermList σ) k.val c.val = edgePermList (σ * Equiv.swap k c) :=
  swapAt_ofFn_perm σ k c

theorem parityBit_lt {n : Nat} (σ : Equiv.Perm (Fin n)) : parityBit σ < 2 := by
  unfold parityBit
  split_ifs <;> omega

theorem parityBit_one {n : Nat} : parityBit (1 : Equiv.Perm (Fin n)) = 0 := by
  simp [parityBit]

theorem parityBit_mul_swap {n : Nat} (σ : Equiv.Perm (Fin n)) (a b : Fin n) (h : a ≠ b) :
    parityBit (σ * Equiv.swap a b) = parityBit σ ^^^ 1 := by
  unfold parityBit
  rw [Equiv.Perm.sign_mul, Equiv.Perm.sign_swap h]
  rcases Int.units_eq_one_or (Equiv.Perm.sign σ) with h1 | h1 <;> rw [h1] <;> decide

theorem parityBit_eq_iff {n : Nat} (σ τ : Equiv.Perm (Fin n)) :
    parityBit σ = parityBit τ ↔ Equiv.Perm.sign σ = Equiv.Perm.sign τ := by
  unfold parityBit
  rcases Int.units_eq_one_or (Equiv.Perm.sign σ) with h1 | h1 <;>
    rcases Int.units_eq_one_or (Equiv.Perm.sign τ) with h2 | h2 <;> rw [h1, h2] <;> decide

theorem xor_bit_facts : ∀ a, a < 2 → ∀ b, b < 2 →
    (a ^^^ b) ^^^ b = a ∧ a ^^^ b < 2 ∧ a ^^^ b = (a + b) % 2 ∧ (a ^^^ 1) ^^^ 1 = a := by
  decide

/-- A permutation that agrees with `σ` below the slot `e` puts into the slot `e` a cubie that
`σ` puts into a slot `pos ≥ e`. -/
theorem exists_pos_of_agree (σ τ : Equiv.Perm (Fin 12)) (e : Nat) (he : e < 12)
    (h : ∀ k : Fin 12, k.val < e → τ k = σ k) :
    ∃ pos : Fin 12, e ≤ pos.val ∧ τ ⟨e, he⟩ = σ pos := by
  refine ⟨σ.symm (τ ⟨e, he⟩), ?_, by simp⟩
  by_contra hlt
  have h1 := h (σ.symm (τ ⟨e, he⟩)) (by omega)
  rw [Equiv.apply_symm_apply] at h1
  have h2 := τ.injective h1
  have := congrArg Fin.val h2
  simp at this
  omega

theorem agree_mul_swap (σ τ : Equiv.Perm (Fin 12)) (e : Nat) (he : e < 12) (pos : Fin 12)
    (hpos : e ≤ pos.val) :
    (∀ k : Fin 12, k.val < e + 1 → τ k = (σ * Equiv.swap ⟨e, he⟩ pos) k) ↔
      ((∀ k : Fin 12, k.val < e → τ k = σ k) ∧ τ ⟨e, he⟩ = σ pos) := by
  have hfix : ∀ k : Fin 12, k.val < e → (σ * Equiv.swap ⟨e, he⟩ pos) k = σ k := by
    intro k hk
    rw [Equiv.Perm.mul_apply, Equiv.swap_apply_of_ne_of_ne]
    · intro hc; rw [hc] at hk; simp at hk
    · intro hc; rw [hc] at hk; omega
  have hat : (σ * Equiv.swap ⟨e, he⟩ pos) ⟨e, he⟩ = σ pos := by
    rw [Equiv.Perm.mul_apply, Equiv.swap_apply_left]
  constructor
  · intro h
    refine ⟨fun k hk => ?_, ?_⟩
    · rw [h k (by omega), hfix k hk]
    · rw [h ⟨e, he⟩ (by simp), hat]
  · rintro ⟨h1, h2⟩ k hk
    by_cases hke : k.val = e
    · have : k = ⟨e, he⟩ := Fin.ext hke
      rw [this, h2, hat]
    · rw [hfix k (by omega), h1 k (by omega)]

/-! ## Face ids and the colours of a face -/

theorem buildFaceTable_sound (i : Nat) (hi : i < FACE_ARRANGEMENTS) (h : BuildFaceTable i < 16) :
    PerfectFace (FaceIndexToColors i) := by
  rw [FaceIndexToColors_eq]
  exact (table_lt_iff i hi).1 h

theorem touching_reverse : ∀ a, a < 9 → ∀ b, b < 9 → (touching (8 - a) (8 - b) ↔ touching a b) := by
  decide!

theorem perfectFace_reverse (cs : List Nat) (hl : cs.length = 9) (h : PerfectFace cs.reverse) :
    PerfectFace cs := by
  obtain ⟨h1, h2, h3⟩ := h
  refine ⟨fun col hc => List.mem_reverse.1 (h1 col hc), fun col => ?_, fun a b ha hb hab ht => ?_⟩
  · have := h2 col
    rwa [List.count_reverse] at this
  · have key : ∀ x, x < 9 → cs.reverse.getD (8 - x) 0 = cs.getD x 0 := by
      intro x hx
      rw [List.getD_eq_getElem _ _ (by rw [List.length_reverse, hl]; omega),
        List.getD_eq_getElem _ _ (by rw [hl]; exact hx), List.getElem_reverse]
      congr 1
      rw [hl]
      omega
    have := h3 (8 - a) (8 - b) (by omega) (by omega) (by omega)
      ((touching_reverse a ha b hb).2 ht)
    rwa [key a ha, key b hb] at this

/-- The sum of the corners' and the edges' contributions is the face index of the colours
read in reverse order. -/
theorem combined_index (c0 c1 c2 c3 c4 c5 c6 c7 c8 : Nat) (h0 : c0 < 6) (h1 : c1 < 6)
    (h2 : c2 < 6) (h3 : c3 < 6) (h4 : c4 < 6) (h5 : c5 < 6) (h6 : c6 < 6) (h7 : c7 < 6)
    (h8 : c8 < 6) :
    ((((c0 * 36 + c2) * 36 + c4) * 36 + c6) * 36 + c8 +
      (((c1 * 36 + c3) * 36 + c5) * 36 + c7) * CUBE_COLORS < FACE_ARRANGEMENTS) ∧
    FaceIndexToColors ((((c0 * 36 + c2) * 36 + c4) * 36 + c6) * 36 + c8 +
      (((c1 * 36 + c3) * 36 + c5) * 36 + c7) * CUBE_COLORS) =
      [c8, c7, c6, c5, c4, c3, c2, c1, c0] := by
  have e : (((c0 * 36 + c2) * 36 + c4) * 36 + c6) * 36 + c8 +
      (((c1 * 36 + c3) * 36 + c5) * 36 + c7) * CUBE_COLORS =
      c8 + 6 * (c7 + 6 * (c6 + 6 * (c5 + 6 * (c4 + 6 * (c3 + 6 * (c2 + 6 * (c1 + 6 * c0))))))) := by
    unfold CUBE_COLORS
    ring
  rw [e]
  refine ⟨by unfold FACE_ARRANGEMENTS; omega, ?_⟩
  rw [FaceIndexToColors_eq]
  unfold colorsOf
  have d := digit_of_horner c8 c7 c6 c5 c4 c3 c2 c1 c0 h8 h7 h6 h5 h4 h3 h2 h1 h0
  rw [cell_faceOf _ _ (by decide : 0 < 9), cell_faceOf _ _ (by decide : 1 < 9),
    cell_faceOf _ _ (by decide : 2 < 9), cell_faceOf _ _ (by decide : 3 < 9),
    cell_faceOf _ _ (by decide : 4 < 9), cell_faceOf _ _ (by decide : 5 < 9),
    cell_faceOf _ _ (by decide : 6 < 9), cell_faceOf _ _ (by decide : 7 < 9),
    cell_faceOf _ _ (by decide : 8 < 9), d 0 (by decide), d 1 (by decide), d 2 (by decide),
    d 3 (by decide), d 4 (by decide), d 5 (by decide), d 6 (by decide), d 7 (by decide),
    d 8 (by decide)]
  rfl

theorem initialEdgeCube_cells : ∀ x, x < 54 → x % 9 % 2 = 0 →
    initialEdgeCube.getD x 0 = if x % 9 = 4 then x else 0 := by decide!

theorem solutionCube_getD (cube arr : List Nat) (x : Nat) (hx : x < 54) :
    (solutionCube cube arr).getD x 0 = cube.getD x 0 ||| arr.getD x 0 := by
  unfold solutionCube
  rw [List.getD_eq_getElem _ _ (by simpa using hx)]
  simp

/-- The bitwise OR of `RecordSolution` takes the edge surfaces from the edge cube and all other
surfaces from the corner arrangement. -/
theorem solutionCube_cell {P O cube : List Nat} (hcube : CubeInv 12 P O cube)
    (c : CornerArrangement) (hc : StoredEntry c) (x : Nat) (hx : x < 54) :
    (solutionCube cube c.arrangement).getD x 0 =
      if x % 9 % 2 = 1 then cube.getD x 0 else c.arrangement.getD x 0 := by
  rw [solutionCube_getD _ _ _ hx]
  obtain ⟨_, _, _, hcell⟩ := hc
  obtain ⟨ha, hb, _⟩ := hcell x hx
  by_cases hodd : x % 9 % 2 = 1
  · rw [if_pos hodd, ha hodd, Nat.or_zero]
  · rw [if_neg hodd, hcube.2.1 x hx (by omega), initialEdgeCube_cells x hx (by omega)]
    by_cases h4 : x % 9 = 4
    · rw [if_pos h4, hb h4, Nat.or_self]
    · rw [if_neg h4, Nat.zero_or]

theorem faceColors_getD (cube : List Nat) (f s : Nat) (hs : s < 9) :
    (faceColors cube f).getD s 0 = cube.getD (9 * f + s) 0 / 9 := by
  unfold faceColors
  rw [List.getD_eq_getElem _ _ (by simpa using hs)]
  simp

theorem faceColors_eq (cube : List Nat) (f : Nat) :
    faceColors cube f = [cube.getD (9 * f + 0) 0 / 9, cube.getD (9 * f + 1) 0 / 9,
      cube.getD (9 * f + 2) 0 / 9, cube.getD (9 * f + 3) 0 / 9, cube.getD (9 * f + 4) 0 / 9,
      cube.getD (9 * f + 5) 0 / 9, cube.getD (9 * f + 6) 0 / 9, cube.getD (9 * f + 7) 0 / 9,
      cube.getD (9 * f + 8) 0 / 9] := by
  rfl

/-- The edge surfaces of a fully placed cube hold sticker ids. -/
theorem cubeInv_edge_lt {P O cube : List Nat} (hcube : CubeInv 12 P O cube)
    (hP : ∀ k, k < 12 → P.getD k 0 < 12) (hO : ∀ k, k < 12 → O.getD k 0 < 2) (x : Nat)
    (hx : x < 54) (hodd : x % 9 % 2 = 1) : cube.getD x 0 < 54 := by
  obtain ⟨k, hk, j, hj, rfl⟩ := edge_cell_surj x hx hodd
  exact cubeInv_cell_lt hcube k j hk hj (hP k hk) (hO k hk)

/-- A corner arrangement and a fully placed edge cube whose combined face id has a perfect
pattern id give a perfect face of the solution cube. -/
theorem match_perfect (face_table : Nat → Int)
    (hft : ∀ i, i < FACE_ARRANGEMENTS → face_table i < 16 → PerfectFace (FaceIndexToColors i))
    {P O cube : List Nat} (hcube : CubeInv 12 P O cube)
    (hP : ∀ k, k < 12 → P.getD k 0 < 12) (hO : ∀ k, k < 12 → O.getD k 0 < 2)
    (c : CornerArrangement) (hc : StoredEntry c) (f : Nat) (hf : f < 6)
    (h : face_table (c.faceIds.getD f 0 + edgeFaceId cube f) < 16) :
    PerfectFace (faceColors (solutionCube cube c.arrangement) f) := by
  have hs := solutionCube_cell hcube c hc
  have he := cubeInv_edge_lt hcube hP hO
  have hstored := hc
  obtain ⟨_, _, hfid, hcell⟩ := hc
  rw [hfid f hf] at h
  unfold cornerFaceId edgeFaceId at h
  have b0 := (hcell (f * 9) (by omega)).2.2
  have b2 := (hcell (f * 9 + 2) (by omega)).2.2
  have b4 := (hcell (f * 9 + 4) (by omega)).2.2
  have b6 := (hcell (f * 9 + 6) (by omega)).2.2
  have b8 := (hcell (f * 9 + 8) (by omega)).2.2
  have b1 := he (f * 9 + 1) (by omega) (by omega)
  have b3 := he (f * 9 + 3) (by omega) (by omega)
  have b5 := he (f * 9 + 5) (by omega) (by omega)
  have b7 := he (f * 9 + 7) (by omega) (by omega)
  obtain ⟨hlt, hcols⟩ := combined_index (c.arrangement.getD (f * 9) 0 / 9)
    (cube.getD (f * 9 + 1) 0 / 9) (c.arrangement.getD (f * 9 + 2) 0 / 9)
    (cube.getD (f * 9 + 3) 0 / 9) (c.arrangement.getD (f * 9 + 4) 0 / 9)
    (cube.getD (f * 9 + 5) 0 / 9) (c.arrangement.getD (f * 9 + 6) 0 / 9)
    (cube.getD (f * 9 + 7) 0 / 9) (c.arrangement.getD (f * 9 + 8) 0 / 9)
    (by omega) (by omega) (by omega) (by omega) (by omega) (by omega) (by omega) (by omega)
    (by omega)
  have hp := hft _ hlt h
  rw [hcols] at hp
  rw [faceColors_eq]
  rw [hs _ (by omega : 9 * f + 0 < 54), hs _ (by omega : 9 * f + 1 < 54),
    hs _ (by omega : 9 * f + 2 < 54), hs _ (by omega : 9 * f + 3 < 54),
    hs _ (by omega : 9 * f + 4 < 54), hs _ (by omega : 9 * f + 5 < 54),
    hs _ (by omega : 9 * f + 6 < 54), hs _ (by omega : 9 * f + 7 < 54),
    hs _ (by omega : 9 * f + 8 < 54)]
  rw [if_neg (by omega), if_pos (by omega), if_neg (by omega), if_pos (by omega),
    if_neg (by omega), if_pos (by omega), if_neg (by omega), if_pos (by omega),
    if_neg (by omega)]
  have e : ∀ d, 9 * f + d = f * 9 + d := fun d => by omega
  rw [e 0, e 1, e 2, e 3, e 4, e 5, e 6, e 7, e 8, Nat.add_zero]
  exact perfectFace_reverse _ rfl hp

/-- In a perfect face of the solution cube two touching surfaces have different colours. -/
theorem perfect_no_touch (sc : List Nat) (f : Nat) (h : PerfectFace (faceColors sc f))
    (x y : Nat) (hx : x / 9 = f) (hy : y / 9 = f) (hne : x % 9 ≠ y % 9)
    (ht : touching (x % 9) (y % 9)) : sc.getD x 0 / 9 ≠ sc.getD y 0 / 9 := by
  have := h.2.2 (x % 9) (y % 9) (Nat.mod_lt _ (by decide)) (Nat.mod_lt _ (by decide)) hne ht
  rw [faceColors_getD _ _ _ (Nat.mod_lt _ (by decide)),
    faceColors_getD _ _ _ (Nat.mod_lt _ (by decide))] at this
  rwa [show 9 * f + x % 9 = x by omega, show 9 * f + y % 9 = y by omega] at this

theorem touching_center : ∀ a, a < 9 → touching a 4 := by decide!

/-! ## Searching a filled corner array -/

theorem getD_mem_of_lt (arr : List CornerArrangement) (i : Nat) (hi : i < arr.length) :
    arr.getD i zeroArrangement ∈ arr := by
  rw [List.getD_eq_getElem _ _ hi]
  exact List.getElem_mem _

theorem searchSpec_range {face_table : Nat → Int} {arr : List CornerArrangement}
    {face_ids : List Nat} {m : Nat} {start r : Int}
    (h : SearchSpec face_table arr face_ids m start r) : -1 ≤ r := by
  rcases h with ⟨h, _⟩ | ⟨j, h, _⟩ <;> omega

theorem filledArray_of_fill (arr0 : List CornerArrangement)
    (hst : ∀ c, c ∈ arr0 → StoredEntry c) (h31 : arr0.length < 2147483648) :
    FilledArray (FillCornerIndexes arr0 arr0.length) := by
  have hwf : ∀ i, i < arr0.length → (arr0.getD i zeroArrangement).nextIndex.length = 6 :=
    fun i hi => (hst _ (getD_mem_of_lt arr0 i hi)).2.1
  have hinv := fillCornerIndexes_inv arr0 arr0.length (le_refl _) h31 hwf
  have hlen := hinv.len
  constructor
  · intro i hi
    rw [hlen] at hi
    have h0 := hst _ (getD_mem_of_lt arr0 i hi)
    unfold StoredEntry at h0 ⊢
    rw [hinv.faces i, hinv.cubes i]
    exact ⟨h0.1, hinv.nlen i (by rw [hlen]; exact hi), h0.2.2⟩
  · intro face_table face_ids m start hm hs
    rw [hlen]
    unfold searchFuel
    rw [hlen]
    by_cases h1 : start > (arr0.length : Int) - 1 ∨ start = -1
    · refine ⟨-1, ?_, Or.inl ⟨rfl, fun c h0 h2 h3 => ?_⟩⟩
      · unfold GetCornerArrangementsIndex
        rw [if_pos h1]
      · omega
    · obtain ⟨i, rfl⟩ : ∃ i : Nat, start = (i : Int) := ⟨start.toNat, by omega⟩
      have hn : 1 ≤ arr0.length := by omega
      have hmx : ((arr0.length - 1 : Nat) : Int) = (arr0.length : Int) - 1 := by omega
      obtain ⟨r, hr, hf⟩ := getCornerArrangementsIndex_spec face_table arr0 arr0.length
        (le_refl _) h31 hwf i (arr0.length - 1) (by omega) (by omega) face_ids m hm
        (7 * arr0.length + 7) (le_refl _)
      rw [hmx] at hr
      refine ⟨r, hr, ?_⟩
      rcases hf with ⟨h2, h3⟩ | ⟨j, h2, h3, h4, h5, h6⟩
      · exact Or.inl ⟨h2, fun c _ hc1 hc2 => h3 c (by omega) (by rw [hlen] at hc2; exact hc2)⟩
      · exact Or.inr ⟨j, h2, by omega, by omega, by rw [hlen]; exact h4, h5,
          fun c hc1 hc2 => h6 c (by omega) hc2⟩

/-- The loop of `PlaceLastEdgePiece` records every match from the start index on, once each,
in increasing order. -/
theorem recordLoop_spec (face_table : Nat → Int) (arr : List CornerArrangement)
    (hA : FilledArray arr) (face_ids cube : List Nat) (sp : Nat) :
    ∀ (fuel : Nat) (start r : Int) (sols : List SolutionCall), -1 ≤ start →
    SearchSpec face_table arr face_ids 6 start r →
    (if r = -1 then 1 else (arr.length : Int) - r) ≤ (fuel : Int) →
    ∃ cs : List Nat,
      recordLoop face_table arr face_ids cube sp 6 ((arr.length : Int) - 1) fuel r sols =
        some (sols ++ cs.map (fun c : Nat => (⟨face_ids, cube, sp, (c : Int)⟩ : SolutionCall))) ∧
      cs.Pairwise (fun a b => a < b) ∧
      ∀ c : Nat, c ∈ cs ↔ (0 ≤ start ∧ start ≤ (c : Int) ∧ c < arr.length ∧
        CornerMatch face_table arr face_ids 6 c) := by
  intro fuel
  induction fuel with
  | zero =>
    intro start r sols _ hs hf
    exfalso
    rcases hs with ⟨h, _⟩ | ⟨j, h, _, _, hj, _⟩
    · rw [if_pos h] at hf; omega
    · rw [if_neg (by omega)] at hf; omega
  | succ fuel ih =>
    intro start r sols hstart hs hf
    rcases hs with ⟨h, hnone⟩ | ⟨j, h, h0, hsj, hj, hmatch, hmin⟩
    · refine ⟨[], ?_, List.Pairwise.nil, fun c => ?_⟩
      · unfold recordLoop
        rw [if_pos h]
        simp
      · constructor
        · intro hc; exact absurd hc (List.not_mem_nil _)
        · rintro ⟨a, b, c1, d⟩
          exact absurd d (hnone c a b c1)
    · have hr1 : ¬ r = -1 := by omega
      unfold recordLoop
      rw [if_neg hr1]
      by_cases hlast : r ≥ (arr.length : Int) - 1
      · simp only [hlast, if_true]
        refine ⟨[j], by simp [h], List.pairwise_singleton _ _, fun c => ?_⟩
        constructor
        · intro hc
          have : c = j := by simpa using hc
          subst this
          exact ⟨h0, hsj, hj, hmatch⟩
        · rintro ⟨a, b, c1, d⟩
          by_cases hcj : c < j
          · exact absurd d (hmin c b hcj)
          · have : c = j := by omega
            simp [this]
      · simp only [hlast, if_false]
        obtain ⟨r', hr', hs'⟩ := hA.search face_table face_ids 6 (r + 1) (le_refl _) (by omega)
        rw [hr']
        simp only
        have hf' : (if r' = -1 then 1 else (arr.length : Int) - r') ≤ (fuel : Int) := by
          rw [if_neg hr1] at hf
          rcases hs' with ⟨h', _⟩ | ⟨j', h', _, hj', _⟩
          · rw [if_pos h']; omega
          · rw [if_neg (by omega)]; omega
        obtain ⟨cs, hcs, hpw, hmem⟩ := ih (r + 1) r'
          (sols ++ [(⟨face_ids, cube, sp, r⟩ : SolutionCall)]) (by omega) hs' hf'
        refine ⟨j :: cs, ?_, ?_, fun c => ?_⟩
        · rw [hcs, List.append_assoc, h]
          simp
        · refine List.Pairwise.cons (fun c hc => ?_) hpw
          have := ((hmem c).1 hc).2.1
          omega
        · rw [List.mem_cons, hmem c]
          constructor
          · rintro (hc | ⟨a, b, c1, d⟩)
            · subst hc; exact ⟨h0, hsj, hj, hmatch⟩
            · exact ⟨h0, by omega, c1, d⟩
          · rintro ⟨a, b, c1, d⟩
            by_cases hcj : c < j
            · exact absurd d (hmin c b hcj)
            · by_cases hcj' : c = j
              · exact Or.inl hcj'
              · exact Or.inr ⟨by omega, by omega, c1, d⟩

/-! ## Placements that continue a partial placement -/

theorem getD_append_left (O : List Nat) (x k : Nat) (hk : k < O.length) :
    (O ++ [x]).getD k 0 = O.getD k 0 := by
  rw [List.getD_eq_getElem _ _ (by simp; omega), List.getD_eq_getElem _ _ hk,
    List.getElem_append_left hk]

theorem getD_append_last (O : List Nat) (x : Nat) : (O ++ [x]).getD O.length 0 = x := by
  rw [List.getD_eq_getElem _ _ (by simp)]
  simp

theorem completes_succ (e : Nat) (he : e < 12) (σ : Equiv.Perm (Fin 12)) (O : List Nat)
    (hO : O.length = e) (τ : Equiv.Perm (Fin 12)) (O' : List Nat) (pos : Fin 12)
    (hpos : e ≤ pos.val) (ori : Nat) :
    Completes (e + 1) (σ * Equiv.swap ⟨e, he⟩ pos) (O ++ [ori]) τ O' ↔
      (Completes e σ O τ O' ∧ τ ⟨e, he⟩ = σ pos ∧ O'.getD e 0 = ori) := by
  unfold Completes
  rw [agree_mul_swap σ τ e he pos hpos]
  constructor
  · rintro ⟨⟨h1, h2⟩, h3, h4, h5, h6⟩
    refine ⟨⟨h1, h3, h4, fun k hk => ?_, h6⟩, h2, ?_⟩
    · rw [h5 k (by omega), getD_append_left _ _ _ (by omega)]
    · rw [h5 e (by omega), ← hO, getD_append_last]
  · rintro ⟨⟨h1, h3, h4, h5, h6⟩, h2, h7⟩
    refine ⟨⟨h1, h2⟩, h3, h4, fun k hk => ?_, h6⟩
    by_cases hke : k = e
    · rw [hke, h7, ← hO, getD_append_last]
    · rw [h5 k (by omega), getD_append_left _ _ _ (by omega)]

/-- A placement that continues `(σ, O)` at the slot `e` continues exactly one of the choices
`(pos, ori)` that the loops of `PlaceEdgePiece` make for the slot. -/
theorem completes_iff_exists (e : Nat) (he : e < 12) (σ : Equiv.Perm (Fin 12)) (O : List Nat)
    (hO : O.length = e) (τ : Equiv.Perm (Fin 12)) (O' : List Nat) :
    Completes e σ O τ O' ↔ ∃ pos : Fin 12, e ≤ pos.val ∧ ∃ ori, ori < 2 ∧
      Completes (e + 1) (σ * Equiv.swap ⟨e, he⟩ pos) (O ++ [ori]) τ O' := by
  constructor
  · intro h
    obtain ⟨pos, hpos, hτ⟩ := exists_pos_of_agree σ τ e he h.1
    exact ⟨pos, hpos, O'.getD e 0, h.2.2.1 e he,
      (completes_succ e he σ O hO τ O' pos hpos _).2 ⟨h, hτ, rfl⟩⟩
  · rintro ⟨pos, hpos, ori, _, h⟩
    exact ((completes_succ e he σ O hO τ O' pos hpos ori).1 h).1

theorem completes_twelve (σ : Equiv.Perm (Fin 12)) (O : List Nat) (hO : O.length = 12)
    (τ : Equiv.Perm (Fin 12)) (O' : List Nat) (h : Completes 12 σ O τ O') : τ = σ ∧ O' = O := by
  obtain ⟨h1, h2, _, h4, _⟩ := h
  refine ⟨Equiv.ext (fun k => h1 k k.isLt), ?_⟩
  apply list_ext_getD _ _ (by rw [h2, hO])
  intro k hk
  exact h4 k (by omega)

/-- The cube of a placement that continues `(σ, O)` holds the cubies of `(σ, O)` in the slots
below `e`. -/
theorem cubeInv_of_completes {e : Nat} {σ τ : Equiv.Perm (Fin 12)} {O O' : List Nat}
    (h : Completes e σ O τ O') (he : e ≤ 12) :
    CubeInv e (edgePermList σ) O (edgeCube (edgePermList τ) O') := by
  refine cubeInv_congr (cubeInv_mono (cubeInv_edgeCube _ _) he) (fun k hk => ?_)
    (fun k hk => (h.2.2.2.1 k hk).symm)
  rw [edgePermList_getD σ k (by omega), edgePermList_getD τ k (by omega), h.1 ⟨k, by omega⟩ hk]

theorem sum_append_bit (O : List Nat) (x : Nat) : (O ++ [x]).sum = O.sum + x := by
  simp

/-! ## Soundness of the prunings -/

/-- A cubie surface with the colour of its centre, or two edge surfaces of one colour touching
at a diagonal, rule out every corner arrangement for every continuation. -/
theorem no_match_of_local_fail (face_table : Nat → Int)
    (hft : ∀ i, i < FACE_ARRANGEMENTS → face_table i < 16 → PerfectFace (FaceIndexToColors i))
    (e : Nat) (he : e < 12) {P O cube : List Nat} (hcube : CubeInv (e + 1) P O cube)
    (hfail : edgeTouchesCenter cube e = true ∨ edgeDiagonalsTouching cube e = true)
    {P' O' X : List Nat} (hX : CubeInv 12 P' O' X) (hP' : ∀ k, k < 12 → P'.getD k 0 < 12)
    (hO' : ∀ k, k < 12 → O'.getD k 0 < 2) (hagP : ∀ k, k < e + 1 → P'.getD k 0 = P.getD k 0)
    (hagO : ∀ k, k < e + 1 → O'.getD k 0 = O.getD k 0) (c : CornerArrangement)
    (hc : StoredEntry c) :
    ¬ (∀ f, f < 6 → face_table (c.faceIds.getD f 0 + edgeFaceId X f) < 16) := by
  intro hall
  have hX' : CubeInv (e + 1) P O X :=
    cubeInv_congr (cubeInv_mono hX (by omega)) (fun k hk => (hagP k hk).symm)
      (fun k hk => (hagO k hk).symm)
  have hag := fun k j hk hj => cubeInv_agree hcube hX' k j hk hj
  have hlt := cubeInv_edge_lt hX hP' hO'
  have hsc := solutionCube_cell hX c hc
  have hperf := fun f hf => match_perfect face_table hft hX hP' hO' c hc f hf (hall f hf)
  have pair : ∀ x y, x < 54 → y < 54 → x % 9 % 2 = 1 → y % 9 % 2 = 1 → x / 9 = y / 9 →
      x % 9 ≠ y % 9 → touching (x % 9) (y % 9) → X.getD x 0 / 9 ≠ X.getD y 0 / 9 := by
    intro x y hx hy hxo hyo hf hne ht
    have := perfect_no_touch _ (x / 9) (hperf (x / 9) (by omega)) x y rfl hf.symm hne ht
    rwa [hsc x hx, hsc y hy, if_pos hxo, if_pos hyo] at this
  rcases hfail with h | h
  · have centre : ∀ j, j < 2 →
        ¬ ColorOf (cube.getD (tab2 edges e j) 0) = ColorOf (tab2 edges e j) := by
      intro j hj heq
      have hx := edge_cell_lt e he j hj
      have hodd := edge_cell_odd e he j hj
      rw [hag e j (by omega) hj, colorOf_eq _ (hlt _ hx hodd), colorOf_eq _ hx] at heq
      have h4 : (tab2 edges e j / 9 * 9 + 4) % 9 = 4 := by omega
      have := perfect_no_touch _ (tab2 edges e j / 9) (hperf _ (by omega)) (tab2 edges e j)
        (tab2 edges e j / 9 * 9 + 4) rfl (by omega) (by omega)
        (by rw [h4]; exact touching_center _ (Nat.mod_lt _ (by decide)))
      rw [hsc _ hx, hsc _ (by omega), if_pos hodd, if_neg (by omega)] at this
      obtain ⟨_, _, _, hcell⟩ := hc
      rw [(hcell _ (by omega)).2.1 h4] at this
      apply this
      rw [heq]
      omega
    unfold edgeTouchesCenter at h
    simp only [Bool.or_eq_true, beq_iff_eq] at h
    rcases h with h | h
    · exact centre 0 (by decide) h
    · exact centre 1 (by decide) h
  · unfold edgeDiagonalsTouching at h
    simp only [List.any_eq_true, List.mem_range'_1, beq_iff_eq] at h
    obtain ⟨i, ⟨hi1, hi2⟩, heq⟩ := h
    have hi3 : i < edge_diagonal_checks_end.getD e 0 + 1 := by omega
    obtain ⟨hi24, ⟨k0, hk0, j0, hj0, e0⟩, ⟨k1, hk1, j1, hj1, e1⟩⟩ := diagonal_cells e he i hi1 hi3
    obtain ⟨hf, hne, ht⟩ := diagonal_faces i hi24
    rw [← e0, ← e1] at heq hf hne ht
    have hx0 := edge_cell_lt k0 (by omega) j0 hj0
    have hx1 := edge_cell_lt k1 (by omega) j1 hj1
    have ho0 := edge_cell_odd k0 (by omega) j0 hj0
    have ho1 := edge_cell_odd k1 (by omega) j1 hj1
    rw [hag k0 j0 hk0 hj0, hag k1 j1 hk1 hj1, colorOf_eq _ (hlt _ hx0 ho0),
      colorOf_eq _ (hlt _ hx1 ho1)] at heq
    exact pair _ _ hx0 hx1 ho0 ho1 hf hne ht heq

/-! ## The body of the orientation loop -/

theorem edgeInv_weaken {e : Nat} {σ : Equiv.Perm (Fin 12)} {O : List Nat} {ori : Nat}
    {st : EdgeState} (h : EdgeInv (e + 1) σ (O ++ [ori]) st) (he : e < 12) (hO : O.length = e)
    (hb : ∀ k, k < e → O.getD k 0 < 2) : EdgeInv e σ O st := by
  refine ⟨h.pieces, ?_, h.flen, fun f hf => h.faces f ?_, hO, hb⟩
  · exact cubeInv_congr (cubeInv_mono h.cube (by omega)) (fun _ _ => rfl)
      (fun k hk => (getD_append_left O ori k (by omega)).symm)
  · have := (doneFaces_mono e he).1
    omega

theorem edgeInv_setCube {e : Nat} {σ : Equiv.Perm (Fin 12)} {O : List Nat} {st : EdgeState}
    (h : EdgeInv e σ O st) (he : e < 12) (p o : Nat) :
    EdgeInv e σ O { st with cube := placeEdge st.cube e p o } := by
  have hc := cubeInv_place_below h.cube he p o
  refine ⟨h.pieces, hc, h.flen, fun f hf => ?_, h.olen, h.obit⟩
  show st.face_ids.getD f 0 = edgeFaceId (placeEdge st.cube e p o) f
  rw [h.faces f hf]
  exact edgeFaceId_agree h.cube hc (by omega) f hf

theorem edgeInv_congr {e : Nat} {σ σ' : Equiv.Perm (Fin 12)} {O : List Nat} {st : EdgeState}
    (h : EdgeInv e σ O st) (pieces : List Nat) (hp : pieces = edgePermList σ')
    (hag : ∀ k : Fin 12, k.val < e → σ' k = σ k) (he : e ≤ 12) :
    EdgeInv e σ' O { st with pieces := pieces } := by
  refine ⟨hp, ?_, h.flen, h.faces, h.olen, h.obit⟩
  refine cubeInv_congr h.cube (fun k hk => ?_) (fun _ _ => rfl)
  rw [edgePermList_getD σ k (by omega), edgePermList_getD σ' k (by omega), hag ⟨k, by omega⟩ hk]

theorem flip_facts (O : List Nat) (ori : Nat) (hori : ori < 2) :
    (O.sum % 2 ^^^ ori) ^^^ ori = O.sum % 2 ∧ O.sum % 2 ^^^ ori = (O ++ [ori]).sum % 2 := by
  obtain ⟨h1, _, h3, _⟩ := xor_bit_facts (O.sum % 2) (Nat.mod_lt _ (by decide)) ori hori
  refine ⟨h1, ?_⟩
  rw [h3, sum_append_bit]
  omega

/-- The state after the cubie is placed and the face ids of the faces it completes are filled
in satisfies the invariant of the next slot. -/
theorem edgeInv_next {e : Nat} {σ : Equiv.Perm (Fin 12)} {O : List Nat} {st : EdgeState}
    (h : EdgeInv e σ O st) (he : e < 12) (ori : Nat) (hori : ori < 2) (face_ids : List Nat)
    (hf : face_ids = if 0 ≤ edge_face_id_checks_start.getD e 0 then
        fillEdgeFaceIds (placeEdge st.cube e (st.pieces.getD e 0) ori) st.face_ids
          (edge_face_id_checks_start.getD e 0).toNat (edge_face_id_checks_end.getD e 0 + 1).toNat
      else st.face_ids) :
    EdgeInv (e + 1) σ (O ++ [ori])
      ⟨st.pieces, placeEdge st.cube e (st.pieces.getD e 0) ori, face_ids, st.solutions⟩ := by
  have hc0 := cubeInv_place_below h.cube he (st.pieces.getD e 0) ori
  have hc : CubeInv (e + 1) (edgePermList σ) (O ++ [ori])
      (placeEdge st.cube e (st.pieces.getD e 0) ori) := by
    have := cubeInv_place h.cube he (edgePermList σ) (O ++ [ori]) (fun _ _ => rfl)
      (fun k hk => getD_append_left O ori k (by rw [h.olen]; exact hk))
    have e2 : (O ++ [ori]).getD e 0 = ori := by
      have := getD_append_last O ori
      rwa [h.olen] at this
    rw [e2] at this
    rw [h.pieces]
    exact this
  have hstep := doneFaces_step e he
  have hmono := doneFaces_mono e he
  refine ⟨h.pieces, hc, ?_, fun f hfd => ?_, by simp [h.olen], fun k hk => ?_⟩
  · show face_ids.length = 6
    rw [hf]
    split_ifs
    · rw [fillEdgeFaceIds_length]; exact h.flen
    · exact h.flen
  · show face_ids.getD f 0 = edgeFaceId (placeEdge st.cube e (st.pieces.getD e 0) ori) f
    have old : f < doneFaces e → st.face_ids.getD f 0 =
        edgeFaceId (placeEdge st.cube e (st.pieces.getD e 0) ori) f := by
      intro hfe
      rw [h.faces f hfe]
      exact edgeFaceId_agree h.cube hc0 (by omega) f hfe
    rw [hf]
    by_cases hchk : 0 ≤ edge_face_id_checks_start.getD e 0
    · rw [if_pos hchk, fillEdgeFaceIds_getD _ _ _ _ _ (by rw [(hstep.1 hchk).2, h.flen]; omega),
        (hstep.1 hchk).1, (hstep.1 hchk).2]
      by_cases hfe : doneFaces e ≤ f
      · rw [if_pos ⟨hfe, hfd⟩]
      · rw [if_neg (fun hh => hfe hh.1)]
        exact old (by omega)
    · rw [if_neg hchk]
      exact old (by rw [hstep.2 hchk] at hfd; exact hfd)
  · by_cases hke : k = e
    · rw [hke, ← h.olen, getD_append_last]; exact hori
    · rw [getD_append_left O ori k (by rw [h.olen]; omega)]
      exact h.obit k (by omega)

theorem edgeOriBody_local (face_table : Nat → Int) (ep op : List CornerArrangement)
    (next : EdgeState → Nat → Nat → Int → Int → Option EdgeState) (e : Nat) (ei oi : Int)
    (s : EdgeLoopState) (ori : Nat)
    (hloc : edgeTouchesCenter (placeEdge s.st.cube e (s.st.pieces.getD e 0) ori) e = true ∨
      edgeDiagonalsTouching (placeEdge s.st.cube e (s.st.pieces.getD e 0) ori) e = true) :
    edgeOriBody face_table ep op next e ei oi s ori =
      some ⟨{ s.st with cube := placeEdge s.st.cube e (s.st.pieces.getD e 0) ori },
        s.swap_parity, (s.flip_parity ^^^ ori) ^^^ ori⟩ := by
  unfold edgeOriBody
  by_cases h1 : edgeTouchesCenter (placeEdge s.st.cube e (s.st.pieces.getD e 0) ori) e = true
  · simp only [h1, ↓reduceIte]
  · have h2 := hloc.resolve_left h1
    simp only [h1, h2, Bool.false_eq_true, ↓reduceIte]

theorem edgeOriBody_plain (face_table : Nat → Int) (ep op : List CornerArrangement)
    (next : EdgeState → Nat → Nat → Int → Int → Option EdgeState) (e : Nat) (ei oi : Int)
    (s : EdgeLoopState) (ori : Nat)
    (hl1 : ¬ edgeTouchesCenter (placeEdge s.st.cube e (s.st.pieces.getD e 0) ori) e = true)
    (hl2 : ¬ edgeDiagonalsTouching (placeEdge s.st.cube e (s.st.pieces.getD e 0) ori) e = true)
    (hchk : ¬ 0 ≤ edge_face_id_checks_start.getD e 0) :
    edgeOriBody face_table ep op next e ei oi s ori =
      match next ⟨s.st.pieces, placeEdge s.st.cube e (s.st.pieces.getD e 0) ori, s.st.face_ids,
          s.st.solutions⟩ s.swap_parity (s.flip_parity ^^^ ori) ei oi with
      | none => none
      | some st2 => some ⟨st2, s.swap_parity, (s.flip_parity ^^^ ori) ^^^ ori⟩ := by
  unfold edgeOriBody
  simp only [hl1, hl2, hchk, ge_iff_le, decide_False, Bool.false_eq_true, ↓reduceIte]

theorem edgeOriBody_checked (face_table : Nat → Int) (ep op : List CornerArrangement)
    (next : EdgeState → Nat → Nat → Int → Int → Option EdgeState) (e : Nat) (ei oi : Int)
    (s : EdgeLoopState) (ori : Nat)
    (hl1 : ¬ edgeTouchesCenter (placeEdge s.st.cube e (s.st.pieces.getD e 0) ori) e = true)
    (hl2 : ¬ edgeDiagonalsTouching (placeEdge s.st.cube e (s.st.pieces.getD e 0) ori) e = true)
    (hchk : 0 ≤ edge_face_id_checks_start.getD e 0) (a b : Int)
    (ha : GetCornerArrangementsIndex (searchFuel ep) face_table ei ep
      (fillEdgeFaceIds (placeEdge s.st.cube e (s.st.pieces.getD e 0) ori) s.st.face_ids
        (edge_face_id_checks_start.getD e 0).toNat (edge_face_id_checks_end.getD e 0 + 1).toNat)
      (edge_face_id_checks_end.getD e 0 + 1).toNat ((ep.length : Int) - 1) = some a)
    (hb : GetCornerArrangementsIndex (searchFuel op) face_table oi op
      (fillEdgeFaceIds (placeEdge s.st.cube e (s.st.pieces.getD e 0) ori) s.st.face_ids
        (edge_face_id_checks_start.getD e 0).toNat (edge_face_id_checks_end.getD e 0 + 1).toNat)
      (edge_face_id_checks_end.getD e 0 + 1).toNat ((op.length : Int) - 1) = some b) :
    edgeOriBody face_table ep op next e ei oi s ori =
      if a ≠ -1 ∨ b ≠ -1 then
        match next ⟨s.st.pieces, placeEdge s.st.cube e (s.st.pieces.getD e 0) ori,
            fillEdgeFaceIds (placeEdge s.st.cube e (s.st.pieces.getD e 0) ori) s.st.face_ids
              (edge_face_id_checks_start.getD e 0).toNat
              (edge_face_id_checks_end.getD e 0 + 1).toNat,
            s.st.solutions⟩ s.swap_parity (s.flip_parity ^^^ ori) a b with
        | none => none
        | some st2 => some ⟨st2, s.swap_parity, (s.flip_parity ^^^ ori) ^^^ ori⟩
      else
        some ⟨⟨s.st.pieces, placeEdge s.st.cube e (s.st.pieces.getD e 0) ori,
            fillEdgeFaceIds (placeEdge s.st.cube e (s.st.pieces.getD e 0) ori) s.st.face_ids
              (edge_face_id_checks_start.getD e 0).toNat
              (edge_face_id_checks_end.getD e 0 + 1).toNat,
            s.st.solutions⟩, s.swap_parity, (s.flip_parity ^^^ ori) ^^^ ori⟩ := by
  unfold edgeOriBody
  simp only [hl1, hl2, hchk, ge_iff_le, decide_True, Bool.false_eq_true, ↓reduceIte, ha, hb]
  by_cases hok : a ≠ -1 ∨ b ≠ -1
  · simp only [hok, decide_True, ↓reduceIte]
  · simp only [hok, decide_False, Bool.false_eq_true, ↓reduceIte]

theorem edgeOriBody_spec (face_table : Nat → Int) (ep op : List CornerArrangement)
    (hep : FilledArray ep) (hop : FilledArray op)
    (next : EdgeState → Nat → Nat → Int → Int → Option EdgeState) (e : Nat) (he : e < 12)
    (σ : Equiv.Perm (Fin 12)) (O : List Nat) (s : EdgeLoopState) (hs : EdgeLoopInv e σ O s)
    (ei oi : Int) (hei : -1 ≤ ei) (hoi : -1 ≤ oi) (ori : Nat) (hori : ori < 2)
    (S : Int → Int → SolutionCall → Prop)
    (hnext : ∀ st1 a b, EdgeInv (e + 1) σ (O ++ [ori]) st1 → -1 ≤ a → -1 ≤ b →
      ∃ st2 L, next st1 (parityBit σ) ((O ++ [ori]).sum % 2) a b = some st2 ∧
        EdgeInv (e + 1) σ (O ++ [ori]) st2 ∧ st2.solutions = st1.solutions ++ L ∧ L.Nodup ∧
        ∀ call, call ∈ L ↔ S a b call)
    (hlocal : ∀ cube, CubeInv (e + 1) (edgePermList σ) (O ++ [ori]) cube →
      (edgeTouchesCenter cube e = true ∨ edgeDiagonalsTouching cube e = true) →
      ∀ call, ¬ S ei oi call)
    (hidx : ∀ st1 a b, EdgeInv (e + 1) σ (O ++ [ori]) st1 →
      0 ≤ edge_face_id_checks_start.getD e 0 →
      SearchSpec face_table ep st1.face_ids (doneFaces (e + 1)) ei a →
      SearchSpec face_table op st1.face_ids (doneFaces (e + 1)) oi b →
      (∀ call, S ei oi call ↔ S a b call) ∧ (a = -1 → b = -1 → ∀ call, ¬ S a b call)) :
    ∃ s' L, edgeOriBody face_table ep op next e ei oi s ori = some s' ∧ EdgeLoopInv e σ O s' ∧
      s'.st.solutions = s.st.solutions ++ L ∧ L.Nodup ∧ ∀ call, call ∈ L ↔ S ei oi call := by
  obtain ⟨hflip1, hflip2⟩ := flip_facts O ori hori
  have hO := hs.inv.olen
  have hb := hs.inv.obit
  by_cases hloc : edgeTouchesCenter (placeEdge s.st.cube e (s.st.pieces.getD e 0) ori) e = true ∨
      edgeDiagonalsTouching (placeEdge s.st.cube e (s.st.pieces.getD e 0) ori) e = true
  · -- a local check fails
    have hnone := hlocal _ (edgeInv_next hs.inv he ori hori _ rfl).cube hloc
    refine ⟨⟨{ s.st with cube := placeEdge s.st.cube e (s.st.pieces.getD e 0) ori },
      s.swap_parity, (s.flip_parity ^^^ ori) ^^^ ori⟩, [], ?_,
      ⟨edgeInv_setCube hs.inv he _ _, hs.swap, by rw [hs.flip, hflip1]⟩, by simp, List.nodup_nil,
      fun call => ⟨fun h => absurd h (List.not_mem_nil _), fun h => absurd h (hnone call)⟩⟩
    exact edgeOriBody_local face_table ep op next e ei oi s ori hloc
  · have hl1 : ¬ edgeTouchesCenter (placeEdge s.st.cube e (s.st.pieces.getD e 0) ori) e = true :=
      fun h => hloc (Or.inl h)
    have hl2 : ¬ edgeDiagonalsTouching (placeEdge s.st.cube e (s.st.pieces.getD e 0) ori) e
        = true := fun h => hloc (Or.inr h)
    have hstep := doneFaces_step e he
    have hmono := doneFaces_mono e he
    by_cases hchk : 0 ≤ edge_face_id_checks_start.getD e 0
    · -- the cubie completes a face: the face ids are filled in and the arrays searched
      have hinv1 := edgeInv_next hs.inv he ori hori _ rfl
      rw [if_pos hchk] at hinv1
      obtain ⟨a, ha, hsa⟩ := hep.search face_table
        (fillEdgeFaceIds (placeEdge s.st.cube e (s.st.pieces.getD e 0) ori) s.st.face_ids
          (edge_face_id_checks_start.getD e 0).toNat (edge_face_id_checks_end.getD e 0 + 1).toNat)
        (edge_face_id_checks_end.getD e 0 + 1).toNat ei
        (by rw [(hstep.1 hchk).2]; exact hmono.2) hei
      obtain ⟨b, hb', hsb⟩ := hop.search face_table
        (fillEdgeFaceIds (placeEdge s.st.cube e (s.st.pieces.getD e 0) ori) s.st.face_ids
          (edge_face_id_checks_start.getD e 0).toNat (edge_face_id_checks_end.getD e 0 + 1).toNat)
        (edge_face_id_checks_end.getD e 0 + 1).toNat oi
        (by rw [(hstep.1 hchk).2]; exact hmono.2) hoi
      have hsa' : SearchSpec face_table ep
          (fillEdgeFaceIds (placeEdge s.st.cube e (s.st.pieces.getD e 0) ori) s.st.face_ids
            (edge_face_id_checks_start.getD e 0).toNat
            (edge_face_id_checks_end.getD e 0 + 1).toNat) (doneFaces (e + 1)) ei a := by
        rw [← (hstep.1 hchk).2]; exact hsa
      have hsb' : SearchSpec face_table op
          (fillEdgeFaceIds (placeEdge s.st.cube e (s.st.pieces.getD e 0) ori) s.st.face_ids
            (edge_face_id_checks_start.getD e 0).toNat
            (edge_face_id_checks_end.getD e 0 + 1).toNat) (doneFaces (e + 1)) oi b := by
        rw [← (hstep.1 hchk).2]; exact hsb
      obtain ⟨hiff, hempty⟩ := hidx _ a b hinv1 hchk hsa' hsb'
      by_cases hok : a ≠ -1 ∨ b ≠ -1
      · obtain ⟨st2, L, hn, hinv2, hsol, hnd, hmem⟩ := hnext _ a b hinv1
          (searchSpec_range hsa) (searchSpec_range hsb)
        refine ⟨⟨st2, s.swap_parity, (s.flip_parity ^^^ ori) ^^^ ori⟩, L, ?_,
          ⟨edgeInv_weaken hinv2 he hO hb, hs.swap, by rw [hs.flip, hflip1]⟩, hsol, hnd,
          fun call => by rw [hmem call, hiff call]⟩
        rw [edgeOriBody_checked face_table ep op next e ei oi s ori hl1 hl2 hchk a b ha hb',
          if_pos hok]
        have hn' := hn
        rw [← hflip2, ← hs.flip, ← hs.swap] at hn'
        rw [hn']
      · have ha1 : a = -1 := by
          by_contra h; exact hok (Or.inl h)
        have hb1 : b = -1 := by
          by_contra h; exact hok (Or.inr h)
        refine ⟨⟨_, s.swap_parity, (s.flip_parity ^^^ ori) ^^^ ori⟩, [], ?_,
          ⟨edgeInv_weaken hinv1 he hO hb, hs.swap, by rw [hs.flip, hflip1]⟩, by simp,
          List.nodup_nil, fun call => ⟨fun h => absurd h (List.not_mem_nil _),
            fun h => absurd ((hiff call).1 h) (hempty ha1 hb1 call)⟩⟩
        rw [edgeOriBody_checked face_table ep op next e ei oi s ori hl1 hl2 hchk a b ha hb',
          if_neg hok]
    · -- no face is completed: the indexes are passed on
      have hinv1 := edgeInv_next hs.inv he ori hori _ rfl
      rw [if_neg hchk] at hinv1
      obtain ⟨st2, L, hn, hinv2, hsol, hnd, hmem⟩ := hnext _ ei oi hinv1 hei hoi
      refine ⟨⟨st2, s.swap_parity, (s.flip_parity ^^^ ori) ^^^ ori⟩, L, ?_,
        ⟨edgeInv_weaken hinv2 he hO hb, hs.swap, by rw [hs.flip, hflip1]⟩, hsol, hnd, hmem⟩
      rw [edgeOriBody_plain face_table ep op next e ei oi s ori hl1 hl2 hchk]
      have hn' := hn
      rw [← hflip2, ← hs.flip, ← hs.swap] at hn'
      rw [hn']

/-! ## The loops of `PlaceEdgePiece` -/

/-- A loop whose body appends, for the loop value `i`, exactly the calls `S i` (each once)
appends exactly the calls of all `S i`, each once, when the `S i` are disjoint. -/
theorem foldlM_spec {ι : Type} (f : EdgeLoopState → ι → Option EdgeLoopState)
    (I : EdgeLoopState → Prop) (S : ι → SolutionCall → Prop) :
    ∀ (l : List ι), l.Nodup →
    (∀ i, i ∈ l → ∀ s, I s → ∃ s' L, f s i = some s' ∧ I s' ∧
      s'.st.solutions = s.st.solutions ++ L ∧ L.Nodup ∧ ∀ call, call ∈ L ↔ S i call) →
    (∀ i, i ∈ l → ∀ j, j ∈ l → i ≠ j → ∀ call, S i call → S j call → False) →
    ∀ s, I s → ∃ s' L, l.foldlM f s = some s' ∧ I s' ∧
      s'.st.solutions = s.st.solutions ++ L ∧ L.Nodup ∧
      ∀ call, call ∈ L ↔ ∃ i, i ∈ l ∧ S i call := by
  intro l
  induction l with
  | nil =>
    intro _ _ _ s hs
    exact ⟨s, [], rfl, hs, by simp, List.nodup_nil, fun call => by simp⟩
  | cons a l ih =>
    intro hnd hbody hdisj s hs
    obtain ⟨s1, L1, h1, hI1, hsol1, hnd1, hmem1⟩ := hbody a (List.mem_cons_self _ _) s hs
    obtain ⟨s2, L2, h2, hI2, hsol2, hnd2, hmem2⟩ := ih (List.nodup_cons.1 hnd).2
      (fun i hi => hbody i (List.mem_cons_of_mem _ hi))
      (fun i hi j hj => hdisj i (List.mem_cons_of_mem _ hi) j (List.mem_cons_of_mem _ hj)) s1 hI1
    refine ⟨s2, L1 ++ L2, ?_, hI2, by rw [hsol2, hsol1, List.append_assoc], ?_, fun call => ?_⟩
    · rw [List.foldlM_cons, h1]
      exact h2
    · refine List.Nodup.append hnd1 hnd2 (fun call hc1 hc2 => ?_)
      obtain ⟨i, hi, hSi⟩ := (hmem2 call).1 hc2
      refine hdisj a (List.mem_cons_self _ _) i (List.mem_cons_of_mem _ hi) ?_ call
        ((hmem1 call).1 hc1) hSi
      intro hai
      rw [← hai] at hi
      exact (List.nodup_cons.1 hnd).1 hi
    · rw [List.mem_append, hmem1, hmem2]
      constructor
      · rintro (h | ⟨i, hi, h⟩)
        · exact ⟨a, List.mem_cons_self _ _, h⟩
        · exact ⟨i, List.mem_cons_of_mem _ hi, h⟩
      · rintro ⟨i, hi, h⟩
        rcases List.mem_cons.1 hi with rfl | hi'
        · exact Or.inl h
        · exact Or.inr ⟨i, hi', h⟩

theorem mul_swap_agree (σ : Equiv.Perm (Fin 12)) (e : Nat) (he : e < 12) (pos : Fin 12)
    (hpos : e ≤ pos.val) (k : Fin 12) (hk : k.val < e) :
    (σ * Equiv.swap ⟨e, he⟩ pos) k = σ k := by
  rw [Equiv.Perm.mul_apply, Equiv.swap_apply_of_ne_of_ne]
  · intro hc; rw [hc] at hk; simp at hk
  · intro hc; rw [hc] at hk; omega

theorem edgePosBody_spec (face_table : Nat → Int) (ep op : List CornerArrangement)
    (next : EdgeState → Nat → Nat → Int → Int → Option EdgeState) (e : Nat) (he : e < 12)
    (σ : Equiv.Perm (Fin 12)) (O : List Nat) (ei oi : Int) (pos : Nat) (hpos : e ≤ pos)
    (hpos12 : pos < 12) (S : Nat → SolutionCall → Prop)
    (hbody : ∀ ori, ori < 2 → ∀ s1,
      EdgeLoopInv e (σ * Equiv.swap ⟨e, he⟩ ⟨pos, hpos12⟩) O s1 →
      ∃ s' L, edgeOriBody face_table ep op next e ei oi s1 ori = some s' ∧
        EdgeLoopInv e (σ * Equiv.swap ⟨e, he⟩ ⟨pos, hpos12⟩) O s' ∧
        s'.st.solutions = s1.st.solutions ++ L ∧ L.Nodup ∧ ∀ call, call ∈ L ↔ S ori call)
    (hdisj : ∀ call, S 0 call → S 1 call → False)
    (s : EdgeLoopState) (hs : EdgeLoopInv e σ O s) :
    ∃ s' L, edgePosBody face_table ep op next e ei oi s pos = some s' ∧ EdgeLoopInv e σ O s' ∧
      s'.st.solutions = s.st.solutions ++ L ∧ L.Nodup ∧
      ∀ call, call ∈ L ↔ ∃ ori, ori < 2 ∧ S ori call := by
  have hloop := foldlM_spec (edgeOriBody face_table ep op next e ei oi)
    (EdgeLoopInv e (σ * Equiv.swap ⟨e, he⟩ ⟨pos, hpos12⟩) O) S [0, 1] (by decide)
    (fun i hi => hbody i (by
      rcases List.mem_cons.1 hi with h | h
      · omega
      · have := List.mem_singleton.1 h; omega))
    (fun i hi j hj hij call hSi hSj => by
      have hi' : i = 0 ∨ i = 1 := by simpa using hi
      have hj' : j = 0 ∨ j = 1 := by simpa using hj
      rcases hi' with rfl | rfl <;> rcases hj' with rfl | rfl
      · exact hij rfl
      · exact hdisj call hSi hSj
      · exact hdisj call hSj hSi
      · exact hij rfl)
  have hmemori : ∀ call, (∃ i, i ∈ [0, 1] ∧ S i call) ↔ ∃ ori, ori < 2 ∧ S ori call := by
    intro call
    constructor
    · rintro ⟨i, hi, h⟩
      have hi' : i = 0 ∨ i = 1 := by simpa using hi
      exact ⟨i, by omega, h⟩
    · rintro ⟨i, hi, h⟩
      exact ⟨i, by
        have : i = 0 ∨ i = 1 := by omega
        simpa using this, h⟩
  by_cases hpe : pos = e
  · subst hpe
    have hσ : σ * Equiv.swap (⟨pos, he⟩ : Fin 12) ⟨pos, hpos12⟩ = σ := by
      rw [Equiv.swap_self]
      rfl
    rw [hσ] at hloop
    obtain ⟨s2, L, h2, hI2, hsol, hnd, hmem⟩ := hloop s hs
    refine ⟨s2, L, ?_, hI2, hsol, hnd, fun call => by rw [hmem, hmemori]⟩
    unfold edgePosBody
    simp only [ne_eq, not_true_eq_false, ↓reduceIte, h2]
  · have hne : (⟨e, he⟩ : Fin 12) ≠ ⟨pos, hpos12⟩ := by
      intro hc
      exact hpe (congrArg Fin.val hc).symm
    have hlen : s.st.pieces.length = 12 := by rw [hs.inv.pieces, edgePermList_length]
    have hs1 : EdgeLoopInv e (σ * Equiv.swap ⟨e, he⟩ ⟨pos, hpos12⟩) O
        ⟨{ s.st with pieces := swapAt s.st.pieces e pos }, s.swap_parity ^^^ 1,
          s.flip_parity⟩ := by
      refine ⟨edgeInv_congr hs.inv _ ?_ (fun k hk => mul_swap_agree σ e he _ hpos k hk)
        (by omega), ?_, hs.flip⟩
      · rw [hs.inv.pieces]
        exact swapAt_edgePermList σ ⟨e, he⟩ ⟨pos, hpos12⟩
      · show s.swap_parity ^^^ 1 = _
        rw [parityBit_mul_swap σ _ _ hne, hs.swap]
    obtain ⟨s2, L, h2, hI2, hsol, hnd, hmem⟩ := hloop _ hs1
    refine ⟨⟨{ s2.st with pieces := swapAt s2.st.pieces e pos }, s2.swap_parity ^^^ 1,
      s2.flip_parity⟩, L, ?_, ?_, hsol, hnd, fun call => by rw [hmem, hmemori]⟩
    · unfold edgePosBody
      simp only [ne_eq, hpe, not_false_eq_true, ↓reduceIte, h2]
    · refine ⟨?_, ?_, hI2.flip⟩
      · have hp : swapAt s2.st.pieces e pos = edgePermList σ := by
          rw [hI2.inv.pieces]
          have := swapAt_edgePermList (σ * Equiv.swap ⟨e, he⟩ ⟨pos, hpos12⟩) ⟨e, he⟩
            ⟨pos, hpos12⟩
          rw [this, mul_assoc, Equiv.swap_mul_self, mul_one]
        exact edgeInv_congr hI2.inv (swapAt s2.st.pieces e pos) hp
          (fun k hk => (mul_swap_agree σ e he _ hpos k hk).symm) (by omega)
      · show s2.swap_parity ^^^ 1 = parityBit σ
        rw [hI2.swap, parityBit_mul_swap σ _ _ hne]
        exact (xor_bit_facts _ (parityBit_lt σ) 0 (by decide)).2.2.2

/-! ## The calls to be recorded -/

theorem filledArray_corner {ep op : List CornerArrangement} (hep : FilledArray ep)
    (hop : FilledArray op) (p : Nat) : FilledArray (cornerArray ep op p) := by
  unfold cornerArray
  split_ifs
  · exact hep
  · exact hop

theorem edgeCube_inj {P O P2 O2 : List Nat} (hP : ∀ k, k < 12 → P.getD k 0 < 12)
    (hO : ∀ k, k < 12 → O.getD k 0 < 2) (hP2 : ∀ k, k < 12 → P2.getD k 0 < 12)
    (hO2 : ∀ k, k < 12 → O2.getD k 0 < 2) (h : edgeCube P O = edgeCube P2 O2) (k : Nat)
    (hk : k < 12) : P.getD k 0 = P2.getD k 0 ∧ O.getD k 0 = O2.getD k 0 := by
  have h1 := ((cubeInv_edgeCube P O).2.2 k hk).1
  have h2 := ((cubeInv_edgeCube P2 O2).2.2 k hk).1
  rw [h, h2] at h1
  have := edge_cell_inj _ _ _ _ (hP2 k hk) (hO2 k hk) (hP k hk) (hO k hk) h1
  exact ⟨this.1.symm, this.2.symm⟩

/-- Two placements with the same cube are the same placement. -/
theorem solutionCallOf_inj {τ τ2 : Equiv.Perm (Fin 12)} {O O2 : List Nat} {c c2 : Nat}
    (hl : O.length = 12) (hl2 : O2.length = 12) (hO : ∀ k, k < 12 → O.getD k 0 < 2)
    (hO2 : ∀ k, k < 12 → O2.getD k 0 < 2)
    (h : solutionCallOf τ O c = solutionCallOf τ2 O2 c2) : τ = τ2 ∧ O = O2 ∧ c = c2 := by
  simp only [solutionCallOf, SolutionCall.mk.injEq] at h
  obtain ⟨_, hcube, _, hidx⟩ := h
  have key := edgeCube_inj (edgePermList_lt τ) hO (edgePermList_lt τ2) hO2 hcube
  refine ⟨?_, ?_, by omega⟩
  · apply Equiv.ext
    intro k
    have := (key k.val k.isLt).1
    rw [edgePermList_getD τ k.val k.isLt, edgePermList_getD τ2 k.val k.isLt] at this
    exact Fin.ext this
  · apply list_ext_getD _ _ (by rw [hl, hl2])
    intro k hk
    exact (key k (by omega)).2

theorem cornerMatch_of_edgeFaceIds (face_table : Nat → Int) (arr : List CornerArrangement)
    (cube : List Nat) (c : Nat) (h : CornerMatch face_table arr (edgeFaceIds cube) 6 c) (f : Nat)
    (hf : f < 6) :
    face_table ((arr.getD c zeroArrangement).faceIds.getD f 0 + edgeFaceId cube f) < 16 := by
  have := h f hf
  rwa [edgeFaceIds_getD cube f hf] at this

theorem recordedSpec_local (face_table : Nat → Int)
    (hft : ∀ i, i < FACE_ARRANGEMENTS → face_table i < 16 → PerfectFace (FaceIndexToColors i))
    (ep op : List CornerArrangement) (hep : FilledArray ep) (hop : FilledArray op) (e : Nat)
    (he : e < 12) (σ : Equiv.Perm (Fin 12)) (O : List Nat) (ei oi : Int) (cube : List Nat)
    (hcube : CubeInv (e + 1) (edgePermList σ) O cube)
    (hfail : edgeTouchesCenter cube e = true ∨ edgeDiagonalsTouching cube e = true)
    (call : SolutionCall) : ¬ RecordedSpec face_table ep op (e + 1) σ O ei oi call := by
  rintro ⟨τ, O', c, hcomp, _, hlt, _, _, hmatch⟩
  refine no_match_of_local_fail face_table hft e he hcube hfail (cubeInv_edgeCube _ O')
    (edgePermList_lt τ) hcomp.2.2.1 (fun k hk => ?_) hcomp.2.2.2.1
    ((cornerArray ep op (parityBit τ)).getD c zeroArrangement)
    ((filledArray_corner hep hop _).stored c hlt)
    (cornerMatch_of_edgeFaceIds face_table _ _ c hmatch)
  rw [edgePermList_getD σ k (by omega), edgePermList_getD τ k (by omega),
    hcomp.1 ⟨k, by omega⟩ hk]

/-- Searching from the start index for a match on the completed faces moves the start index
past entries that match no continuation only. -/
theorem start_iff_search (face_table : Nat → Int) (arr : List CornerArrangement)
    (face_ids fids6 : List Nat) (m : Nat) (start a : Int)
    (hs : SearchSpec face_table arr face_ids m start a) (hm : m ≤ 6)
    (hag : ∀ f, f < m → face_ids.getD f 0 = fids6.getD f 0) (c : Nat) (hc : c < arr.length)
    (hmatch : CornerMatch face_table arr fids6 6 c) :
    (0 ≤ start ∧ start ≤ (c : Int)) ↔ (0 ≤ a ∧ a ≤ (c : Int)) := by
  have hmm : CornerMatch face_table arr face_ids m c := by
    intro f hf
    rw [hag f hf]
    exact hmatch f (by omega)
  rcases hs with ⟨h1, h2⟩ | ⟨j, h1, h2, h3, h4, h5, h6⟩
  · constructor
    · rintro ⟨x, y⟩
      exact absurd hmm (h2 c x y hc)
    · rintro ⟨x, _⟩
      omega
  · constructor
    · rintro ⟨x, y⟩
      refine ⟨by omega, ?_⟩
      by_contra hlt
      exact h6 c y (by omega) hmm
    · rintro ⟨x, y⟩
      exact ⟨h2, by omega⟩

theorem recordedSpec_idx (face_table : Nat → Int) (ep op : List CornerArrangement) (e : Nat)
    (he : e ≤ 12) (σ : Equiv.Perm (Fin 12)) (O : List Nat) (ei oi a b : Int) (st : EdgeState)
    (hinv : EdgeInv e σ O st)
    (hsa : SearchSpec face_table ep st.face_ids (doneFaces e) ei a)
    (hsb : SearchSpec face_table op st.face_ids (doneFaces e) oi b) (hm : doneFaces e ≤ 6) :
    (∀ call, RecordedSpec face_table ep op e σ O ei oi call ↔
      RecordedSpec face_table ep op e σ O a b call) ∧
    (a = -1 → b = -1 → ∀ call, ¬ RecordedSpec face_table ep op e σ O a b call) := by
  have key : ∀ τ O' c, Completes e σ O τ O' →
      (MatchFrom face_table ep op ei oi τ O' c ↔ MatchFrom face_table ep op a b τ O' c) := by
    intro τ O' c hcomp
    have hag : ∀ f, f < doneFaces e → st.face_ids.getD f 0 =
        (edgeFaceIds (edgeCube (edgePermList τ) O')).getD f 0 := by
      intro f hf
      rw [edgeFaceIds_getD _ f (by omega), hinv.faces f hf]
      exact edgeFaceId_agree hinv.cube (cubeInv_of_completes hcomp he) he f hf
    unfold MatchFrom cornerArray
    by_cases hp : parityBit τ = 0
    · simp only [hp, if_true]
      constructor
      · rintro ⟨h1, h2, h3, h4⟩
        have := (start_iff_search face_table ep _ _ _ ei a hsa hm hag c h1 h4).1 ⟨h2, h3⟩
        exact ⟨h1, this.1, this.2, h4⟩
      · rintro ⟨h1, h2, h3, h4⟩
        have := (start_iff_search face_table ep _ _ _ ei a hsa hm hag c h1 h4).2 ⟨h2, h3⟩
        exact ⟨h1, this.1, this.2, h4⟩
    · simp only [hp, if_false]
      constructor
      · rintro ⟨h1, h2, h3, h4⟩
        have := (start_iff_search face_table op _ _ _ oi b hsb hm hag c h1 h4).1 ⟨h2, h3⟩
        exact ⟨h1, this.1, this.2, h4⟩
      · rintro ⟨h1, h2, h3, h4⟩
        have := (start_iff_search face_table op _ _ _ oi b hsb hm hag c h1 h4).2 ⟨h2, h3⟩
        exact ⟨h1, this.1, this.2, h4⟩
  refine ⟨fun call => ?_, fun ha hb call => ?_⟩
  · constructor
    · rintro ⟨τ, O', c, h1, h2, h3⟩
      exact ⟨τ, O', c, h1, h2, (key τ O' c h1).1 h3⟩
    · rintro ⟨τ, O', c, h1, h2, h3⟩
      exact ⟨τ, O', c, h1, h2, (key τ O' c h1).2 h3⟩
  · rintro ⟨τ, O', c, _, _, _, h, _⟩
    rw [ha, hb] at h
    split_ifs at h <;> omega

/-- The choices of the orientation of one slot lead to different calls. -/
theorem recordedSpec_disjoint_ori (face_table : Nat → Int) (ep op : List CornerArrangement)
    (e : Nat) (σ : Equiv.Perm (Fin 12)) (O : List Nat) (hO : O.length = e)
    (ei oi : Int) (call : SolutionCall)
    (h0 : RecordedSpec face_table ep op (e + 1) σ (O ++ [0]) ei oi call)
    (h1 : RecordedSpec face_table ep op (e + 1) σ (O ++ [1]) ei oi call) : False := by
  obtain ⟨τ, O', c, hc, hcall, _⟩ := h0
  obtain ⟨τ2, O2, c2, hc2, hcall2, _⟩ := h1
  rw [hcall] at hcall2
  obtain ⟨_, hOO, _⟩ := solutionCallOf_inj hc.2.1 hc2.2.1 hc.2.2.1 hc2.2.2.1 hcall2
  have a := hc.2.2.2.1 e (by omega)
  have b := hc2.2.2.2.1 e (by omega)
  rw [← hO, getD_append_last] at a b
  rw [hOO] at a
  omega

/-- The choices of the cubie of one slot lead to different calls. -/
theorem recordedSpec_disjoint_pos (face_table : Nat → Int) (ep op : List CornerArrangement)
    (e : Nat) (he : e < 12) (σ : Equiv.Perm (Fin 12)) (p p' : Fin 12) (hp : e ≤ p.val)
    (hp' : e ≤ p'.val) (hne : p ≠ p') (O1 O2 : List Nat) (ei oi : Int) (call : SolutionCall)
    (h0 : RecordedSpec face_table ep op (e + 1) (σ * Equiv.swap ⟨e, he⟩ p) O1 ei oi call)
    (h1 : RecordedSpec face_table ep op (e + 1) (σ * Equiv.swap ⟨e, he⟩ p') O2 ei oi call) :
    False := by
  obtain ⟨τ, O', c, hc, hcall, _⟩ := h0
  obtain ⟨τ2, O2', c2, hc2, hcall2, _⟩ := h1
  rw [hcall] at hcall2
  obtain ⟨hτ, _, _⟩ := solutionCallOf_inj hc.2.1 hc2.2.1 hc.2.2.1 hc2.2.2.1 hcall2
  have a := ((agree_mul_swap σ τ e he p hp).1 hc.1).2
  have b := ((agree_mul_swap σ τ2 e he p' hp').1 hc2.1).2
  rw [hτ, b] at a
  exact hne (σ.injective a).symm

theorem recordedSpec_succ (face_table : Nat → Int) (ep op : List CornerArrangement) (e : Nat)
    (he : e < 12) (σ : Equiv.Perm (Fin 12)) (O : List Nat) (hO : O.length = e) (ei oi : Int)
    (call : SolutionCall) :
    RecordedSpec face_table ep op e σ O ei oi call ↔
      ∃ pos : Fin 12, e ≤ pos.val ∧ ∃ ori, ori < 2 ∧
        RecordedSpec face_table ep op (e + 1) (σ * Equiv.swap ⟨e, he⟩ pos) (O ++ [ori]) ei oi
          call := by
  constructor
  · rintro ⟨τ, O', c, h1, h2, h3⟩
    obtain ⟨pos, hpos, ori, hori, h⟩ := (completes_iff_exists e he σ O hO τ O').1 h1
    exact ⟨pos, hpos, ori, hori, τ, O', c, h, h2, h3⟩
  · rintro ⟨pos, hpos, ori, hori, τ, O', c, h1, h2, h3⟩
    exact ⟨τ, O', c, (completes_iff_exists e he σ O hO τ O').2 ⟨pos, hpos, ori, hori, h1⟩, h2, h3⟩

/-! ## The last edge cubie -/

theorem last_slot_facts : (0 : Int) ≤ edge_face_id_checks_start.getD 11 0 ∧
    (edge_face_id_checks_start.getD 11 0).toNat = 4 ∧
    (edge_face_id_checks_end.getD 11 0 + 1).toNat = 6 ∧ doneFaces 12 = 6 ∧ doneFaces 11 = 4 := by
  decide

theorem face_ids_eq_edgeFaceIds (face_ids cube : List Nat) (hl : face_ids.length = 6)
    (h : ∀ f, f < 6 → face_ids.getD f 0 = edgeFaceId cube f) : face_ids = edgeFaceIds cube := by
  apply list_ext_getD _ _ (by rw [hl]; rfl)
  intro f hf
  rw [hl] at hf
  rw [h f hf, edgeFaceIds_getD cube f hf]

/-- The state of a fully placed cube: its cube is the cube of the placement and its face ids
are the edges' contributions of that cube. -/
theorem edgeInv_twelve {σ : Equiv.Perm (Fin 12)} {O : List Nat} {st : EdgeState}
    (h : EdgeInv 12 σ O st) :
    st.cube = edgeCube (edgePermList σ) O ∧
      st.face_ids = edgeFaceIds (edgeCube (edgePermList σ) O) := by
  have hc : st.cube = edgeCube (edgePermList σ) O := cubeInv_unique h.cube (cubeInv_edgeCube _ _)
  refine ⟨hc, ?_⟩
  rw [← hc]
  exact face_ids_eq_edgeFaceIds _ _ h.flen
    (fun f hf => h.faces f (by rw [last_slot_facts.2.2.2.1]; exact hf))

/-- For the last slot the only continuation is the cubie left over, with the flip that makes
the number of flips even. -/
theorem recordedSpec_eleven (face_table : Nat → Int) (ep op : List CornerArrangement)
    (σ : Equiv.Perm (Fin 12)) (O : List Nat) (hO : O.length = 11) (hb : ∀ k, k < 11 → O.getD k 0 < 2)
    (ei oi : Int) (call : SolutionCall) :
    RecordedSpec face_table ep op 11 σ O ei oi call ↔
      ∃ c : Nat, call = solutionCallOf σ (O ++ [O.sum % 2]) c ∧
        MatchFrom face_table ep op ei oi σ (O ++ [O.sum % 2]) c := by
  have hcomp : ∀ τ O', Completes 11 σ O τ O' ↔ (τ = σ ∧ O' = O ++ [O.sum % 2]) := by
    intro τ O'
    rw [completes_iff_exists 11 (by decide) σ O hO τ O']
    constructor
    · rintro ⟨pos, hpos, ori, hori, h⟩
      have hp : pos = ⟨11, by decide⟩ := Fin.ext (show pos.val = 11 by have := pos.isLt; omega)
      rw [hp, Equiv.swap_self] at h
      obtain ⟨h1, h2⟩ := completes_twelve σ (O ++ [ori]) (by simp [hO]) τ O' h
      refine ⟨h1, ?_⟩
      have hs := h.2.2.2.2
      rw [h2, sum_append_bit] at hs
      have : ori = O.sum % 2 := by omega
      rw [h2, this]
    · rintro ⟨rfl, rfl⟩
      refine ⟨⟨11, by decide⟩, le_refl _, O.sum % 2, Nat.mod_lt _ (by decide), ?_⟩
      rw [Equiv.swap_self]
      refine ⟨fun _ _ => rfl, by simp [hO], fun k hk => ?_, fun _ _ => rfl, ?_⟩
      · by_cases hk11 : k = 11
        · rw [hk11, ← hO, getD_append_last]
          exact Nat.mod_lt _ (by decide)
        · rw [getD_append_left _ _ _ (by omega)]
          exact hb k (by omega)
      · rw [sum_append_bit]
        omega
  constructor
  · rintro ⟨τ, O', c, h1, h2, h3⟩
    obtain ⟨rfl, rfl⟩ := (hcomp τ O').1 h1
    exact ⟨c, h2, h3⟩
  · rintro ⟨c, h2, h3⟩
    exact ⟨σ, _, c, (hcomp _ _).2 ⟨rfl, rfl⟩, h2, h3⟩

theorem placeLastEdgePiece_spec (face_table : Nat → Int)
    (hft : ∀ i, i < FACE_ARRANGEMENTS → face_table i < 16 → PerfectFace (FaceIndexToColors i))
    (ep op : List CornerArrangement) (hep : FilledArray ep) (hop : FilledArray op)
    (σ : Equiv.Perm (Fin 12)) (O : List Nat) (st : EdgeState) (hinv : EdgeInv 11 σ O st)
    (ei oi : Int) (hei : -1 ≤ ei) (hoi : -1 ≤ oi) :
    ∃ st' L, PlaceLastEdgePiece face_table ep op 11 st (parityBit σ) (O.sum % 2)
        (if parityBit σ = 0 then ei else oi) = some st' ∧ EdgeInv 11 σ O st' ∧
      st'.solutions = st.solutions ++ L ∧ L.Nodup ∧
      ∀ call, call ∈ L ↔ RecordedSpec face_table ep op 11 σ O ei oi call := by
  have hfp : O.sum % 2 < 2 := Nat.mod_lt _ (by decide)
  obtain ⟨hchk, hstart, hend, hd12, hd11⟩ := last_slot_facts
  have hinv1 := edgeInv_next hinv (by decide) (O.sum % 2) hfp _ rfl
  rw [if_pos hchk] at hinv1
  obtain ⟨hcube, hfids⟩ := edgeInv_twelve hinv1
  simp only at hcube hfids
  have hstart_range : -1 ≤ (if parityBit σ = 0 then ei else oi) := by split_ifs <;> assumption
  by_cases hloc : edgeTouchesCenter (placeEdge st.cube 11 (st.pieces.getD 11 0) (O.sum % 2)) 11
      = true ∨
      edgeDiagonalsTouching (placeEdge st.cube 11 (st.pieces.getD 11 0) (O.sum % 2)) 11 = true
  · refine ⟨{ st with cube := placeEdge st.cube 11 (st.pieces.getD 11 0) (O.sum % 2) }, [], ?_,
      edgeInv_setCube hinv (by decide) _ _, by simp, List.nodup_nil, fun call =>
        ⟨fun h => absurd h (List.not_mem_nil _), fun h => ?_⟩⟩
    · unfold PlaceLastEdgePiece
      by_cases h1 : edgeTouchesCenter (placeEdge st.cube 11 (st.pieces.getD 11 0) (O.sum % 2)) 11
          = true
      · simp only [h1, ↓reduceIte]
      · have h2 := hloc.resolve_left h1
        simp only [h1, h2, Bool.false_eq_true, ↓reduceIte]
    · exfalso
      obtain ⟨pos, hpos, ori, hori, h'⟩ :=
        (recordedSpec_succ face_table ep op 11 (by decide) σ O hinv.olen ei oi call).1 h
      have hp : pos = ⟨11, by decide⟩ := Fin.ext (show pos.val = 11 by have := pos.isLt; omega)
      rw [hp, Equiv.swap_self] at h'
      have hori' : ori = O.sum % 2 := by
        obtain ⟨τ, O', c, hc, _⟩ := h'
        have hs := hc.2.2.2.2
        obtain ⟨_, h2⟩ := completes_twelve σ (O ++ [ori]) (by simp [hinv.olen]) τ O' hc
        rw [h2, sum_append_bit] at hs
        omega
      rw [hori'] at h'
      exact recordedSpec_local face_table hft ep op hep hop 11 (by decide) σ _ ei oi _
        hinv1.cube hloc call h'
  · have hl1 : ¬ edgeTouchesCenter (placeEdge st.cube 11 (st.pieces.getD 11 0) (O.sum % 2)) 11
        = true := fun h => hloc (Or.inl h)
    have hl2 : ¬ edgeDiagonalsTouching (placeEdge st.cube 11 (st.pieces.getD 11 0) (O.sum % 2)) 11
        = true := fun h => hloc (Or.inr h)
    have hA := filledArray_corner hep hop (parityBit σ)
    obtain ⟨r, hr, hsr⟩ := hA.search face_table
      (fillEdgeFaceIds (placeEdge st.cube 11 (st.pieces.getD 11 0) (O.sum % 2)) st.face_ids
        (edge_face_id_checks_start.getD 11 0).toNat (edge_face_id_checks_end.getD 11 0 + 1).toNat)
      6 (if parityBit σ = 0 then ei else oi) (le_refl _) hstart_range
    obtain ⟨cs, hcs, hpw, hmem⟩ := recordLoop_spec face_table _ hA
      (fillEdgeFaceIds (placeEdge st.cube 11 (st.pieces.getD 11 0) (O.sum % 2)) st.face_ids
        (edge_face_id_checks_start.getD 11 0).toNat (edge_face_id_checks_end.getD 11 0 + 1).toNat)
      (placeEdge st.cube 11 (st.pieces.getD 11 0) (O.sum % 2)) (parityBit σ)
      ((cornerArray ep op (parityBit σ)).length + 1) _ r st.solutions hstart_range hsr (by
        rcases hsr with ⟨h, _⟩ | ⟨j, h, _⟩
        · rw [if_pos h]; omega
        · rw [if_neg (by omega)]; omega)
    refine ⟨⟨st.pieces, placeEdge st.cube 11 (st.pieces.getD 11 0) (O.sum % 2),
      fillEdgeFaceIds (placeEdge st.cube 11 (st.pieces.getD 11 0) (O.sum % 2)) st.face_ids
        (edge_face_id_checks_start.getD 11 0).toNat (edge_face_id_checks_end.getD 11 0 + 1).toNat,
      st.solutions ++ cs.map (fun c : Nat => (⟨fillEdgeFaceIds
        (placeEdge st.cube 11 (st.pieces.getD 11 0) (O.sum % 2)) st.face_ids
        (edge_face_id_checks_start.getD 11 0).toNat (edge_face_id_checks_end.getD 11 0 + 1).toNat,
        placeEdge st.cube 11 (st.pieces.getD 11 0) (O.sum % 2), parityBit σ, (c : Int)⟩ :
        SolutionCall))⟩, _, ?_, ?_, rfl, ?_, fun call => ?_⟩
    · unfold PlaceLastEdgePiece
      simp only [hl1, hl2, Bool.false_eq_true, ↓reduceIte, hend]
      unfold cornerArray at hr hcs
      rw [hend] at hr hcs
      rw [hr]
      simp only
      rw [hcs]
    · have := edgeInv_weaken hinv1 (by decide) hinv.olen hinv.obit
      exact ⟨this.pieces, this.cube, this.flen, this.faces, this.olen, this.obit⟩
    · refine (List.Nodup.map ?_ (hpw.imp (fun h => Nat.ne_of_lt h)))
      intro c1 c2 h
      simp only [SolutionCall.mk.injEq] at h
      omega
    · rw [recordedSpec_eleven face_table ep op σ O hinv.olen hinv.obit ei oi call, List.mem_map]
      unfold solutionCallOf MatchFrom
      rw [← hfids, ← hcube]
      constructor
      · rintro ⟨c, hc, rfl⟩
        obtain ⟨h1, h2, h3, h4⟩ := (hmem c).1 hc
        exact ⟨c, rfl, h3, h1, h2, h4⟩
      · rintro ⟨c, rfl, h3, h1, h2, h4⟩
        exact ⟨c, (hmem c).2 ⟨h1, h2, h3, h4⟩, rfl⟩

/-! ## The recursion of `PlaceEdgePiece` -/

theorem placeEdgePiece_inner (face_table : Nat → Int) (ep op : List CornerArrangement)
    (r e : Nat) (he : e + (r + 1) = 12) (hne : e ≠ 11) (st : EdgeState) (sp fp : Nat)
    (ei oi : Int) (s : EdgeLoopState)
    (h : (List.range' e (12 - e)).foldlM
      (edgePosBody face_table ep op (PlaceEdgePiece face_table ep op r) e ei oi) ⟨st, sp, fp⟩ =
        some s) :
    PlaceEdgePiece face_table ep op (r + 1) st sp fp ei oi = some s.st := by
  have hE : CUBE_EDGES - (r + 1) = e := by unfold CUBE_EDGES; omega
  rw [PlaceEdgePiece]
  simp only [hE, hne, ↓reduceIte]
  have h12 : CUBE_EDGES = 12 := rfl
  rw [h12, h]

theorem placeEdgePiece_last (face_table : Nat → Int) (ep op : List CornerArrangement)
    (st st0 : EdgeState) (sp fp : Nat) (ei oi : Int) (s : EdgeLoopState)
    (h0 : PlaceLastEdgePiece face_table ep op 11 st sp fp (if sp = 0 then ei else oi) = some st0)
    (h : (List.range' 11 1).foldlM
      (edgePosBody face_table ep op (PlaceEdgePiece face_table ep op 0) 11 ei oi) ⟨st0, sp, fp⟩ =
        some s) :
    PlaceEdgePiece face_table ep op 1 st sp fp ei oi = some s.st := by
  rw [PlaceEdgePiece]
  have hE : CUBE_EDGES - (0 + 1) = 11 := rfl
  simp only [hE, ↓reduceIte, h0]
  have h12 : CUBE_EDGES - 11 = 1 := rfl
  rw [h12, h]

theorem mem_range'_iff (e pos : Nat) (he : e ≤ 12) :
    pos ∈ List.range' e (12 - e) ↔ (e ≤ pos ∧ pos < 12) := by
  rw [List.mem_range'_1]
  omega

theorem placeSpec_one (face_table : Nat → Int)
    (hft : ∀ i, i < FACE_ARRANGEMENTS → face_table i < 16 → PerfectFace (FaceIndexToColors i))
    (ep op : List CornerArrangement) (hep : FilledArray ep) (hop : FilledArray op) :
    PlaceSpec face_table ep op 1 := by
  intro σ O st ei oi hinv hei hoi
  have hinv' : EdgeInv 11 σ O st := hinv
  obtain ⟨st0, L, h0, hinv0, hsol0, hnd0, hmem0⟩ :=
    placeLastEdgePiece_spec face_table hft ep op hep hop σ O st hinv' ei oi hei hoi
  -- the loop after the call of `PlaceLastEdgePiece` only calls `PlaceEdgePiece` for the
  -- slot 12, which does nothing
  have hloop := foldlM_spec
    (edgePosBody face_table ep op (PlaceEdgePiece face_table ep op 0) 11 ei oi)
    (EdgeLoopInv 11 σ O) (fun _ _ => False) (List.range' 11 1) (by decide)
    (fun pos hpos s hs => by
      have hp := (mem_range'_iff 11 pos (by decide)).1 hpos
      obtain ⟨s', L', h1, h2, h3, h4, h5⟩ := edgePosBody_spec face_table ep op
        (PlaceEdgePiece face_table ep op 0) 11 (by decide) σ O ei oi pos hp.1 hp.2
        (fun _ _ => False)
        (fun ori hori s1 hs1 => edgeOriBody_spec face_table ep op hep hop _ 11 (by decide) _ O
          s1 hs1 ei oi hei hoi ori hori (fun _ _ _ => False)
          (fun st1 a b hst1 _ _ => ⟨st1, [], rfl, hst1, by simp, List.nodup_nil,
            fun call => by simp⟩)
          (fun _ _ _ call => id)
          (fun _ _ _ _ _ _ _ => ⟨fun _ => Iff.rfl, fun _ _ _ => id⟩))
        (fun _ h _ => h) s hs
      refine ⟨s', L', h1, h2, h3, h4, fun call => ?_⟩
      rw [h5]
      constructor
      · rintro ⟨_, _, h⟩; exact h
      · intro h; exact absurd h id)
    (fun _ _ _ _ _ _ h _ => h) ⟨st0, parityBit σ, O.sum % 2⟩ ⟨hinv0, rfl, rfl⟩
  obtain ⟨s, L2, h2, hI2, hsol2, hnd2, hmem2⟩ := hloop
  have hL2 : L2 = [] := by
    apply List.eq_nil_iff_forall_not_mem.2
    intro call hc
    obtain ⟨_, _, h⟩ := (hmem2 call).1 hc
    exact h
  refine ⟨s.st, L, placeEdgePiece_last face_table ep op st st0 _ _ ei oi s h0 h2, hI2.inv, ?_,
    hnd0, hmem0⟩
  rw [hsol2, hL2, List.append_nil]
  exact hsol0

theorem placeSpec_succ (face_table : Nat → Int)
    (hft : ∀ i, i < FACE_ARRANGEMENTS → face_table i < 16 → PerfectFace (FaceIndexToColors i))
    (ep op : List CornerArrangement) (hep : FilledArray ep) (hop : FilledArray op) (r : Nat)
    (hr1 : 1 ≤ r) (hr : r + 1 ≤ 12) (ih : PlaceSpec face_table ep op r) :
    PlaceSpec face_table ep op (r + 1) := by
  intro σ O st ei oi hinv hei hoi
  obtain ⟨e, he⟩ : ∃ e, e + (r + 1) = 12 := ⟨12 - (r + 1), by omega⟩
  have he12 : e < 12 := by omega
  have h1 : 12 - (r + 1) = e := by omega
  have h2 : 12 - r = e + 1 := by omega
  rw [h1] at hinv ⊢
  unfold PlaceSpec at ih
  rw [h2] at ih
  have hO := hinv.olen
  have hmono := doneFaces_mono e he12
  have hloop := foldlM_spec
    (edgePosBody face_table ep op (PlaceEdgePiece face_table ep op r) e ei oi)
    (EdgeLoopInv e σ O)
    (fun pos call => ∃ h : pos < 12, ∃ ori, ori < 2 ∧
      RecordedSpec face_table ep op (e + 1) (σ * Equiv.swap ⟨e, he12⟩ ⟨pos, h⟩) (O ++ [ori]) ei oi
        call)
    (List.range' e (12 - e)) (List.nodup_range' _ _)
    (fun pos hpos s hs => by
      have hp := (mem_range'_iff e pos (by omega)).1 hpos
      obtain ⟨s', L', h1, h2, h3, h4, h5⟩ := edgePosBody_spec face_table ep op
        (PlaceEdgePiece face_table ep op r) e he12 σ O ei oi pos hp.1 hp.2
        (fun ori call => RecordedSpec face_table ep op (e + 1)
          (σ * Equiv.swap ⟨e, he12⟩ ⟨pos, hp.2⟩) (O ++ [ori]) ei oi call)
        (fun ori hori s1 hs1 => edgeOriBody_spec face_table ep op hep hop _ e he12 _ O
          s1 hs1 ei oi hei hoi ori hori
          (fun a b call => RecordedSpec face_table ep op (e + 1)
            (σ * Equiv.swap ⟨e, he12⟩ ⟨pos, hp.2⟩) (O ++ [ori]) a b call)
          (fun st1 a b hst1 ha hb => ih _ _ st1 a b hst1 ha hb)
          (fun cube hcube hfail call =>
            recordedSpec_local face_table hft ep op hep hop e he12 _ _ ei oi cube hcube hfail call)
          (fun st1 a b hst1 _ hsa hsb =>
            recordedSpec_idx face_table ep op (e + 1) (by omega) _ _ ei oi a b st1 hst1 hsa hsb
              hmono.2))
        (fun call h0 h1 =>
          recordedSpec_disjoint_ori face_table ep op e _ O hO ei oi call h0 h1) s hs
      refine ⟨s', L', h1, h2, h3, h4, fun call => ?_⟩
      rw [h5]
      constructor
      · rintro ⟨ori, hori, h⟩; exact ⟨hp.2, ori, hori, h⟩
      · rintro ⟨_, ori, hori, h⟩; exact ⟨ori, hori, h⟩)
    (fun p hp p' hp' hne call h0 h1 => by
      obtain ⟨hp12, _, _, h0⟩ := h0
      obtain ⟨hp12', _, _, h1⟩ := h1
      have hpe := ((mem_range'_iff e p (by omega)).1 hp).1
      have hpe' := ((mem_range'_iff e p' (by omega)).1 hp').1
      exact recordedSpec_disjoint_pos face_table ep op e he12 σ ⟨p, hp12⟩ ⟨p', hp12'⟩ hpe hpe'
        (fun hc => hne (congrArg Fin.val hc)) _ _ ei oi call h0 h1)
    ⟨st, parityBit σ, O.sum % 2⟩ ⟨hinv, rfl, rfl⟩
  obtain ⟨s, L, h3, hI, hsol, hnd, hmem⟩ := hloop
  refine ⟨s.st, L, placeEdgePiece_inner face_table ep op r e he (by omega) st _ _ ei oi s h3,
    hI.inv, hsol, hnd, fun call => ?_⟩
  rw [hmem, recordedSpec_succ face_table ep op e he12 σ O hO ei oi call]
  constructor
  · rintro ⟨pos, hpos, h12, ori, hori, h⟩
    exact ⟨⟨pos, h12⟩, ((mem_range'_iff e pos (by omega)).1 hpos).1, ori, hori, h⟩
  · rintro ⟨pos, hpos, ori, hori, h⟩
    exact ⟨pos.val, (mem_range'_iff e pos.val (by omega)).2 ⟨hpos, pos.isLt⟩, pos.isLt, ori,
      hori, h⟩

theorem placeSpec_all (face_table : Nat → Int)
    (hft : ∀ i, i < FACE_ARRANGEMENTS → face_table i < 16 → PerfectFace (FaceIndexToColors i))
    (ep op : List CornerArrangement) (hep : FilledArray ep) (hop : FilledArray op) :
    ∀ r, 1 ≤ r → r ≤ 12 → PlaceSpec face_table ep op r := by
  intro r
  induction r with
  | zero => intro h; omega
  | succ r ih =>
    intro _ hr
    by_cases h0 : r = 0
    · subst h0
      exact placeSpec_one face_table hft ep op hep hop
    · exact placeSpec_succ face_table hft ep op hep hop r (by omega) hr (ih (by omega) (by omega))

/-! ## The calls of `RecordSolution` made by `TryEdgeArrangements` -/

theorem edgeInv_start : EdgeInv 0 1 []
    ⟨[0, 1, 2, 3, 4, 5, 6, 7, 8, 9, 10, 11], initialEdgeCube, [0, 0, 0, 0, 0, 0], []⟩ :=
  ⟨edgePermList_one.symm, cubeInv_initial _ _, rfl, fun f hf => absurd hf (by
    have : doneFaces 0 = 0 := rfl
    omega), rfl,
    fun k hk => absurd hk (by omega)⟩

/-- The function `TryEdgeArrangements` returns, and the calls of `RecordSolution` it makes are,
each once, the pairs of a placement of the twelve edge cubies with an even number of flips and
an entry of the corner array of the parity of the placement that combine to a perfect pattern
on all six faces. -/
theorem tryEdgeArrangements_spec (face_table : Nat → Int)
    (hft : ∀ i, i < FACE_ARRANGEMENTS → face_table i < 16 → PerfectFace (FaceIndexToColors i))
    (ep op : List CornerArrangement) (hep : FilledArray ep) (hop : FilledArray op) :
    ∃ sols, TryEdgeArrangements face_table ep op = some sols ∧ sols.Nodup ∧
      ∀ call, call ∈ sols ↔ ∃ (τ : Equiv.Perm (Fin 12)) (O : List Nat) (c : Nat),
        O.length = 12 ∧ (∀ k, k < 12 → O.getD k 0 < 2) ∧ O.sum % 2 = 0 ∧
        call = solutionCallOf τ O c ∧ c < (cornerArray ep op (parityBit τ)).length ∧
        CornerMatch face_table (cornerArray ep op (parityBit τ))
          (edgeFaceIds (edgeCube (edgePermList τ) O)) 6 c := by
  obtain ⟨st', L, h1, _, h3, h4, h5⟩ := placeSpec_all face_table hft ep op hep hop 12
    (by decide) (le_refl _) 1 [] _ 0 0 edgeInv_start (by decide) (by decide)
  rw [parityBit_one] at h1
  refine ⟨st'.solutions, ?_, by rw [h3]; simpa using h4, fun call => ?_⟩
  · unfold TryEdgeArrangements
    have : ([] : List Nat).sum % 2 = 0 := rfl
    rw [this] at h1
    rw [h1]
  · rw [h3, List.nil_append, h5]
    unfold RecordedSpec Completes MatchFrom
    constructor
    · rintro ⟨τ, O, c, ⟨_, a1, a2, _, a3⟩, a4, a5, _, _, a6⟩
      exact ⟨τ, O, c, a1, a2, a3, a4, a5, a6⟩
    · rintro ⟨τ, O, c, a1, a2, a3, a4, a5, a6⟩
      refine ⟨τ, O, c, ⟨fun k hk => absurd hk (by omega), a1, a2,
        fun k hk => absurd hk (by omega), a3⟩, a4, a5, ?_, ?_, a6⟩
      · split_ifs <;> exact le_refl _
      · split_ifs <;> omega

theorem cornerSlotOf_cell : ∀ k, k < 8 → ∀ j, j < 3 →
    cornerSlotOf (tab2 corners k j) = 3 * k + j ∧ tab2 corners k j < 54 ∧
      tab2 corners k j % 9 % 2 = 0 := by
  decide!

theorem recordedCube_of (ep op : List CornerArrangement) (τ : Equiv.Perm (Fin 12))
    (O : List Nat) (c : Nat) :
    recordedCube ep op (solutionCallOf τ O c) = solutionCube (edgeCube (edgePermList τ) O)
      ((cornerArray ep op (parityBit τ)).getD c zeroArrangement).arrangement := by
  unfold recordedCube solutionCallOf
  simp only [Int.toNat_ofNat]

theorem xor_one_eq : ∀ o, o < 2 → 1 ^^^ o = 1 - o := by decide

theorem edgePermOf_recorded {τ : Equiv.Perm (Fin 12)} {O : List Nat}
    (hO : ∀ k, k < 12 → O.getD k 0 < 2) (c : CornerArrangement) (hc : StoredEntry c) :
    EdgePermOf (solutionCube (edgeCube (edgePermList τ) O) c.arrangement) τ := by
  intro k
  have hcube := cubeInv_edgeCube (edgePermList τ) O
  have hcell := hcube.2.2 k.val k.isLt
  rw [edgePermList_getD τ k.val k.isLt] at hcell
  refine ⟨O.getD k.val 0, hO k.val k.isLt, ?_, ?_⟩
  · rw [solutionCube_cell hcube c hc _ (edge_cell_lt _ k.isLt 0 (by decide)),
      if_pos (edge_cell_odd _ k.isLt 0 (by decide))]
    exact hcell.1
  · rw [solutionCube_cell hcube c hc _ (edge_cell_lt _ k.isLt 1 (by decide)),
      if_pos (edge_cell_odd _ k.isLt 1 (by decide)), ← xor_one_eq _ (hO k.val k.isLt)]
    exact hcell.2

theorem edgePermOf_unique {cube : List Nat} {τ τ' : Equiv.Perm (Fin 12)}
    (h : EdgePermOf cube τ) (h' : EdgePermOf cube τ') : τ' = τ := by
  apply Equiv.ext
  intro k
  obtain ⟨o, ho, h1, _⟩ := h k
  obtain ⟨o', ho', h1', _⟩ := h' k
  rw [h1] at h1'
  exact Fin.ext (edge_cell_inj _ _ _ _ (τ k).isLt ho (τ' k).isLt ho' h1').1.symm

theorem cornerPermOf_unique {cube : List Nat} {π π' : Equiv.Perm (Fin 8)}
    (h : CornerPermOf cube π) (h' : CornerPermOf cube π') : π' = π := by
  apply Equiv.ext
  intro k
  obtain ⟨t, ht, h1⟩ := h k
  obtain ⟨t', ht', h1'⟩ := h' k
  have a := h1 0 (by decide)
  have b := h1' 0 (by decide)
  rw [a] at b
  have c1 := (cornerSlotOf_cell _ (π k).isLt ((0 + t) % 3) (Nat.mod_lt _ (by decide))).1
  have c2 := (cornerSlotOf_cell _ (π' k).isLt ((0 + t') % 3) (Nat.mod_lt _ (by decide))).1
  rw [b] at c1
  have m1 : (0 + t) % 3 < 3 := Nat.mod_lt _ (by decide)
  have m2 : (0 + t') % 3 < 3 := Nat.mod_lt _ (by decide)
  exact Fin.ext (by omega)

theorem cornerPermOf_recorded {P O : List Nat} {cube : List Nat} (hcube : CubeInv 12 P O cube)
    (c : CornerArrangement) (hc : StoredEntry c) (π : Equiv.Perm (Fin 8))
    (h : CornerPermOf c.arrangement π) : CornerPermOf (solutionCube cube c.arrangement) π := by
  intro k
  obtain ⟨t, ht, h1⟩ := h k
  refine ⟨t, ht, fun j hj => ?_⟩
  obtain ⟨_, hlt, heven⟩ := cornerSlotOf_cell _ k.isLt j hj
  rw [solutionCube_cell hcube c hc _ hlt, if_neg (by omega)]
  exact h1 j hj

/-! ## The claims on the edge enumeration -/

theorem fill_arrangement (arr0 : List CornerArrangement)
    (hst : ∀ c, c ∈ arr0 → StoredEntry c) (h31 : arr0.length < 2147483648) (i : Nat) :
    ((FillCornerIndexes arr0 arr0.length).getD i zeroArrangement).arrangement =
      (arr0.getD i zeroArrangement).arrangement ∧
    (FillCornerIndexes arr0 arr0.length).length = arr0.length := by
  have hwf : ∀ i, i < arr0.length → (arr0.getD i zeroArrangement).nextIndex.length = 6 :=
    fun i hi => (hst _ (getD_mem_of_lt arr0 i hi)).2.1
  have hinv := fillCornerIndexes_inv arr0 arr0.length (le_refl _) h31 hwf
  exact ⟨hinv.cubes i, hinv.len⟩

/-- The solution cube determines the edge cube and, on a stored entry, the arrangement. -/
theorem solutionCube_inj {P O P' O' X X' : List Nat} (hX : CubeInv 12 P O X)
    (hX' : CubeInv 12 P' O' X') (c c' : CornerArrangement) (hc : StoredEntry c)
    (hc' : StoredEntry c')
    (h : solutionCube X c.arrangement = solutionCube X' c'.arrangement) :
    X = X' ∧ c.arrangement = c'.arrangement := by
  have key : ∀ x, x < 54 → (if x % 9 % 2 = 1 then X.getD x 0 else c.arrangement.getD x 0) =
      (if x % 9 % 2 = 1 then X'.getD x 0 else c'.arrangement.getD x 0) := by
    intro x hx
    rw [← solutionCube_cell hX c hc x hx, ← solutionCube_cell hX' c' hc' x hx, h]
  constructor
  · apply list_ext_getD _ _ (by rw [hX.1, hX'.1])
    intro x hx
    rw [hX.1] at hx
    by_cases hodd : x % 9 % 2 = 1
    · have := key x hx
      rwa [if_pos hodd, if_pos hodd] at this
    · rw [hX.2.1 x hx (by omega), hX'.2.1 x hx (by omega)]
  · apply list_ext_getD _ _ (by rw [hc.1, hc'.1])
    intro x hx
    rw [hc.1] at hx
    by_cases hodd : x % 9 % 2 = 1
    · rw [(hc.2.2.2 x hx).1 hodd, (hc'.2.2.2 x hx).1 hodd]
    · have := key x hx
      rwa [if_neg hodd, if_neg hodd] at this

/-- C8: on corner arrays whose entries are as `StoreCornerArrangement` writes them and whose
indexes were filled by `FillCornerIndexes` over their whole length, `TryEdgeArrangements`
returns, and for every placement of the twelve edge cubies (a permutation `τ` with flips `O`
whose sum is even) and every entry `c` of the corner array of the parity of `τ` it calls
`RecordSolution` on the pair exactly once if
`face_table[c.faceIds[f] + edgeContribution[f]] < 16` for all six faces `f`, and never
otherwise; every call is such a pair; and when the arrangements of each array are pairwise
different no solution cube is assembled twice. -/
theorem C8_edge_enumeration_exactly_once (ep0 op0 : List CornerArrangement)
    (hep : ∀ c, c ∈ ep0 → StoredEntry c) (hop : ∀ c, c ∈ op0 → StoredEntry c)
    (hne : ep0.length < 2147483648) (hno : op0.length < 2147483648) :
    ∃ sols, TryEdgeArrangements BuildFaceTable (FillCornerIndexes ep0 ep0.length)
        (FillCornerIndexes op0 op0.length) = some sols ∧
      (∀ (τ : Equiv.Perm (Fin 12)) (O : List Nat) (c : Nat), O.length = 12 →
        (∀ k, k < 12 → O.getD k 0 < 2) → O.sum % 2 = 0 →
        c < (cornerArray (FillCornerIndexes ep0 ep0.length) (FillCornerIndexes op0 op0.length)
          (parityBit τ)).length →
        (CornerMatch BuildFaceTable (cornerArray (FillCornerIndexes ep0 ep0.length)
            (FillCornerIndexes op0 op0.length) (parityBit τ))
            (edgeFaceIds (edgeCube (edgePermList τ) O)) 6 c →
          sols.count (solutionCallOf τ O c) = 1) ∧
        (¬ CornerMatch BuildFaceTable (cornerArray (FillCornerIndexes ep0 ep0.length)
            (FillCornerIndexes op0 op0.length) (parityBit τ))
            (edgeFaceIds (edgeCube (edgePermList τ) O)) 6 c →
          sols.count (solutionCallOf τ O c) = 0)) ∧
      (∀ call, call ∈ sols → ∃ (τ : Equiv.Perm (Fin 12)) (O : List Nat) (c : Nat),
        O.length = 12 ∧ (∀ k, k < 12 → O.getD k 0 < 2) ∧ O.sum % 2 = 0 ∧
        c < (cornerArray (FillCornerIndexes ep0 ep0.length) (FillCornerIndexes op0 op0.length)
          (parityBit τ)).length ∧ call = solutionCallOf τ O c) ∧
      ((∀ i j, i < ep0.length → j < ep0.length → (ep0.getD i zeroArrangement).arrangement =
          (ep0.getD j zeroArrangement).arrangement → i = j) →
        (∀ i j, i < op0.length → j < op0.length → (op0.getD i zeroArrangement).arrangement =
          (op0.getD j zeroArrangement).arrangement → i = j) →
        sols.Pairwise (fun a b =>
          recordedCube (FillCornerIndexes ep0 ep0.length) (FillCornerIndexes op0 op0.length) a ≠
          recordedCube (FillCornerIndexes ep0 ep0.length) (FillCornerIndexes op0 op0.length)
            b)) := by
  have hA := filledArray_of_fill ep0 hep hne
  have hB := filledArray_of_fill op0 hop hno
  obtain ⟨sols, h1, hnd, hmem⟩ := tryEdgeArrangements_spec BuildFaceTable buildFaceTable_sound
    _ _ hA hB
  refine ⟨sols, h1, fun τ O c hl hb hs hc => ⟨fun hm => ?_, fun hm => ?_⟩, fun call hcall => ?_,
    fun hdi hdj => ?_⟩
  · exact List.count_eq_one_of_mem hnd ((hmem _).2 ⟨τ, O, c, hl, hb, hs, rfl, hc, hm⟩)
  · apply List.count_eq_zero_of_not_mem
    intro hin
    obtain ⟨τ', O', c', hl', hb', _, he, _, hm'⟩ := (hmem _).1 hin
    obtain ⟨rfl, rfl, rfl⟩ := solutionCallOf_inj hl hl' hb hb' he
    exact hm hm'
  · obtain ⟨τ, O, c, a1, a2, a3, a4, a5, _⟩ := (hmem call).1 hcall
    exact ⟨τ, O, c, a1, a2, a3, a5, a4⟩
  · refine List.Pairwise.imp_of_mem ?_ hnd
    intro a b ha hb hab heq
    apply hab
    obtain ⟨τ, O, c, a1, a2, _, rfl, a5, _⟩ := (hmem a).1 ha
    obtain ⟨τ', O', c', b1, b2, _, rfl, b5, _⟩ := (hmem b).1 hb
    rw [recordedCube_of, recordedCube_of] at heq
    have hAc := (filledArray_corner hA hB (parityBit τ)).stored c a5
    have hBc := (filledArray_corner hA hB (parityBit τ')).stored c' b5
    obtain ⟨hX, harr⟩ := solutionCube_inj (cubeInv_edgeCube _ O) (cubeInv_edgeCube _ O') _ _
      hAc hBc heq
    have key := edgeCube_inj (edgePermList_lt τ) a2 (edgePermList_lt τ') b2 hX
    have hτ : τ = τ' := by
      apply Equiv.ext
      intro k
      have := (key k.val k.isLt).1
      rw [edgePermList_getD τ k.val k.isLt, edgePermList_getD τ' k.val k.isLt] at this
      exact Fin.ext this
    have hO : O = O' := by
      apply list_ext_getD _ _ (by rw [a1, b1])
      intro k hk
      exact (key k (by omega)).2
    subst hτ
    subst hO
    have hcc : c = c' := by
      unfold cornerArray at harr a5 b5
      by_cases hp : parityBit τ = 0
      · simp only [hp, if_true] at harr a5 b5
        rw [(fill_arrangement ep0 hep hne c).1, (fill_arrangement ep0 hep hne c').1] at harr
        rw [(fill_arrangement ep0 hep hne c).2] at a5 b5
        exact hdi c c' a5 b5 harr
      · simp only [hp, if_false] at harr a5 b5
        rw [(fill_arrangement op0 hop hno c).1, (fill_arrangement op0 hop hno c').1] at harr
        rw [(fill_arrangement op0 hop hno c).2] at a5 b5
        exact hdj c c' a5 b5 harr
    rw [hcc]

/-- C9: on corner arrays whose entries are as `StoreCornerArrangement` writes them and whose
indexes were filled by `FillCornerIndexes`, `TryEdgeArrangements` returns and every cube that
`RecordSolution` assembles from a call is perfect on each of the six faces: all six colours
(sticker value / 9) are present, each colour occurs at most twice, and no two stickers of the
face that touch along an edge or at a corner have the same colour. -/
theorem C9_recorded_cube_faces_perfect (ep0 op0 : List CornerArrangement)
    (hep : ∀ c, c ∈ ep0 → StoredEntry c) (hop : ∀ c, c ∈ op0 → StoredEntry c)
    (hne : ep0.length < 2147483648) (hno : op0.length < 2147483648) :
    ∃ sols, TryEdgeArrangements BuildFaceTable (FillCornerIndexes ep0 ep0.length)
        (FillCornerIndexes op0 op0.length) = some sols ∧
      ∀ call, call ∈ sols → ∀ f, f < 6 → PerfectFace (faceColors
        (recordedCube (FillCornerIndexes ep0 ep0.length) (FillCornerIndexes op0 op0.length) call)
        f) := by
  have hA := filledArray_of_fill ep0 hep hne
  have hB := filledArray_of_fill op0 hop hno
  obtain ⟨sols, h1, _, hmem⟩ := tryEdgeArrangements_spec BuildFaceTable buildFaceTable_sound
    _ _ hA hB
  refine ⟨sols, h1, fun call hcall f hf => ?_⟩
  obtain ⟨τ, O, c, _, a2, _, rfl, a5, a6⟩ := (hmem call).1 hcall
  rw [recordedCube_of]
  exact match_perfect BuildFaceTable buildFaceTable_sound (cubeInv_edgeCube _ O)
    (edgePermList_lt τ) a2 _ ((filledArray_corner hA hB (parityBit τ)).stored c a5) f hf
    (cornerMatch_of_edgeFaceIds BuildFaceTable _ _ c a6 f hf)

/-- C10: on corner arrays as in C8 whose entries in `ep_corner_arrangements` have an even and
in `op_corner_arrangements` an odd permutation of the eight corner cubies, every cube that
`RecordSolution` assembles has exactly one permutation `τ` of the twelve edge cubies and one
permutation `π` of the eight corner cubies, the sign of `π` equals the sign of `τ`, and the
`swap_parity` of the call (which selects the corner array) is the parity of `τ`. -/
theorem C10_corner_sign_eq_edge_sign (ep0 op0 : List CornerArrangement)
    (hep : ∀ c, c ∈ ep0 → StoredEntry c) (hop : ∀ c, c ∈ op0 → StoredEntry c)
    (hne : ep0.length < 2147483648) (hno : op0.length < 2147483648)
    (hev : ∀ c, c ∈ ep0 → ∃ π, CornerPermOf c.arrangement π ∧ Equiv.Perm.sign π = 1)
    (hod : ∀ c, c ∈ op0 → ∃ π, CornerPermOf c.arrangement π ∧ Equiv.Perm.sign π = -1) :
    ∃ sols, TryEdgeArrangements BuildFaceTable (FillCornerIndexes ep0 ep0.length)
        (FillCornerIndexes op0 op0.length) = some sols ∧
      ∀ call, call ∈ sols →
        (∃ (τ : Equiv.Perm (Fin 12)) (π : Equiv.Perm (Fin 8)),
          EdgePermOf (recordedCube (FillCornerIndexes ep0 ep0.length)
            (FillCornerIndexes op0 op0.length) call) τ ∧
          CornerPermOf (recordedCube (FillCornerIndexes ep0 ep0.length)
            (FillCornerIndexes op0 op0.length) call) π) ∧
        ∀ (τ : Equiv.Perm (Fin 12)) (π : Equiv.Perm (Fin 8)),
          EdgePermOf (recordedCube (FillCornerIndexes ep0 ep0.length)
            (FillCornerIndexes op0 op0.length) call) τ →
          CornerPermOf (recordedCube (FillCornerIndexes ep0 ep0.length)
            (FillCornerIndexes op0 op0.length) call) π →
          Equiv.Perm.sign π = Equiv.Perm.sign τ ∧ call.swap_parity = parityBit τ := by
  have hA := filledArray_of_fill ep0 hep hne
  have hB := filledArray_of_fill op0 hop hno
  obtain ⟨sols, h1, _, hmem⟩ := tryEdgeArrangements_spec BuildFaceTable buildFaceTable_sound
    _ _ hA hB
  refine ⟨sols, h1, fun call hcall => ?_⟩
  obtain ⟨τ, O, c, _, a2, _, rfl, a5, _⟩ := (hmem call).1 hcall
  rw [recordedCube_of]
  have hst := (filledArray_corner hA hB (parityBit τ)).stored c a5
  have hE : EdgePermOf (solutionCube (edgeCube (edgePermList τ) O)
      ((cornerArray (FillCornerIndexes ep0 ep0.length) (FillCornerIndexes op0 op0.length)
        (parityBit τ)).getD c zeroArrangement).arrangement) τ := edgePermOf_recorded a2 _ hst
  have hC : ∃ π, CornerPermOf ((cornerArray (FillCornerIndexes ep0 ep0.length)
      (FillCornerIndexes op0 op0.length) (parityBit τ)).getD c zeroArrangement).arrangement π ∧
      Equiv.Perm.sign π = Equiv.Perm.sign τ := by
    unfold cornerArray at a5 ⊢
    by_cases hp : parityBit τ = 0
    · simp only [hp, if_true] at a5 ⊢
      rw [(fill_arrangement ep0 hep hne c).1]
      rw [(fill_arrangement ep0 hep hne c).2] at a5
      obtain ⟨π, h2, h3⟩ := hev _ (getD_mem_of_lt ep0 c a5)
      refine ⟨π, h2, ?_⟩
      rw [h3]
      unfold parityBit at hp
      by_contra hne1
      rw [if_neg (fun h => hne1 h.symm)] at hp
      omega
    · simp only [hp, if_false] at a5 ⊢
      rw [(fill_arrangement op0 hop hno c).1]
      rw [(fill_arrangement op0 hop hno c).2] at a5
      obtain ⟨π, h2, h3⟩ := hod _ (getD_mem_of_lt op0 c a5)
      refine ⟨π, h2, ?_⟩
      rw [h3]
      unfold parityBit at hp
      rcases Int.units_eq_one_or (Equiv.Perm.sign τ) with h | h
      · rw [if_pos h] at hp; exact absurd rfl hp
      · exact h.symm
  obtain ⟨π, hC1, hC2⟩ := hC
  have hC' := cornerPermOf_recorded (cubeInv_edgeCube (edgePermList τ) O) _ hst π hC1
  refine ⟨⟨τ, π, hE, hC'⟩, fun τ' π' hE' hCC => ?_⟩
  rw [edgePermOf_unique hE hE', cornerPermOf_unique hC' hCC]
  exact ⟨hC2, rfl⟩

theorem sampleCorners_stored : ∀ c, c ∈ [storedEntryOf sampleCorners] → StoredEntry c := by
  decide!

theorem sampleCorners_perm :
    CornerPermOf sampleCorners sampleCornerPerm ∧ Equiv.Perm.sign sampleCornerPerm = 1 := by
  constructor
  · intro k
    fin_cases k
    · exact ⟨1, by decide, by decide⟩
    · exact ⟨0, by decide, by decide⟩
    · exact ⟨2, by decide, by decide⟩
    · exact ⟨1, by decide, by decide⟩
    · exact ⟨0, by decide, by decide⟩
    · exact ⟨1, by decide, by decide⟩
    · exact ⟨2, by decide, by decide⟩
    · exact ⟨2, by decide, by decide⟩
  · unfold sampleCornerPerm
    simp only [Equiv.Perm.sign_mul]
    rw [Equiv.Perm.sign_swap (by decide), Equiv.Perm.sign_swap (by decide),
      Equiv.Perm.sign_swap (by decide), Equiv.Perm.sign_swap (by decide)]
    decide

theorem C8_witness :
    ((∀ c, c ∈ [storedEntryOf sampleCorners] → StoredEntry c) ∧
      (∀ c, c ∈ ([] : List CornerArrangement) → StoredEntry c)) ∧
    ∃ sols, TryEdgeArrangements BuildFaceTable
        (FillCornerIndexes [storedEntryOf sampleCorners] [storedEntryOf sampleCorners].length)
        (FillCornerIndexes [] ([] : List CornerArrangement).length) = some sols ∧
      (∀ (τ : Equiv.Perm (Fin 12)) (O : List Nat) (c : Nat), O.length = 12 →
        (∀ k, k < 12 → O.getD k 0 < 2) → O.sum % 2 = 0 →
        c < (cornerArray
          (FillCornerIndexes [storedEntryOf sampleCorners] [storedEntryOf sampleCorners].length)
          (FillCornerIndexes [] ([] : List CornerArrangement).length) (parityBit τ)).length →
        (CornerMatch BuildFaceTable (cornerArray
            (FillCornerIndexes [storedEntryOf sampleCorners] [storedEntryOf sampleCorners].length)
            (FillCornerIndexes [] ([] : List CornerArrangement).length) (parityBit τ))
            (edgeFaceIds (edgeCube (edgePermList τ) O)) 6 c →
          sols.count (solutionCallOf τ O c) = 1) ∧
        (¬ CornerMatch BuildFaceTable (cornerArray
            (FillCornerIndexes [storedEntryOf sampleCorners] [storedEntryOf sampleCorners].length)
            (FillCornerIndexes [] ([] : List CornerArrangement).length) (parityBit τ))
            (edgeFaceIds (edgeCube (edgePermList τ) O)) 6 c →
          sols.count (solutionCallOf τ O c) = 0)) ∧
      (∀ call, call ∈ sols → ∃ (τ : Equiv.Perm (Fin 12)) (O : List Nat) (c : Nat),
        O.length = 12 ∧ (∀ k, k < 12 → O.getD k 0 < 2) ∧ O.sum % 2 = 0 ∧
        c < (cornerArray
          (FillCornerIndexes [storedEntryOf sampleCorners] [storedEntryOf sampleCorners].length)
          (FillCornerIndexes [] ([] : List CornerArrangement).length) (parityBit τ)).length ∧
        call = solutionCallOf τ O c) ∧
      ((∀ i j, i < [storedEntryOf sampleCorners].length →
          j < [storedEntryOf sampleCorners].length →
          ([storedEntryOf sampleCorners].getD i zeroArrangement).arrangement =
          ([storedEntryOf sampleCorners].getD j zeroArrangement).arrangement → i = j) →
        (∀ i j, i < ([] : List CornerArrangement).length →
          j < ([] : List CornerArrangement).length →
          (([] : List CornerArrangement).getD i zeroArrangement).arrangement =
          (([] : List CornerArrangement).getD j zeroArrangement).arrangement → i = j) →
        sols.Pairwise (fun a b =>
          recordedCube
            (FillCornerIndexes [storedEntryOf sampleCorners] [storedEntryOf sampleCorners].length)
            (FillCornerIndexes [] ([] : List CornerArrangement).length) a ≠
          recordedCube
            (FillCornerIndexes [storedEntryOf sampleCorners] [storedEntryOf sampleCorners].length)
            (FillCornerIndexes [] ([] : List CornerArrangement).length) b)) :=
  ⟨⟨by decide!, by decide⟩, C8_edge_enumeration_exactly_once [storedEntryOf sampleCorners] []
    (by decide!) (by decide) (by decide) (by decide)⟩

theorem C9_witness :
    ((∀ c, c ∈ [storedEntryOf sampleCorners] → StoredEntry c) ∧
      (∀ c, c ∈ ([] : List CornerArrangement) → StoredEntry c)) ∧
    ∃ sols, TryEdgeArrangements BuildFaceTable
        (FillCornerIndexes [storedEntryOf sampleCorners] [storedEntryOf sampleCorners].length)
        (FillCornerIndexes [] ([] : List CornerArrangement).length) = some sols ∧
      ∀ call, call ∈ sols → ∀ f, f < 6 → PerfectFace (faceColors
        (recordedCube
          (FillCornerIndexes [storedEntryOf sampleCorners] [storedEntryOf sampleCorners].length)
          (FillCornerIndexes [] ([] : List CornerArrangement).length) call) f) :=
  ⟨⟨by decide!, by decide⟩, C9_recorded_cube_faces_perfect [storedEntryOf sampleCorners] []
    (by decide!) (by decide) (by decide) (by decide)⟩

theorem C10_witness :
    ((∀ c, c ∈ [storedEntryOf sampleCorners] → StoredEntry c) ∧
      (∀ c, c ∈ [storedEntryOf sampleCorners] →
        ∃ π, CornerPermOf c.arrangement π ∧ Equiv.Perm.sign π = 1)) ∧
    ∃ sols, TryEdgeArrangements BuildFaceTable
        (FillCornerIndexes [storedEntryOf sampleCorners] [storedEntryOf sampleCorners].length)
        (FillCornerIndexes [] ([] : List CornerArrangement).length) = some sols ∧
      ∀ call, call ∈ sols →
        (∃ (τ : Equiv.Perm (Fin 12)) (π : Equiv.Perm (Fin 8)),
          EdgePermOf (recordedCube
            (FillCornerIndexes [storedEntryOf sampleCorners] [storedEntryOf sampleCorners].length)
            (FillCornerIndexes [] ([] : List CornerArrangement).length) call) τ ∧
          CornerPermOf (recordedCube
            (FillCornerIndexes [storedEntryOf sampleCorners] [storedEntryOf sampleCorners].length)
            (FillCornerIndexes [] ([] : List CornerArrangement).length) call) π) ∧
        ∀ (τ : Equiv.Perm (Fin 12)) (π : Equiv.Perm (Fin 8)),
          EdgePermOf (recordedCube
            (FillCornerIndexes [storedEntryOf sampleCorners] [storedEntryOf sampleCorners].length)
            (FillCornerIndexes [] ([] : List CornerArrangement).length) call) τ →
          CornerPermOf (recordedCube
            (FillCornerIndexes [storedEntryOf sampleCorners] [storedEntryOf sampleCorners].length)
            (FillCornerIndexes [] ([] : List CornerArrangement).length) call) π →
          Equiv.Perm.sign π = Equiv.Perm.sign τ ∧ call.swap_parity = parityBit τ :=
  ⟨⟨by decide!, fun c hc => by
      rw [List.mem_singleton.1 hc]
      exact ⟨sampleCornerPerm, sampleCorners_perm⟩⟩,
    C10_corner_sign_eq_edge_sign [storedEntryOf sampleCorners] []
      (by decide!) (by decide) (by decide) (by decide)
      (fun c hc => by
        rw [List.mem_singleton.1 hc]
        exact ⟨sampleCornerPerm, sampleCorners_perm⟩)
      (fun c hc => absurd hc (List.not_mem_nil c))⟩

theorem sampleEdgePerm_list : edgePermList sampleEdgePerm = sampleEdgePieces ∧
    parityBit sampleEdgePerm = 0 := by
  constructor
  · decide
  · unfold parityBit sampleEdgePerm
    simp only [Equiv.Perm.sign_mul]
    rw [Equiv.Perm.sign_swap (by decide), Equiv.Perm.sign_swap (by decide),
      Equiv.Perm.sign_swap (by decide), Equiv.Perm.sign_swap (by decide),
      Equiv.Perm.sign_swap (by decide), Equiv.Perm.sign_swap (by decide),
      Equiv.Perm.sign_swap (by decide), Equiv.Perm.sign_swap (by decide),
      Equiv.Perm.sign_swap (by decide), Equiv.Perm.sign_swap (by decide)]
    decide

theorem sample_face_ids : ∀ f, f < 6 →
    ([storedEntryOf sampleCorners].getD 0 zeroArrangement).faceIds.getD f 0 +
      edgeFaceId (edgeCube sampleEdgePieces sampleEdgeFlips) f ∈
      [8888503, 5243002, 5306755, 6971429, 4306501, 3669855] := by
  decide!

theorem sample_faces_perfect : ∀ i, i ∈ [8888503, 5243002, 5306755, 6971429, 4306501, 3669855] →
    BuildFaceTable i < 16 := by
  intro i hi
  have hlt : i < FACE_ARRANGEMENTS := by
    revert i; decide
  rw [table_lt_iff i hlt, ← perfB_colorsOf]
  revert i
  decide!

/-- The enumeration is not empty: with the corner arrangement of the sample cube as the only
entry of `ep_corner_arrangements`, the sample cube is recorded, exactly once. -/
theorem sample_solution_recorded :
    ∃ sols, TryEdgeArrangements BuildFaceTable
        (FillCornerIndexes [storedEntryOf sampleCorners] 1) (FillCornerIndexes [] 0) =
          some sols ∧
      sols.count (solutionCallOf sampleEdgePerm sampleEdgeFlips 0) = 1 := by
  have hA := filledArray_of_fill [storedEntryOf sampleCorners] sampleCorners_stored (by decide)
  have hB := filledArray_of_fill [] (fun c hc => absurd hc (List.not_mem_nil c)) (by decide)
  obtain ⟨sols, h1, hnd, hmem⟩ := tryEdgeArrangements_spec BuildFaceTable buildFaceTable_sound
    _ _ hA hB
  refine ⟨sols, h1, List.count_eq_one_of_mem hnd ((hmem _).2
    ⟨sampleEdgePerm, sampleEdgeFlips, 0, rfl, by decide, by decide, rfl, ?_, ?_⟩)⟩
  · rw [sampleEdgePerm_list.2]
    unfold cornerArray
    rw [if_pos rfl]
    rw [(fill_arrangement [storedEntryOf sampleCorners] sampleCorners_stored (by decide) 0).2]
    decide
  · rw [sampleEdgePerm_list.2, sampleEdgePerm_list.1]
    unfold cornerArray
    rw [if_pos rfl]
    intro f hf
    have hfaces := (fillCornerIndexes_inv [storedEntryOf sampleCorners] 1 (le_refl _) (by decide)
      (by decide)).faces 0
    rw [edgeFaceIds_getD _ f hf]
    have hl : ([storedEntryOf sampleCorners] : List CornerArrangement).length = 1 := rfl
    rw [hl, hfaces]
    exact sample_faces_perfect _ (sample_face_ids f hf)

/-! ## The flips of the recorded cubes -/

theorem filter_range_congr (n : Nat) (p q : Nat → Bool) (h : ∀ k, k < n → p k = q k) :
    (List.range n).filter p = (List.range n).filter q := by
  apply List.filter_congr
  intro k hk
  exact h k (List.mem_range.1 hk)

theorem sum_take_succ (O : List Nat) (n : Nat) (h : n < O.length) :
    (O.take (n + 1)).sum = (O.take n).sum + O.getD n 0 := by
  rw [List.take_succ, List.sum_append, List.getD_eq_getElem _ _ h, List.getElem?_eq_getElem h]
  simp only [Option.toList, List.sum_cons, List.sum_nil, Nat.add_zero]

theorem flipped_count (O : List Nat) : (∀ k, k < O.length → O.getD k 0 < 2) →
    ∀ n, n ≤ O.length →
      ((List.range n).filter (fun k => O.getD k 0 == 1)).length = (O.take n).sum := by
  intro hb n
  induction n with
  | zero => intro _; simp
  | succ n ih =>
    intro hn
    have hlt : n < O.length := by omega
    rw [List.range_succ, List.filter_append, List.length_append, ih (by omega),
      List.take_succ, List.sum_append]
    congr 1
    have hbn := hb n hlt
    have hg : O[n]? = some (O.getD n 0) := by
      rw [List.getD_eq_getElem _ _ hlt, List.getElem?_eq_getElem hlt]
    rw [hg]
    have : O.getD n 0 = 0 ∨ O.getD n 0 = 1 := by omega
    rcases this with h | h
    · simp only [h, List.filter_cons, List.filter_nil, Option.toList]
      rfl
    · simp only [h, List.filter_cons, List.filter_nil, Option.toList]
      rfl

theorem flippedEdges_edgeCube (τ : Equiv.Perm (Fin 12)) (O : List Nat) (hl : O.length = 12)
    (hb : ∀ k, k < 12 → O.getD k 0 < 2) (cube : List Nat)
    (hc : ∀ k, k < 12 → cube.getD (tab2 edges k 0) 0 =
      (edgeCube (edgePermList τ) O).getD (tab2 edges k 0) 0) (n : Nat) (hn : n ≤ 12) :
    flippedEdges n cube τ = (O.take n).sum := by
  unfold flippedEdges
  rw [← flipped_count O (by rw [hl]; exact hb) n (by omega)]
  congr 1
  apply filter_range_congr
  intro k hk
  have hk12 : k < 12 := by omega
  rw [hc k hk12, ((cubeInv_edgeCube (edgePermList τ) O).2.2 k hk12).1]
  have hp := edgePermList_lt τ k hk12
  by_cases h1 : O.getD k 0 = 1
  · rw [h1, beq_self_eq_true, beq_self_eq_true]
  · have hne : ¬ tab2 edges ((edgePermList τ).getD k 0) (O.getD k 0) =
        tab2 edges ((edgePermList τ).getD k 0) 1 := by
      intro h
      exact h1 (edge_cell_inj _ _ _ _ hp (hb k hk12) hp (by decide) h).2
    rw [beq_eq_false_iff_ne.2 hne, beq_eq_false_iff_ne.2 h1]

/-- C11: on corner arrays as in C8, every cube passed to `RecordSolution`, and every cube
assembled from it, holds a permutation `τ` of the edge cubies, the number of its flipped edges
is even, and the flip of the last slot is the parity of the number of flipped edges in the
first eleven slots. -/
theorem C11_recorded_flips_even (ep0 op0 : List CornerArrangement)
    (hep : ∀ c, c ∈ ep0 → StoredEntry c) (hop : ∀ c, c ∈ op0 → StoredEntry c)
    (hne : ep0.length < 2147483648) (hno : op0.length < 2147483648) :
    ∃ sols, TryEdgeArrangements BuildFaceTable (FillCornerIndexes ep0 ep0.length)
        (FillCornerIndexes op0 op0.length) = some sols ∧
      ∀ call, call ∈ sols →
        (∃ τ : Equiv.Perm (Fin 12), EdgePermOf (recordedCube (FillCornerIndexes ep0 ep0.length)
          (FillCornerIndexes op0 op0.length) call) τ) ∧
        ∀ τ : Equiv.Perm (Fin 12), EdgePermOf (recordedCube (FillCornerIndexes ep0 ep0.length)
            (FillCornerIndexes op0 op0.length) call) τ →
          flippedEdges 12 call.cube τ % 2 = 0 ∧
          flippedEdges 12 (recordedCube (FillCornerIndexes ep0 ep0.length)
            (FillCornerIndexes op0 op0.length) call) τ % 2 = 0 ∧
          flippedEdges 12 call.cube τ - flippedEdges 11 call.cube τ =
            flippedEdges 11 call.cube τ % 2 := by
  have hA := filledArray_of_fill ep0 hep hne
  have hB := filledArray_of_fill op0 hop hno
  obtain ⟨sols, h1, _, hmem⟩ := tryEdgeArrangements_spec BuildFaceTable buildFaceTable_sound
    _ _ hA hB
  refine ⟨sols, h1, fun call hcall => ?_⟩
  obtain ⟨τ, O, c, a1, a2, a3, rfl, a5, _⟩ := (hmem call).1 hcall
  rw [recordedCube_of]
  have hst := (filledArray_corner hA hB (parityBit τ)).stored c a5
  have hE : EdgePermOf (solutionCube (edgeCube (edgePermList τ) O)
      ((cornerArray (FillCornerIndexes ep0 ep0.length) (FillCornerIndexes op0 op0.length)
        (parityBit τ)).getD c zeroArrangement).arrangement) τ := edgePermOf_recorded a2 _ hst
  refine ⟨⟨τ, hE⟩, fun τ' hE' => ?_⟩
  rw [edgePermOf_unique hE hE']
  have hcube : (solutionCallOf τ O c).cube = edgeCube (edgePermList τ) O := by
    simp only [solutionCallOf]
  rw [hcube]
  have e1 := flippedEdges_edgeCube τ O a1 a2 (edgeCube (edgePermList τ) O) (fun _ _ => rfl)
  have e2 := flippedEdges_edgeCube τ O a1 a2 (solutionCube (edgeCube (edgePermList τ) O)
      ((cornerArray (FillCornerIndexes ep0 ep0.length) (FillCornerIndexes op0 op0.length)
        (parityBit τ)).getD c zeroArrangement).arrangement) (fun k hk => by
      rw [solutionCube_cell (cubeInv_edgeCube _ O) _ hst _ (edge_cell_lt k hk 0 (by decide)),
        if_pos (edge_cell_odd k hk 0 (by decide))])
  rw [e1 12 (le_refl _), e2 12 (le_refl _), e1 11 (by decide)]
  have h12 : O.take 12 = O := List.take_of_length_le (by omega)
  have h11 : (O.take 12).sum = (O.take 11).sum + O.getD 11 0 :=
    sum_take_succ O 11 (by omega)
  have hb11 := a2 11 (by decide)
  rw [h12] at h11 ⊢
  omega

theorem C11_witness :
    ((∀ c, c ∈ [storedEntryOf sampleCorners] → StoredEntry c) ∧
      (∀ c, c ∈ ([] : List CornerArrangement) → StoredEntry c)) ∧
    ∃ sols, TryEdgeArrangements BuildFaceTable
        (FillCornerIndexes [storedEntryOf sampleCorners] [storedEntryOf sampleCorners].length)
        (FillCornerIndexes [] ([] : List CornerArrangement).length) = some sols ∧
      ∀ call, call ∈ sols →
        (∃ τ : Equiv.Perm (Fin 12), EdgePermOf (recordedCube
          (FillCornerIndexes [storedEntryOf sampleCorners] [storedEntryOf sampleCorners].length)
          (FillCornerIndexes [] ([] : List CornerArrangement).length) call) τ) ∧
        ∀ τ : Equiv.Perm (Fin 12), EdgePermOf (recordedCube
            (FillCornerIndexes [storedEntryOf sampleCorners] [storedEntryOf sampleCorners].length)
            (FillCornerIndexes [] ([] : List CornerArrangement).length) call) τ →
          flippedEdges 12 call.cube τ % 2 = 0 ∧
          flippedEdges 12 (recordedCube
            (FillCornerIndexes [storedEntryOf sampleCorners] [storedEntryOf sampleCorners].length)
            (FillCornerIndexes [] ([] : List CornerArrangement).length) call) τ % 2 = 0 ∧
          flippedEdges 12 call.cube τ - flippedEdges 11 call.cube τ =
            flippedEdges 11 call.cube τ % 2 :=
  ⟨⟨by decide!, by decide⟩, C11_recorded_flips_even [storedEntryOf sampleCorners] []
    (by decide!) (by decide) (by decide) (by decide)⟩

/-! ## The sum of the two contributions -/

theorem faceIndexOfColors_roundtrip : FaceIndexToColors (faceIndexOfColors
    [5, 1, 4, 3, 0, 2, 2, 5, 1]) = [5, 1, 4, 3, 0, 2, 2, 5, 1] := by decide

/-- C20 (counterexample): on the face 0 of the sample cube, whose stickers are ids below 54,
the two contributions do not add up to the FaceIndex of the nine colours. -/
theorem C20_counterexample :
    ¬ (∀ (cube : List Nat) (f : Nat), f < 6 → (∀ s, s < 9 → cube.getD (9 * f + s) 0 < 54) →
      cornerFaceId cube f + edgeFaceId cube f = faceIndexOfColors (faceColors cube f)) := by
  intro h
  have h0 := h sampleCube 0 (by decide) (by decide!)
  revert h0
  decide!

/-- C20 (amended): for every face `f` of a cube, with cell colours `c0..c8` (sticker / 9), the
corner contribution plus the edge contribution is the sum over `i` of `c_i * 6 ^ (8 - i)`: the
FaceIndex of the nine colours read in reverse order. -/
theorem C20_contributions_sum_reversed (cube : List Nat) (f : Nat) :
    cornerFaceId cube f + edgeFaceId cube f =
      faceIndexOfColors (faceColors cube f).reverse := by
  rw [faceColors_eq]
  unfold cornerFaceId edgeFaceId faceIndexOfColors CUBE_COLORS
  have e : ∀ d, 9 * f + d = f * 9 + d := fun d => by omega
  simp only [e, List.reverse_cons, List.reverse_nil, List.nil_append, List.cons_append,
    List.foldr_cons, List.foldr_nil, Nat.add_zero]
  ring

/-! ## The connectedness of the recorded cubes -/

theorem cubeColors_getD (cube : List Nat) (x : Nat) (hx : x < 54) :
    (cubeColors cube).getD x 0 = cube.getD x 0 / 9 := by
  unfold cubeColors CUBE_SURFACES
  rw [List.getD_eq_getElem _ _ (by simpa using hx)]
  simp

/-- The side pairs and the same-face diagonal pairs of the whole-cube check are pairs of
touching cells of one face. -/
theorem cube_pairs_touching : ∀ p, p ∈ cube_sides ++ cube_corners →
    p.1 < 54 ∧ p.2 < 54 ∧ p.1 / 9 = p.2 / 9 ∧ p.1 % 9 ≠ p.2 % 9 ∧
      touching (p.1 % 9) (p.2 % 9) := by
  decide!

/-- The 72 side pairs of the whole-cube check are the 12 side pairs of
`GetFaceColorConnectedness` on each of the six faces, and the 48 same-face diagonal pairs are
its 8 diagonal pairs on each face (up to the order inside a pair). -/
theorem cube_pairs_replicated :
    cube_sides.length = 72 ∧ cube_corners.length = 48 ∧
    (∀ p, p ∈ cube_sides → p.1 / 9 = p.2 / 9 ∧ p.1 / 9 < 6 ∧
      ((p.1 % 9, p.2 % 9) ∈ sides_to_compare ∨ (p.2 % 9, p.1 % 9) ∈ sides_to_compare)) ∧
    (∀ p, p ∈ cube_corners → p.1 / 9 = p.2 / 9 ∧ p.1 / 9 < 6 ∧
      ((p.1 % 9, p.2 % 9) ∈ corners_to_compare ∨ (p.2 % 9, p.1 % 9) ∈ corners_to_compare)) ∧
    (∀ f, f < 6 → ∀ q, q ∈ sides_to_compare →
      ((9 * f + q.1, 9 * f + q.2) ∈ cube_sides ∨ (9 * f + q.2, 9 * f + q.1) ∈ cube_sides)) ∧
    (∀ f, f < 6 → ∀ q, q ∈ corners_to_compare →
      ((9 * f + q.1, 9 * f + q.2) ∈ cube_corners ∨
        (9 * f + q.2, 9 * f + q.1) ∈ cube_corners)) ∧
    cube_sides.Nodup ∧ cube_corners.Nodup := by
  refine ⟨by decide, by decide, by decide!, by decide!, ?_, ?_, by decide!, by decide!⟩
  · intro f hf
    interval_cases f <;> decide!
  · intro f hf
    interval_cases f <;> decide!

/-- A cube whose six faces are perfect has no two touching cells of one colour on a face:
`GetColorConnectedness` is at least `ADJACENT_FACES_TOUCHING`. -/
theorem connectedness_of_perfect (cube : List Nat)
    (h : ∀ f, f < 6 → PerfectFace (faceColors cube f)) :
    ADJACENT_FACES_TOUCHING ≤ GetColorConnectedness cube := by
  have key : ∀ p, p ∈ cube_sides ++ cube_corners →
      ((cubeColors cube).getD p.1 0 == (cubeColors cube).getD p.2 0) = false := by
    intro p hp
    obtain ⟨h1, h2, h3, h4, h5⟩ := cube_pairs_touching p hp
    rw [cubeColors_getD _ _ h1, cubeColors_getD _ _ h2, beq_eq_false_iff_ne]
    exact perfect_no_touch cube (p.1 / 9) (h _ (by omega)) p.1 p.2 rfl h3.symm h4 h5
  have hs : cube_sides.any
      (fun p => (cubeColors cube).getD p.1 0 == (cubeColors cube).getD p.2 0) = false := by
    rw [List.any_eq_false]
    intro p hp
    rw [key p (List.mem_append_left _ hp)]
    exact Bool.false_ne_true
  have hc : cube_corners.any
      (fun p => (cubeColors cube).getD p.1 0 == (cubeColors cube).getD p.2 0) = false := by
    rw [List.any_eq_false]
    intro p hp
    rw [key p (List.mem_append_right _ hp)]
    exact Bool.false_ne_true
  unfold GetColorConnectedness
  rw [hs, hc]
  simp only [Bool.false_eq_true, ↓reduceIte]
  split_ifs
  · exact le_refl _
  · decide

/-- C12: on corner arrays as in C8, `GetColorConnectedness` of every cube that `RecordSolution`
assembles is at least `ADJACENT_FACES_TOUCHING` (2), so the branch `connectedness <
ADJACENT_FACES_TOUCHING` is not taken; the 72 side pairs and the 48 same-face diagonal pairs of
the check are the 12 side pairs and the 8 diagonal pairs of `GetFaceColorConnectedness` on each
of the six faces. -/
theorem C12_recorded_connectedness (ep0 op0 : List CornerArrangement)
    (hep : ∀ c, c ∈ ep0 → StoredEntry c) (hop : ∀ c, c ∈ op0 → StoredEntry c)
    (hne : ep0.length < 2147483648) (hno : op0.length < 2147483648) :
    (∃ sols, TryEdgeArrangements BuildFaceTable (FillCornerIndexes ep0 ep0.length)
        (FillCornerIndexes op0 op0.length) = some sols ∧
      ∀ call, call ∈ sols → ADJACENT_FACES_TOUCHING ≤ GetColorConnectedness
        (recordedCube (FillCornerIndexes ep0 ep0.length) (FillCornerIndexes op0 op0.length) call) ∧
        ¬ GetColorConnectedness (recordedCube (FillCornerIndexes ep0 ep0.length)
          (FillCornerIndexes op0 op0.length) call) < ADJACENT_FACES_TOUCHING) ∧
    (∀ p, p ∈ cube_sides → p.1 / 9 = p.2 / 9 ∧ p.1 / 9 < 6 ∧
      ((p.1 % 9, p.2 % 9) ∈ sides_to_compare ∨ (p.2 % 9, p.1 % 9) ∈ sides_to_compare)) ∧
    (∀ p, p ∈ cube_corners → p.1 / 9 = p.2 / 9 ∧ p.1 / 9 < 6 ∧
      ((p.1 % 9, p.2 % 9) ∈ corners_to_compare ∨ (p.2 % 9, p.1 % 9) ∈ corners_to_compare)) ∧
    (∀ f, f < 6 → ∀ q, q ∈ sides_to_compare →
      ((9 * f + q.1, 9 * f + q.2) ∈ cube_sides ∨ (9 * f + q.2, 9 * f + q.1) ∈ cube_sides)) ∧
    (∀ f, f < 6 → ∀ q, q ∈ corners_to_compare →
      ((9 * f + q.1, 9 * f + q.2) ∈ cube_corners ∨
        (9 * f + q.2, 9 * f + q.1) ∈ cube_corners)) ∧
    cube_sides.length = 72 ∧ cube_corners.length = 48 := by
  have hA := filledArray_of_fill ep0 hep hne
  have hB := filledArray_of_fill op0 hop hno
  obtain ⟨sols, h1, _, hmem⟩ := tryEdgeArrangements_spec BuildFaceTable buildFaceTable_sound
    _ _ hA hB
  obtain ⟨t1, t2, t3, t4, t5, t6, _, _⟩ := cube_pairs_replicated
  refine ⟨⟨sols, h1, fun call hcall => ?_⟩, t3, t4, t5, t6, t1, t2⟩
  have hle : ADJACENT_FACES_TOUCHING ≤ GetColorConnectedness
      (recordedCube (FillCornerIndexes ep0 ep0.length) (FillCornerIndexes op0 op0.length)
        call) := by
    apply connectedness_of_perfect
    intro f hf
    obtain ⟨τ, O, c, _, a2, _, rfl, a5, a6⟩ := (hmem call).1 hcall
    rw [recordedCube_of]
    exact match_perfect BuildFaceTable buildFaceTable_sound (cubeInv_edgeCube _ O)
      (edgePermList_lt τ) a2 _ ((filledArray_corner hA hB (parityBit τ)).stored c a5) f hf
      (cornerMatch_of_edgeFaceIds BuildFaceTable _ _ c a6 f hf)
  exact ⟨hle, by omega⟩

theorem C12_witness :
    ((∀ c, c ∈ [storedEntryOf sampleCorners] → StoredEntry c) ∧
      (∀ c, c ∈ ([] : List CornerArrangement) → StoredEntry c)) ∧
    ∃ sols, TryEdgeArrangements BuildFaceTable
        (FillCornerIndexes [storedEntryOf sampleCorners] [storedEntryOf sampleCorners].length)
        (FillCornerIndexes [] ([] : List CornerArrangement).length) = some sols ∧
      ∀ call, call ∈ sols → ADJACENT_FACES_TOUCHING ≤ GetColorConnectedness (recordedCube
          (FillCornerIndexes [storedEntryOf sampleCorners] [storedEntryOf sampleCorners].length)
          (FillCornerIndexes [] ([] : List CornerArrangement).length) call) ∧
        ¬ GetColorConnectedness (recordedCube
          (FillCornerIndexes [storedEntryOf sampleCorners] [storedEntryOf sampleCorners].length)
          (FillCornerIndexes [] ([] : List CornerArrangement).length) call) <
            ADJACENT_FACES_TOUCHING :=
  ⟨⟨by decide!, by decide⟩, (C12_recorded_connectedness [storedEntryOf sampleCorners] []
    (by decide!) (by decide) (by decide) (by decide)).1⟩

/-! ## The order of `compareFaceIds` -/

theorem compareFrom_range (a b : List Nat) (count : Nat) : ∀ i,
    compareFrom a b i count = -1 ∨ compareFrom a b i count = 0 ∨ compareFrom a b i count = 1 := by
  induction count with
  | zero => intro i; right; left; rfl
  | succ count ih =>
    intro i
    unfold compareFrom
    split_ifs
    · left; rfl
    · right; right; rfl
    · exact ih (i + 1)

theorem compareFrom_swap (a b : List Nat) (count : Nat) : ∀ i,
    compareFrom b a i count = - compareFrom a b i count := by
  induction count with
  | zero => intro i; rfl
  | succ count ih =>
    intro i
    unfold compareFrom
    by_cases h1 : a.getD i 0 < b.getD i 0
    · have h2 : ¬ b.getD i 0 < a.getD i 0 := by omega
      have h3 : b.getD i 0 > a.getD i 0 := h1
      simp only [h1, h2, h3, if_true, if_false]
      try rfl
    · by_cases h2 : a.getD i 0 > b.getD i 0
      · have h3 : b.getD i 0 < a.getD i 0 := h2
        simp only [h1, h2, h3, if_true, if_false]
        try rfl
      · have h3 : ¬ b.getD i 0 < a.getD i 0 := by omega
        have h4 : ¬ b.getD i 0 > a.getD i 0 := by omega
        simp only [h1, h2, h3, h4, if_false]
        exact ih (i + 1)

theorem compareFrom_trans (a b c : List Nat) (count : Nat) : ∀ i,
    compareFrom a b i count ≤ 0 → compareFrom b c i count ≤ 0 → compareFrom a c i count ≤ 0 := by
  induction count with
  | zero => intro i _ _; exact le_refl _
  | succ count ih =>
    intro i h1 h2
    unfold compareFrom at h1 h2 ⊢
    by_cases ab : a.getD i 0 < b.getD i 0
    · by_cases bc : b.getD i 0 < c.getD i 0
      · have : a.getD i 0 < c.getD i 0 := by omega
        simp only [this, if_true]
        decide
      · by_cases bc2 : b.getD i 0 > c.getD i 0
        · simp only [bc, bc2, if_true, if_false] at h2
          omega
        · have : a.getD i 0 < c.getD i 0 := by omega
          simp only [this, if_true]
          decide
    · by_cases ab2 : a.getD i 0 > b.getD i 0
      · simp only [ab, ab2, if_true, if_false] at h1
        omega
      · simp only [ab, ab2, if_false] at h1
        have hab : a.getD i 0 = b.getD i 0 := by omega
        rw [hab]
        by_cases bc : b.getD i 0 < c.getD i 0
        · simp only [bc, if_true]
          decide
        · by_cases bc2 : b.getD i 0 > c.getD i 0
          · simp only [bc, bc2, if_true, if_false] at h2
            omega
          · simp only [bc, bc2, if_false] at h2 ⊢
            exact ih (i + 1) h1 h2

theorem compareFaceIds_trans (a b c : List Nat) (count : Nat)
    (h1 : compareFaceIds a b count ≤ 0) (h2 : compareFaceIds b c count ≤ 0) :
    compareFaceIds a c count ≤ 0 :=
  compareFrom_trans a b c count 0 h1 h2

theorem compareFaceIds_swap (a b : List Nat) (count : Nat) :
    compareFaceIds b a count = - compareFaceIds a b count :=
  compareFrom_swap a b count 0

theorem compareFaceIds_self (a : List Nat) (count : Nat) : compareFaceIds a a count = 0 :=
  (compareFaceIds_eq_zero a a count).2 (fun _ _ => rfl)

/-! ## `StoreCornerArrangement` -/

/-- The binary search ends within `upper - lower` iterations and returns a position between
an entry that is not above the new face ids and one that is not below them. -/
theorem insertSearch_spec (face_ids : List Nat) (arr : List CornerArrangement) :
    ∀ (fuel lower upper : Nat), upper < lower + fuel → (lower < upper ∨ (lower = 0 ∧ upper = 0)) →
    0 ≤ compareFaceIds face_ids (arr.getD lower zeroArrangement).faceIds CUBE_FACES →
    compareFaceIds face_ids (arr.getD upper zeroArrangement).faceIds CUBE_FACES ≤ 0 →
    ∃ k, insertSearch face_ids arr fuel lower upper = some k ∧ k ≤ upper ∧
      (k = 0 ∨ compareFaceIds (arr.getD (k - 1) zeroArrangement).faceIds face_ids CUBE_FACES ≤ 0) ∧
      compareFaceIds face_ids (arr.getD k zeroArrangement).faceIds CUBE_FACES ≤ 0 := by
  intro fuel
  induction fuel with
  | zero => intro lower upper h1 h2; omega
  | succ fuel ih =>
    intro lower upper hf hlu hlo hup
    unfold insertSearch
    by_cases hc : lower + 1 < upper
    · simp only [hc, if_true]
      have hm1 : lower < (upper + lower) / 2 := by omega
      have hm2 : (upper + lower) / 2 < upper := by omega
      by_cases hcmp : compareFaceIds face_ids
          (arr.getD ((upper + lower) / 2) zeroArrangement).faceIds CUBE_FACES < 0
      · simp only [hcmp, if_true]
        obtain ⟨k, h1, h2, h3, h4⟩ := ih lower ((upper + lower) / 2) (by omega) (Or.inl hm1) hlo
          (by omega)
        exact ⟨k, h1, by omega, h3, h4⟩
      · simp only [hcmp, if_false]
        exact ih ((upper + lower) / 2) upper (by omega) (Or.inl hm2) (by omega) hup
    · simp only [hc, if_false]
      refine ⟨upper, rfl, le_refl _, ?_, hup⟩
      rcases hlu with h | ⟨_, h⟩
      · right
        have : upper - 1 = lower := by omega
        rw [this, compareFaceIds_swap]
        omega
      · left; exact h

/-- The search of `StoreCornerArrangement` returns, whatever the array holds. -/
theorem insertSearch_total (face_ids : List Nat) (arr : List CornerArrangement) :
    ∀ (fuel lower upper : Nat), upper < lower + fuel → 0 < fuel →
    ∃ k, insertSearch face_ids arr fuel lower upper = some k ∧ k ≤ max lower upper := by
  intro fuel
  induction fuel with
  | zero =>
    intro lower upper _ h0
    omega
  | succ fuel ih =>
    intro lower upper hf _
    unfold insertSearch
    by_cases hc : lower + 1 < upper
    · simp only [hc, if_true]
      split_ifs
      · obtain ⟨k, h1, h2⟩ := ih lower ((upper + lower) / 2) (by omega) (by omega)
        exact ⟨k, h1, by omega⟩
      · obtain ⟨k, h1, h2⟩ := ih ((upper + lower) / 2) upper (by omega) (by omega)
        exact ⟨k, h1, by omega⟩
    · simp only [hc, if_false]
      exact ⟨upper, rfl, by omega⟩

theorem shiftEntries_length (arr : List CornerArrangement) (k n : Nat) :
    (shiftEntries arr k n).length = arr.length := by
  unfold shiftEntries
  generalize (List.range' k (n - k)).reverse = l
  induction l generalizing arr with
  | nil => rfl
  | cons a l ih => rw [List.foldl_cons, ih]; simp

theorem shiftEntries_getD (k : Nat) : ∀ (m : Nat) (arr : List CornerArrangement) (i : Nat),
    k + m < arr.length →
    (shiftEntries arr k (k + m)).getD i zeroArrangement =
      if k < i ∧ i ≤ k + m then arr.getD (i - 1) zeroArrangement
      else arr.getD i zeroArrangement := by
  intro m
  induction m with
  | zero =>
    intro arr i _
    have : ¬ (k < i ∧ i ≤ k + 0) := by omega
    rw [if_neg this]
    unfold shiftEntries
    simp
  | succ m ih =>
    intro arr i hlen
    have e : shiftEntries arr k (k + (m + 1)) =
        shiftEntries (arr.set (k + m + 1) (arr.getD (k + m) zeroArrangement)) k (k + m) := by
      unfold shiftEntries
      rw [show k + (m + 1) - k = m + 1 by omega, show k + m - k = m by omega,
        List.range'_concat, List.reverse_append, List.reverse_singleton, List.singleton_append,
        List.foldl_cons]
      simp
    rw [e, ih _ i (by rw [List.length_set]; omega), getD_set_arr, getD_set_arr]
    by_cases h1 : k < i ∧ i ≤ k + m
    · rw [if_pos h1, if_neg (by omega), if_pos ⟨h1.1, by omega⟩]
    · rw [if_neg h1]
      by_cases h2 : i = k + m + 1
      · rw [if_pos ⟨h2, by omega⟩, if_pos ⟨by omega, by omega⟩]
        congr 1
        omega
      · rw [if_neg (fun h => h2 h.1), if_neg (by omega)]

theorem insertPosition_spec (face_ids : List Nat) (arr : List CornerArrangement) (n : Nat) :
    ∃ k, insertPosition face_ids arr n = some k ∧ k ≤ n ∧
      (k = 0 ∨ compareFaceIds (arr.getD (k - 1) zeroArrangement).faceIds face_ids CUBE_FACES ≤ 0) ∧
      (k < n → compareFaceIds face_ids (arr.getD k zeroArrangement).faceIds CUBE_FACES ≤ 0) := by
  unfold insertPosition
  by_cases h0 : n = 0
  · simp only [h0, if_true]
    exact ⟨0, rfl, le_refl _, Or.inl rfl, fun h => absurd h (by omega)⟩
  · simp only [h0, if_false]
    by_cases h1 : compareFaceIds face_ids (arr.getD 0 zeroArrangement).faceIds CUBE_FACES < 0
    · simp only [h1, if_true]
      exact ⟨0, rfl, by omega, Or.inl rfl, fun _ => by omega⟩
    · simp only [h1, if_false]
      by_cases h2 : compareFaceIds face_ids (arr.getD (n - 1) zeroArrangement).faceIds
          CUBE_FACES > 0
      · simp only [h2, if_true]
        refine ⟨n - 1 + 1, rfl, by omega, Or.inr ?_, fun h => absurd h (by omega)⟩
        rw [show n - 1 + 1 - 1 = n - 1 by omega, compareFaceIds_swap]
        omega
      · simp only [h2, if_false]
        obtain ⟨k, e1, e2, e3, e4⟩ := insertSearch_spec face_ids arr (n + 1) 0 (n - 1) (by omega)
          (by omega) (by omega) (by omega)
        exact ⟨k, e1, by omega, e3, fun _ => e4⟩

/-- The effect of `StoreCornerArrangement` on an array with room: the entries before the
position `k` stay, the new entry is written at `k`, the `n - k` entries from `k` on move up by
one, and the rest of the array stays. -/
theorem storeCornerArrangement_spec (cube : List Nat) (arr : List CornerArrangement) (n : Nat)
    (hroom : n < arr.length) :
    ∃ k arr', StoreCornerArrangement cube arr n = some arr' ∧ k ≤ n ∧
      arr'.length = arr.length ∧
      (∀ i, arr'.getD i zeroArrangement =
        if i = k then
          ⟨cube, (List.range CUBE_FACES).map (cornerFaceId cube),
            (arr.getD k zeroArrangement).nextIndex⟩
        else if k < i ∧ i ≤ n then arr.getD (i - 1) zeroArrangement
        else arr.getD i zeroArrangement) ∧
      (SortedPrefix arr n → SortedPrefix arr' (n + 1)) := by
  obtain ⟨k, hk, hkn, hleft, hright⟩ :=
    insertPosition_spec ((List.range CUBE_FACES).map (cornerFaceId cube)) arr n
  have hshift := shiftEntries_getD k (n - k) arr
  rw [show k + (n - k) = n by omega] at hshift
  have hget : ∀ i, ((shiftEntries arr k n).set k
      { (shiftEntries arr k n).getD k zeroArrangement with
        arrangement := cube, faceIds := (List.range CUBE_FACES).map (cornerFaceId cube) }).getD i
        zeroArrangement =
      if i = k then
        ⟨cube, (List.range CUBE_FACES).map (cornerFaceId cube),
          (arr.getD k zeroArrangement).nextIndex⟩
      else if k < i ∧ i ≤ n then arr.getD (i - 1) zeroArrangement
      else arr.getD i zeroArrangement := by
    intro i
    rw [getD_set_arr, shiftEntries_length, hshift k hroom, hshift i hroom]
    by_cases hik : i = k
    · rw [if_pos ⟨hik, by omega⟩, if_pos hik, if_neg (by omega)]
    · rw [if_neg (fun h => hik h.1), if_neg hik]
  refine ⟨k, _, ?_, hkn, ?_, hget, ?_⟩
  · unfold StoreCornerArrangement
    rw [if_neg (by omega)]
    simp only [hk]
  · simp [shiftEntries_length]
  · intro hs i j hij hj
    rw [hget i, hget j]
    have fnew : ∀ x : List Nat, (⟨cube, (List.range CUBE_FACES).map (cornerFaceId cube), x⟩ :
        CornerArrangement).faceIds = (List.range CUBE_FACES).map (cornerFaceId cube) :=
      fun _ => rfl
    by_cases hi : i = k
    · rw [if_pos hi]
      by_cases hj2 : j = k
      · rw [if_pos hj2]
        exact le_of_eq (compareFaceIds_self _ _)
      · rw [if_neg hj2, if_pos ⟨by omega, by omega⟩, fnew]
        exact compareFaceIds_trans _ _ _ _ (hright (by omega)) (hs k (j - 1) (by omega) (by omega))
    · rw [if_neg hi]
      by_cases hik : k < i
      · rw [if_pos ⟨hik, by omega⟩, if_neg (by omega), if_pos ⟨by omega, by omega⟩]
        exact hs (i - 1) (j - 1) (by omega) (by omega)
      · rw [if_neg (fun h => hik h.1)]
        have hk0 : k ≠ 0 := by omega
        have hl := hleft.resolve_left hk0
        by_cases hj2 : j = k
        · rw [if_pos hj2, fnew]
          exact compareFaceIds_trans _ _ _ _ (hs i (k - 1) (by omega) (by omega)) hl
        · rw [if_neg hj2]
          by_cases hjk : k < j
          · rw [if_pos ⟨hjk, by omega⟩]
            exact hs i (j - 1) (by omega) (by omega)
          · rw [if_neg (fun h => hjk h.1)]
            exact hs i j hij (by omega)

/-! ## The tables of the corner enumeration -/

theorem corner_cell_facts : ∀ k, k < 8 → ∀ j, j < 3 →
    cornerSlotOf (tab2 corners k j) = 3 * k + j ∧ tab2 corners k j < 54 ∧
      tab2 corners k j % 9 % 2 = 0 ∧ tab2 corners k j % 9 ≠ 4 := by
  decide!

theorem corner_cell_inj (k j k' j' : Nat) (hk : k < 8) (hj : j < 3) (hk' : k' < 8) (hj' : j' < 3)
    (h : tab2 corners k j = tab2 corners k' j') : k = k' ∧ j = j' := by
  have h1 := (corner_cell_facts k hk j hj).1
  have h2 := (corner_cell_facts k' hk' j' hj').1
  rw [h] at h1
  omega

theorem corner_cell_surj : ∀ x, x < 54 → x % 9 % 2 = 0 → x % 9 ≠ 4 →
    ∃ k, k < 8 ∧ ∃ j, j < 3 ∧ tab2 corners k j = x := by
  decide!

/-- The checks made after the slot `n` is filled read surfaces of the slots up to `n` only. -/
theorem corner_check_cells : ∀ n, n < 8 → ∀ i, corner_count_checks_start.getD n 0 ≤ i →
    i < corner_count_checks_end.getD n 0 + 1 → i < 24 ∧ ∀ d, d < 3 →
      ∃ k, k < n + 1 ∧ ∃ j, j < 3 ∧ tab2 corners k j = tab2 corner_count_checks i d := by
  intro n hn
  interval_cases n <;> decide!

/-- Every check belongs to the window of exactly one slot. -/
theorem corner_check_window : ∀ i, i < 24 → ∃ n, n < 8 ∧
    corner_count_checks_start.getD n 0 ≤ i ∧ i < corner_count_checks_end.getD n 0 + 1 := by
  decide!

/-! ## Placing a corner cubie -/

theorem placeCorner_length (cube : List Nat) (e p o : Nat) :
    (placeCorner cube e p o).length = cube.length := by
  simp [placeCorner]

theorem placeCorner_getD (cube : List Nat) (e p o x : Nat) (hl : cube.length = 54) (he : e < 8) :
    (placeCorner cube e p o).getD x 0 =
      if x = tab2 corners e 2 then tab2 corners p ((2 + o) % 3)
      else if x = tab2 corners e 1 then tab2 corners p ((1 + o) % 3)
      else if x = tab2 corners e 0 then tab2 corners p ((0 + o) % 3) else cube.getD x 0 := by
  have h0 := (corner_cell_facts e he 0 (by decide)).2.1
  have h1 := (corner_cell_facts e he 1 (by decide)).2.1
  have h2 := (corner_cell_facts e he 2 (by decide)).2.1
  unfold placeCorner
  rw [getD_set_nat, getD_set_nat, getD_set_nat, List.length_set, List.length_set, hl]
  by_cases hx2 : x = tab2 corners e 2
  · rw [if_pos ⟨hx2, h2⟩, if_pos hx2]
  · rw [if_neg (fun h => hx2 h.1), if_neg hx2]
    by_cases hx1 : x = tab2 corners e 1
    · rw [if_pos ⟨hx1, h1⟩, if_pos hx1]
    · rw [if_neg (fun h => hx1 h.1), if_neg hx1]
      by_cases hx0 : x = tab2 corners e 0
      · rw [if_pos ⟨hx0, h0⟩, if_pos hx0]
      · rw [if_neg (fun h => hx0 h.1), if_neg hx0]

theorem placeCorner_getD_same (cube : List Nat) (e p o j : Nat) (hl : cube.length = 54)
    (he : e < 8) (hj : j < 3) :
    (placeCorner cube e p o).getD (tab2 corners e j) 0 = tab2 corners p ((j + o) % 3) := by
  rw [placeCorner_getD cube e p o _ hl he]
  have i02 := corner_cell_inj e 0 e 2 he (by decide) he (by decide)
  have i12 := corner_cell_inj e 1 e 2 he (by decide) he (by decide)
  have i01 := corner_cell_inj e 0 e 1 he (by decide) he (by decide)
  interval_cases j
  · rw [if_neg (fun h => by have := i02 h; omega), if_neg (fun h => by have := i01 h; omega),
      if_pos rfl]
  · rw [if_neg (fun h => by have := i12 h; omega), if_pos rfl]
  · rw [if_pos rfl]

theorem placeCorner_getD_slot (cube : List Nat) (e p o k j : Nat) (hl : cube.length = 54)
    (he : e < 8) (hk : k < 8) (hj : j < 3) (hne : k ≠ e) :
    (placeCorner cube e p o).getD (tab2 corners k j) 0 = cube.getD (tab2 corners k j) 0 := by
  rw [placeCorner_getD cube e p o _ hl he]
  rw [if_neg (fun h => hne (corner_cell_inj k j e 2 hk hj he (by decide) h).1),
    if_neg (fun h => hne (corner_cell_inj k j e 1 hk hj he (by decide) h).1),
    if_neg (fun h => hne (corner_cell_inj k j e 0 hk hj he (by decide) h).1)]

theorem placeCorner_getD_other (cube : List Nat) (e p o x : Nat) (hl : cube.length = 54)
    (he : e < 8) (hx : x % 9 % 2 = 1 ∨ x % 9 = 4) :
    (placeCorner cube e p o).getD x 0 = cube.getD x 0 := by
  rw [placeCorner_getD cube e p o _ hl he]
  have h0 := corner_cell_facts e he 0 (by decide)
  have h1 := corner_cell_facts e he 1 (by decide)
  have h2 := corner_cell_facts e he 2 (by decide)
  rw [if_neg (fun h => by rw [h] at hx; omega), if_neg (fun h => by rw [h] at hx; omega),
    if_neg (fun h => by rw [h] at hx; omega)]

/-! ## The invariant of the corner cube -/

theorem cornerCubeInv_congr {e : Nat} {P T P' T' cube : List Nat} (h : CornerCubeInv e P T cube)
    (hP : ∀ k, k < e → P'.getD k 0 = P.getD k 0) (hT : ∀ k, k < e → T'.getD k 0 = T.getD k 0) :
    CornerCubeInv e P' T' cube := by
  refine ⟨h.1, h.2.1, fun k hk j hj => ?_⟩
  rw [hP k hk, hT k hk]
  exact h.2.2 k hk j hj

theorem cornerCubeInv_mono {e e' : Nat} {P T cube : List Nat} (h : CornerCubeInv e P T cube)
    (he : e' ≤ e) : CornerCubeInv e' P T cube :=
  ⟨h.1, h.2.1, fun k hk => h.2.2 k (by omega)⟩

theorem cornerCubeInv_place {e : Nat} {P T cube : List Nat} (h : CornerCubeInv e P T cube)
    (he : e < 8) (P' T' : List Nat) (hP : ∀ k, k < e → P'.getD k 0 = P.getD k 0)
    (hT : ∀ k, k < e → T'.getD k 0 = T.getD k 0) :
    CornerCubeInv (e + 1) P' T' (placeCorner cube e (P'.getD e 0) (T'.getD e 0)) := by
  refine ⟨by rw [placeCorner_length]; exact h.1, fun x hx hx2 => ?_, fun k hk j hj => ?_⟩
  · rw [placeCorner_getD_other _ _ _ _ _ h.1 he hx2]
    exact h.2.1 x hx hx2
  · by_cases hke : k = e
    · subst hke
      exact placeCorner_getD_same _ _ _ _ _ h.1 he hj
    · have hk' : k < e := by omega
      rw [placeCorner_getD_slot _ _ _ _ _ _ h.1 he (by omega) hj hke, hP k hk', hT k hk']
      exact h.2.2 k hk' j hj

theorem cornerCubeInv_place_below {e : Nat} {P T cube : List Nat} (h : CornerCubeInv e P T cube)
    (he : e < 8) (p o : Nat) : CornerCubeInv e P T (placeCorner cube e p o) := by
  refine ⟨by rw [placeCorner_length]; exact h.1, fun x hx hx2 => ?_, fun k hk j hj => ?_⟩
  · rw [placeCorner_getD_other _ _ _ _ _ h.1 he hx2]
    exact h.2.1 x hx hx2
  · rw [placeCorner_getD_slot _ _ _ _ _ _ h.1 he (by omega) hj (by omega)]
    exact h.2.2 k hk j hj

theorem cornerCubeInv_initial (P T : List Nat) : CornerCubeInv 0 P T initialCornerCube :=
  ⟨rfl, fun _ _ _ => rfl, fun k hk => by omega⟩

theorem cornerCubeInv_fold (P T : List Nat) (n : Nat) (hn : n ≤ 8) :
    CornerCubeInv n P T ((List.range n).foldl
      (fun c k => placeCorner c k (P.getD k 0) (T.getD k 0)) initialCornerCube) := by
  induction n with
  | zero => exact cornerCubeInv_initial P T
  | succ n ih =>
    rw [List.range_succ, List.foldl_append]
    exact cornerCubeInv_place (ih (by omega)) (by omega) P T (fun _ _ => rfl) (fun _ _ => rfl)

theorem cornerCubeInv_cornerCube (P T : List Nat) : CornerCubeInv 8 P T (cornerCube P T) :=
  cornerCubeInv_fold P T 8 (le_refl _)

theorem cornerCubeInv_agree {e : Nat} {P T c1 c2 : List Nat} (h1 : CornerCubeInv e P T c1)
    (h2 : CornerCubeInv e P T c2) (k j : Nat) (hk : k < e) (hj : j < 3) :
    c1.getD (tab2 corners k j) 0 = c2.getD (tab2 corners k j) 0 := by
  rw [h1.2.2 k hk j hj, h2.2.2 k hk j hj]

theorem cornerCubeInv_unique {P T c1 c2 : List Nat} (h1 : CornerCubeInv 8 P T c1)
    (h2 : CornerCubeInv 8 P T c2) : c1 = c2 := by
  apply list_ext_getD _ _ (by rw [h1.1, h2.1])
  intro x hx
  rw [h1.1] at hx
  by_cases hc : x % 9 % 2 = 1 ∨ x % 9 = 4
  · rw [h1.2.1 x hx hc, h2.2.1 x hx hc]
  · obtain ⟨k, hk, j, hj, rfl⟩ := corner_cell_surj x hx (by omega) (by omega)
    exact cornerCubeInv_agree h1 h2 k j hk hj

theorem any_congr_mem {α : Type} (l : List α) (f g : α → Bool) (h : ∀ a, a ∈ l → f a = g a) :
    l.any f = l.any g := by
  induction l with
  | nil => rfl
  | cons a l ih =>
    rw [List.any_cons, List.any_cons, h a (List.mem_cons_self _ _),
      ih (fun b hb => h b (List.mem_cons_of_mem _ hb))]

/-- The checks of a slot give the same result on two cubes that agree on the slots up to it. -/
theorem cornerLocal_agree {e : Nat} {P T c1 c2 : List Nat} (h1 : CornerCubeInv (e + 1) P T c1)
    (h2 : CornerCubeInv (e + 1) P T c2) (he : e < 8) :
    cornerTouchesCenter c1 e = cornerTouchesCenter c2 e ∧
      cornerThreeSame c1 e = cornerThreeSame c2 e := by
  have hag := fun k j hk hj => cornerCubeInv_agree h1 h2 k j hk hj
  constructor
  · unfold cornerTouchesCenter
    rw [hag e 0 (by omega) (by decide), hag e 1 (by omega) (by decide),
      hag e 2 (by omega) (by decide)]
  · unfold cornerThreeSame
    apply any_congr_mem
    intro i hi
    rw [List.mem_range'_1] at hi
    obtain ⟨_, hcells⟩ := corner_check_cells e he i hi.1 (by omega)
    unfold threeSameColor
    obtain ⟨k0, hk0, j0, hj0, e0⟩ := hcells 0 (by decide)
    obtain ⟨k1, hk1, j1, hj1, e1⟩ := hcells 1 (by decide)
    obtain ⟨k2, hk2, j2, hj2, e2⟩ := hcells 2 (by decide)
    rw [← e0, ← e1, ← e2, hag k0 j0 hk0 hj0, hag k1 j1 hk1 hj1, hag k2 j2 hk2 hj2]

theorem cornerCountPassed_eq (cube : List Nat) (n : Nat) :
    cornerCountPassed cube n = !cornerThreeSame cube n := by
  unfold cornerCountPassed cornerThreeSame
  generalize List.range' (corner_count_checks_start.getD n 0)
    (corner_count_checks_end.getD n 0 + 1 - corner_count_checks_start.getD n 0) = l
  have key : ∀ (l : List Nat) (b : Bool), l.foldl (fun passed i => passed &&
      ((ColorOf (cube.getD (tab2 corner_count_checks i 0) 0) !=
          ColorOf (cube.getD (tab2 corner_count_checks i 1) 0)) ||
        (ColorOf (cube.getD (tab2 corner_count_checks i 0) 0) !=
          ColorOf (cube.getD (tab2 corner_count_checks i 2) 0)))) b =
      (b && !l.any (threeSameColor cube)) := by
    intro l
    induction l with
    | nil => intro b; simp
    | cons a l ih =>
      intro b
      rw [List.foldl_cons, ih, List.any_cons]
      unfold threeSameColor
      cases b <;> simp [bne, Bool.not_and]
  rw [key l true, Bool.true_and]

/-! ## The array `pieces` of the corner enumeration -/

theorem cornerPermList_length (σ : Equiv.Perm (Fin 8)) : (cornerPermList σ).length = 8 := by
  simp [cornerPermList]

theorem cornerPermList_getD (σ : Equiv.Perm (Fin 8)) (k : Nat) (h : k < 8) :
    (cornerPermList σ).getD k 0 = (σ ⟨k, h⟩).val :=
  ofFn_perm_getD σ k h

theorem cornerPermList_lt (σ : Equiv.Perm (Fin 8)) (k : Nat) (h : k < 8) :
    (cornerPermList σ).getD k 0 < 8 := by
  rw [cornerPermList_getD σ k h]
  exact (σ ⟨k, h⟩).isLt

theorem cornerPermList_one : cornerPermList 1 = [0, 1, 2, 3, 4, 5, 6, 7] := by
  simp [cornerPermList, List.ofFn_succ]

theorem swapAt_cornerPermList (σ : Equiv.Perm (Fin 8)) (k c : Fin 8) :
    swapAt (cornerPermList σ) k.val c.val = cornerPermList (σ * Equiv.swap k c) :=
  swapAt_ofFn_perm σ k c

theorem corner_exists_pos (σ τ : Equiv.Perm (Fin 8)) (e : Nat) (he : e < 8)
    (h : ∀ k : Fin 8, k.val < e → τ k = σ k) :
    ∃ pos : Fin 8, e ≤ pos.val ∧ τ ⟨e, he⟩ = σ pos := by
  refine ⟨σ.symm (τ ⟨e, he⟩), ?_, by simp⟩
  by_contra hlt
  have h1 := h (σ.symm (τ ⟨e, he⟩)) (by omega)
  rw [Equiv.apply_symm_apply] at h1
  have h2 := τ.injective h1
  have := congrArg Fin.val h2
  simp at this
  omega

theorem corner_mul_swap_agree (σ : Equiv.Perm (Fin 8)) (e : Nat) (he : e < 8) (pos : Fin 8)
    (hpos : e ≤ pos.val) (k : Fin 8) (hk : k.val < e) :
    (σ * Equiv.swap ⟨e, he⟩ pos) k = σ k := by
  rw [Equiv.Perm.mul_apply, Equiv.swap_apply_of_ne_of_ne]
  · intro hc; rw [hc] at hk; simp at hk
  · intro hc; rw [hc] at hk; omega

theorem corner_agree_mul_swap (σ τ : Equiv.Perm (Fin 8)) (e : Nat) (he : e < 8) (pos : Fin 8)
    (hpos : e ≤ pos.val) :
    (∀ k : Fin 8, k.val < e + 1 → τ k = (σ * Equiv.swap ⟨e, he⟩ pos) k) ↔
      ((∀ k : Fin 8, k.val < e → τ k = σ k) ∧ τ ⟨e, he⟩ = σ pos) := by
  have hfix := corner_mul_swap_agree σ e he pos hpos
  have hat : (σ * Equiv.swap ⟨e, he⟩ pos) ⟨e, he⟩ = σ pos := by
    rw [Equiv.Perm.mul_apply, Equiv.swap_apply_left]
  constructor
  · intro h
    refine ⟨fun k hk => ?_, ?_⟩
    · rw [h k (by omega), hfix k hk]
    · rw [h ⟨e, he⟩ (by simp), hat]
  · rintro ⟨h1, h2⟩ k hk
    by_cases hke : k.val = e
    · have : k = ⟨e, he⟩ := Fin.ext hke
      rw [this, h2, hat]
    · rw [hfix k (by omega), h1 k (by omega)]

/-! ## Continuations of a partial corner placement -/

theorem cornerCompletes_succ (e : Nat) (he : e < 8) (σ : Equiv.Perm (Fin 8)) (T : List Nat)
    (hT : T.length = e) (π : Equiv.Perm (Fin 8)) (T' : List Nat) (pos : Fin 8)
    (hpos : e ≤ pos.val) (ori : Nat) :
    CornerCompletes (e + 1) (σ * Equiv.swap ⟨e, he⟩ pos) (T ++ [ori]) π T' ↔
      (CornerCompletes e σ T π T' ∧ π ⟨e, he⟩ = σ pos ∧ T'.getD e 0 = ori) := by
  unfold CornerCompletes
  rw [corner_agree_mul_swap σ π e he pos hpos]
  constructor
  · rintro ⟨⟨h1, h2⟩, h3, h4, h5, h6⟩
    refine ⟨⟨h1, h3, h4, fun k hk => ?_, h6⟩, h2, ?_⟩
    · rw [h5 k (by omega), getD_append_left _ _ _ (by omega)]
    · rw [h5 e (by omega), ← hT, getD_append_last]
  · rintro ⟨⟨h1, h3, h4, h5, h6⟩, h2, h7⟩
    refine ⟨⟨h1, h2⟩, h3, h4, fun k hk => ?_, h6⟩
    by_cases hke : k = e
    · rw [hke, h7, ← hT, getD_append_last]
    · rw [h5 k (by omega), getD_append_left _ _ _ (by omega)]

/-- A placement that continues `(σ, T)` at the slot `e` continues exactly one of the choices
`(pos, ori)` that the loops of `PlaceCornerPiece` make for the slot. -/
theorem cornerCompletes_iff_exists (e : Nat) (he : e < 8) (σ : Equiv.Perm (Fin 8)) (T : List Nat)
    (hT : T.length = e) (π : Equiv.Perm (Fin 8)) (T' : List Nat) :
    CornerCompletes e σ T π T' ↔ ∃ pos : Fin 8, e ≤ pos.val ∧ ∃ ori, ori < 3 ∧
      CornerCompletes (e + 1) (σ * Equiv.swap ⟨e, he⟩ pos) (T ++ [ori]) π T' := by
  constructor
  · intro h
    obtain ⟨pos, hpos, hτ⟩ := corner_exists_pos σ π e he h.1
    exact ⟨pos, hpos, T'.getD e 0, h.2.2.1 e he,
      (cornerCompletes_succ e he σ T hT π T' pos hpos _).2 ⟨h, hτ, rfl⟩⟩
  · rintro ⟨pos, hpos, ori, _, h⟩
    exact ((cornerCompletes_succ e he σ T hT π T' pos hpos ori).1 h).1

theorem cornerCompletes_eight (σ : Equiv.Perm (Fin 8)) (T : List Nat) (hT : T.length = 8)
    (π : Equiv.Perm (Fin 8)) (T' : List Nat) (h : CornerCompletes 8 σ T π T') :
    π = σ ∧ T' = T := by
  obtain ⟨h1, h2, _, h4, _⟩ := h
  refine ⟨Equiv.ext (fun k => h1 k k.isLt), ?_⟩
  apply list_ext_getD _ _ (by rw [h2, hT])
  intro k hk
  exact h4 k (by omega)

theorem cornerCubeInv_of_completes {e : Nat} {σ π : Equiv.Perm (Fin 8)} {T T' : List Nat}
    (h : CornerCompletes e σ T π T') (he : e ≤ 8) :
    CornerCubeInv e (cornerPermList σ) T (cornerCube (cornerPermList π) T') := by
  refine cornerCubeInv_congr (cornerCubeInv_mono (cornerCubeInv_cornerCube _ _) he)
    (fun k hk => ?_) (fun k hk => (h.2.2.2.1 k hk).symm)
  rw [cornerPermList_getD σ k (by omega), cornerPermList_getD π k (by omega),
    h.1 ⟨k, by omega⟩ hk]

theorem corner_piece_inj : ∀ p, p < 8 → ∀ o, o < 3 → ∀ p', p' < 8 → ∀ o', o' < 3 →
    tab2 corners p o = tab2 corners p' o' → p = p' ∧ o = o' :=
  fun p hp o ho p' hp' o' ho' h => corner_cell_inj p o p' o' hp ho hp' ho' h

theorem cornerCube_inj {P T P2 T2 : List Nat} (hP : ∀ k, k < 8 → P.getD k 0 < 8)
    (hT : ∀ k, k < 8 → T.getD k 0 < 3) (hP2 : ∀ k, k < 8 → P2.getD k 0 < 8)
    (hT2 : ∀ k, k < 8 → T2.getD k 0 < 3) (h : cornerCube P T = cornerCube P2 T2) (k : Nat)
    (hk : k < 8) : P.getD k 0 = P2.getD k 0 ∧ T.getD k 0 = T2.getD k 0 := by
  have h1 := (cornerCubeInv_cornerCube P T).2.2 k hk 0 (by decide)
  have h2 := (cornerCubeInv_cornerCube P2 T2).2.2 k hk 0 (by decide)
  rw [h, h2] at h1
  have := corner_cell_inj _ _ _ _ (hP2 k hk) (Nat.mod_lt _ (by decide)) (hP k hk)
    (Nat.mod_lt _ (by decide)) h1
  have a := hT k hk
  have b := hT2 k hk
  refine ⟨this.1.symm, ?_⟩
  have := this.2
  omega

/-- Two corner placements with the same cube are the same placement. -/
theorem cornerPlacement_inj {π π2 : Equiv.Perm (Fin 8)} {T T2 : List Nat}
    (hl : T.length = 8) (hl2 : T2.length = 8) (hT : ∀ k, k < 8 → T.getD k 0 < 3)
    (hT2 : ∀ k, k < 8 → T2.getD k 0 < 3)
    (h : cornerCube (cornerPermList π) T = cornerCube (cornerPermList π2) T2) :
    π = π2 ∧ T = T2 := by
  have key := cornerCube_inj (cornerPermList_lt π) hT (cornerPermList_lt π2) hT2 h
  refine ⟨?_, ?_⟩
  · apply Equiv.ext
    intro k
    have := (key k.val k.isLt).1
    rw [cornerPermList_getD π k.val k.isLt, cornerPermList_getD π2 k.val k.isLt] at this
    exact Fin.ext this
  · apply list_ext_getD _ _ (by rw [hl, hl2])
    intro k hk
    exact (key k (by omega)).2

/-! ## The stores to be made -/

theorem storedFrom_succ (e : Nat) (he : e < 8) (σ : Equiv.Perm (Fin 8)) (T : List Nat)
    (hT : T.length = e) (x : List Nat × Nat) :
    StoredFrom e e σ T x ↔ ∃ pos : Fin 8, e ≤ pos.val ∧ ∃ ori, ori < 3 ∧
      StoredFrom e (e + 1) (σ * Equiv.swap ⟨e, he⟩ pos) (T ++ [ori]) x := by
  constructor
  · rintro ⟨π, T', h1, h2, h3⟩
    obtain ⟨pos, hpos, ori, hori, h⟩ := (cornerCompletes_iff_exists e he σ T hT π T').1 h1
    exact ⟨pos, hpos, ori, hori, π, T', h, h2, h3⟩
  · rintro ⟨pos, hpos, ori, hori, π, T', h1, h2, h3⟩
    exact ⟨π, T', (cornerCompletes_iff_exists e he σ T hT π T').2 ⟨pos, hpos, ori, hori, h1⟩,
      h2, h3⟩

/-- A failed check of the slot `e` rules out every continuation. -/
theorem storedFrom_fail (e : Nat) (he : e < 8) (σ : Equiv.Perm (Fin 8)) (T : List Nat)
    (cube : List Nat) (hcube : CornerCubeInv (e + 1) (cornerPermList σ) T cube)
    (hfail : cornerTouchesCenter cube e = true ∨ cornerThreeSame cube e = true)
    (x : List Nat × Nat) : ¬ StoredFrom e (e + 1) σ T x := by
  rintro ⟨π, T', hc, _, hok⟩
  have hag := cornerLocal_agree hcube (cornerCubeInv_of_completes hc (by omega)) he
  have := hok e (le_refl _) he
  unfold cornerLocalOK at this
  rw [← hag.1, ← hag.2] at this
  rcases hfail with h | h
  · rw [h] at this; exact absurd this.1 (by decide)
  · rw [h] at this; exact absurd this.2 (by decide)

/-- The checks of the slot `e` that passed on the partial cube pass on every continuation. -/
theorem storedFrom_pass (e : Nat) (he : e < 8) (σ : Equiv.Perm (Fin 8)) (T : List Nat)
    (cube : List Nat) (hcube : CornerCubeInv (e + 1) (cornerPermList σ) T cube)
    (h1 : cornerTouchesCenter cube e = false) (h2 : cornerThreeSame cube e = false)
    (x : List Nat × Nat) : StoredFrom e (e + 1) σ T x ↔ StoredFrom (e + 1) (e + 1) σ T x := by
  constructor
  · rintro ⟨π, T', hc, hx, hok⟩
    exact ⟨π, T', hc, hx, fun k hk hk8 => hok k (by omega) hk8⟩
  · rintro ⟨π, T', hc, hx, hok⟩
    refine ⟨π, T', hc, hx, fun k hk hk8 => ?_⟩
    by_cases hke : k = e
    · subst hke
      have hag := cornerLocal_agree hcube (cornerCubeInv_of_completes hc (by omega)) he
      unfold cornerLocalOK
      rw [← hag.1, ← hag.2]
      exact ⟨h1, h2⟩
    · exact hok k (by omega) hk8

theorem storedFrom_disjoint_ori (m e : Nat) (σ : Equiv.Perm (Fin 8)) (T : List Nat)
    (hT : T.length = e) (o1 o2 : Nat) (hne : o1 ≠ o2) (x : List Nat × Nat)
    (h0 : StoredFrom m (e + 1) σ (T ++ [o1]) x) (h1 : StoredFrom m (e + 1) σ (T ++ [o2]) x) :
    False := by
  obtain ⟨π, T', hc, hx, _⟩ := h0
  obtain ⟨π2, T2, hc2, hx2, _⟩ := h1
  rw [hx] at hx2
  have hcube := (Prod.mk.injEq _ _ _ _ ▸ hx2).1
  obtain ⟨_, hTT⟩ := cornerPlacement_inj hc.2.1 hc2.2.1 hc.2.2.1 hc2.2.2.1 hcube
  have a := hc.2.2.2.1 e (by omega)
  have b := hc2.2.2.2.1 e (by omega)
  rw [← hT, getD_append_last] at a b
  rw [hTT] at a
  omega

theorem storedFrom_disjoint_pos (m e : Nat) (he : e < 8) (σ : Equiv.Perm (Fin 8)) (p p' : Fin 8)
    (hp : e ≤ p.val) (hp' : e ≤ p'.val) (hne : p ≠ p') (T1 T2 : List Nat) (x : List Nat × Nat)
    (h0 : StoredFrom m (e + 1) (σ * Equiv.swap ⟨e, he⟩ p) T1 x)
    (h1 : StoredFrom m (e + 1) (σ * Equiv.swap ⟨e, he⟩ p') T2 x) : False := by
  obtain ⟨π, T', hc, hx, _⟩ := h0
  obtain ⟨π2, T2', hc2, hx2, _⟩ := h1
  rw [hx] at hx2
  have hcube := (Prod.mk.injEq _ _ _ _ ▸ hx2).1
  obtain ⟨hπ, _⟩ := cornerPlacement_inj hc.2.1 hc2.2.1 hc.2.2.1 hc2.2.2.1 hcube
  have a := ((corner_agree_mul_swap σ π e he p hp).1 hc.1).2
  have b := ((corner_agree_mul_swap σ π2 e he p' hp').1 hc2.1).2
  rw [hπ, b] at a
  exact hne (σ.injective a).symm

/-- For the last slot the only continuation is the cubie left over, with the orientation that
makes the sum of the orientations a multiple of three. -/
theorem storedFrom_seven (σ : Equiv.Perm (Fin 8)) (T : List Nat) (hT : T.length = 7)
    (hb : ∀ k, k < 7 → T.getD k 0 < 3) (x : List Nat × Nat) :
    StoredFrom 7 7 σ T x ↔
      (x = (cornerCube (cornerPermList σ) (T ++ [(3 - T.sum % 3) % 3]), parityBit σ) ∧
        cornerLocalOK (cornerCube (cornerPermList σ) (T ++ [(3 - T.sum % 3) % 3])) 7) := by
  have hcomp : ∀ π T', CornerCompletes 7 σ T π T' ↔
      (π = σ ∧ T' = T ++ [(3 - T.sum % 3) % 3]) := by
    intro π T'
    rw [cornerCompletes_iff_exists 7 (by decide) σ T hT π T']
    constructor
    · rintro ⟨pos, hpos, ori, hori, h⟩
      have hp : pos = ⟨7, by decide⟩ := Fin.ext (show pos.val = 7 by have := pos.isLt; omega)
      rw [hp, Equiv.swap_self] at h
      obtain ⟨h1, h2⟩ := cornerCompletes_eight σ (T ++ [ori]) (by simp [hT]) π T' h
      refine ⟨h1, ?_⟩
      have hs := h.2.2.2.2
      rw [h2, sum_append_bit] at hs
      have : ori = (3 - T.sum % 3) % 3 := by omega
      rw [h2, this]
    · rintro ⟨rfl, rfl⟩
      refine ⟨⟨7, by decide⟩, le_refl _, (3 - T.sum % 3) % 3, Nat.mod_lt _ (by decide), ?_⟩
      rw [Equiv.swap_self]
      refine ⟨fun _ _ => rfl, by simp [hT], fun k hk => ?_, fun _ _ => rfl, ?_⟩
      · by_cases hk7 : k = 7
        · rw [hk7, ← hT, getD_append_last]
          exact Nat.mod_lt _ (by decide)
        · rw [getD_append_left _ _ _ (by omega)]
          exact hb k (by omega)
      · rw [sum_append_bit]
        omega
  constructor
  · rintro ⟨π, T', h1, h2, h3⟩
    obtain ⟨rfl, rfl⟩ := (hcomp π T').1 h1
    exact ⟨h2, h3 7 (le_refl _) (by decide)⟩
  · rintro ⟨h2, h3⟩
    refine ⟨σ, _, (hcomp _ _).2 ⟨rfl, rfl⟩, h2, fun k hk hk8 => ?_⟩
    have : k = 7 := by omega
    rw [this]
    exact h3

/-! ## The loops of `PlaceCornerPiece` -/

theorem storeAll_nil (g : CornerGlobals) : storeAll [] g = some g := rfl

theorem storeAll_append (L1 L2 : List (List Nat × Nat)) (g : CornerGlobals) :
    storeAll (L1 ++ L2) g = (storeAll L1 g).bind (storeAll L2) := by
  unfold storeAll
  rw [List.foldlM_append]
  rfl

theorem storeAll_singleton (cube : List Nat) (p : Nat) (g : CornerGlobals) :
    storeAll [(cube, p)] g = storeByParity cube p g := by
  unfold storeAll
  rw [List.foldlM_cons]
  dsimp only
  cases storeByParity cube p g <;> rfl

theorem cornerLoopInv_withGlobals {e : Nat} {σ : Equiv.Perm (Fin 8)} {T : List Nat}
    {s : CornerLoopState} (h : CornerLoopInv e σ T s) (g : CornerGlobals) :
    CornerLoopInv e σ T (withGlobals s g) :=
  ⟨h.pieces, h.cube, h.tlen, h.tlt, h.swap, h.rot⟩

/-- A loop whose body makes, for the loop value `i`, exactly the stores `S i` (each once) makes
exactly the stores of all `S i`, each once, when the `S i` are disjoint. -/
theorem foldlM_stores {ι : Type} (f : CornerLoopState → ι → Option CornerLoopState)
    (I : CornerLoopState → Prop) (S : ι → List Nat × Nat → Prop) :
    ∀ (l : List ι), l.Nodup →
    (∀ i, i ∈ l → ∀ s, I s → ∃ s' L, I s' ∧ L.Nodup ∧ (∀ x, x ∈ L ↔ S i x) ∧
      ∀ g, f (withGlobals s g) i = (storeAll L g).map (withGlobals s')) →
    (∀ i, i ∈ l → ∀ j, j ∈ l → i ≠ j → ∀ x, S i x → S j x → False) →
    ∀ s, I s → ∃ s' L, I s' ∧ L.Nodup ∧ (∀ x, x ∈ L ↔ ∃ i, i ∈ l ∧ S i x) ∧
      ∀ g, l.foldlM f (withGlobals s g) = (storeAll L g).map (withGlobals s') := by
  intro l
  induction l with
  | nil =>
    intro _ _ _ s hs
    exact ⟨s, [], hs, List.nodup_nil, fun x => by simp, fun g => rfl⟩
  | cons a l ih =>
    intro hnd hbody hdisj s hs
    obtain ⟨s1, L1, hI1, hnd1, hmem1, h1⟩ := hbody a (List.mem_cons_self _ _) s hs
    obtain ⟨s2, L2, hI2, hnd2, hmem2, h2⟩ := ih (List.nodup_cons.1 hnd).2
      (fun i hi => hbody i (List.mem_cons_of_mem _ hi))
      (fun i hi j hj => hdisj i (List.mem_cons_of_mem _ hi) j (List.mem_cons_of_mem _ hj)) s1 hI1
    refine ⟨s2, L1 ++ L2, hI2, ?_, fun x => ?_, fun g => ?_⟩
    · refine List.Nodup.append hnd1 hnd2 (fun x hc1 hc2 => ?_)
      obtain ⟨i, hi, hSi⟩ := (hmem2 x).1 hc2
      refine hdisj a (List.mem_cons_self _ _) i (List.mem_cons_of_mem _ hi) ?_ x
        ((hmem1 x).1 hc1) hSi
      intro hai
      rw [← hai] at hi
      exact (List.nodup_cons.1 hnd).1 hi
    · rw [List.mem_append, hmem1, hmem2]
      constructor
      · rintro (h | ⟨i, hi, h⟩)
        · exact ⟨a, List.mem_cons_self _ _, h⟩
        · exact ⟨i, List.mem_cons_of_mem _ hi, h⟩
      · rintro ⟨i, hi, h⟩
        rcases List.mem_cons.1 hi with rfl | hi'
        · exact Or.inl h
        · exact Or.inr ⟨i, hi', h⟩
    · rw [List.foldlM_cons, h1 g, storeAll_append]
      cases hg : storeAll L1 g with
      | none => rfl
      | some g1 => exact h2 g1

theorem rotation_undo : ∀ r, r < 3 → ∀ o, o < 3 → ((r + o) % 3 + 3 - o) % 3 = r := by
  decide

theorem cornerOriBody_spec (next : CornerState → Nat → Nat → Option CornerState) (e : Nat)
    (he : e < 8) (σ : Equiv.Perm (Fin 8)) (T : List Nat) (s : CornerLoopState)
    (hs : CornerLoopInv e σ T s) (ori : Nat) (hori : ori < 3)
    (Snext Sres : List Nat × Nat → Prop)
    (hnext : ∀ cube1, CornerCubeInv (e + 1) (cornerPermList σ) (T ++ [ori]) cube1 →
      ∃ cube2 L, CornerCubeInv (e + 1) (cornerPermList σ) (T ++ [ori]) cube2 ∧ L.Nodup ∧
        (∀ x, x ∈ L ↔ Snext x) ∧
        ∀ g, next ⟨cornerPermList σ, cube1, g⟩ (parityBit σ) ((T ++ [ori]).sum % 3) =
          (storeAll L g).map (fun g2 => ⟨cornerPermList σ, cube2, g2⟩))
    (hfail : ∀ cube1, CornerCubeInv (e + 1) (cornerPermList σ) (T ++ [ori]) cube1 →
      (cornerTouchesCenter cube1 e = true ∨ cornerThreeSame cube1 e = true) → ∀ x, ¬ Sres x)
    (hpass : ∀ cube1, CornerCubeInv (e + 1) (cornerPermList σ) (T ++ [ori]) cube1 →
      cornerTouchesCenter cube1 e = false → cornerThreeSame cube1 e = false →
      ∀ x, Sres x ↔ Snext x) :
    ∃ s' L, CornerLoopInv e σ T s' ∧ L.Nodup ∧ (∀ x, x ∈ L ↔ Sres x) ∧
      ∀ g, cornerOriBody next e (withGlobals s g) ori = (storeAll L g).map (withGlobals s') := by
  have hrp : s.rotation_parity < 3 := by rw [hs.rot]; exact Nat.mod_lt _ (by decide)
  have hundo := rotation_undo _ hrp ori hori
  have hsum : (T ++ [ori]).sum % 3 = (s.rotation_parity + ori) % 3 := by
    rw [sum_append_bit, hs.rot]
    omega
  have hlast : (T ++ [ori]).getD e 0 = ori := by
    have := getD_append_last T ori
    rwa [hs.tlen] at this
  have hcube1 : CornerCubeInv (e + 1) (cornerPermList σ) (T ++ [ori])
      (placeCorner s.st.cube e (s.st.pieces.getD e 0) ori) := by
    have := cornerCubeInv_place hs.cube he (cornerPermList σ) (T ++ [ori]) (fun _ _ => rfl)
      (fun k hk => getD_append_left T ori k (by rw [hs.tlen]; exact hk))
    have hp : (cornerPermList σ).getD e 0 = s.st.pieces.getD e 0 := by rw [hs.pieces]
    rwa [hlast, hp] at this
  have hback : ∀ cube2, CornerCubeInv (e + 1) (cornerPermList σ) (T ++ [ori]) cube2 →
      CornerCubeInv e (cornerPermList σ) T cube2 := fun cube2 h =>
    cornerCubeInv_congr (cornerCubeInv_mono h (by omega)) (fun _ _ => rfl)
      (fun k hk => (getD_append_left T ori k (by rw [hs.tlen]; exact hk)).symm)
  by_cases hloc : cornerTouchesCenter (placeCorner s.st.cube e (s.st.pieces.getD e 0) ori) e = true
      ∨ cornerThreeSame (placeCorner s.st.cube e (s.st.pieces.getD e 0) ori) e = true
  · refine ⟨⟨{ s.st with cube := placeCorner s.st.cube e (s.st.pieces.getD e 0) ori },
      s.swap_parity, s.rotation_parity⟩, [], ⟨hs.pieces, hback _ hcube1, hs.tlen, hs.tlt, hs.swap,
        hs.rot⟩, List.nodup_nil, fun x => ⟨fun h => absurd h (List.not_mem_nil _),
        fun h => absurd h (hfail _ hcube1 hloc x)⟩, fun g => ?_⟩
    rw [storeAll_nil]
    unfold cornerOriBody withGlobals
    simp only [Option.map_some']
    by_cases h1 : cornerTouchesCenter (placeCorner s.st.cube e (s.st.pieces.getD e 0) ori) e
        = true
    · simp only [h1, ↓reduceIte, hundo]
    · have h2 := hloc.resolve_left h1
      simp only [h1, h2, Bool.false_eq_true, ↓reduceIte, hundo]
  · have hl1 : cornerTouchesCenter (placeCorner s.st.cube e (s.st.pieces.getD e 0) ori) e
        = false := by
      cases h : cornerTouchesCenter (placeCorner s.st.cube e (s.st.pieces.getD e 0) ori) e
      · rfl
      · exact absurd (Or.inl h) hloc
    have hl2 : cornerThreeSame (placeCorner s.st.cube e (s.st.pieces.getD e 0) ori) e
        = false := by
      cases h : cornerThreeSame (placeCorner s.st.cube e (s.st.pieces.getD e 0) ori) e
      · rfl
      · exact absurd (Or.inr h) hloc
    obtain ⟨cube2, L, hcube2, hnd, hmem, hrun⟩ := hnext _ hcube1
    refine ⟨⟨⟨s.st.pieces, cube2, s.st.globals⟩, s.swap_parity, s.rotation_parity⟩, L,
      ⟨hs.pieces, hback _ hcube2, hs.tlen, hs.tlt, hs.swap, hs.rot⟩, hnd,
      fun x => by rw [hmem, hpass _ hcube1 hl1 hl2], fun g => ?_⟩
    have hrun' := hrun g
    rw [hsum, ← hs.pieces, ← hs.swap] at hrun'
    unfold cornerOriBody withGlobals
    simp only [hl1, hl2, Bool.false_eq_true, ↓reduceIte, hundo, hrun']
    cases storeAll L g <;> rfl

theorem cornerPosBody_spec (next : CornerState → Nat → Nat → Option CornerState) (e : Nat)
    (he : e < 8) (σ : Equiv.Perm (Fin 8)) (T : List Nat) (pos : Nat) (hpos : e ≤ pos)
    (hpos8 : pos < 8) (S : Nat → List Nat × Nat → Prop)
    (hbody : ∀ ori, ori < 3 → ∀ s1,
      CornerLoopInv e (σ * Equiv.swap ⟨e, he⟩ ⟨pos, hpos8⟩) T s1 →
      ∃ s' L, CornerLoopInv e (σ * Equiv.swap ⟨e, he⟩ ⟨pos, hpos8⟩) T s' ∧ L.Nodup ∧
        (∀ x, x ∈ L ↔ S ori x) ∧
        ∀ g, cornerOriBody next e (withGlobals s1 g) ori = (storeAll L g).map (withGlobals s'))
    (hdisj : ∀ o1 o2, o1 ≠ o2 → ∀ x, S o1 x → S o2 x → False)
    (s : CornerLoopState) (hs : CornerLoopInv e σ T s) :
    ∃ s' L, CornerLoopInv e σ T s' ∧ L.Nodup ∧ (∀ x, x ∈ L ↔ ∃ ori, ori < 3 ∧ S ori x) ∧
      ∀ g, cornerPosBody next e (withGlobals s g) pos = (storeAll L g).map (withGlobals s') := by
  have hloop := foldlM_stores (cornerOriBody next e)
    (CornerLoopInv e (σ * Equiv.swap ⟨e, he⟩ ⟨pos, hpos8⟩) T) S [0, 1, 2] (by decide)
    (fun i hi => hbody i (by
      have : i = 0 ∨ i = 1 ∨ i = 2 := by simpa using hi
      omega))
    (fun i _ j _ hij x hSi hSj => hdisj i j hij x hSi hSj)
  have hmemori : ∀ x, (∃ i, i ∈ [0, 1, 2] ∧ S i x) ↔ ∃ ori, ori < 3 ∧ S ori x := by
    intro x
    constructor
    · rintro ⟨i, hi, h⟩
      have hi' : i = 0 ∨ i = 1 ∨ i = 2 := by simpa using hi
      exact ⟨i, by omega, h⟩
    · rintro ⟨i, hi, h⟩
      exact ⟨i, by
        have : i = 0 ∨ i = 1 ∨ i = 2 := by omega
        simpa using this, h⟩
  by_cases hpe : pos = e
  · subst hpe
    have hσ : σ * Equiv.swap (⟨pos, he⟩ : Fin 8) ⟨pos, hpos8⟩ = σ := by
      rw [Equiv.swap_self]
      rfl
    rw [hσ] at hloop
    obtain ⟨s2, L, hI2, hnd, hmem, h2⟩ := hloop s hs
    refine ⟨s2, L, hI2, hnd, fun x => by rw [hmem, hmemori], fun g => ?_⟩
    unfold cornerPosBody
    simp only [ne_eq, not_true_eq_false, ↓reduceIte, h2 g]
    cases storeAll L g <;> rfl
  · have hne : (⟨e, he⟩ : Fin 8) ≠ ⟨pos, hpos8⟩ := by
      intro hc
      exact hpe (congrArg Fin.val hc).symm
    have hs1 : CornerLoopInv e (σ * Equiv.swap ⟨e, he⟩ ⟨pos, hpos8⟩) T
        ⟨{ s.st with pieces := swapAt s.st.pieces e pos }, s.swap_parity ^^^ 1,
          s.rotation_parity⟩ := by
      refine ⟨?_, ?_, hs.tlen, hs.tlt, ?_, hs.rot⟩
      · show swapAt s.st.pieces e pos = _
        rw [hs.pieces]
        exact swapAt_cornerPermList σ ⟨e, he⟩ ⟨pos, hpos8⟩
      · refine cornerCubeInv_congr hs.cube (fun k hk => ?_) (fun _ _ => rfl)
        rw [cornerPermList_getD _ k (by omega), cornerPermList_getD σ k (by omega),
          corner_mul_swap_agree σ e he _ hpos ⟨k, by omega⟩ hk]
      · show s.swap_parity ^^^ 1 = _
        rw [parityBit_mul_swap σ _ _ hne, hs.swap]
    obtain ⟨s2, L, hI2, hnd, hmem, h2⟩ := hloop _ hs1
    refine ⟨⟨{ s2.st with pieces := swapAt s2.st.pieces e pos }, s2.swap_parity ^^^ 1,
      s2.rotation_parity⟩, L, ?_, hnd, fun x => by rw [hmem, hmemori], fun g => ?_⟩
    · refine ⟨?_, ?_, hI2.tlen, hI2.tlt, ?_, hI2.rot⟩
      · show swapAt s2.st.pieces e pos = _
        rw [hI2.pieces]
        have := swapAt_cornerPermList (σ * Equiv.swap ⟨e, he⟩ ⟨pos, hpos8⟩) ⟨e, he⟩
          ⟨pos, hpos8⟩
        rw [this, mul_assoc, Equiv.swap_mul_self, mul_one]
      · refine cornerCubeInv_congr hI2.cube (fun k hk => ?_) (fun _ _ => rfl)
        rw [cornerPermList_getD σ k (by omega), cornerPermList_getD _ k (by omega),
          corner_mul_swap_agree σ e he _ hpos ⟨k, by omega⟩ hk]
      · show s2.swap_parity ^^^ 1 = parityBit σ
        rw [hI2.swap, parityBit_mul_swap σ _ _ hne]
        exact (xor_bit_facts _ (parityBit_lt σ) 0 (by decide)).2.2.2
    · have h2' := h2 g
      unfold cornerPosBody
      have hw : (if pos ≠ e then
          (⟨{ (withGlobals s g).st with pieces := swapAt (withGlobals s g).st.pieces e pos },
            (withGlobals s g).swap_parity ^^^ 1, (withGlobals s g).rotation_parity⟩ :
            CornerLoopState)
          else withGlobals s g) =
          withGlobals ⟨{ s.st with pieces := swapAt s.st.pieces e pos }, s.swap_parity ^^^ 1,
            s.rotation_parity⟩ g := by
        rw [if_pos hpe]
        rfl
      simp only [hw, h2']
      cases storeAll L g
      · rfl
      · simp only [Option.map_some', ne_eq, hpe, not_false_eq_true, ↓reduceIte]
        rfl

/-! ## The last corner cubie -/

theorem placeLastCornerPiece_spec (σ : Equiv.Perm (Fin 8)) (T : List Nat) (cube : List Nat)
    (hcube : CornerCubeInv 7 (cornerPermList σ) T cube) (hT : T.length = 7)
    (hb : ∀ k, k < 7 → T.getD k 0 < 3) :
    ∃ cube2 L, CornerCubeInv 7 (cornerPermList σ) T cube2 ∧ L.Nodup ∧
      (∀ x, x ∈ L ↔ StoredFrom 7 7 σ T x) ∧
      ∀ g, PlaceLastCornerPiece 7 ⟨cornerPermList σ, cube, g⟩ (parityBit σ) (T.sum % 3) =
        (storeAll L g).map (fun g2 => ⟨cornerPermList σ, cube2, g2⟩) := by
  have hlast : (T ++ [(3 - T.sum % 3) % 3]).getD 7 0 = (3 - T.sum % 3) % 3 := by
    have := getD_append_last T ((3 - T.sum % 3) % 3)
    rwa [hT] at this
  have hcube1 : CornerCubeInv 8 (cornerPermList σ) (T ++ [(3 - T.sum % 3) % 3])
      (placeCorner cube 7 ((cornerPermList σ).getD 7 0) ((3 - T.sum % 3) % 3)) := by
    have := cornerCubeInv_place hcube (by decide) (cornerPermList σ)
      (T ++ [(3 - T.sum % 3) % 3]) (fun _ _ => rfl)
      (fun k hk => getD_append_left T _ k (by rw [hT]; exact hk))
    rwa [hlast] at this
  have hfull := cornerCubeInv_unique hcube1 (cornerCubeInv_cornerCube _ _)
  have hback : CornerCubeInv 7 (cornerPermList σ) T
      (placeCorner cube 7 ((cornerPermList σ).getD 7 0) ((3 - T.sum % 3) % 3)) :=
    cornerCubeInv_place_below hcube (by decide) _ _
  by_cases hloc : cornerLocalOK
      (placeCorner cube 7 ((cornerPermList σ).getD 7 0) ((3 - T.sum % 3) % 3)) 7
  · refine ⟨_, [(placeCorner cube 7 ((cornerPermList σ).getD 7 0) ((3 - T.sum % 3) % 3),
      parityBit σ)], hback, List.nodup_singleton _, fun x => ?_, fun g => ?_⟩
    · rw [storedFrom_seven σ T hT hb x, List.mem_singleton, ← hfull]
      exact ⟨fun h => ⟨h, hloc⟩, fun h => h.1⟩
    · rw [storeAll_singleton]
      unfold PlaceLastCornerPiece
      simp only [cornerCountPassed_eq, hloc.1, hloc.2, Bool.false_eq_true, ↓reduceIte,
        Bool.not_false, Bool.not_true]
      cases storeByParity _ (parityBit σ) g <;> rfl
  · refine ⟨_, [], hback, List.nodup_nil, fun x => ?_, fun g => ?_⟩
    · rw [storedFrom_seven σ T hT hb x, ← hfull]
      exact ⟨fun h => absurd h (List.not_mem_nil _), fun h => absurd h.2 hloc⟩
    · rw [storeAll_nil]
      unfold PlaceLastCornerPiece
      by_cases h1 : cornerTouchesCenter
          (placeCorner cube 7 ((cornerPermList σ).getD 7 0) ((3 - T.sum % 3) % 3)) 7 = true
      · simp only [h1, ↓reduceIte, Option.map_some']
      · have h2 : cornerThreeSame
            (placeCorner cube 7 ((cornerPermList σ).getD 7 0) ((3 - T.sum % 3) % 3)) 7 = true := by
          cases h : cornerThreeSame
            (placeCorner cube 7 ((cornerPermList σ).getD 7 0) ((3 - T.sum % 3) % 3)) 7
          · exfalso
            apply hloc
            constructor
            · cases h' : cornerTouchesCenter
                (placeCorner cube 7 ((cornerPermList σ).getD 7 0) ((3 - T.sum % 3) % 3)) 7
              · rfl
              · exact absurd h' h1
            · exact h
          · rfl
        simp only [cornerCountPassed_eq, h1, h2, Bool.false_eq_true, ↓reduceIte,
          Bool.not_true, Bool.not_false, Option.map_some']

/-! ## The recursion of `PlaceCornerPiece` -/

theorem placeCornerPiece_inner (r e : Nat) (he : e + (r + 1) = 8) (hne : e ≠ 7) (st : CornerState)
    (sp rp : Nat) :
    PlaceCornerPiece (r + 1) st sp rp =
      ((List.range' e (8 - e)).foldlM (cornerPosBody (PlaceCornerPiece r) e) ⟨st, sp, rp⟩).map
        (fun s => s.st) := by
  have hE : CUBE_CORNERS - (r + 1) = e := by unfold CUBE_CORNERS; omega
  rw [PlaceCornerPiece]
  simp only [hE, hne, ↓reduceIte]
  have h8 : CUBE_CORNERS = 8 := rfl
  rw [h8]
  cases (List.range' e (8 - e)).foldlM (cornerPosBody (PlaceCornerPiece r) e) ⟨st, sp, rp⟩ <;> rfl

theorem placeCornerPiece_last (st : CornerState) (sp rp : Nat) :
    PlaceCornerPiece 1 st sp rp =
      (PlaceLastCornerPiece 7 st sp rp).bind (fun st0 =>
        ((List.range' 7 1).foldlM (cornerPosBody (PlaceCornerPiece 0) 7) ⟨st0, sp, rp⟩).map
          (fun s => s.st)) := by
  rw [PlaceCornerPiece]
  have hE : CUBE_CORNERS - (0 + 1) = 7 := rfl
  simp only [hE, ↓reduceIte]
  cases PlaceLastCornerPiece 7 st sp rp with
  | none => rfl
  | some st0 =>
    have h8 : CUBE_CORNERS - 7 = 1 := rfl
    simp only [h8, Option.some_bind]
    cases (List.range' 7 1).foldlM (cornerPosBody (PlaceCornerPiece 0) 7) ⟨st0, sp, rp⟩ <;> rfl

theorem mem_range'_corner (e pos : Nat) (he : e ≤ 8) :
    pos ∈ List.range' e (8 - e) ↔ (e ≤ pos ∧ pos < 8) := by
  rw [List.mem_range'_1]
  omega

theorem cornerPlaceSpec_one : CornerPlaceSpec 1 := by
  intro σ T cube hcube hT hb
  have hcube7 : CornerCubeInv 7 (cornerPermList σ) T cube := hcube
  obtain ⟨cube0, L, hcube0, hnd0, hmem0, hrun0⟩ :=
    placeLastCornerPiece_spec σ T cube hcube7 hT hb
  -- the loop after the call of `PlaceLastCornerPiece` only calls `PlaceCornerPiece` for the
  -- slot 8, which does nothing
  have hloop := foldlM_stores (cornerPosBody (PlaceCornerPiece 0) 7)
    (CornerLoopInv 7 σ T) (fun _ _ => False) (List.range' 7 1) (by decide)
    (fun pos hpos s hs => by
      have hp := (mem_range'_corner 7 pos (by decide)).1 hpos
      obtain ⟨s', L', h1, h2, h3, h4⟩ := cornerPosBody_spec (PlaceCornerPiece 0) 7 (by decide)
        σ T pos hp.1 hp.2 (fun _ _ => False)
        (fun ori hori s1 hs1 => cornerOriBody_spec (PlaceCornerPiece 0) 7 (by decide) _ T s1 hs1
          ori hori (fun _ => False) (fun _ => False)
          (fun cube1 hc1 => ⟨cube1, [], hc1, List.nodup_nil, fun x => by simp, fun g => rfl⟩)
          (fun _ _ _ _ => id) (fun _ _ _ _ _ => Iff.rfl))
        (fun _ _ _ _ h _ => h) s hs
      refine ⟨s', L', h1, h2, fun x => ?_, h4⟩
      rw [h3]
      constructor
      · rintro ⟨_, _, h⟩; exact h
      · intro h; exact absurd h id)
    (fun _ _ _ _ _ _ h _ => h)
    ⟨⟨cornerPermList σ, cube0, ⟨[], [], 0, 0⟩⟩, parityBit σ, T.sum % 3⟩
    ⟨rfl, hcube0, hT, hb, rfl, rfl⟩
  obtain ⟨s, L2, hI2, _, hmem2, hrun2⟩ := hloop
  have hL2 : L2 = [] := by
    apply List.eq_nil_iff_forall_not_mem.2
    intro x hc
    obtain ⟨_, _, h⟩ := (hmem2 x).1 hc
    exact h
  refine ⟨s.st.cube, L, hI2.cube, hnd0, hmem0, fun g => ?_⟩
  rw [placeCornerPiece_last, hrun0 g]
  cases storeAll L g with
  | none => rfl
  | some g1 =>
    have := hrun2 g1
    rw [hL2, storeAll_nil] at this
    simp only [Option.map_some', Option.some_bind]
    have hw : (⟨⟨cornerPermList σ, cube0, g1⟩, parityBit σ, T.sum % 3⟩ : CornerLoopState) =
        withGlobals ⟨⟨cornerPermList σ, cube0, ⟨[], [], 0, 0⟩⟩, parityBit σ, T.sum % 3⟩ g1 := rfl
    rw [hw, this]
    simp only [Option.map_some', withGlobals, Option.some.injEq, CornerState.mk.injEq, and_true,
      true_and]
    exact hI2.pieces

theorem cornerPlaceSpec_succ (r : Nat) (hr1 : 1 ≤ r) (hr : r + 1 ≤ 8) (ih : CornerPlaceSpec r) :
    CornerPlaceSpec (r + 1) := by
  intro σ T cube hcube hT hb
  obtain ⟨e, he⟩ : ∃ e, e + (r + 1) = 8 := ⟨8 - (r + 1), by omega⟩
  have he8 : e < 8 := by omega
  have h1 : 8 - (r + 1) = e := by omega
  have h2 : 8 - r = e + 1 := by omega
  rw [h1] at hcube hT hb ⊢
  unfold CornerPlaceSpec at ih
  rw [h2] at ih
  have hloop := foldlM_stores (cornerPosBody (PlaceCornerPiece r) e) (CornerLoopInv e σ T)
    (fun pos x => ∃ h : pos < 8, ∃ ori, ori < 3 ∧
      StoredFrom e (e + 1) (σ * Equiv.swap ⟨e, he8⟩ ⟨pos, h⟩) (T ++ [ori]) x)
    (List.range' e (8 - e)) (List.nodup_range' _ _)
    (fun pos hpos s hs => by
      have hp := (mem_range'_corner e pos (by omega)).1 hpos
      obtain ⟨s', L', h1, h2, h3, h4⟩ := cornerPosBody_spec (PlaceCornerPiece r) e he8 σ T pos
        hp.1 hp.2
        (fun ori x => StoredFrom e (e + 1) (σ * Equiv.swap ⟨e, he8⟩ ⟨pos, hp.2⟩) (T ++ [ori]) x)
        (fun ori hori s1 hs1 => cornerOriBody_spec (PlaceCornerPiece r) e he8 _ T s1 hs1 ori hori
          (fun x => StoredFrom (e + 1) (e + 1) (σ * Equiv.swap ⟨e, he8⟩ ⟨pos, hp.2⟩)
            (T ++ [ori]) x)
          (fun x => StoredFrom e (e + 1) (σ * Equiv.swap ⟨e, he8⟩ ⟨pos, hp.2⟩) (T ++ [ori]) x)
          (fun cube1 hc1 => ih _ _ cube1 hc1 (by simp [hT]) (fun k hk => by
            by_cases hke : k = e
            · rw [hke, ← hT, getD_append_last]; exact hori
            · rw [getD_append_left _ _ _ (by omega)]; exact hb k (by omega)))
          (fun cube1 hc1 hfail x => storedFrom_fail e he8 _ _ cube1 hc1 hfail x)
          (fun cube1 hc1 ha hb x => storedFrom_pass e he8 _ _ cube1 hc1 ha hb x))
        (fun o1 o2 hne x h0 h1 => storedFrom_disjoint_ori e e _ T hT o1 o2 hne x h0 h1) s hs
      refine ⟨s', L', h1, h2, fun x => ?_, h4⟩
      rw [h3]
      constructor
      · rintro ⟨ori, hori, h⟩; exact ⟨hp.2, ori, hori, h⟩
      · rintro ⟨_, ori, hori, h⟩; exact ⟨ori, hori, h⟩)
    (fun p hp p' hp' hne x h0 h1 => by
      obtain ⟨hp8, _, _, h0⟩ := h0
      obtain ⟨hp8', _, _, h1⟩ := h1
      have hpe := ((mem_range'_corner e p (by omega)).1 hp).1
      have hpe' := ((mem_range'_corner e p' (by omega)).1 hp').1
      exact storedFrom_disjoint_pos e e he8 σ ⟨p, hp8⟩ ⟨p', hp8'⟩ hpe hpe'
        (fun hc => hne (congrArg Fin.val hc)) _ _ x h0 h1)
    ⟨⟨cornerPermList σ, cube, ⟨[], [], 0, 0⟩⟩, parityBit σ, T.sum % 3⟩
    ⟨rfl, hcube, hT, hb, rfl, rfl⟩
  obtain ⟨s, L, hI, hnd, hmem, hrun⟩ := hloop
  refine ⟨s.st.cube, L, hI.cube, hnd, fun x => ?_, fun g => ?_⟩
  · rw [hmem, storedFrom_succ e he8 σ T hT x]
    constructor
    · rintro ⟨pos, hpos, h8, ori, hori, h⟩
      exact ⟨⟨pos, h8⟩, ((mem_range'_corner e pos (by omega)).1 hpos).1, ori, hori, h⟩
    · rintro ⟨pos, hpos, ori, hori, h⟩
      exact ⟨pos.val, (mem_range'_corner e pos.val (by omega)).2 ⟨hpos, pos.isLt⟩, pos.isLt, ori,
        hori, h⟩
  · rw [placeCornerPiece_inner r e he (by omega)]
    have hw : (⟨⟨cornerPermList σ, cube, g⟩, parityBit σ, T.sum % 3⟩ : CornerLoopState) =
        withGlobals ⟨⟨cornerPermList σ, cube, ⟨[], [], 0, 0⟩⟩, parityBit σ, T.sum % 3⟩ g := rfl
    rw [hw, hrun g]
    cases storeAll L g with
    | none => rfl
    | some g1 =>
      simp only [Option.map_some', withGlobals, Option.some.injEq, CornerState.mk.injEq, and_true,
        true_and]
      exact hI.pieces

theorem cornerPlaceSpec_all : ∀ r, 1 ≤ r → r ≤ 8 → CornerPlaceSpec r := by
  intro r
  induction r with
  | zero => intro h; omega
  | succ r ih =>
    intro _ hr
    by_cases h0 : r = 0
    · subst h0
      exact cornerPlaceSpec_one
    · exact cornerPlaceSpec_succ r (by omega) hr (ih (by omega) (by omega))

/-! ## The arrays after a sequence of stores -/

theorem storedPrefix_length (arr : List CornerArrangement) (n : Nat) :
    (storedPrefix arr n).length = n := by
  simp [storedPrefix]

theorem storedArr_count {arr : List CornerArrangement} {n : Nat} {cubes : List (List Nat)}
    (h : StoredArr arr n cubes) : n = cubes.length := by
  have := h.perm.length_eq
  rwa [storedPrefix_length, List.length_map] at this

theorem perm_insert_range {α : Type} (f : Nat → α) (new : α) (k : Nat) : ∀ n, k ≤ n →
    ((List.range (n + 1)).map
      (fun i => if i = k then new else if k < i ∧ i ≤ n then f (i - 1) else f i)).Perm
      (new :: (List.range n).map f) := by
  intro n hn
  induction n, hn using Nat.le_induction with
  | base =>
    rw [List.range_succ, List.map_append, List.map_singleton, if_pos rfl]
    have : (List.range k).map
        (fun i => if i = k then new else if k < i ∧ i ≤ k then f (i - 1) else f i) =
        (List.range k).map f := by
      apply List.map_congr_left
      intro i hi
      have := List.mem_range.1 hi
      rw [if_neg (by omega), if_neg (by omega)]
    rw [this]
    exact List.perm_append_singleton _ _
  | succ n hkn ih =>
    rw [List.range_succ, List.map_append, List.map_singleton, if_neg (by omega),
      if_pos (by omega)]
    have : (List.range (n + 1)).map
        (fun i => if i = k then new else if k < i ∧ i ≤ n + 1 then f (i - 1) else f i) =
        (List.range (n + 1)).map
          (fun i => if i = k then new else if k < i ∧ i ≤ n then f (i - 1) else f i) := by
      apply List.map_congr_left
      intro i hi
      have := List.mem_range.1 hi
      by_cases h1 : i = k
      · rw [if_pos h1, if_pos h1]
      · rw [if_neg h1, if_neg h1]
        by_cases h2 : k < i
        · rw [if_pos ⟨h2, by omega⟩, if_pos ⟨h2, by omega⟩]
        · rw [if_neg (fun h => h2 h.1), if_neg (fun h => h2 h.1)]
    rw [this]
    have h2 : new :: (List.range (n + 1)).map f = (new :: (List.range n).map f) ++ [f n] := by
      rw [List.range_succ, List.map_append, List.map_singleton]
      rfl
    rw [h2, show n + 1 - 1 = n from rfl]
    exact List.Perm.append_right _ ih

theorem storedEntryOf_eq (cube : List Nat) :
    (⟨cube, (List.range CUBE_FACES).map (cornerFaceId cube), List.replicate 6 0⟩ :
      CornerArrangement) = storedEntryOf cube := rfl

/-- One call of `StoreCornerArrangement` on an array with room for another entry. -/
theorem store_step (cube : List Nat) (arr : List CornerArrangement) (n : Nat)
    (cubes : List (List Nat)) (h : StoredArr arr n cubes) (hroom : n < arr.length) :
    ∃ arr2, StoreCornerArrangement cube arr n = some arr2 ∧ arr2.length = arr.length ∧
      StoredArr arr2 (n + 1) (cubes ++ [cube]) := by
  obtain ⟨k, arr2, hst, hk, hlen, hget, hsorted⟩ := storeCornerArrangement_spec cube arr n hroom
  have hnext : (arr.getD k zeroArrangement).nextIndex = List.replicate 6 0 := by
    by_cases hkn : k < n
    · have hmem : arr.getD k zeroArrangement ∈ storedPrefix arr n :=
        List.mem_map.2 ⟨k, List.mem_range.2 hkn, rfl⟩
      obtain ⟨c, _, hc⟩ := List.mem_map.1 ((h.perm.mem_iff).1 hmem)
      rw [← hc]
      rfl
    · rw [h.rest k (by omega)]
      rfl
  rw [hnext] at hget
  refine ⟨arr2, hst, hlen, ?_, fun i hi => ?_, hsorted h.sorted⟩
  · have hpre : storedPrefix arr2 (n + 1) = (List.range (n + 1)).map
        (fun i => if i = k then storedEntryOf cube
          else if k < i ∧ i ≤ n then arr.getD (i - 1) zeroArrangement
          else arr.getD i zeroArrangement) := by
      unfold storedPrefix
      apply List.map_congr_left
      intro i _
      exact hget i
    rw [hpre, List.map_append, List.map_singleton]
    refine (perm_insert_range (fun i => arr.getD i zeroArrangement) (storedEntryOf cube) k n
      hk).trans ?_
    refine List.Perm.trans ?_ (List.perm_append_singleton _ _).symm
    exact List.Perm.cons _ h.perm
  · rw [hget i, if_neg (by omega), if_neg (by omega)]
    exact h.rest i (by omega)

theorem store_no_room (cube : List Nat) (arr : List CornerArrangement) (n : Nat)
    (h : arr.length ≤ n) : StoreCornerArrangement cube arr n = none := by
  unfold StoreCornerArrangement
  rw [if_pos h]

theorem evenStores_cons (x : List Nat × Nat) (L : List (List Nat × Nat)) :
    evenStores (x :: L) = if x.2 = 0 then x.1 :: evenStores L else evenStores L := by
  unfold evenStores
  by_cases h : x.2 = 0
  · rw [if_pos h, List.filter_cons_of_pos (by simpa using h), List.map_cons]
  · rw [if_neg h, List.filter_cons_of_neg (by simpa using h)]

theorem oddStores_cons (x : List Nat × Nat) (L : List (List Nat × Nat)) :
    oddStores (x :: L) = if x.2 = 0 then oddStores L else x.1 :: oddStores L := by
  unfold oddStores
  by_cases h : x.2 = 0
  · rw [if_pos h, List.filter_cons_of_neg (by simpa using h)]
  · rw [if_neg h, List.filter_cons_of_pos (by simpa using h), List.map_cons]

/-- A sequence of stores that the arrays have room for. -/
theorem storeAll_spec (capE capO : Nat) : ∀ (L : List (List Nat × Nat)) (g : CornerGlobals)
    (LE LO : List (List Nat)), GlobalsInv capE capO g LE LO →
    LE.length + (evenStores L).length ≤ capE → LO.length + (oddStores L).length ≤ capO →
    ∃ g2, storeAll L g = some g2 ∧
      GlobalsInv capE capO g2 (LE ++ evenStores L) (LO ++ oddStores L) := by
  intro L
  induction L with
  | nil =>
    intro g LE LO hg _ _
    refine ⟨g, rfl, ?_⟩
    have h1 : evenStores [] = [] := rfl
    have h2 : oddStores [] = [] := rfl
    rw [h1, h2, List.append_nil, List.append_nil]
    exact hg
  | cons x L ih =>
    intro g LE LO hg hE hO
    have hcE := storedArr_count hg.ep
    have hcO := storedArr_count hg.op
    rw [evenStores_cons] at hE ⊢
    rw [oddStores_cons] at hO ⊢
    have hunf : storeAll (x :: L) g = (storeByParity x.1 x.2 g).bind (storeAll L) := by
      unfold storeAll
      rw [List.foldlM_cons]
      rfl
    by_cases hp : x.2 = 0
    · rw [if_pos hp] at hE hO
      rw [if_pos hp, if_pos hp]
      rw [List.length_cons] at hE
      obtain ⟨arr2, hst, hlen, hinv⟩ := store_step x.1 g.ep_corner_arrangements
        g.ep_corner_arrangement_count LE hg.ep (by rw [hg.elen]; omega)
      have hstep : storeByParity x.1 x.2 g = some ⟨arr2, g.op_corner_arrangements,
          g.ep_corner_arrangement_count + 1, g.op_corner_arrangement_count⟩ := by
        unfold storeByParity
        rw [if_pos hp, hst]
      obtain ⟨g2, hg2, hinv2⟩ := ih ⟨arr2, g.op_corner_arrangements,
          g.ep_corner_arrangement_count + 1, g.op_corner_arrangement_count⟩ (LE ++ [x.1]) LO
        ⟨by rw [← hg.elen]; exact hlen, hg.olen, hinv, hg.op⟩
        (by rw [List.length_append, List.length_singleton]; omega) hO
      refine ⟨g2, by rw [hunf, hstep]; exact hg2, ?_⟩
      rwa [List.append_assoc, List.singleton_append] at hinv2
    · rw [if_neg hp] at hE hO
      rw [if_neg hp, if_neg hp]
      rw [List.length_cons] at hO
      obtain ⟨arr2, hst, hlen, hinv⟩ := store_step x.1 g.op_corner_arrangements
        g.op_corner_arrangement_count LO hg.op (by rw [hg.olen]; omega)
      have hstep : storeByParity x.1 x.2 g = some ⟨g.ep_corner_arrangements, arr2,
          g.ep_corner_arrangement_count, g.op_corner_arrangement_count + 1⟩ := by
        unfold storeByParity
        rw [if_neg hp, hst]
      obtain ⟨g2, hg2, hinv2⟩ := ih ⟨g.ep_corner_arrangements, arr2,
          g.ep_corner_arrangement_count, g.op_corner_arrangement_count + 1⟩ LE (LO ++ [x.1])
        ⟨hg.elen, by rw [← hg.olen]; exact hlen, hg.ep, hinv⟩ hE
        (by rw [List.length_append, List.length_singleton]; omega)
      refine ⟨g2, by rw [hunf, hstep]; exact hg2, ?_⟩
      rwa [List.append_assoc, List.singleton_append] at hinv2

/-- A sequence of stores that one of the arrays has no room for: the source writes past the
end of that array. -/
theorem storeAll_no_room (capE capO : Nat) : ∀ (L : List (List Nat × Nat)) (g : CornerGlobals)
    (LE LO : List (List Nat)), GlobalsInv capE capO g LE LO → LE.length ≤ capE →
    LO.length ≤ capO →
    (capE < LE.length + (evenStores L).length ∨ capO < LO.length + (oddStores L).length) →
    storeAll L g = none := by
  intro L
  induction L with
  | nil =>
    intro g LE LO _ hE hO h
    have h1 : evenStores [] = [] := rfl
    have h2 : oddStores [] = [] := rfl
    rw [h1, h2] at h
    simp only [List.length_nil, Nat.add_zero] at h
    omega
  | cons x L ih =>
    intro g LE LO hg hE hO h
    have hcE := storedArr_count hg.ep
    have hcO := storedArr_count hg.op
    rw [evenStores_cons, oddStores_cons] at h
    have hunf : storeAll (x :: L) g = (storeByParity x.1 x.2 g).bind (storeAll L) := by
      unfold storeAll
      rw [List.foldlM_cons]
      rfl
    rw [hunf]
    by_cases hp : x.2 = 0
    · rw [if_pos hp, if_pos hp, List.length_cons] at h
      by_cases hroom : LE.length < capE
      · obtain ⟨arr2, hst, hlen, hinv⟩ := store_step x.1 g.ep_corner_arrangements
          g.ep_corner_arrangement_count LE hg.ep (by rw [hg.elen]; omega)
        have hstep : storeByParity x.1 x.2 g = some ⟨arr2, g.op_corner_arrangements,
            g.ep_corner_arrangement_count + 1, g.op_corner_arrangement_count⟩ := by
          unfold storeByParity
          rw [if_pos hp, hst]
        rw [hstep]
        exact ih ⟨arr2, g.op_corner_arrangements, g.ep_corner_arrangement_count + 1,
          g.op_corner_arrangement_count⟩ (LE ++ [x.1]) LO
          ⟨by rw [← hg.elen]; exact hlen, hg.olen, hinv, hg.op⟩
          (by rw [List.length_append, List.length_singleton]; omega) hO
          (by rw [List.length_append, List.length_singleton]; omega)
      · have hst := store_no_room x.1 g.ep_corner_arrangements g.ep_corner_arrangement_count
          (by rw [hg.elen]; omega)
        unfold storeByParity
        rw [if_pos hp, hst]
        rfl
    · rw [if_neg hp, if_neg hp, List.length_cons] at h
      by_cases hroom : LO.length < capO
      · obtain ⟨arr2, hst, hlen, hinv⟩ := store_step x.1 g.op_corner_arrangements
          g.op_corner_arrangement_count LO hg.op (by rw [hg.olen]; omega)
        have hstep : storeByParity x.1 x.2 g = some ⟨g.ep_corner_arrangements, arr2,
            g.ep_corner_arrangement_count, g.op_corner_arrangement_count + 1⟩ := by
          unfold storeByParity
          rw [if_neg hp, hst]
        rw [hstep]
        exact ih ⟨g.ep_corner_arrangements, arr2, g.ep_corner_arrangement_count,
          g.op_corner_arrangement_count + 1⟩ LE (LO ++ [x.1])
          ⟨hg.elen, by rw [← hg.olen]; exact hlen, hg.ep, hinv⟩ hE
          (by rw [List.length_append, List.length_singleton]; omega)
          (by rw [List.length_append, List.length_singleton]; omega)
      · have hst := store_no_room x.1 g.op_corner_arrangements g.op_corner_arrangement_count
          (by rw [hg.olen]; omega)
        unfold storeByParity
        rw [if_neg hp, hst]
        rfl

/-! ## The run of `CreateCornerArrangements` -/

theorem storedFrom_zero_iff (x : List Nat × Nat) : StoredFrom 0 0 1 [] x ↔ ValidStore x := by
  constructor
  · rintro ⟨π, T, ⟨_, h2, h3, _, h5⟩, hx, hok⟩
    exact ⟨π, T, ⟨h2, h3, h5, fun k hk => hok k (Nat.zero_le _) hk⟩, hx⟩
  · rintro ⟨π, T, ⟨h2, h3, h5, hok⟩, hx⟩
    exact ⟨π, T, ⟨fun k hk => absurd hk (Nat.not_lt_zero _), h2, h3,
      fun k hk => absurd hk (Nat.not_lt_zero _), h5⟩, hx, fun k _ hk => hok k hk⟩

/-- The enumeration of `PlaceCornerPiece(0, ...)` makes exactly the stores of the valid corner
placements, each of them once. -/
theorem placeCornerPiece_top : ∃ cube2 L, L.Nodup ∧ (∀ x, x ∈ L ↔ ValidStore x) ∧
    ∀ g, PlaceCornerPiece 8 ⟨[0, 1, 2, 3, 4, 5, 6, 7], initialCornerCube, g⟩ 0 0 =
      (storeAll L g).map (fun g2 => ⟨[0, 1, 2, 3, 4, 5, 6, 7], cube2, g2⟩) := by
  obtain ⟨cube2, L, _, hnd, hmem, hrun⟩ := cornerPlaceSpec_all 8 (by decide) (le_refl _) 1 []
    initialCornerCube (cornerCubeInv_initial _ _) rfl (fun k hk => absurd hk (Nat.not_lt_zero _))
  refine ⟨cube2, L, hnd, fun x => by rw [hmem x]; exact storedFrom_zero_iff x, fun g => ?_⟩
  have := hrun g
  rw [cornerPermList_one, parityBit_one] at this
  exact this

theorem getD_replicate_zero (n i : Nat) :
    (List.replicate n zeroArrangement).getD i zeroArrangement = zeroArrangement := by
  by_cases h : i < n
  · rw [List.getD_eq_getElem _ _ (by simpa using h), List.getElem_replicate]
  · rw [List.getD_eq_default _ _ (by simpa using h)]

theorem storedArr_initial (n : Nat) : StoredArr (List.replicate n zeroArrangement) 0 [] :=
  ⟨List.Perm.nil, fun i _ => getD_replicate_zero n i, fun _ _ _ hj => absurd hj (Nat.not_lt_zero _)⟩

theorem globalsInv_initial (capE capO : Nat) : GlobalsInv capE capO
    ⟨List.replicate capE zeroArrangement, List.replicate capO zeroArrangement, 0, 0⟩ [] [] :=
  ⟨List.length_replicate _ _, List.length_replicate _ _, storedArr_initial capE,
    storedArr_initial capO⟩

theorem validStore_inj {x y : List Nat × Nat} (hx : ValidStore x) (hy : ValidStore y)
    (h : x.1 = y.1) : x = y := by
  obtain ⟨π, T, hv, hx⟩ := hx
  obtain ⟨π2, T2, hv2, hy⟩ := hy
  rw [hx, hy] at h
  simp only at h
  obtain ⟨h1, h2⟩ := cornerPlacement_inj hv.1 hv2.1 hv.2.1 hv2.2.1 h
  rw [hx, hy, h1, h2]

theorem mem_evenStores (L : List (List Nat × Nat)) (cube : List Nat) :
    cube ∈ evenStores L ↔ ∃ p, (cube, p) ∈ L ∧ p = 0 := by
  unfold evenStores
  rw [List.mem_map]
  constructor
  · rintro ⟨x, hx, rfl⟩
    rw [List.mem_filter] at hx
    exact ⟨x.2, hx.1, by simpa using hx.2⟩
  · rintro ⟨p, hp, rfl⟩
    exact ⟨(cube, 0), List.mem_filter.2 ⟨hp, by simp⟩, rfl⟩

theorem mem_oddStores (L : List (List Nat × Nat)) (cube : List Nat) :
    cube ∈ oddStores L ↔ ∃ p, (cube, p) ∈ L ∧ p ≠ 0 := by
  unfold oddStores
  rw [List.mem_map]
  constructor
  · rintro ⟨x, hx, rfl⟩
    rw [List.mem_filter] at hx
    exact ⟨x.2, hx.1, by simpa using hx.2⟩
  · rintro ⟨p, hp, hne⟩
    exact ⟨(cube, p), List.mem_filter.2 ⟨hp, by simpa using hne⟩, rfl⟩

/-- No cube is stored twice, be it in one array or in both. -/
theorem stores_nodup (L : List (List Nat × Nat)) (hnd : L.Nodup)
    (hv : ∀ x, x ∈ L → ValidStore x) : (evenStores L ++ oddStores L).Nodup := by
  have hinj : ∀ (l : List (List Nat × Nat)), l.Sublist L → (l.map (fun x => x.1)).Nodup := by
    intro l hl
    refine List.Nodup.map_on (fun x hx y hy h => ?_) (hnd.sublist hl)
    exact validStore_inj (hv x (hl.subset hx)) (hv y (hl.subset hy)) h
  refine List.Nodup.append (hinj _ (List.filter_sublist _)) (hinj _ (List.filter_sublist _)) ?_
  intro cube h1 h2
  obtain ⟨p, hp, hp0⟩ := (mem_evenStores L cube).1 h1
  obtain ⟨q, hq, hq0⟩ := (mem_oddStores L cube).1 h2
  have := validStore_inj (hv _ hp) (hv _ hq) rfl
  have h3 := (Prod.mk.injEq _ _ _ _ ▸ this).2
  omega

theorem storedArr_nextIndex {arr : List CornerArrangement} {n : Nat} {cubes : List (List Nat)}
    (h : StoredArr arr n cubes) (i : Nat) :
    (arr.getD i zeroArrangement).nextIndex = List.replicate 6 0 := by
  by_cases hin : i < n
  · have hmem : arr.getD i zeroArrangement ∈ storedPrefix arr n :=
      List.mem_map.2 ⟨i, List.mem_range.2 hin, rfl⟩
    obtain ⟨c, _, hc⟩ := List.mem_map.1 ((h.perm.mem_iff).1 hmem)
    rw [← hc]
    rfl
  · rw [h.rest i (by omega)]
    rfl

theorem storedArr_entry {arr : List CornerArrangement} {n : Nat} {cubes : List (List Nat)}
    (h : StoredArr arr n cubes) (i : Nat) (hi : i < n) :
    ∃ c, c ∈ cubes ∧ arr.getD i zeroArrangement = storedEntryOf c := by
  have hmem : arr.getD i zeroArrangement ∈ storedPrefix arr n :=
    List.mem_map.2 ⟨i, List.mem_range.2 hi, rfl⟩
  obtain ⟨c, hc, hce⟩ := List.mem_map.1 ((h.perm.mem_iff).1 hmem)
  exact ⟨c, hc, hce.symm⟩

/-- The array after `FillCornerIndexes`: the arrangements and face ids are those stored, in the
same order. -/
theorem finalArr_of_stored (arr : List CornerArrangement) (n : Nat) (cubes : List (List Nat))
    (h : StoredArr arr n cubes) (hn : n ≤ arr.length) (h31 : n < 2147483648) :
    FinalArr (FillCornerIndexes arr n) n cubes ∧
      (FillCornerIndexes arr n).length = arr.length := by
  have hwf : ∀ i, i < arr.length → (arr.getD i zeroArrangement).nextIndex.length = 6 := by
    intro i _
    rw [storedArr_nextIndex h i]
    rfl
  have hinv := fillCornerIndexes_inv arr n hn h31 hwf
  refine ⟨⟨?_, fun i hi => ?_, fun i hi => hinv.nlen i hi, fun i j hij hj => ?_⟩, hinv.len⟩
  · have : (storedPrefix (FillCornerIndexes arr n) n).map (fun c => c.arrangement) =
        (storedPrefix arr n).map (fun c => c.arrangement) := by
      unfold storedPrefix
      rw [List.map_map, List.map_map]
      apply List.map_congr_left
      intro i _
      exact hinv.cubes i
    rw [this]
    have h2 := h.perm.map (fun c => c.arrangement)
    rw [List.map_map] at h2
    have h3 : cubes.map ((fun c => c.arrangement) ∘ storedEntryOf) = cubes := by
      have : ((fun c : CornerArrangement => c.arrangement) ∘ storedEntryOf) = id := rfl
      rw [this, List.map_id]
    rwa [h3] at h2
  · rw [hinv.faces i, hinv.cubes i]
    obtain ⟨c, _, hc⟩ := storedArr_entry h i hi
    rw [hc]
    rfl
  · rw [hinv.faces i, hinv.faces j]
    exact h.sorted i j hij hj

/-- With room in the arrays, the function `CreateCornerArrangements` returns, and its arrays
hold the cubes of the valid corner placements: those of even permutations in
`ep_corner_arrangements`, those of odd permutations in `op_corner_arrangements`, each of them
once. -/
theorem createCornerArrangements_spec (capE capO : Nat) (hE : capE < 2147483648)
    (hO : capO < 2147483648) (hroom : CornerRoom capE capO) :
    ∃ (g : CornerGlobals) (L : List (List Nat × Nat)),
      CreateCornerArrangements capE capO = some g ∧ L.Nodup ∧ (∀ x, x ∈ L ↔ ValidStore x) ∧
      (∃ cube2, ∀ g1, PlaceCornerPiece 8 ⟨[0, 1, 2, 3, 4, 5, 6, 7], initialCornerCube, g1⟩ 0 0 =
        (storeAll L g1).map (fun g2 => ⟨[0, 1, 2, 3, 4, 5, 6, 7], cube2, g2⟩)) ∧
      g.ep_corner_arrangements.length = capE ∧ g.op_corner_arrangements.length = capO ∧
      g.ep_corner_arrangement_count = (evenStores L).length ∧
      g.op_corner_arrangement_count = (oddStores L).length ∧
      FinalArr g.ep_corner_arrangements g.ep_corner_arrangement_count (evenStores L) ∧
      FinalArr g.op_corner_arrangements g.op_corner_arrangement_count (oddStores L) := by
  obtain ⟨cube2, L, hnd, hmem, hrun⟩ := placeCornerPiece_top
  obtain ⟨hrE, hrO⟩ := hroom L hnd (fun x hx => (hmem x).1 hx)
  obtain ⟨g0, hg0, hinv⟩ := storeAll_spec capE capO L _ [] [] (globalsInv_initial capE capO)
    (by simpa using hrE) (by simpa using hrO)
  rw [List.nil_append, List.nil_append] at hinv
  have hcE := storedArr_count hinv.ep
  have hcO := storedArr_count hinv.op
  obtain ⟨hfE, hlE⟩ := finalArr_of_stored _ _ _ hinv.ep (by rw [hinv.elen, hcE]; exact hrE)
    (by rw [hcE]; omega)
  obtain ⟨hfO, hlO⟩ := finalArr_of_stored _ _ _ hinv.op (by rw [hinv.olen, hcO]; exact hrO)
    (by rw [hcO]; omega)
  refine ⟨⟨FillCornerIndexes g0.ep_corner_arrangements g0.ep_corner_arrangement_count,
    FillCornerIndexes g0.op_corner_arrangements g0.op_corner_arrangement_count,
    g0.ep_corner_arrangement_count, g0.op_corner_arrangement_count⟩, L, ?_, hnd, hmem,
    ⟨cube2, hrun⟩, by rw [hlE]; exact hinv.elen, by rw [hlO]; exact hinv.olen, hcE, hcO, hfE, hfO⟩
  unfold CreateCornerArrangements
  rw [hrun _, hg0]
  rfl

/-- Without room in one of the arrays the enumeration writes past its end. -/
theorem createCornerArrangements_no_room (capE capO : Nat) (L : List (List Nat × Nat))
    (hnd : L.Nodup) (hv : ∀ x, x ∈ L ↔ ValidStore x)
    (h : capE < (evenStores L).length ∨ capO < (oddStores L).length) :
    CreateCornerArrangements capE capO = none := by
  obtain ⟨cube2, L2, hnd2, hmem2, hrun⟩ := placeCornerPiece_top
  have hperm : L2.Perm L := (List.perm_ext_iff_of_nodup hnd2 hnd).2
    (fun x => by rw [hmem2 x, hv x])
  have hlenE : (evenStores L2).length = (evenStores L).length := by
    unfold evenStores
    rw [List.length_map, List.length_map]
    exact (hperm.filter _).length_eq
  have hlenO : (oddStores L2).length = (oddStores L).length := by
    unfold oddStores
    rw [List.length_map, List.length_map]
    exact (hperm.filter _).length_eq
  have := storeAll_no_room capE capO L2 _ [] [] (globalsInv_initial capE capO)
    (Nat.zero_le _) (Nat.zero_le _) (by
      simp only [List.length_nil, Nat.zero_add]
      rw [hlenE, hlenO]
      exact h)
  unfold CreateCornerArrangements
  rw [hrun _, this]
  rfl

/-! ## The corner constraints in the words of the specification -/

theorem corner_cells_of_faces : (∀ k, k < 8 → ∀ j, j < 3 → ∃ f, f < 6 ∧ ∃ s, s ∈ [0, 2, 6, 8] ∧
      tab2 corners k j = 9 * f + s ∧ ColorOf (tab2 corners k j) = f) ∧
    (∀ f, f < 6 → ∀ s, s ∈ [0, 2, 6, 8] → ∃ k, k < 8 ∧ ∃ j, j < 3 ∧
      tab2 corners k j = 9 * f + s ∧ ColorOf (tab2 corners k j) = f) ∧
    (∀ f, f < 6 → ColorOf (initialCornerCube.getD (9 * f + 4) 0) = f) := by
  refine ⟨by decide!, by decide!, by decide!⟩

theorem corner_checks_of_faces :
    (∀ i, i < 24 → ∃ f, f < 6 ∧ ∃ t, t ∈ [[0, 2, 6], [0, 2, 8], [0, 6, 8], [2, 6, 8]] ∧
      tab2 corner_count_checks i 0 = 9 * f + t.getD 0 0 ∧
      tab2 corner_count_checks i 1 = 9 * f + t.getD 1 0 ∧
      tab2 corner_count_checks i 2 = 9 * f + t.getD 2 0) ∧
    (∀ f, f < 6 → ∀ t, t ∈ [[0, 2, 6], [0, 2, 8], [0, 6, 8], [2, 6, 8]] → ∃ i, i < 24 ∧
      tab2 corner_count_checks i 0 = 9 * f + t.getD 0 0 ∧
      tab2 corner_count_checks i 1 = 9 * f + t.getD 1 0 ∧
      tab2 corner_count_checks i 2 = 9 * f + t.getD 2 0) := by
  refine ⟨by decide!, by decide!⟩

/-- Of four colours no three are one colour exactly when each of the four triples has two
colours. -/
theorem count_lt_three_iff (a b c d : Nat) :
    (∀ x, [a, b, c, d].count x < 3) ↔
      (¬ (a = b ∧ a = c) ∧ ¬ (a = b ∧ a = d) ∧ ¬ (a = c ∧ a = d) ∧ ¬ (b = c ∧ b = d)) := by
  constructor
  · intro h
    refine ⟨?_, ?_, ?_, ?_⟩
    · rintro ⟨rfl, rfl⟩
      have := h a
      simp only [List.count_cons, List.count_nil, beq_self_eq_true, if_true] at this
      omega
    · rintro ⟨rfl, rfl⟩
      have := h a
      simp only [List.count_cons, List.count_nil, beq_self_eq_true, if_true] at this
      omega
    · rintro ⟨rfl, rfl⟩
      have := h a
      simp only [List.count_cons, List.count_nil, beq_self_eq_true, if_true] at this
      omega
    · rintro ⟨rfl, rfl⟩
      have := h b
      simp only [List.count_cons, List.count_nil, beq_self_eq_true, if_true] at this
      omega
  · rintro ⟨h1, h2, h3, h4⟩ x
    simp only [List.count_cons, List.count_nil, beq_iff_eq]
    by_cases ha : a = x
    · by_cases hb : b = x
      · have hc : c ≠ x := fun hc => h1 ⟨by rw [ha, hb], by rw [ha, hc]⟩
        have hd : d ≠ x := fun hd => h2 ⟨by rw [ha, hb], by rw [ha, hd]⟩
        rw [if_pos ha, if_pos hb, if_neg hc, if_neg hd]
        omega
      · by_cases hc : c = x
        · have hd : d ≠ x := fun hd => h3 ⟨by rw [ha, hc], by rw [ha, hd]⟩
          rw [if_pos ha, if_neg hb, if_pos hc, if_neg hd]
          omega
        · rw [if_pos ha, if_neg hb, if_neg hc]
          split_ifs <;> omega
    · by_cases hb : b = x
      · by_cases hc : c = x
        · have hd : d ≠ x := fun hd => h4 ⟨by rw [hb, hc], by rw [hb, hd]⟩
          rw [if_neg ha, if_pos hb, if_pos hc, if_neg hd]
          omega
        · rw [if_neg ha, if_pos hb, if_neg hc]
          split_ifs <;> omega
      · rw [if_neg ha, if_neg hb]
        split_ifs <;> omega

theorem cornerTouchesCenter_false (cube : List Nat) (k : Nat) :
    cornerTouchesCenter cube k = false ↔ ∀ j, j < 3 →
      ColorOf (cube.getD (tab2 corners k j) 0) ≠ ColorOf (tab2 corners k j) := by
  unfold cornerTouchesCenter
  simp only [Bool.or_eq_false_iff, beq_eq_false_iff_ne, ne_eq]
  constructor
  · rintro ⟨⟨h0, h1⟩, h2⟩ j hj
    interval_cases j
    · exact h0
    · exact h1
    · exact h2
  · intro h
    exact ⟨⟨h 0 (by decide), h 1 (by decide)⟩, h 2 (by decide)⟩

theorem threeSameColor_false (cube : List Nat) (i : Nat) :
    threeSameColor cube i = false ↔
      ¬ (ColorOf (cube.getD (tab2 corner_count_checks i 0) 0) =
          ColorOf (cube.getD (tab2 corner_count_checks i 1) 0) ∧
        ColorOf (cube.getD (tab2 corner_count_checks i 0) 0) =
          ColorOf (cube.getD (tab2 corner_count_checks i 2) 0)) := by
  unfold threeSameColor
  simp only [Bool.and_eq_false_iff, beq_eq_false_iff_ne, ne_eq]
  tauto

theorem cornerThreeSame_false (cube : List Nat) :
    (∀ k, k < 8 → cornerThreeSame cube k = false) ↔ ∀ i, i < 24 → threeSameColor cube i = false := by
  constructor
  · intro h i hi
    obtain ⟨n, hn, h1, h2⟩ := corner_check_window i hi
    have := h n hn
    unfold cornerThreeSame at this
    rw [List.any_eq_false] at this
    have := this i (List.mem_range'_1.2 ⟨h1, by omega⟩)
    simpa using this
  · intro h k hk
    unfold cornerThreeSame
    rw [List.any_eq_false]
    intro i hi
    rw [List.mem_range'_1] at hi
    have := (corner_check_cells k hk i hi.1 (by omega)).1
    rw [h i this]
    simp

/-- On a cube with the centres in place the first check passes for all slots exactly when no
corner sticker has the colour of the centre of its face. -/
theorem cornerTouches_iff (cube : List Nat)
    (hcentres : ∀ f, f < 6 → cube.getD (9 * f + 4) 0 = initialCornerCube.getD (9 * f + 4) 0) :
    (∀ k, k < 8 → cornerTouchesCenter cube k = false) ↔ NoCornerCentreMatch cube := by
  obtain ⟨hc1, hc2, hc3⟩ := corner_cells_of_faces
  constructor
  · intro h f hf c hc
    unfold faceCornerColors at hc
    obtain ⟨s, hs, rfl⟩ := List.mem_map.1 hc
    obtain ⟨k, hk, j, hj, hcell, hcol⟩ := hc2 f hf s hs
    have := (cornerTouchesCenter_false cube k).1 (h k hk) j hj
    rw [hcentres f hf, hc3 f hf]
    rw [hcell] at this
    rw [hcell] at hcol
    rwa [hcol] at this
  · intro h k hk
    rw [cornerTouchesCenter_false]
    intro j hj
    obtain ⟨f, hf, s, hs, hcell, hcol⟩ := hc1 k hk j hj
    have := h f hf (ColorOf (cube.getD (9 * f + s) 0))
      (List.mem_map.2 ⟨s, hs, rfl⟩)
    rw [hcentres f hf, hc3 f hf] at this
    rw [hcol, hcell]
    exact this

/-- The checks of the windows of all slots pass exactly when on no face three of the four
corner cells share a colour. -/
theorem cornerThree_iff (cube : List Nat) :
    (∀ k, k < 8 → cornerThreeSame cube k = false) ↔ NoThreeCornersSame cube := by
  obtain ⟨hk1, hk2⟩ := corner_checks_of_faces
  rw [cornerThreeSame_false]
  have hcount : ∀ f, (∀ c, (faceCornerColors cube f).count c < 3) ↔
      (¬ (ColorOf (cube.getD (9 * f + 0) 0) = ColorOf (cube.getD (9 * f + 2) 0) ∧
          ColorOf (cube.getD (9 * f + 0) 0) = ColorOf (cube.getD (9 * f + 6) 0)) ∧
        ¬ (ColorOf (cube.getD (9 * f + 0) 0) = ColorOf (cube.getD (9 * f + 2) 0) ∧
          ColorOf (cube.getD (9 * f + 0) 0) = ColorOf (cube.getD (9 * f + 8) 0)) ∧
        ¬ (ColorOf (cube.getD (9 * f + 0) 0) = ColorOf (cube.getD (9 * f + 6) 0) ∧
          ColorOf (cube.getD (9 * f + 0) 0) = ColorOf (cube.getD (9 * f + 8) 0)) ∧
        ¬ (ColorOf (cube.getD (9 * f + 2) 0) = ColorOf (cube.getD (9 * f + 6) 0) ∧
          ColorOf (cube.getD (9 * f + 2) 0) = ColorOf (cube.getD (9 * f + 8) 0))) := by
    intro f
    exact count_lt_three_iff _ _ _ _
  constructor
  · intro h f hf
    rw [hcount f]
    have key : ∀ t, t ∈ [[0, 2, 6], [0, 2, 8], [0, 6, 8], [2, 6, 8]] →
        ¬ (ColorOf (cube.getD (9 * f + t.getD 0 0) 0) =
            ColorOf (cube.getD (9 * f + t.getD 1 0) 0) ∧
          ColorOf (cube.getD (9 * f + t.getD 0 0) 0) =
            ColorOf (cube.getD (9 * f + t.getD 2 0) 0)) := by
      intro t ht
      obtain ⟨i, hi, e0, e1, e2⟩ := hk2 f hf t ht
      have := (threeSameColor_false cube i).1 (h i hi)
      rwa [e0, e1, e2] at this
    exact ⟨key [0, 2, 6] (by simp), key [0, 2, 8] (by simp), key [0, 6, 8] (by simp),
      key [2, 6, 8] (by simp)⟩
  · intro h i hi
    rw [threeSameColor_false]
    obtain ⟨f, hf, t, ht, e0, e1, e2⟩ := hk1 i hi
    rw [e0, e1, e2]
    obtain ⟨h1, h2, h3, h4⟩ := (hcount f).1 (h f hf)
    simp only [List.mem_cons, List.mem_singleton, List.not_mem_nil, or_false] at ht
    rcases ht with rfl | rfl | rfl | rfl
    · exact h1
    · exact h2
    · exact h3
    · exact h4

/-- On a cube with the centres in place the checks of all slots pass exactly when the two
corner constraints of the specification hold. -/
theorem cornerLocalOK_iff (cube : List Nat)
    (hcentres : ∀ f, f < 6 → cube.getD (9 * f + 4) 0 = initialCornerCube.getD (9 * f + 4) 0) :
    (∀ k, k < 8 → cornerLocalOK cube k) ↔ (NoCornerCentreMatch cube ∧ NoThreeCornersSame cube) := by
  unfold cornerLocalOK
  rw [← cornerTouches_iff cube hcentres, ← cornerThree_iff cube]
  constructor
  · intro h
    exact ⟨fun k hk => (h k hk).1, fun k hk => (h k hk).2⟩
  · rintro ⟨h1, h2⟩ k hk
    exact ⟨h1 k hk, h2 k hk⟩

theorem cornerCube_centres (P T : List Nat) (f : Nat) (hf : f < 6) :
    (cornerCube P T).getD (9 * f + 4) 0 = initialCornerCube.getD (9 * f + 4) 0 :=
  (cornerCubeInv_cornerCube P T).2.1 (9 * f + 4) (by omega) (Or.inr (by omega))

/-- A placement is valid exactly when its orientations add up to a multiple of three and its
cube satisfies the two corner constraints of the specification. -/
theorem validCornerPlacement_iff (π : Equiv.Perm (Fin 8)) (T : List Nat) :
    ValidCornerPlacement π T ↔ (T.length = 8 ∧ (∀ k, k < 8 → T.getD k 0 < 3) ∧ T.sum % 3 = 0 ∧
      NoCornerCentreMatch (cornerCube (cornerPermList π) T) ∧
      NoThreeCornersSame (cornerCube (cornerPermList π) T)) := by
  unfold ValidCornerPlacement
  rw [cornerLocalOK_iff _ (cornerCube_centres _ _)]

/-! ## A bound for the number of stores -/

theorem corner_placement_card :
    Fintype.card (Equiv.Perm (Fin 8) × (Fin 8 → Fin 3)) = CORNER_PLACEMENT_BOUND := by
  rw [Fintype.card_prod, Fintype.card_perm, Fintype.card_fun, Fintype.card_fin, Fintype.card_fin]
  unfold CORNER_PLACEMENT_BOUND
  norm_num [Nat.factorial]

theorem validStores_length (L : List (List Nat × Nat)) (hnd : L.Nodup)
    (hv : ∀ x, x ∈ L → ValidStore x) : L.length ≤ CORNER_PLACEMENT_BOUND := by
  rw [← corner_placement_card]
  have hex : ∀ i : Fin L.length, ∃ p : Equiv.Perm (Fin 8) × (Fin 8 → Fin 3),
      L.get i = (cornerCube (cornerPermList p.1) (List.ofFn (fun k => (p.2 k).val)),
        parityBit p.1) := by
    intro i
    obtain ⟨π, T, hval, hxe⟩ := hv (L.get i) (List.get_mem L i.val i.isLt)
    refine ⟨(π, fun k => ⟨T.getD k.val 0, hval.2.1 k.val k.isLt⟩), ?_⟩
    have : List.ofFn (fun k : Fin 8 => T.getD k.val 0) = T := by
      apply list_ext_getD _ _ (by simp [hval.1])
      intro j hj
      rw [List.length_ofFn] at hj
      rw [List.getD_eq_getElem _ _ (by simpa using hj), List.getElem_ofFn]
    rw [hxe]
    simp only [this]
  have hinj : Function.Injective (fun i : Fin L.length => Classical.choose (hex i)) := by
    intro i j hij
    have hi := Classical.choose_spec (hex i)
    have hj := Classical.choose_spec (hex j)
    simp only at hij
    rw [hij, ← hj] at hi
    exact (List.Nodup.get_inj_iff hnd).1 hi
  have := Fintype.card_le_of_injective _ hinj
  rwa [Fintype.card_fin] at this

theorem cornerRoom_of_large (capE capO : Nat) (hE : CORNER_PLACEMENT_BOUND ≤ capE)
    (hO : CORNER_PLACEMENT_BOUND ≤ capO) : CornerRoom capE capO := by
  intro L hnd hv
  have hlen := validStores_length L hnd hv
  have h1 : (evenStores L).length ≤ L.length := by
    unfold evenStores
    rw [List.length_map]
    exact List.length_filter_le _ _
  have h2 : (oddStores L).length ≤ L.length := by
    unfold oddStores
    rw [List.length_map]
    exact List.length_filter_le _ _
  exact ⟨by omega, by omega⟩

/-! ## The claims on the corner enumeration -/

theorem mem_storedCubes (arr : List CornerArrangement) (n : Nat) (cube : List Nat) :
    cube ∈ storedCubes arr n ↔ ∃ i, i < n ∧ (arr.getD i zeroArrangement).arrangement = cube := by
  unfold storedCubes storedPrefix
  rw [List.map_map, List.mem_map]
  constructor
  · rintro ⟨i, hi, h⟩
    exact ⟨i, List.mem_range.1 hi, h⟩
  · rintro ⟨i, hi, h⟩
    exact ⟨i, List.mem_range.2 hi, h⟩

theorem mem_evenStores_valid (L : List (List Nat × Nat)) (hmem : ∀ x, x ∈ L ↔ ValidStore x)
    (cube : List Nat) :
    cube ∈ evenStores L ↔ ∃ (π : Equiv.Perm (Fin 8)) (T : List Nat), ValidCornerPlacement π T ∧
      cube = cornerCube (cornerPermList π) T ∧ parityBit π = 0 := by
  rw [mem_evenStores]
  constructor
  · rintro ⟨p, hp, hp0⟩
    obtain ⟨π, T, hv, hx⟩ := (hmem _).1 hp
    rw [Prod.mk.injEq] at hx
    exact ⟨π, T, hv, hx.1, by rw [← hx.2]; exact hp0⟩
  · rintro ⟨π, T, hv, hc, hp⟩
    refine ⟨0, (hmem _).2 ⟨π, T, hv, ?_⟩, rfl⟩
    rw [hc, hp]

theorem mem_oddStores_valid (L : List (List Nat × Nat)) (hmem : ∀ x, x ∈ L ↔ ValidStore x)
    (cube : List Nat) :
    cube ∈ oddStores L ↔ ∃ (π : Equiv.Perm (Fin 8)) (T : List Nat), ValidCornerPlacement π T ∧
      cube = cornerCube (cornerPermList π) T ∧ parityBit π = 1 := by
  rw [mem_oddStores]
  constructor
  · rintro ⟨p, hp, hp0⟩
    obtain ⟨π, T, hv, hx⟩ := (hmem _).1 hp
    rw [Prod.mk.injEq] at hx
    refine ⟨π, T, hv, hx.1, ?_⟩
    have := parityBit_lt π
    have h2 := hx.2
    omega
  · rintro ⟨π, T, hv, hc, hp⟩
    refine ⟨1, (hmem _).2 ⟨π, T, hv, ?_⟩, by decide⟩
    rw [hc, hp]

theorem mem_storedCubes_final {arr : List CornerArrangement} {n : Nat} {cubes : List (List Nat)}
    (h : FinalArr arr n cubes) (cube : List Nat) : cube ∈ storedCubes arr n ↔ cube ∈ cubes :=
  h.perm.mem_iff

theorem countP_eq_one_of_mem {α : Type} [DecidableEq α] (a : α) : ∀ (l : List α), l.Nodup →
    a ∈ l → l.countP (fun c => decide (c = a)) = 1 := by
  intro l
  induction l with
  | nil => intro _ h; exact absurd h (List.not_mem_nil _)
  | cons b l ih =>
    intro hnd h
    obtain ⟨hb, hl⟩ := List.nodup_cons.1 hnd
    by_cases hab : b = a
    · rw [List.countP_cons_of_pos _ _ (by simpa using hab)]
      have : l.countP (fun c => decide (c = a)) = 0 := by
        rw [List.countP_eq_zero]
        intro c hc hca
        have : c = a := by simpa using hca
        rw [this, ← hab] at hc
        exact hb hc
      rw [this]
    · rw [List.countP_cons_of_neg _ _ (by simpa using hab)]
      rcases List.mem_cons.1 h with h1 | h1
      · exact absurd h1.symm hab
      · exact ih hl h1

/-- The solved corners with the cubies of two slots exchanged: six corner cubies are at home,
and their stickers have the colours of the centres of their faces. -/
theorem exchanged_corners_match (a b : Fin 8) :
    ¬ NoCornerCentreMatch (cornerCube (cornerPermList (Equiv.swap a b)) (List.replicate 8 0)) := by
  intro h
  have hex : ∀ a b : Fin 8, ∃ k : Fin 8, k ≠ a ∧ k ≠ b := by decide
  obtain ⟨k, hka, hkb⟩ := hex a b
  have htouch := (cornerTouches_iff _ (cornerCube_centres _ _)).2 h k.val k.isLt
  have hcell := (cornerCubeInv_cornerCube (cornerPermList (Equiv.swap a b))
    (List.replicate 8 0)).2.2 k.val k.isLt 0 (by decide)
  rw [cornerPermList_getD _ k.val k.isLt] at hcell
  have hk : (Equiv.swap a b) ⟨k.val, k.isLt⟩ = k := Equiv.swap_apply_of_ne_of_ne hka hkb
  have hT : (List.replicate 8 0).getD k.val 0 = 0 := by
    have : ∀ i, i < 8 → (List.replicate 8 0).getD i 0 = 0 := by decide
    exact this k.val k.isLt
  rw [hk, hT] at hcell
  have := (cornerTouchesCenter_false _ k.val).1 htouch 0 (by decide)
  rw [hcell] at this
  exact this rfl

/-- C13: every arrangement that `CreateCornerArrangements` stores, in either array, satisfies
both corner constraints: no corner sticker has the colour of the centre of the face it sits on,
and on no face do three of the four corner cells share a colour. In particular the solved
cube with two corner cubies exchanged, which violates the first constraint, is in neither
array. (The arrays have `capE` and `capO` entries, enough for the enumeration.) -/
theorem C13_stored_corners_satisfy_constraints (capE capO : Nat) (hE : capE < 2147483648)
    (hO : capO < 2147483648) (hroom : CornerRoom capE capO) :
    ∃ g, CreateCornerArrangements capE capO = some g ∧
      (∀ cube, (cube ∈ storedCubes g.ep_corner_arrangements g.ep_corner_arrangement_count ∨
          cube ∈ storedCubes g.op_corner_arrangements g.op_corner_arrangement_count) →
        NoCornerCentreMatch cube ∧ NoThreeCornersSame cube) ∧
      (∀ a b : Fin 8, a ≠ b →
        ¬ NoCornerCentreMatch
          (cornerCube (cornerPermList (Equiv.swap a b)) (List.replicate 8 0)) ∧
        cornerCube (cornerPermList (Equiv.swap a b)) (List.replicate 8 0) ∉
          storedCubes g.ep_corner_arrangements g.ep_corner_arrangement_count ∧
        cornerCube (cornerPermList (Equiv.swap a b)) (List.replicate 8 0) ∉
          storedCubes g.op_corner_arrangements g.op_corner_arrangement_count) := by
  obtain ⟨g, L, hg, _, hmem, _, _, _, _, _, hfE, hfO⟩ :=
    createCornerArrangements_spec capE capO hE hO hroom
  have hall : ∀ cube, (cube ∈ storedCubes g.ep_corner_arrangements g.ep_corner_arrangement_count ∨
      cube ∈ storedCubes g.op_corner_arrangements g.op_corner_arrangement_count) →
      NoCornerCentreMatch cube ∧ NoThreeCornersSame cube := by
    intro cube hc
    have hv : ∃ (π : Equiv.Perm (Fin 8)) (T : List Nat), ValidCornerPlacement π T ∧
        cube = cornerCube (cornerPermList π) T := by
      rcases hc with hc | hc
      · obtain ⟨π, T, hv, hcube, _⟩ :=
          (mem_evenStores_valid L hmem cube).1 ((mem_storedCubes_final hfE cube).1 hc)
        exact ⟨π, T, hv, hcube⟩
      · obtain ⟨π, T, hv, hcube, _⟩ :=
          (mem_oddStores_valid L hmem cube).1 ((mem_storedCubes_final hfO cube).1 hc)
        exact ⟨π, T, hv, hcube⟩
    obtain ⟨π, T, hv, hcube⟩ := hv
    rw [hcube]
    exact ((validCornerPlacement_iff π T).1 hv).2.2.2
  refine ⟨g, hg, hall, fun a b _ => ⟨exchanged_corners_match a b, fun h => ?_, fun h => ?_⟩⟩
  · exact exchanged_corners_match a b (hall _ (Or.inl h)).1
  · exact exchanged_corners_match a b (hall _ (Or.inr h)).1

theorem C13_witness : CornerRoom CORNER_PLACEMENT_BOUND CORNER_PLACEMENT_BOUND ∧
    ∃ g, CreateCornerArrangements CORNER_PLACEMENT_BOUND CORNER_PLACEMENT_BOUND = some g ∧
      (∀ cube, (cube ∈ storedCubes g.ep_corner_arrangements g.ep_corner_arrangement_count ∨
          cube ∈ storedCubes g.op_corner_arrangements g.op_corner_arrangement_count) →
        NoCornerCentreMatch cube ∧ NoThreeCornersSame cube) ∧
      (∀ a b : Fin 8, a ≠ b →
        ¬ NoCornerCentreMatch
          (cornerCube (cornerPermList (Equiv.swap a b)) (List.replicate 8 0)) ∧
        cornerCube (cornerPermList (Equiv.swap a b)) (List.replicate 8 0) ∉
          storedCubes g.ep_corner_arrangements g.ep_corner_arrangement_count ∧
        cornerCube (cornerPermList (Equiv.swap a b)) (List.replicate 8 0) ∉
          storedCubes g.op_corner_arrangements g.op_corner_arrangement_count) :=
  ⟨cornerRoom_of_large _ _ (le_refl _) (le_refl _),
    C13_stored_corners_satisfy_constraints CORNER_PLACEMENT_BOUND CORNER_PLACEMENT_BOUND
      (by decide) (by decide) (cornerRoom_of_large _ _ (le_refl _) (le_refl _))⟩

/-- C14: for every permutation `π` of the eight corner cubies and all orientations `T` in
`0..2` whose sum is a multiple of three, if the cube of the placement has no corner sticker of
the colour of its centre and no three corner cells of one colour on a face, then
`CreateCornerArrangements` stores the cube exactly once: the numbers of its occurrences in the
two arrays (`countP` counts the entries equal to it) add up to one. The checks made slot by slot over the windows of
`corner_count_checks` all pass on such a placement. (The arrays have `capE` and `capO` entries,
enough for the enumeration.) -/
theorem C14_valid_corners_stored_once (capE capO : Nat) (hE : capE < 2147483648)
    (hO : capO < 2147483648) (hroom : CornerRoom capE capO) :
    ∃ g, CreateCornerArrangements capE capO = some g ∧
      ∀ (π : Equiv.Perm (Fin 8)) (T : List Nat), T.length = 8 → (∀ k, k < 8 → T.getD k 0 < 3) →
        T.sum % 3 = 0 → NoCornerCentreMatch (cornerCube (cornerPermList π) T) →
        NoThreeCornersSame (cornerCube (cornerPermList π) T) →
        (storedCubes g.ep_corner_arrangements g.ep_corner_arrangement_count).countP
            (fun c => decide (c = cornerCube (cornerPermList π) T)) +
          (storedCubes g.op_corner_arrangements g.op_corner_arrangement_count).countP
            (fun c => decide (c = cornerCube (cornerPermList π) T)) = 1 ∧
        ∀ k, k < 8 → cornerLocalOK (cornerCube (cornerPermList π) T) k := by
  obtain ⟨g, L, hg, hnd, hmem, _, _, _, _, _, hfE, hfO⟩ :=
    createCornerArrangements_spec capE capO hE hO hroom
  refine ⟨g, hg, fun π T hT hb hs h1 h2 => ?_⟩
  have hv : ValidCornerPlacement π T := (validCornerPlacement_iff π T).2 ⟨hT, hb, hs, h1, h2⟩
  refine ⟨?_, hv.2.2.2⟩
  have hnd2 := stores_nodup L hnd (fun x hx => (hmem x).1 hx)
  have hin : cornerCube (cornerPermList π) T ∈ evenStores L ++ oddStores L := by
    rw [List.mem_append]
    by_cases hp : parityBit π = 0
    · exact Or.inl ((mem_evenStores_valid L hmem _).2 ⟨π, T, hv, rfl, hp⟩)
    · refine Or.inr ((mem_oddStores_valid L hmem _).2 ⟨π, T, hv, rfl, ?_⟩)
      have := parityBit_lt π
      omega
  have hcount := countP_eq_one_of_mem _ _ hnd2 hin
  rw [List.countP_append] at hcount
  have e1 : (storedCubes g.ep_corner_arrangements g.ep_corner_arrangement_count).countP
      (fun c => decide (c = cornerCube (cornerPermList π) T)) =
      (evenStores L).countP (fun c => decide (c = cornerCube (cornerPermList π) T)) :=
    hfE.perm.countP_eq _
  have e2 : (storedCubes g.op_corner_arrangements g.op_corner_arrangement_count).countP
      (fun c => decide (c = cornerCube (cornerPermList π) T)) =
      (oddStores L).countP (fun c => decide (c = cornerCube (cornerPermList π) T)) :=
    hfO.perm.countP_eq _
  rw [e1, e2]
  exact hcount

theorem C14_witness : CornerRoom CORNER_PLACEMENT_BOUND CORNER_PLACEMENT_BOUND ∧
    ∃ g, CreateCornerArrangements CORNER_PLACEMENT_BOUND CORNER_PLACEMENT_BOUND = some g ∧
      ∀ (π : Equiv.Perm (Fin 8)) (T : List Nat), T.length = 8 → (∀ k, k < 8 → T.getD k 0 < 3) →
        T.sum % 3 = 0 → NoCornerCentreMatch (cornerCube (cornerPermList π) T) →
        NoThreeCornersSame (cornerCube (cornerPermList π) T) →
        (storedCubes g.ep_corner_arrangements g.ep_corner_arrangement_count).countP
            (fun c => decide (c = cornerCube (cornerPermList π) T)) +
          (storedCubes g.op_corner_arrangements g.op_corner_arrangement_count).countP
            (fun c => decide (c = cornerCube (cornerPermList π) T)) = 1 ∧
        ∀ k, k < 8 → cornerLocalOK (cornerCube (cornerPermList π) T) k :=
  ⟨cornerRoom_of_large _ _ (le_refl _) (le_refl _),
    C14_valid_corners_stored_once CORNER_PLACEMENT_BOUND CORNER_PLACEMENT_BOUND
      (by decide) (by decide) (cornerRoom_of_large _ _ (le_refl _) (le_refl _))⟩

theorem cornerPermOf_cornerCube (π : Equiv.Perm (Fin 8)) (T : List Nat) :
    CornerPermOf (cornerCube (cornerPermList π) T) π := by
  intro k
  refine ⟨T.getD k.val 0 % 3, Nat.mod_lt _ (by decide), fun j hj => ?_⟩
  rw [(cornerCubeInv_cornerCube (cornerPermList π) T).2.2 k.val k.isLt j hj,
    cornerPermList_getD π k.val k.isLt]
  congr 1
  omega

theorem parityBit_eq_zero_iff {n : Nat} (π : Equiv.Perm (Fin n)) :
    parityBit π = 0 ↔ Equiv.Perm.sign π = 1 := by
  unfold parityBit
  split_ifs with h
  · exact ⟨fun _ => h, fun _ => rfl⟩
  · exact ⟨fun h1 => absurd h1 (by decide), fun h1 => absurd h1 h⟩

theorem parityBit_eq_one_iff {n : Nat} (π : Equiv.Perm (Fin n)) :
    parityBit π = 1 ↔ Equiv.Perm.sign π = -1 := by
  unfold parityBit
  rcases Int.units_eq_one_or (Equiv.Perm.sign π) with h | h <;> rw [h] <;> decide

/-- The cube of a placement determines the placement. -/
theorem cornerCube_cells_unique (π π2 : Equiv.Perm (Fin 8)) (T T2 : List Nat) (hT : T.length = 8)
    (hb : ∀ k, k < 8 → T.getD k 0 < 3) (hT2 : T2.length = 8) (hb2 : ∀ k, k < 8 → T2.getD k 0 < 3)
    (hcells : ∀ k : Fin 8, ∀ j, j < 3 →
      (cornerCube (cornerPermList π) T).getD (tab2 corners k.val j) 0 =
        tab2 corners (π2 k).val ((j + T2.getD k.val 0) % 3)) : π2 = π ∧ T2 = T := by
  have hinv := cornerCubeInv_cornerCube (cornerPermList π) T
  have hinv2 : CornerCubeInv 8 (cornerPermList π2) T2 (cornerCube (cornerPermList π) T) :=
    ⟨hinv.1, hinv.2.1, fun k hk j hj => by
      rw [cornerPermList_getD π2 k hk]
      exact hcells ⟨k, hk⟩ j hj⟩
  have := cornerCubeInv_unique hinv2 (cornerCubeInv_cornerCube (cornerPermList π2) T2)
  obtain ⟨h1, h2⟩ := cornerPlacement_inj hT hT2 hb hb2 this
  exact ⟨h1.symm, h2.symm⟩

theorem last_orientation (T : List Nat) (hT : T.length = 8) (hb : T.getD 7 0 < 3)
    (hs : T.sum % 3 = 0) : T.getD 7 0 = (3 - (T.take 7).sum % 3) % 3 := by
  have h1 := sum_take_succ T 7 (by omega)
  have h2 : T.take (7 + 1) = T := List.take_of_length_le (by omega)
  rw [h2] at h1
  omega

theorem placeLastCornerPiece_cube (st st2 : CornerState) (sp rp : Nat)
    (h : PlaceLastCornerPiece 7 st sp rp = some st2) :
    st2.cube = placeCorner st.cube 7 (st.pieces.getD 7 0) ((3 - rp) % 3) := by
  unfold PlaceLastCornerPiece at h
  simp only at h
  split_ifs at h
  · rw [← Option.some.inj h]
  · rw [← Option.some.inj h]
  · cases hs : storeByParity (placeCorner st.cube 7 (st.pieces.getD 7 0) ((3 - rp) % 3)) sp
      st.globals with
    | none => rw [hs] at h; exact absurd h (by simp)
    | some g =>
      rw [hs] at h
      rw [← Option.some.inj h]

/-- C15: every arrangement that `CreateCornerArrangements` stores is the cube of exactly one
placement `(π, T)`, where the orientation `T[k]` of the slot `k` holding the cubie `π k` is
the `o` with `cube[corners[k][j]] = corners[π k][(j + o) mod 3]`, and the sum of its
orientations is a multiple of three; the orientation of the last slot is
`(3 - rotation_parity) mod 3` for the sum `rotation_parity` of the other orientations mod 3,
which is what `PlaceLastCornerPiece` places: 0, 2, 1 for `rotation_parity` 0, 1, 2. (The
arrays have `capE` and `capO` entries, enough for the enumeration.) -/
theorem C15_stored_orientation_sum (capE capO : Nat) (hE : capE < 2147483648)
    (hO : capO < 2147483648) (hroom : CornerRoom capE capO) :
    (∃ g, CreateCornerArrangements capE capO = some g ∧
      ∀ cube, (cube ∈ storedCubes g.ep_corner_arrangements g.ep_corner_arrangement_count ∨
          cube ∈ storedCubes g.op_corner_arrangements g.op_corner_arrangement_count) →
        ∃ (π : Equiv.Perm (Fin 8)) (T : List Nat), T.length = 8 ∧ (∀ k, k < 8 → T.getD k 0 < 3) ∧
          (∀ k : Fin 8, ∀ j, j < 3 → cube.getD (tab2 corners k.val j) 0 =
            tab2 corners (π k).val ((j + T.getD k.val 0) % 3)) ∧
          (∀ (π2 : Equiv.Perm (Fin 8)) (T2 : List Nat), T2.length = 8 →
            (∀ k, k < 8 → T2.getD k 0 < 3) →
            (∀ k : Fin 8, ∀ j, j < 3 → cube.getD (tab2 corners k.val j) 0 =
              tab2 corners (π2 k).val ((j + T2.getD k.val 0) % 3)) → π2 = π ∧ T2 = T) ∧
          T.sum % 3 = 0 ∧ T.getD 7 0 = (3 - (T.take 7).sum % 3) % 3) ∧
    (∀ (st st2 : CornerState) (sp rp : Nat), st.cube.length = 54 →
      PlaceLastCornerPiece 7 st sp rp = some st2 → ∀ j, j < 3 →
        st2.cube.getD (tab2 corners 7 j) 0 =
          tab2 corners (st.pieces.getD 7 0) ((j + (3 - rp) % 3) % 3)) ∧
    ((3 - 0) % 3 = 0 ∧ (3 - 1) % 3 = 2 ∧ (3 - 2) % 3 = 1) := by
  obtain ⟨g, L, hg, _, hmem, _, _, _, _, _, hfE, hfO⟩ :=
    createCornerArrangements_spec capE capO hE hO hroom
  refine ⟨⟨g, hg, fun cube hc => ?_⟩, fun st st2 sp rp hlen h j hj => ?_, by decide⟩
  · have hv : ∃ (π : Equiv.Perm (Fin 8)) (T : List Nat), ValidCornerPlacement π T ∧
        cube = cornerCube (cornerPermList π) T := by
      rcases hc with hc | hc
      · obtain ⟨π, T, hv, hcube, _⟩ :=
          (mem_evenStores_valid L hmem cube).1 ((mem_storedCubes_final hfE cube).1 hc)
        exact ⟨π, T, hv, hcube⟩
      · obtain ⟨π, T, hv, hcube, _⟩ :=
          (mem_oddStores_valid L hmem cube).1 ((mem_storedCubes_final hfO cube).1 hc)
        exact ⟨π, T, hv, hcube⟩
    obtain ⟨π, T, hv, hcube⟩ := hv
    refine ⟨π, T, hv.1, hv.2.1, fun k j hj => ?_, fun π2 T2 hT2 hb2 hcells => ?_, hv.2.2.1,
      last_orientation T hv.1 (hv.2.1 7 (by decide)) hv.2.2.1⟩
    · rw [hcube, (cornerCubeInv_cornerCube (cornerPermList π) T).2.2 k.val k.isLt j hj,
        cornerPermList_getD π k.val k.isLt]
    · rw [hcube] at hcells
      exact cornerCube_cells_unique π π2 T T2 hv.1 hv.2.1 hT2 hb2 hcells
  · rw [placeLastCornerPiece_cube st st2 sp rp h]
    exact placeCorner_getD_same _ _ _ _ _ hlen (by decide) hj

theorem C15_witness : CornerRoom CORNER_PLACEMENT_BOUND CORNER_PLACEMENT_BOUND ∧
    ∃ g, CreateCornerArrangements CORNER_PLACEMENT_BOUND CORNER_PLACEMENT_BOUND = some g ∧
      ∀ cube, (cube ∈ storedCubes g.ep_corner_arrangements g.ep_corner_arrangement_count ∨
          cube ∈ storedCubes g.op_corner_arrangements g.op_corner_arrangement_count) →
        ∃ (π : Equiv.Perm (Fin 8)) (T : List Nat), T.length = 8 ∧ (∀ k, k < 8 → T.getD k 0 < 3) ∧
          (∀ k : Fin 8, ∀ j, j < 3 → cube.getD (tab2 corners k.val j) 0 =
            tab2 corners (π k).val ((j + T.getD k.val 0) % 3)) ∧
          (∀ (π2 : Equiv.Perm (Fin 8)) (T2 : List Nat), T2.length = 8 →
            (∀ k, k < 8 → T2.getD k 0 < 3) →
            (∀ k : Fin 8, ∀ j, j < 3 → cube.getD (tab2 corners k.val j) 0 =
              tab2 corners (π2 k).val ((j + T2.getD k.val 0) % 3)) → π2 = π ∧ T2 = T) ∧
          T.sum % 3 = 0 ∧ T.getD 7 0 = (3 - (T.take 7).sum % 3) % 3 :=
  ⟨cornerRoom_of_large _ _ (le_refl _) (le_refl _),
    (C15_stored_orientation_sum CORNER_PLACEMENT_BOUND CORNER_PLACEMENT_BOUND
      (by decide) (by decide) (cornerRoom_of_large _ _ (le_refl _) (le_refl _))).1⟩

/-- C16: the calls of the storing block of `PlaceLastCornerPiece` that the enumeration makes
(the list `L`) pass a `swap_parity` that is the parity of the permutation of the cube stored,
0 for an even and 1 for an odd permutation; so every arrangement in
`ep_corner_arrangements` has an even permutation of the eight corner cubies and every one in
`op_corner_arrangements` an odd one, and the cube of a valid placement is in
`ep_corner_arrangements` if and only if its permutation is even and in
`op_corner_arrangements` if and only if it is odd. (The arrays have `capE` and `capO` entries,
enough for the enumeration.) -/
theorem C16_arrays_split_by_sign (capE capO : Nat) (hE : capE < 2147483648)
    (hO : capO < 2147483648) (hroom : CornerRoom capE capO) :
    ∃ (g : CornerGlobals) (L : List (List Nat × Nat)),
      CreateCornerArrangements capE capO = some g ∧
      (∃ cube2, ∀ g1, PlaceCornerPiece 8 ⟨[0, 1, 2, 3, 4, 5, 6, 7], initialCornerCube, g1⟩ 0 0 =
        (storeAll L g1).map (fun g2 => ⟨[0, 1, 2, 3, 4, 5, 6, 7], cube2, g2⟩)) ∧
      (∀ x, x ∈ L → ∃ π : Equiv.Perm (Fin 8), CornerPermOf x.1 π ∧ x.2 = parityBit π ∧
        (x.2 = 0 ↔ Equiv.Perm.sign π = 1)) ∧
      (∀ cube, cube ∈ storedCubes g.ep_corner_arrangements g.ep_corner_arrangement_count →
        ∃ π : Equiv.Perm (Fin 8), CornerPermOf cube π ∧ Equiv.Perm.sign π = 1) ∧
      (∀ cube, cube ∈ storedCubes g.op_corner_arrangements g.op_corner_arrangement_count →
        ∃ π : Equiv.Perm (Fin 8), CornerPermOf cube π ∧ Equiv.Perm.sign π = -1) ∧
      (∀ (π : Equiv.Perm (Fin 8)) (T : List Nat), ValidCornerPlacement π T →
        (cornerCube (cornerPermList π) T ∈
            storedCubes g.ep_corner_arrangements g.ep_corner_arrangement_count ↔
          Equiv.Perm.sign π = 1) ∧
        (cornerCube (cornerPermList π) T ∈
            storedCubes g.op_corner_arrangements g.op_corner_arrangement_count ↔
          Equiv.Perm.sign π = -1)) := by
  obtain ⟨g, L, hg, _, hmem, hrun, _, _, _, _, hfE, hfO⟩ :=
    createCornerArrangements_spec capE capO hE hO hroom
  refine ⟨g, L, hg, hrun, fun x hx => ?_, fun cube hc => ?_, fun cube hc => ?_,
    fun π T hv => ⟨?_, ?_⟩⟩
  · obtain ⟨π, T, _, hxe⟩ := (hmem x).1 hx
    have h12 : x.1 = cornerCube (cornerPermList π) T ∧ x.2 = parityBit π := by
      simpa only [Prod.ext_iff] using hxe
    refine ⟨π, ?_, h12.2, ?_⟩
    · rw [h12.1]
      exact cornerPermOf_cornerCube π T
    · rw [h12.2]
      exact parityBit_eq_zero_iff π
  · obtain ⟨π, T, _, hcube, hp⟩ :=
      (mem_evenStores_valid L hmem cube).1 ((mem_storedCubes_final hfE cube).1 hc)
    exact ⟨π, by rw [hcube]; exact cornerPermOf_cornerCube π T, (parityBit_eq_zero_iff π).1 hp⟩
  · obtain ⟨π, T, _, hcube, hp⟩ :=
      (mem_oddStores_valid L hmem cube).1 ((mem_storedCubes_final hfO cube).1 hc)
    exact ⟨π, by rw [hcube]; exact cornerPermOf_cornerCube π T, (parityBit_eq_one_iff π).1 hp⟩
  · rw [mem_storedCubes_final hfE, mem_evenStores_valid L hmem, ← parityBit_eq_zero_iff]
    constructor
    · rintro ⟨π2, T2, hv2, hcube, hp⟩
      obtain ⟨h1, _⟩ := cornerPlacement_inj hv.1 hv2.1 hv.2.1 hv2.2.1 hcube
      rw [h1]
      exact hp
    · intro hp
      exact ⟨π, T, hv, rfl, hp⟩
  · rw [mem_storedCubes_final hfO, mem_oddStores_valid L hmem, ← parityBit_eq_one_iff]
    constructor
    · rintro ⟨π2, T2, hv2, hcube, hp⟩
      obtain ⟨h1, _⟩ := cornerPlacement_inj hv.1 hv2.1 hv.2.1 hv2.2.1 hcube
      rw [h1]
      exact hp
    · intro hp
      exact ⟨π, T, hv, rfl, hp⟩

theorem C16_witness : CornerRoom CORNER_PLACEMENT_BOUND CORNER_PLACEMENT_BOUND ∧
    ∃ (g : CornerGlobals) (L : List (List Nat × Nat)),
      CreateCornerArrangements CORNER_PLACEMENT_BOUND CORNER_PLACEMENT_BOUND = some g ∧
      (∃ cube2, ∀ g1, PlaceCornerPiece 8 ⟨[0, 1, 2, 3, 4, 5, 6, 7], initialCornerCube, g1⟩ 0 0 =
        (storeAll L g1).map (fun g2 => ⟨[0, 1, 2, 3, 4, 5, 6, 7], cube2, g2⟩)) ∧
      (∀ x, x ∈ L → ∃ π : Equiv.Perm (Fin 8), CornerPermOf x.1 π ∧ x.2 = parityBit π ∧
        (x.2 = 0 ↔ Equiv.Perm.sign π = 1)) ∧
      (∀ cube, cube ∈ storedCubes g.ep_corner_arrangements g.ep_corner_arrangement_count →
        ∃ π : Equiv.Perm (Fin 8), CornerPermOf cube π ∧ Equiv.Perm.sign π = 1) ∧
      (∀ cube, cube ∈ storedCubes g.op_corner_arrangements g.op_corner_arrangement_count →
        ∃ π : Equiv.Perm (Fin 8), CornerPermOf cube π ∧ Equiv.Perm.sign π = -1) ∧
      (∀ (π : Equiv.Perm (Fin 8)) (T : List Nat), ValidCornerPlacement π T →
        (cornerCube (cornerPermList π) T ∈
            storedCubes g.ep_corner_arrangements g.ep_corner_arrangement_count ↔
          Equiv.Perm.sign π = 1) ∧
        (cornerCube (cornerPermList π) T ∈
            storedCubes g.op_corner_arrangements g.op_corner_arrangement_count ↔
          Equiv.Perm.sign π = -1)) :=
  ⟨cornerRoom_of_large _ _ (le_refl _) (le_refl _),
    C16_arrays_split_by_sign CORNER_PLACEMENT_BOUND CORNER_PLACEMENT_BOUND
      (by decide) (by decide) (cornerRoom_of_large _ _ (le_refl _) (le_refl _))⟩

theorem sortedPrefix_one (c : CornerArrangement) (rest : List CornerArrangement) :
    SortedPrefix (c :: rest) 1 := by
  intro i j hij hj
  have hj0 : j = 0 := by omega
  have hi0 : i = 0 := by omega
  rw [hi0, hj0, compareFaceIds_self]

/-- C17: `StoreCornerArrangement` preserves sortedness: on an array whose first `n` entries
are lexicographically non-decreasing by `faceIds` (and which has room for one more entry) it
returns an array whose first `n + 1` entries are lexicographically non-decreasing by
`faceIds`; they are the `n` old entries in their old order, those from the position `k` on
moved up by one, with the entry of the new cube at the position `k`. Hence the stored entries
of both arrays are sorted after `CreateCornerArrangements` (on arrays of `capE` and `capO`
entries, enough for the enumeration). -/
theorem C17_store_preserves_sortedness (cube : List Nat) (arr : List CornerArrangement) (n : Nat)
    (hroom : n < arr.length) (hs : SortedPrefix arr n) (capE capO : Nat)
    (hE : capE < 2147483648) (hO : capO < 2147483648) (hroom2 : CornerRoom capE capO) :
    (∃ k arr2, StoreCornerArrangement cube arr n = some arr2 ∧ k ≤ n ∧
      arr2.length = arr.length ∧ SortedPrefix arr2 (n + 1) ∧
      (∀ i, i < k → arr2.getD i zeroArrangement = arr.getD i zeroArrangement) ∧
      (arr2.getD k zeroArrangement).arrangement = cube ∧
      (arr2.getD k zeroArrangement).faceIds = (List.range CUBE_FACES).map (cornerFaceId cube) ∧
      (∀ i, k ≤ i → i < n → arr2.getD (i + 1) zeroArrangement = arr.getD i zeroArrangement) ∧
      (∀ i, n < i → arr2.getD i zeroArrangement = arr.getD i zeroArrangement)) ∧
    (∃ g, CreateCornerArrangements capE capO = some g ∧
      SortedPrefix g.ep_corner_arrangements g.ep_corner_arrangement_count ∧
      SortedPrefix g.op_corner_arrangements g.op_corner_arrangement_count) := by
  constructor
  · obtain ⟨k, arr2, hst, hk, hlen, hget, hsorted⟩ := storeCornerArrangement_spec cube arr n hroom
    refine ⟨k, arr2, hst, hk, hlen, hsorted hs, fun i hi => ?_, ?_, ?_, fun i h1 h2 => ?_,
      fun i hi => ?_⟩
    · rw [hget i, if_neg (by omega), if_neg (by omega)]
    · rw [hget k, if_pos rfl]
    · rw [hget k, if_pos rfl]
    · rw [hget (i + 1), if_neg (by omega), if_pos ⟨by omega, by omega⟩]
      rfl
    · rw [hget i, if_neg (by omega), if_neg (by omega)]
  · obtain ⟨g, L, hg, _, _, _, _, _, _, _, hfE, hfO⟩ :=
      createCornerArrangements_spec capE capO hE hO hroom2
    exact ⟨g, hg, hfE.sorted, hfO.sorted⟩

theorem C17_witness :
    (1 < [storedEntryOf sampleCorners, zeroArrangement].length ∧
      SortedPrefix [storedEntryOf sampleCorners, zeroArrangement] 1 ∧
      CornerRoom CORNER_PLACEMENT_BOUND CORNER_PLACEMENT_BOUND) ∧
    (∃ k arr2, StoreCornerArrangement sampleCorners
        [storedEntryOf sampleCorners, zeroArrangement] 1 = some arr2 ∧ k ≤ 1 ∧
      arr2.length = [storedEntryOf sampleCorners, zeroArrangement].length ∧
      SortedPrefix arr2 (1 + 1)) ∧
    (∃ g, CreateCornerArrangements CORNER_PLACEMENT_BOUND CORNER_PLACEMENT_BOUND = some g ∧
      SortedPrefix g.ep_corner_arrangements g.ep_corner_arrangement_count ∧
      SortedPrefix g.op_corner_arrangements g.op_corner_arrangement_count) := by
  have h := C17_store_preserves_sortedness sampleCorners
    [storedEntryOf sampleCorners, zeroArrangement] 1 (by decide) (sortedPrefix_one _ _)
    CORNER_PLACEMENT_BOUND CORNER_PLACEMENT_BOUND (by decide) (by decide)
    (cornerRoom_of_large _ _ (le_refl _) (le_refl _))
  obtain ⟨⟨k, arr2, h1, h2, h3, h4, _⟩, h5⟩ := h
  exact ⟨⟨by decide, sortedPrefix_one _ _, cornerRoom_of_large _ _ (le_refl _) (le_refl _)⟩,
    ⟨k, arr2, h1, h2, h3, h4⟩, h5⟩

/-! ## The cube that `RecordSolution` assembles -/

theorem cell_tables_cover :
    ((List.range 24).map (fun i => tab2 corners (i / 3) (i % 3)) ++
      (List.range 24).map (fun i => tab2 edges (i / 2) (i % 2)) ++
      (List.range 6).map (fun f => 9 * f + 4)).Nodup ∧
    ((List.range 24).map (fun i => tab2 corners (i / 3) (i % 3)) ++
      (List.range 24).map (fun i => tab2 edges (i / 2) (i % 2)) ++
      (List.range 6).map (fun f => 9 * f + 4)).length = 54 ∧
    ∀ x, x ∈ ((List.range 24).map (fun i => tab2 corners (i / 3) (i % 3)) ++
      (List.range 24).map (fun i => tab2 edges (i / 2) (i % 2)) ++
      (List.range 6).map (fun f => 9 * f + 4)) → x < 54 := by
  refine ⟨by decide!, by decide!, by decide!⟩

/-- A cube of 54 surfaces that holds a permutation of the edge cubies on its edge surfaces, a
permutation of the corner cubies on its corner surfaces and the centres in place holds every
sticker 0..53 once. -/
theorem cube_values_perm (R : List Nat) (hl : R.length = 54) (τ : Equiv.Perm (Fin 12))
    (π : Equiv.Perm (Fin 8)) (he : EdgePermOf R τ) (hc : CornerPermOf R π)
    (hcen : ∀ x, x < 54 → x % 9 = 4 → R.getD x 0 = x) : R.Perm (List.range 54) := by
  have hclass : ∀ x, x < 54 → (R.getD x 0 % 9 % 2 = 1 ↔ x % 9 % 2 = 1) ∧
      (R.getD x 0 % 9 = 4 ↔ x % 9 = 4) ∧ R.getD x 0 < 54 := by
    intro x hx
    by_cases hodd : x % 9 % 2 = 1
    · obtain ⟨k, hk, j, hj, rfl⟩ := edge_cell_surj x hx hodd
      obtain ⟨o, ho, h0, h1⟩ := he ⟨k, hk⟩
      have hv : ∃ j2, j2 < 2 ∧ R.getD (tab2 edges k j) 0 = tab2 edges (τ ⟨k, hk⟩).val j2 := by
        interval_cases j
        · exact ⟨o, ho, h0⟩
        · exact ⟨1 - o, by omega, h1⟩
      obtain ⟨j2, hj2, hv⟩ := hv
      rw [hv]
      have a := edge_cell_odd _ (τ ⟨k, hk⟩).isLt j2 hj2
      have b := edge_cell_lt _ (τ ⟨k, hk⟩).isLt j2 hj2
      have c := edge_cell_odd k hk j hj
      refine ⟨⟨fun _ => c, fun _ => a⟩, ⟨fun h => by omega, fun h => by omega⟩, b⟩
    · by_cases h4 : x % 9 = 4
      · rw [hcen x hx h4]
        exact ⟨Iff.rfl, Iff.rfl, hx⟩
      · obtain ⟨k, hk, j, hj, rfl⟩ := corner_cell_surj x hx (by omega) h4
        obtain ⟨t, _, ht⟩ := hc ⟨k, hk⟩
        rw [ht j hj]
        obtain ⟨_, a, b, c⟩ := corner_cell_facts _ (π ⟨k, hk⟩).isLt ((j + t) % 3)
          (Nat.mod_lt _ (by decide))
        refine ⟨⟨fun h => by omega, fun h => absurd h hodd⟩,
          ⟨fun h => absurd h c, fun h => absurd h h4⟩, a⟩
  have hinj : ∀ x, x < 54 → ∀ y, y < 54 → R.getD x 0 = R.getD y 0 → x = y := by
    intro x hx y hy hxy
    obtain ⟨cx1, cx2, _⟩ := hclass x hx
    obtain ⟨cy1, cy2, _⟩ := hclass y hy
    rw [hxy] at cx1 cx2
    by_cases hodd : x % 9 % 2 = 1
    · have hoddy : y % 9 % 2 = 1 := cy1.1 (cx1.2 hodd)
      obtain ⟨k, hk, j, hj, rfl⟩ := edge_cell_surj x hx hodd
      obtain ⟨k2, hk2, j2, hj2, rfl⟩ := edge_cell_surj y hy hoddy
      obtain ⟨o, ho, h0, h1⟩ := he ⟨k, hk⟩
      obtain ⟨o2, ho2, g0, g1⟩ := he ⟨k2, hk2⟩
      have hv : R.getD (tab2 edges k j) 0 =
          tab2 edges (τ ⟨k, hk⟩).val (if j = 0 then o else 1 - o) := by
        interval_cases j
        · exact h0
        · exact h1
      have hv2 : R.getD (tab2 edges k2 j2) 0 =
          tab2 edges (τ ⟨k2, hk2⟩).val (if j2 = 0 then o2 else 1 - o2) := by
        interval_cases j2
        · exact g0
        · exact g1
      rw [hv, hv2] at hxy
      have key := edge_cell_inj _ _ _ _ (τ ⟨k, hk⟩).isLt (by split_ifs <;> omega)
        (τ ⟨k2, hk2⟩).isLt (by split_ifs <;> omega) hxy
      have hkk : (⟨k, hk⟩ : Fin 12) = ⟨k2, hk2⟩ := τ.injective (Fin.ext key.1)
      have hkk2 : k = k2 := congrArg Fin.val hkk
      subst hkk2
      have hoo : o = o2 := by
        have a := edge_cell_inj _ _ _ _ (τ ⟨k, hk⟩).isLt ho (τ ⟨k, hk⟩).isLt ho2
          (h0.symm.trans g0)
        exact a.2
      have hjj : j = j2 := by
        have := key.2
        rw [hoo] at this
        split_ifs at this <;> omega
      rw [hjj]
    · have hoddy : ¬ y % 9 % 2 = 1 := fun h => hodd (cx1.1 (cy1.2 h))
      by_cases h4 : x % 9 = 4
      · have h4y : y % 9 = 4 := cy2.1 (cx2.2 h4)
        rw [hcen x hx h4, hcen y hy h4y] at hxy
        exact hxy
      · have h4y : ¬ y % 9 = 4 := fun h => h4 (cx2.1 (cy2.2 h))
        obtain ⟨k, hk, j, hj, rfl⟩ := corner_cell_surj x hx (by omega) h4
        obtain ⟨k2, hk2, j2, hj2, rfl⟩ := corner_cell_surj y hy (by omega) h4y
        obtain ⟨t, _, ht⟩ := hc ⟨k, hk⟩
        obtain ⟨t2, _, ht2⟩ := hc ⟨k2, hk2⟩
        rw [ht j hj, ht2 j2 hj2] at hxy
        have key := corner_cell_inj _ _ _ _ (π ⟨k, hk⟩).isLt (Nat.mod_lt _ (by decide))
          (π ⟨k2, hk2⟩).isLt (Nat.mod_lt _ (by decide)) hxy
        have hkk : (⟨k, hk⟩ : Fin 8) = ⟨k2, hk2⟩ := π.injective (Fin.ext key.1)
        have hkk2 : k = k2 := congrArg Fin.val hkk
        subst hkk2
        have htt : t = t2 := by
          have a := ht 0 (by decide)
          rw [ht2 0 (by decide)] at a
          have b := corner_cell_inj _ _ _ _ (π ⟨k, hk⟩).isLt (Nat.mod_lt _ (by decide))
            (π ⟨k, hk⟩).isLt (Nat.mod_lt _ (by decide)) a
          omega
        have hjj : j = j2 := by
          have := key.2
          rw [htt] at this
          omega
        rw [hjj]
  have hR : R = (List.range 54).map (fun i => R.getD i 0) := by
    apply list_ext_getD _ _ (by simp [hl])
    intro i hi
    rw [hl] at hi
    have : ((List.range 54).map (fun i => R.getD i 0)).getD i 0 = R.getD i 0 := by
      rw [List.getD_eq_getElem _ _ (by simpa using hi)]
      simp
    rw [this]
  have hnd : R.Nodup := by
    rw [hR]
    exact List.Nodup.map_on (fun x hx y hy h =>
      hinj x (List.mem_range.1 hx) y (List.mem_range.1 hy) h) (List.nodup_range 54)
  have hsub : R.toFinset ⊆ Finset.range 54 := by
    intro v hv
    rw [List.mem_toFinset, hR, List.mem_map] at hv
    obtain ⟨i, hi, rfl⟩ := hv
    exact Finset.mem_range.2 (hclass i (List.mem_range.1 hi)).2.2
  have heq : R.toFinset = Finset.range 54 :=
    Finset.eq_of_subset_of_card_le hsub (by
      rw [Finset.card_range, List.toFinset_card_of_nodup hnd, hl])
  refine (List.perm_ext_iff_of_nodup hnd (List.nodup_range 54)).2 (fun v => ?_)
  rw [← List.mem_toFinset, heq, Finset.mem_range, List.mem_range]

/-- The cube assembled from the edge cube of a placement and a stored corner arrangement. -/
theorem solutionCube_exact (τ : Equiv.Perm (Fin 12)) (O : List Nat)
    (hO : ∀ k, k < 12 → O.getD k 0 < 2) (c : CornerArrangement) (hc : StoredEntry c)
    (π : Equiv.Perm (Fin 8)) (hπ : CornerPermOf c.arrangement π) :
    (∀ k, k < 8 → ∀ j, j < 3 →
      (solutionCube (edgeCube (edgePermList τ) O) c.arrangement).getD (tab2 corners k j) 0 =
        c.arrangement.getD (tab2 corners k j) 0 ∧
      (edgeCube (edgePermList τ) O).getD (tab2 corners k j) 0 = 0) ∧
    (∀ k, k < 12 → ∀ j, j < 2 →
      (solutionCube (edgeCube (edgePermList τ) O) c.arrangement).getD (tab2 edges k j) 0 =
        (edgeCube (edgePermList τ) O).getD (tab2 edges k j) 0 ∧
      c.arrangement.getD (tab2 edges k j) 0 = 0) ∧
    (∀ f, f < 6 →
      (solutionCube (edgeCube (edgePermList τ) O) c.arrangement).getD (9 * f + 4) 0 =
        9 * f + 4 ∧
      (edgeCube (edgePermList τ) O).getD (9 * f + 4) 0 = 9 * f + 4 ∧
      c.arrangement.getD (9 * f + 4) 0 = 9 * f + 4) ∧
    (solutionCube (edgeCube (edgePermList τ) O) c.arrangement).Perm (List.range 54) := by
  have hcube := cubeInv_edgeCube (edgePermList τ) O
  refine ⟨fun k hk j hj => ?_, fun k hk j hj => ?_, fun f hf => ?_, ?_⟩
  · obtain ⟨_, hlt, heven, h4⟩ := corner_cell_facts k hk j hj
    refine ⟨?_, ?_⟩
    · rw [solutionCube_cell hcube c hc _ hlt, if_neg (by omega)]
    · rw [hcube.2.1 _ hlt heven, initialEdgeCube_cells _ hlt heven, if_neg h4]
  · have hlt := edge_cell_lt k hk j hj
    have hodd := edge_cell_odd k hk j hj
    refine ⟨?_, ?_⟩
    · rw [solutionCube_cell hcube c hc _ hlt, if_pos hodd]
    · exact (hc.2.2.2 _ hlt).1 hodd
  · have hlt : 9 * f + 4 < 54 := by omega
    have h4 : (9 * f + 4) % 9 = 4 := by omega
    refine ⟨?_, ?_, ?_⟩
    · rw [solutionCube_cell hcube c hc _ hlt, if_neg (by omega)]
      exact (hc.2.2.2 _ hlt).2.1 h4
    · rw [hcube.2.1 _ hlt (by omega), initialEdgeCube_cells _ hlt (by omega), if_pos h4]
    · exact (hc.2.2.2 _ hlt).2.1 h4
  · refine cube_values_perm _ (by simp [solutionCube]) τ π (edgePermOf_recorded hO c hc)
      (cornerPermOf_recorded hcube c hc π hπ) (fun x hx h4 => ?_)
    rw [solutionCube_cell hcube c hc _ hx, if_neg (by omega)]
    exact (hc.2.2.2 _ hx).2.1 h4

theorem cornerPermOf_filled (ep0 op0 : List CornerArrangement)
    (hep : ∀ c, c ∈ ep0 → StoredEntry c) (hop : ∀ c, c ∈ op0 → StoredEntry c)
    (hne : ep0.length < 2147483648) (hno : op0.length < 2147483648)
    (hcp : ∀ c, c ∈ ep0 → ∃ π, CornerPermOf c.arrangement π)
    (hco : ∀ c, c ∈ op0 → ∃ π, CornerPermOf c.arrangement π) (p c : Nat)
    (hc : c < (cornerArray (FillCornerIndexes ep0 ep0.length) (FillCornerIndexes op0 op0.length)
      p).length) :
    ∃ π, CornerPermOf ((cornerArray (FillCornerIndexes ep0 ep0.length)
      (FillCornerIndexes op0 op0.length) p).getD c zeroArrangement).arrangement π := by
  unfold cornerArray at hc ⊢
  by_cases hp : p = 0
  · simp only [hp, if_true] at hc ⊢
    rw [(fill_arrangement ep0 hep hne c).1]
    rw [(fill_arrangement ep0 hep hne c).2] at hc
    exact hcp _ (getD_mem_of_lt ep0 c hc)
  · simp only [hp, if_false] at hc ⊢
    rw [(fill_arrangement op0 hop hno c).1]
    rw [(fill_arrangement op0 hop hno c).2] at hc
    exact hco _ (getD_mem_of_lt op0 c hc)

/-- C19: on corner arrays whose entries are as `StoreCornerArrangement` writes them, hold a
permutation of the corner cubies each, and whose indexes were filled by `FillCornerIndexes`,
the bitwise OR of `RecordSolution` is exact for every call: the cube assembled has the value
of the corner arrangement on each of the 24 corner surfaces (where the edge cube is 0), the
value of the edge cube on each of the 24 edge surfaces (where the corner arrangement is 0) and
`9f + 4` at the centre of the face `f` (where both have this value), and its 54 values are a
permutation of `0..53`. The tables `corners` and `edges` and the centres cover the 54
surfaces, each once. -/
theorem C19_recorded_cube_exact (ep0 op0 : List CornerArrangement)
    (hep : ∀ c, c ∈ ep0 → StoredEntry c) (hop : ∀ c, c ∈ op0 → StoredEntry c)
    (hne : ep0.length < 2147483648) (hno : op0.length < 2147483648)
    (hcp : ∀ c, c ∈ ep0 → ∃ π, CornerPermOf c.arrangement π)
    (hco : ∀ c, c ∈ op0 → ∃ π, CornerPermOf c.arrangement π) :
    (∃ sols, TryEdgeArrangements BuildFaceTable (FillCornerIndexes ep0 ep0.length)
        (FillCornerIndexes op0 op0.length) = some sols ∧
      ∀ call, call ∈ sols →
        (∀ k, k < 8 → ∀ j, j < 3 →
          (recordedCube (FillCornerIndexes ep0 ep0.length) (FillCornerIndexes op0 op0.length)
            call).getD (tab2 corners k j) 0 =
            ((cornerArray (FillCornerIndexes ep0 ep0.length) (FillCornerIndexes op0 op0.length)
              call.swap_parity).getD call.corner_arrangements_index.toNat
              zeroArrangement).arrangement.getD (tab2 corners k j) 0 ∧
          call.cube.getD (tab2 corners k j) 0 = 0) ∧
        (∀ k, k < 12 → ∀ j, j < 2 →
          (recordedCube (FillCornerIndexes ep0 ep0.length) (FillCornerIndexes op0 op0.length)
            call).getD (tab2 edges k j) 0 = call.cube.getD (tab2 edges k j) 0 ∧
          ((cornerArray (FillCornerIndexes ep0 ep0.length) (FillCornerIndexes op0 op0.length)
            call.swap_parity).getD call.corner_arrangements_index.toNat
            zeroArrangement).arrangement.getD (tab2 edges k j) 0 = 0) ∧
        (∀ f, f < 6 →
          (recordedCube (FillCornerIndexes ep0 ep0.length) (FillCornerIndexes op0 op0.length)
            call).getD (9 * f + 4) 0 = 9 * f + 4 ∧
          call.cube.getD (9 * f + 4) 0 = 9 * f + 4 ∧
          ((cornerArray (FillCornerIndexes ep0 ep0.length) (FillCornerIndexes op0 op0.length)
            call.swap_parity).getD call.corner_arrangements_index.toNat
            zeroArrangement).arrangement.getD (9 * f + 4) 0 = 9 * f + 4) ∧
        (recordedCube (FillCornerIndexes ep0 ep0.length) (FillCornerIndexes op0 op0.length)
          call).Perm (List.range 54)) ∧
    (((List.range 24).map (fun i => tab2 corners (i / 3) (i % 3)) ++
        (List.range 24).map (fun i => tab2 edges (i / 2) (i % 2)) ++
        (List.range 6).map (fun f => 9 * f + 4)).Nodup ∧
      ((List.range 24).map (fun i => tab2 corners (i / 3) (i % 3)) ++
        (List.range 24).map (fun i => tab2 edges (i / 2) (i % 2)) ++
        (List.range 6).map (fun f => 9 * f + 4)).length = 54 ∧
      ∀ x, x ∈ ((List.range 24).map (fun i => tab2 corners (i / 3) (i % 3)) ++
        (List.range 24).map (fun i => tab2 edges (i / 2) (i % 2)) ++
        (List.range 6).map (fun f => 9 * f + 4)) → x < 54) := by
  refine ⟨?_, cell_tables_cover⟩
  have hA := filledArray_of_fill ep0 hep hne
  have hB := filledArray_of_fill op0 hop hno
  obtain ⟨sols, h1, _, hmem⟩ := tryEdgeArrangements_spec BuildFaceTable buildFaceTable_sound
    _ _ hA hB
  refine ⟨sols, h1, fun call hcall => ?_⟩
  obtain ⟨τ, O, c, _, a2, _, hcalleq, a5, _⟩ := (hmem call).1 hcall
  have hst := (filledArray_corner hA hB (parityBit τ)).stored c a5
  obtain ⟨π, hπ⟩ := cornerPermOf_filled ep0 op0 hep hop hne hno hcp hco (parityBit τ) c a5
  have key := solutionCube_exact τ O a2 _ hst π hπ
  have e1 : call.cube = edgeCube (edgePermList τ) O := by
    rw [hcalleq]; simp only [solutionCallOf]
  have e2 : call.swap_parity = parityBit τ := by
    rw [hcalleq]; simp only [solutionCallOf]
  have e3 : call.corner_arrangements_index.toNat = c := by
    rw [hcalleq]; simp only [solutionCallOf, Int.toNat_ofNat]
  have e4 : recordedCube (FillCornerIndexes ep0 ep0.length) (FillCornerIndexes op0 op0.length)
      call = solutionCube (edgeCube (edgePermList τ) O)
        ((cornerArray (FillCornerIndexes ep0 ep0.length) (FillCornerIndexes op0 op0.length)
          (parityBit τ)).getD c zeroArrangement).arrangement := by
    rw [hcalleq, recordedCube_of]
  rw [e1, e2, e3, e4]
  exact key

theorem C19_witness :
    ((∀ c, c ∈ [storedEntryOf sampleCorners] → StoredEntry c) ∧
      (∀ c, c ∈ [storedEntryOf sampleCorners] → ∃ π, CornerPermOf c.arrangement π)) ∧
    ∃ sols, TryEdgeArrangements BuildFaceTable
        (FillCornerIndexes [storedEntryOf sampleCorners] [storedEntryOf sampleCorners].length)
        (FillCornerIndexes [] ([] : List CornerArrangement).length) = some sols ∧
      ∀ call, call ∈ sols →
        (recordedCube
          (FillCornerIndexes [storedEntryOf sampleCorners] [storedEntryOf sampleCorners].length)
          (FillCornerIndexes [] ([] : List CornerArrangement).length) call).Perm
          (List.range 54) := by
  have h := C19_recorded_cube_exact [storedEntryOf sampleCorners] []
    (by decide!) (by decide) (by decide) (by decide)
    (fun c hc => by
      rw [List.mem_singleton.1 hc]
      exact ⟨sampleCornerPerm, sampleCorners_perm.1⟩)
    (fun c hc => absurd hc (List.not_mem_nil c))
  obtain ⟨⟨sols, h1, h2⟩, _⟩ := h
  exact ⟨⟨by decide!, fun c hc => by
      rw [List.mem_singleton.1 hc]
      exact ⟨sampleCornerPerm, sampleCorners_perm.1⟩⟩,
    sols, h1, fun call hc => (h2 call hc).2.2.2⟩

/-! ## From the corner arrays to the edge enumeration -/

theorem initialCornerCube_cells : ∀ x, x < 54 →
    (x % 9 % 2 = 1 → initialCornerCube.getD x 0 = 0) ∧
      (x % 9 = 4 → initialCornerCube.getD x 0 = x) := by
  decide!

theorem storedEntryOf_arrangement (cube : List Nat) : (storedEntryOf cube).arrangement = cube :=
  rfl

theorem storedEntry_of_inv (P T cube : List Nat) (hP : ∀ k, k < 8 → P.getD k 0 < 8)
    (hinv : CornerCubeInv 8 P T cube) : StoredEntry (storedEntryOf cube) := by
  refine ⟨hinv.1, rfl, fun f hf => ?_, fun x hx => ⟨fun h => ?_, fun h => ?_, ?_⟩⟩
  · show ((List.range 6).map (cornerFaceId cube)).getD f 0 = _
    rw [List.getD_eq_getElem _ _ (by simpa using hf)]
    simp
    rfl
  · show cube.getD x 0 = 0
    rw [hinv.2.1 x hx (Or.inl h)]
    exact (initialCornerCube_cells x hx).1 h
  · show cube.getD x 0 = x
    rw [hinv.2.1 x hx (Or.inr h)]
    exact (initialCornerCube_cells x hx).2 h
  · show cube.getD x 0 < 54
    by_cases hc : x % 9 % 2 = 1 ∨ x % 9 = 4
    · rw [hinv.2.1 x hx hc]
      rcases hc with h | h
      · rw [(initialCornerCube_cells x hx).1 h]; omega
      · rw [(initialCornerCube_cells x hx).2 h]; exact hx
    · obtain ⟨k, hk, j, hj, rfl⟩ := corner_cell_surj x hx (by omega) (by omega)
      rw [hinv.2.2 k hk j hj]
      exact (corner_cell_facts _ (hP k hk) _ (Nat.mod_lt _ (by decide))).2.1

/-- The entry stored for the cube of a corner placement is as the edge enumeration expects the
entries of the corner arrays. -/
theorem storedEntry_cornerCube (π : Equiv.Perm (Fin 8)) (T : List Nat) :
    StoredEntry (storedEntryOf (cornerCube (cornerPermList π) T)) :=
  storedEntry_of_inv _ T _ (cornerPermList_lt π) (cornerCubeInv_cornerCube (cornerPermList π) T)

theorem mem_getD_of_mem (arr : List CornerArrangement) (c : CornerArrangement) (h : c ∈ arr) :
    ∃ i, i < arr.length ∧ arr.getD i zeroArrangement = c := by
  obtain ⟨i, hi, hc⟩ := List.mem_iff_getElem.1 h
  exact ⟨i, hi, by rw [List.getD_eq_getElem _ _ hi]; exact hc⟩

/-- When the numbers of valid corner placements with an even and with an odd permutation are
the sizes of the two arrays, `CreateCornerArrangements` returns arrays that satisfy what the
claims on the edge enumeration assume of the corner arrays: they are filled over their whole
length, every entry is as `StoreCornerArrangement` writes it, and the entries hold even
permutations of the corner cubies in `ep_corner_arrangements` and odd ones in
`op_corner_arrangements`. -/
theorem createCornerArrangements_full (capE capO : Nat) (hE : capE < 2147483648)
    (hO : capO < 2147483648)
    (hfull : ∀ L : List (List Nat × Nat), L.Nodup → (∀ x, x ∈ L ↔ ValidStore x) →
      (evenStores L).length = capE ∧ (oddStores L).length = capO) :
    ∃ (g : CornerGlobals) (ep0 op0 : List CornerArrangement),
      CreateCornerArrangements capE capO = some g ∧
      g.ep_corner_arrangements = FillCornerIndexes ep0 ep0.length ∧
      g.op_corner_arrangements = FillCornerIndexes op0 op0.length ∧
      ep0.length = capE ∧ op0.length = capO ∧
      ep0.length < 2147483648 ∧ op0.length < 2147483648 ∧
      g.ep_corner_arrangement_count = capE ∧ g.op_corner_arrangement_count = capO ∧
      (∀ c, c ∈ ep0 → StoredEntry c ∧
        ∃ π : Equiv.Perm (Fin 8), CornerPermOf c.arrangement π ∧ Equiv.Perm.sign π = 1) ∧
      (∀ c, c ∈ op0 → StoredEntry c ∧
        ∃ π : Equiv.Perm (Fin 8), CornerPermOf c.arrangement π ∧ Equiv.Perm.sign π = -1) := by
  obtain ⟨cube2, L, hnd, hmem, hrun⟩ := placeCornerPiece_top
  obtain ⟨hfE, hfO⟩ := hfull L hnd hmem
  obtain ⟨g0, hg0, hinv⟩ := storeAll_spec capE capO L _ [] [] (globalsInv_initial capE capO)
    (by simp [hfE]) (by simp [hfO])
  rw [List.nil_append, List.nil_append] at hinv
  have hcE := storedArr_count hinv.ep
  have hcO := storedArr_count hinv.op
  refine ⟨⟨FillCornerIndexes g0.ep_corner_arrangements g0.ep_corner_arrangement_count,
    FillCornerIndexes g0.op_corner_arrangements g0.op_corner_arrangement_count,
    g0.ep_corner_arrangement_count, g0.op_corner_arrangement_count⟩,
    g0.ep_corner_arrangements, g0.op_corner_arrangements, ?_, ?_, ?_, hinv.elen, hinv.olen,
    by rw [hinv.elen]; exact hE, by rw [hinv.olen]; exact hO, by rw [hcE, hfE], by rw [hcO, hfO], fun c hc => ?_, fun c hc => ?_⟩
  · unfold CreateCornerArrangements
    rw [hrun _, hg0]
    rfl
  · show FillCornerIndexes _ _ = FillCornerIndexes _ _
    rw [hcE, hfE, hinv.elen]
  · show FillCornerIndexes _ _ = FillCornerIndexes _ _
    rw [hcO, hfO, hinv.olen]
  · obtain ⟨i, hi, hci⟩ := mem_getD_of_mem _ c hc
    obtain ⟨cube, hcube, hce⟩ := storedArr_entry hinv.ep i (by rw [hcE, hfE, ← hinv.elen]; exact hi)
    obtain ⟨π, T, _, hcc, hp⟩ := (mem_evenStores_valid L hmem cube).1 hcube
    rw [← hci, hce, storedEntryOf_arrangement, hcc]
    exact ⟨storedEntry_cornerCube π T, π, cornerPermOf_cornerCube π T,
      (parityBit_eq_zero_iff π).1 hp⟩
  · obtain ⟨i, hi, hci⟩ := mem_getD_of_mem _ c hc
    obtain ⟨cube, hcube, hce⟩ := storedArr_entry hinv.op i (by rw [hcO, hfO, ← hinv.olen]; exact hi)
    obtain ⟨π, T, _, hcc, hp⟩ := (mem_oddStores_valid L hmem cube).1 hcube
    rw [← hci, hce, storedEntryOf_arrangement, hcc]
    exact ⟨storedEntry_cornerCube π T, π, cornerPermOf_cornerCube π T,
      (parityBit_eq_one_iff π).1 hp⟩

/-! ## The face connectedness classifier on all faces and on sample faces -/

theorem any_pair_iff (pairs : List (Nat × Nat)) (f : Nat → Nat) :
    pairs.any (fun p => f p.1 == f p.2) = true ↔ ∃ p ∈ pairs, f p.1 = f p.2 := by
  simp [List.any_eq_true]

theorem sides_table_iff : ∀ a b : Fin 9, sideAdjacent a.val b.val ↔
    ((a.val, b.val) ∈ sides_to_compare ∨ (b.val, a.val) ∈ sides_to_compare) := by
  decide

theorem corners_table_iff : ∀ a b : Fin 9, diagAdjacent a.val b.val ↔
    ((a.val, b.val) ∈ corners_to_compare ∨ (b.val, a.val) ∈ corners_to_compare) := by
  decide

theorem face_tables_lt : (∀ p ∈ sides_to_compare, p.1 < 9 ∧ p.2 < 9) ∧
    (∀ p ∈ corners_to_compare, p.1 < 9 ∧ p.2 < 9) := by
  decide

theorem sidePairMatches_iff (l : List Nat) :
    SidePairMatches l ↔ ∃ p ∈ sides_to_compare, l.getD p.1 0 = l.getD p.2 0 := by
  constructor
  · rintro ⟨a, b, ha, hb, hadj, he⟩
    rcases (sides_table_iff ⟨a, ha⟩ ⟨b, hb⟩).1 hadj with h | h
    · exact ⟨(a, b), h, he⟩
    · exact ⟨(b, a), h, he.symm⟩
  · rintro ⟨p, hp, he⟩
    obtain ⟨h1, h2⟩ := face_tables_lt.1 p hp
    exact ⟨p.1, p.2, h1, h2, (sides_table_iff ⟨p.1, h1⟩ ⟨p.2, h2⟩).2 (Or.inl hp), he⟩

theorem diagPairMatches_iff (l : List Nat) :
    DiagPairMatches l ↔ ∃ p ∈ corners_to_compare, l.getD p.1 0 = l.getD p.2 0 := by
  constructor
  · rintro ⟨a, b, ha, hb, hadj, he⟩
    rcases (corners_table_iff ⟨a, ha⟩ ⟨b, hb⟩).1 hadj with h | h
    · exact ⟨(a, b), h, he⟩
    · exact ⟨(b, a), h, he.symm⟩
  · rintro ⟨p, hp, he⟩
    obtain ⟨h1, h2⟩ := face_tables_lt.2 p hp
    exact ⟨p.1, p.2, h1, h2, (corners_table_iff ⟨p.1, h1⟩ ⟨p.2, h2⟩).2 (Or.inl hp), he⟩

theorem faceConnectedness_cases (l : List Nat) :
    (GetFaceColorConnectedness l = SIDES_TOUCHING ↔ SidePairMatches l) ∧
    (GetFaceColorConnectedness l = CORNERS_TOUCHING ↔ ¬ SidePairMatches l ∧ DiagPairMatches l) ∧
    (GetFaceColorConnectedness l = NOTHING_TOUCHING ↔
      ¬ SidePairMatches l ∧ ¬ DiagPairMatches l) := by
  rw [sidePairMatches_iff, diagPairMatches_iff,
    ← any_pair_iff sides_to_compare (fun i => l.getD i 0),
    ← any_pair_iff corners_to_compare (fun i => l.getD i 0)]
  unfold GetFaceColorConnectedness SIDES_TOUCHING CORNERS_TOUCHING NOTHING_TOUCHING
  generalize sides_to_compare.any (fun p => l.getD p.1 0 == l.getD p.2 0) = A
  generalize corners_to_compare.any (fun p => l.getD p.1 0 == l.getD p.2 0) = B
  cases A <;> cases B <;> decide

theorem not_perf_lower (i : Nat) (hi : i < FACE_ARRANGEMENTS) (h : isPerfectIndex i = false) :
    16 ≤ BuildFaceTable i := by
  have hp : ¬ Perf (faceOf i) := by
    intro hp
    rw [(isPerfectIndex_iff_perf i).2 hp] at h
    exact Bool.noConfusion h
  have := (table_lt_iff i hi).not.2 hp
  omega

theorem perf_range (i : Nat) (hi : i < FACE_ARRANGEMENTS) (h : isPerfectIndex i = true) :
    0 ≤ BuildFaceTable i ∧ BuildFaceTable i < 16 := by
  have hp := (isPerfectIndex_iff_perf i).1 h
  have h1 := buildInv_final.perfect_ids i hi (seen_self _ i hi) hp
  rw [BuildFaceTable_eq]
  exact ⟨h1.1, by rw [← BuildFaceTable_eq]; exact (table_lt_iff i hi).2 hp⟩

/-- C21 (as the code behaves): the face with cell colours [0,1,2,3,4,5,0,1,2] has face index
3683958, 6 distinct colours and maximum multiplicity 2, and `GetFaceColorConnectedness`
returns `NOTHING_TOUCHING` for it (cells 0 and 6 are two rows apart, so they are not
compared); the face is perfect and its entry of `face_table` is a perfect id, from 0
to 15. -/
theorem C21_rows_face_is_perfect :
    FaceIndexToColors sampleFaceRowsIndex = sampleFaceRows ∧
    sampleFaceRowsIndex < FACE_ARRANGEMENTS ∧
    GetFaceColorCounts sampleFaceRows = (6, 2) ∧
    ¬ sideAdjacent 0 6 ∧
    GetFaceColorConnectedness sampleFaceRows = NOTHING_TOUCHING ∧
    0 ≤ BuildFaceTable sampleFaceRowsIndex ∧ BuildFaceTable sampleFaceRowsIndex < 16 := by
  refine ⟨by decide, by decide, by decide, by decide, by decide, ?_⟩
  exact perf_range sampleFaceRowsIndex (by decide) (by decide)

/-- C21 as stated fails: for the face [0,1,2,3,4,5,0,1,2] the classifier does not return
`SIDES_TOUCHING`, and the entry of `face_table` at its index is not 16 or more. -/
theorem C21_counterexample :
    FaceIndexToColors sampleFaceRowsIndex = [0, 1, 2, 3, 4, 5, 0, 1, 2] ∧
    GetFaceColorConnectedness [0, 1, 2, 3, 4, 5, 0, 1, 2] ≠ SIDES_TOUCHING ∧
    ¬ (16 ≤ BuildFaceTable sampleFaceRowsIndex) := by
  refine ⟨by decide, by decide, ?_⟩
  have := (perf_range sampleFaceRowsIndex (by decide) (by decide)).2
  omega

/-- C22 (as the code behaves): for the face with cell colours [0,1,2,3,4,5,1,2,3]
`GetFaceColorConnectedness` returns `NOTHING_TOUCHING`: cell 3 has colour 3 and cell 6 has
colour 1, and none of the 12 side pairs and none of the 8 diagonal pairs has equal
colours. -/
theorem C22_shifted_face_nothing_touching :
    GetFaceColorConnectedness sampleFaceShifted = NOTHING_TOUCHING ∧
    sampleFaceShifted.getD 3 0 = 3 ∧ sampleFaceShifted.getD 6 0 = 1 ∧
    (∀ p ∈ sides_to_compare, sampleFaceShifted.getD p.1 0 ≠ sampleFaceShifted.getD p.2 0) ∧
    (∀ p ∈ corners_to_compare, sampleFaceShifted.getD p.1 0 ≠ sampleFaceShifted.getD p.2 0) := by
  decide

/-- C22 as stated fails: for the face [0,1,2,3,4,5,1,2,3] the classifier does not return
`SIDES_TOUCHING`, and cells 3 and 6 do not have the same colour. -/
theorem C22_counterexample :
    GetFaceColorConnectedness [0, 1, 2, 3, 4, 5, 1, 2, 3] ≠ SIDES_TOUCHING ∧
    ([0, 1, 2, 3, 4, 5, 1, 2, 3] : List Nat).getD 3 0 ≠
      ([0, 1, 2, 3, 4, 5, 1, 2, 3] : List Nat).getD 6 0 := by
  decide

/-- C23: after `BuildFaceTable`, the entry of `face_table` at index 0, the face whose nine
cells all have colour 0 (one distinct colour), is a regular id: it is at least 16. -/
theorem C23_face_zero_regular :
    FaceIndexToColors 0 = [0, 0, 0, 0, 0, 0, 0, 0, 0] ∧
    (GetFaceColorCounts (FaceIndexToColors 0)).1 = 1 ∧
    16 ≤ BuildFaceTable 0 := by
  refine ⟨by decide, by decide, ?_⟩
  exact not_perf_lower 0 (by decide) (by decide)

/-- C24: for every face colouring, `GetFaceColorConnectedness` returns `SIDES_TOUCHING` (0)
iff some pair of horizontally or vertically adjacent cells of the 3x3 grid has equal colours
(the table `sides_to_compare` lists these 12 pairs); otherwise `CORNERS_TOUCHING` (1) iff
some pair of diagonally adjacent cells has equal colours (the table `corners_to_compare`
lists these 8 pairs); otherwise `NOTHING_TOUCHING` (3). Every face whose nine cells share
one colour is `SIDES_TOUCHING`. -/
theorem C24_face_connectedness_cases (face_colors : List Nat) :
    ((GetFaceColorConnectedness face_colors = SIDES_TOUCHING ↔ SidePairMatches face_colors) ∧
     (GetFaceColorConnectedness face_colors = CORNERS_TOUCHING ↔
        ¬ SidePairMatches face_colors ∧ DiagPairMatches face_colors) ∧
     (GetFaceColorConnectedness face_colors = NOTHING_TOUCHING ↔
        ¬ SidePairMatches face_colors ∧ ¬ DiagPairMatches face_colors)) ∧
    (SIDES_TOUCHING = 0 ∧ CORNERS_TOUCHING = 1 ∧ NOTHING_TOUCHING = 3) ∧
    (sides_to_compare.length = 12 ∧ sides_to_compare.Nodup ∧
      (∀ p ∈ sides_to_compare, p.1 < p.2) ∧
      ∀ a b : Fin 9, sideAdjacent a.val b.val ↔
        ((a.val, b.val) ∈ sides_to_compare ∨ (b.val, a.val) ∈ sides_to_compare)) ∧
    (corners_to_compare.length = 8 ∧
      (∀ p ∈ corners_to_compare, (p.2, p.1) ∉ corners_to_compare) ∧
      corners_to_compare.Nodup ∧
      ∀ a b : Fin 9, diagAdjacent a.val b.val ↔
        ((a.val, b.val) ∈ corners_to_compare ∨ (b.val, a.val) ∈ corners_to_compare)) ∧
    ((∃ v, ∀ a, a < 9 → face_colors.getD a 0 = v) →
      GetFaceColorConnectedness face_colors = SIDES_TOUCHING) := by
  refine ⟨faceConnectedness_cases face_colors, ⟨rfl, rfl, rfl⟩,
    ⟨rfl, by decide, by decide, sides_table_iff⟩,
    ⟨rfl, by decide, by decide, corners_table_iff⟩, ?_⟩
  rintro ⟨v, hv⟩
  rw [(faceConnectedness_cases face_colors).1]
  exact ⟨0, 1, by decide, by decide, by decide, by rw [hv 0 (by decide), hv 1 (by decide)]⟩

theorem cube_tables_lt : ∀ p ∈ cube_sides ++ cube_corners ++ cube_fcorners,
    p.1 < 54 ∧ p.2 < 54 := by
  decide!

theorem cube_any_iff (pairs : List (Nat × Nat)) (cube : List Nat)
    (hlt : ∀ p ∈ pairs, p.1 < 54 ∧ p.2 < 54) :
    pairs.any (fun p => (cubeColors cube).getD p.1 0 == (cubeColors cube).getD p.2 0) = true ↔
      CubePairMatches pairs cube := by
  rw [any_pair_iff pairs (fun i => (cubeColors cube).getD i 0)]
  constructor
  · rintro ⟨p, hp, he⟩
    rw [cubeColors_getD cube _ (hlt p hp).1, cubeColors_getD cube _ (hlt p hp).2] at he
    exact ⟨p, hp, he⟩
  · rintro ⟨p, hp, he⟩
    refine ⟨p, hp, ?_⟩
    show (cubeColors cube).getD p.1 0 = (cubeColors cube).getD p.2 0
    rw [cubeColors_getD cube _ (hlt p hp).1, cubeColors_getD cube _ (hlt p hp).2]
    exact he

theorem cubeConnectedness_cases (cube : List Nat) :
    (GetColorConnectedness cube = SIDES_TOUCHING ↔ CubePairMatches cube_sides cube) ∧
    (GetColorConnectedness cube = CORNERS_TOUCHING ↔
      ¬ CubePairMatches cube_sides cube ∧ CubePairMatches cube_corners cube) ∧
    (GetColorConnectedness cube = ADJACENT_FACES_TOUCHING ↔
      ¬ CubePairMatches cube_sides cube ∧ ¬ CubePairMatches cube_corners cube ∧
        CubePairMatches cube_fcorners cube) ∧
    (GetColorConnectedness cube = NOTHING_TOUCHING ↔
      ¬ CubePairMatches cube_sides cube ∧ ¬ CubePairMatches cube_corners cube ∧
        ¬ CubePairMatches cube_fcorners cube) := by
  have hs := cube_any_iff cube_sides cube (fun p hp => cube_tables_lt p (by simp [hp]))
  have hc := cube_any_iff cube_corners cube (fun p hp => cube_tables_lt p (by simp [hp]))
  have hf := cube_any_iff cube_fcorners cube (fun p hp => cube_tables_lt p (by simp [hp]))
  rw [← hs, ← hc, ← hf]
  unfold GetColorConnectedness SIDES_TOUCHING CORNERS_TOUCHING ADJACENT_FACES_TOUCHING
    NOTHING_TOUCHING
  generalize cube_sides.any
    (fun p => (cubeColors cube).getD p.1 0 == (cubeColors cube).getD p.2 0) = A
  generalize cube_corners.any
    (fun p => (cubeColors cube).getD p.1 0 == (cubeColors cube).getD p.2 0) = B
  generalize cube_fcorners.any
    (fun p => (cubeColors cube).getD p.1 0 == (cubeColors cube).getD p.2 0) = C
  cases A <;> cases B <;> cases C <;> decide

theorem cube_sides_geometry :
    (∀ p ∈ cube_sides, p.1 / 9 = p.2 / 9 ∧ p.1 / 9 < 6 ∧ sideAdjacent (p.1 % 9) (p.2 % 9)) ∧
    (∀ f : Fin 6, ∀ a b : Fin 9, sideAdjacent a.val b.val →
      ((9 * f.val + a.val, 9 * f.val + b.val) ∈ cube_sides ∨
        (9 * f.val + b.val, 9 * f.val + a.val) ∈ cube_sides)) := by
  constructor
  · decide!
  · decide!

theorem cube_corners_geometry :
    (∀ p ∈ cube_corners, p.1 / 9 = p.2 / 9 ∧ p.1 / 9 < 6 ∧ diagAdjacent (p.1 % 9) (p.2 % 9)) ∧
    (∀ f : Fin 6, ∀ a b : Fin 9, diagAdjacent a.val b.val →
      ((9 * f.val + a.val, 9 * f.val + b.val) ∈ cube_corners ∨
        (9 * f.val + b.val, 9 * f.val + a.val) ∈ cube_corners)) := by
  constructor
  · decide!
  · decide!

/-- C25: for every cube, `GetColorConnectedness` returns 0 iff some pair of the table `sides`
(the side-adjacent pairs of cells of one face, on each of the six faces) has equal colours
(sticker value / 9); else 1 iff some pair of the table `corners` (the diagonally adjacent
pairs of cells of one face) has equal colours; else 2 iff some pair of the table `fcorners`
(72 + 48 + 48 pairs in all, the last 48 joining cells of two different faces) has equal
colours; else 3. The result is always one of 0, 1, 2, 3, and it is `NOTHING_TOUCHING` iff no
pair of any of the three tables matches. -/
theorem C25_cube_connectedness_cases (cube : List Nat) :
    ((GetColorConnectedness cube = 0 ↔ CubePairMatches cube_sides cube) ∧
     (GetColorConnectedness cube = 1 ↔
        ¬ CubePairMatches cube_sides cube ∧ CubePairMatches cube_corners cube) ∧
     (GetColorConnectedness cube = 2 ↔
        ¬ CubePairMatches cube_sides cube ∧ ¬ CubePairMatches cube_corners cube ∧
          CubePairMatches cube_fcorners cube) ∧
     (GetColorConnectedness cube = 3 ↔
        ¬ CubePairMatches cube_sides cube ∧ ¬ CubePairMatches cube_corners cube ∧
          ¬ CubePairMatches cube_fcorners cube)) ∧
    (GetColorConnectedness cube = 0 ∨ GetColorConnectedness cube = 1 ∨
      GetColorConnectedness cube = 2 ∨ GetColorConnectedness cube = 3) ∧
    (GetColorConnectedness cube = NOTHING_TOUCHING ↔
      ∀ p ∈ cube_sides ++ cube_corners ++ cube_fcorners,
        cube.getD p.1 0 / 9 ≠ cube.getD p.2 0 / 9) ∧
    (SIDES_TOUCHING = 0 ∧ CORNERS_TOUCHING = 1 ∧ ADJACENT_FACES_TOUCHING = 2 ∧
      NOTHING_TOUCHING = 3) ∧
    (cube_sides.length = 72 ∧
      (∀ p ∈ cube_sides, p.1 / 9 = p.2 / 9 ∧ p.1 / 9 < 6 ∧ sideAdjacent (p.1 % 9) (p.2 % 9)) ∧
      (∀ f : Fin 6, ∀ a b : Fin 9, sideAdjacent a.val b.val →
        ((9 * f.val + a.val, 9 * f.val + b.val) ∈ cube_sides ∨
          (9 * f.val + b.val, 9 * f.val + a.val) ∈ cube_sides))) ∧
    (cube_corners.length = 48 ∧
      (∀ p ∈ cube_corners,
        p.1 / 9 = p.2 / 9 ∧ p.1 / 9 < 6 ∧ diagAdjacent (p.1 % 9) (p.2 % 9)) ∧
      (∀ f : Fin 6, ∀ a b : Fin 9, diagAdjacent a.val b.val →
        ((9 * f.val + a.val, 9 * f.val + b.val) ∈ cube_corners ∨
          (9 * f.val + b.val, 9 * f.val + a.val) ∈ cube_corners))) ∧
    (cube_fcorners.length = 48 ∧
      ∀ p ∈ cube_fcorners, p.1 < 54 ∧ p.2 < 54 ∧ p.1 / 9 ≠ p.2 / 9) := by
  have h := cubeConnectedness_cases cube
  refine ⟨h, ?_, ?_, ⟨rfl, rfl, rfl, rfl⟩, ⟨rfl, cube_sides_geometry⟩,
    ⟨rfl, cube_corners_geometry⟩, ⟨rfl, by decide!⟩⟩
  · unfold GetColorConnectedness SIDES_TOUCHING CORNERS_TOUCHING ADJACENT_FACES_TOUCHING
      NOTHING_TOUCHING
    split
    · exact Or.inl rfl
    · split
      · exact Or.inr (Or.inl rfl)
      · split
        · exact Or.inr (Or.inr (Or.inl rfl))
        · exact Or.inr (Or.inr (Or.inr rfl))
  · rw [h.2.2.2]
    unfold CubePairMatches
    constructor
    · rintro ⟨h1, h2, h3⟩ p hp he
      rw [List.mem_append, List.mem_append] at hp
      rcases hp with (hp | hp) | hp
      · exact h1 ⟨p, hp, he⟩
      · exact h2 ⟨p, hp, he⟩
      · exact h3 ⟨p, hp, he⟩
    · intro hall
      refine ⟨?_, ?_, ?_⟩
      · rintro ⟨p, hp, he⟩
        exact hall p (by simp [hp]) he
      · rintro ⟨p, hp, he⟩
        exact hall p (by simp [hp]) he
      · rintro ⟨p, hp, he⟩
        exact hall p (by simp [hp]) he

/-- C29: the 8 rows of the table `symmetries` are 8 distinct permutations of the cells 0..8
that fix the centre cell 4; the identity is among them, they are closed under composition
and inverse, and they are the four powers of the quarter turn in row 1 and their products
with the mirror in row 4, which satisfy the relations of the dihedral group of the square;
each row maps the 12 side pairs of `sides_to_compare` onto themselves and the 8 diagonal
pairs of `corners_to_compare` onto themselves (as unordered pairs). -/
theorem C29_symmetries_dihedral :
    symmetries.length = 8 ∧ symmetries.Nodup ∧
    (∀ row ∈ symmetries, row.length = 9 ∧ row.Nodup ∧ (∀ x ∈ row, x < 9) ∧ row.getD 4 0 = 4) ∧
    List.range 9 ∈ symmetries ∧
    (∀ r1 ∈ symmetries, ∀ r2 ∈ symmetries, composeRows r1 r2 ∈ symmetries) ∧
    (∀ r ∈ symmetries, ∃ r' ∈ symmetries,
      composeRows r r' = List.range 9 ∧ composeRows r' r = List.range 9) ∧
    (symmetries =
      [List.range 9, symmetries.getD 1 [],
       composeRows (symmetries.getD 1 []) (symmetries.getD 1 []),
       composeRows (symmetries.getD 1 []) (symmetries.getD 2 []),
       symmetries.getD 4 [],
       composeRows (symmetries.getD 1 []) (symmetries.getD 4 []),
       composeRows (symmetries.getD 2 []) (symmetries.getD 4 []),
       composeRows (symmetries.getD 3 []) (symmetries.getD 4 [])] ∧
     composeRows (symmetries.getD 1 []) (symmetries.getD 3 []) = List.range 9 ∧
     composeRows (symmetries.getD 4 []) (symmetries.getD 4 []) = List.range 9 ∧
     composeRows (symmetries.getD 4 []) (symmetries.getD 1 []) =
       composeRows (symmetries.getD 3 []) (symmetries.getD 4 [])) ∧
    (∀ row ∈ symmetries,
      SamePairSet (mapPairs row sides_to_compare) sides_to_compare ∧
      SamePairSet (mapPairs row corners_to_compare) corners_to_compare) := by
  refine ⟨rfl, by decide, by decide, by decide, by decide, by decide, by decide, by decide⟩

/-! ## `RecordSolution`: the number of patterns and the buckets -/

theorem any_earlier_iff (value : Nat → Int) (n : Nat) :
    (List.range n).any (fun j => value j == value n) = true ↔
      value n ∈ ((List.range n).map value).toFinset := by
  simp only [List.any_eq_true, List.mem_range, beq_iff_eq, List.mem_toFinset, List.mem_map]

theorem distinct_add_repeated (value : Nat → Int) (n : Nat) :
    ((List.range n).map value).toFinset.card + repeatedCount value n = n := by
  induction n with
  | zero => rfl
  | succ n ih =>
    have hr : repeatedCount value (n + 1) = repeatedCount value n +
        (if (List.range n).any (fun j => value j == value n) = true then 1 else 0) := by
      unfold repeatedCount
      rw [List.range_succ, List.filter_append, List.length_append]
      by_cases h : (List.range n).any (fun j => value j == value n) = true
      · simp [h]
      · simp [h]
    have hc : ((List.range (n + 1)).map value).toFinset.card =
        ((List.range n).map value).toFinset.card +
          (if (List.range n).any (fun j => value j == value n) = true then 0 else 1) := by
      rw [List.range_succ, List.map_append, List.toFinset_append]
      simp only [List.map_cons, List.map_nil, List.toFinset_cons, List.toFinset_nil,
        insert_emptyc_eq]
      by_cases h : (List.range n).any (fun j => value j == value n) = true
      · rw [if_pos h]
        have hm := (any_earlier_iff value n).1 h
        rw [Finset.union_eq_left.2 (Finset.singleton_subset_iff.2 hm)]
        rfl
      · rw [if_neg h]
        have hm : value n ∉ ((List.range n).map value).toFinset :=
          fun hm => h ((any_earlier_iff value n).2 hm)
        rw [Finset.union_comm, ← Finset.insert_eq, Finset.card_insert_of_not_mem hm]
    rw [hr, hc]
    by_cases h : (List.range n).any (fun j => value j == value n) = true
    · rw [if_pos h, if_pos h]; omega
    · rw [if_neg h, if_neg h]; omega

theorem int_getD_set (l : List Int) (i j : Nat) (v : Int) (hi : i < l.length) :
    (l.set i v).getD j 0 = if j = i then v else l.getD j 0 := by
  by_cases h : j = i
  · subst h
    rw [if_pos rfl, List.getD_eq_getElem _ _ (by simpa using hi)]
    simp
  · rw [if_neg h]
    simp only [List.getD_eq_getElem?_getD]
    rw [List.getElem?_set_ne (fun e => h e.symm)]

theorem countLoop_inv (value : Nat → Int) (n : Nat) (hn : n ≤ 6) :
    ((List.range n).foldl (patternCountStep value) ⟨[0, 0, 0, 0, 0, 0], 6⟩).solution_face_ids.length
        = 6 ∧
    (∀ j, j < n →
      ((List.range n).foldl (patternCountStep value)
        ⟨[0, 0, 0, 0, 0, 0], 6⟩).solution_face_ids.getD j 0 = value j) ∧
    ((List.range n).foldl (patternCountStep value) ⟨[0, 0, 0, 0, 0, 0], 6⟩).unique_patterns +
      (repeatedCount value n : Int) = 6 := by
  induction n with
  | zero => exact ⟨rfl, fun j hj => absurd hj (Nat.not_lt_zero _), rfl⟩
  | succ n ih =>
    obtain ⟨h1, h2, h3⟩ := ih (by omega)
    rw [List.range_succ, List.foldl_append, List.foldl_cons, List.foldl_nil]
    generalize (List.range n).foldl (patternCountStep value) ⟨[0, 0, 0, 0, 0, 0], 6⟩ = st
      at h1 h2 h3
    have hget : ∀ j, j < n + 1 → (st.solution_face_ids.set n (value n)).getD j 0 = value j := by
      intro j hj
      rw [int_getD_set _ _ _ _ (by omega)]
      by_cases h : j = n
      · rw [if_pos h, h]
      · rw [if_neg h]; exact h2 j (by omega)
    have hany : earlierFaceMatches (st.solution_face_ids.set n (value n)) n =
        (List.range n).any (fun j => value j == value n) := by
      unfold earlierFaceMatches
      apply any_congr_mem
      intro j hj
      rw [List.mem_range] at hj
      rw [hget j (by omega), hget n (by omega)]
    have hr : repeatedCount value (n + 1) = repeatedCount value n +
        (if (List.range n).any (fun j => value j == value n) = true then 1 else 0) := by
      unfold repeatedCount
      rw [List.range_succ, List.filter_append, List.length_append]
      by_cases h : (List.range n).any (fun j => value j == value n) = true
      · simp [h]
      · simp [h]
    unfold patternCountStep
    simp only [hany]
    by_cases h : (List.range n).any (fun j => value j == value n) = true
    · rw [if_pos h]
      refine ⟨by simpa using h1, hget, ?_⟩
      rw [hr, if_pos h]
      show st.unique_patterns - 1 + ((repeatedCount value n + 1 : Nat) : Int) = 6
      push_cast
      omega
    · rw [if_neg h]
      refine ⟨by simpa using h1, hget, ?_⟩
      rw [hr, if_neg h]
      exact h3

theorem int_list_ext_getD (a b : List Int) (hl : a.length = b.length)
    (h : ∀ j, j < a.length → a.getD j 0 = b.getD j 0) : a = b := by
  apply List.ext_getElem hl
  intro j h1 h2
  have := h j h1
  rwa [List.getD_eq_getElem _ _ h1, List.getD_eq_getElem _ _ h2] at this

theorem countUniquePatterns_spec (value : Nat → Int) :
    (countUniquePatterns value).solution_face_ids = (List.range 6).map value ∧
    (countUniquePatterns value).unique_patterns =
      (((List.range 6).map value).toFinset.card : Int) ∧
    1 ≤ (countUniquePatterns value).unique_patterns ∧
    (countUniquePatterns value).unique_patterns ≤ 6 := by
  obtain ⟨h1, h2, h3⟩ := countLoop_inv value 6 (le_refl _)
  have hd := distinct_add_repeated value 6
  have hpos : 0 < ((List.range 6).map value).toFinset.card := by
    apply Finset.card_pos.2
    exact ⟨value 0, by simp [List.mem_toFinset]; exact ⟨0, by decide, rfl⟩⟩
  unfold countUniquePatterns CUBE_FACES
  refine ⟨?_, by omega, by omega, by omega⟩
  apply int_list_ext_getD _ _ (by simpa using h1)
  intro j hj
  rw [h1] at hj
  rw [h2 j hj, List.getD_eq_getElem _ _ (by simpa using hj)]
  simp

theorem bucket_injective : ∀ u u' : Fin 6, ∀ c c' : Fin 2,
    ((solutionCountIndex (u.val + 1 : Nat) (c.val + 2) =
        solutionCountIndex (u'.val + 1 : Nat) (c'.val + 2) → u = u' ∧ c = c') ∧
     (solutionFileName (u.val + 1 : Nat) (c.val + 2) =
        solutionFileName (u'.val + 1 : Nat) (c'.val + 2) → u = u' ∧ c = c')) := by
  decide

/-- C26: for every six face pattern ids (the values `value 0 .. value 5` stored in
`solution_face_ids`), the `unique_patterns` value computed by `RecordSolution` (start at 6,
subtract one for each face whose id equals the id of some earlier face) is the number of
distinct values among the six ids, and it lies in 1..6. -/
theorem C26_unique_patterns_counts_distinct (value : Nat → Int) :
    (countUniquePatterns value).solution_face_ids = (List.range 6).map value ∧
    (countUniquePatterns value).unique_patterns =
      (((List.range 6).map value).toFinset.card : Int) ∧
    (countUniquePatterns value).unique_patterns =
      ((((List.range 6).map value).dedup.length : Nat) : Int) ∧
    (countUniquePatterns value).unique_patterns + (repeatedCount value 6 : Int) = 6 ∧
    1 ≤ (countUniquePatterns value).unique_patterns ∧
    (countUniquePatterns value).unique_patterns ≤ 6 := by
  obtain ⟨h1, h2, h3, h4⟩ := countUniquePatterns_spec value
  refine ⟨h1, h2, ?_, (countLoop_inv value 6 (le_refl _)).2.2, h3, h4⟩
  rw [h2, List.card_toFinset]

theorem guard_values (c : Nat) (h : ¬ c < ADJACENT_FACES_TOUCHING)
    (hc : c = 0 ∨ c = 1 ∨ c = 2 ∨ c = 3) :
    c = ADJACENT_FACES_TOUCHING ∨ c = NOTHING_TOUCHING := by
  unfold ADJACENT_FACES_TOUCHING NOTHING_TOUCHING at *
  omega

theorem cubeConnectedness_values (cube : List Nat) :
    GetColorConnectedness cube = 0 ∨ GetColorConnectedness cube = 1 ∨
      GetColorConnectedness cube = 2 ∨ GetColorConnectedness cube = 3 := by
  unfold GetColorConnectedness SIDES_TOUCHING CORNERS_TOUCHING ADJACENT_FACES_TOUCHING
    NOTHING_TOUCHING
  split
  · exact Or.inl rfl
  · split
    · exact Or.inr (Or.inl rfl)
    · split
      · exact Or.inr (Or.inr (Or.inl rfl))
      · exact Or.inr (Or.inr (Or.inr rfl))

theorem recorded_ranges (face_table : Nat → Int) (face_ids cube : List Nat)
    (arr : List CornerArrangement) (index : Int)
    (h : ¬ recordedConnectedness cube arr index < ADJACENT_FACES_TOUCHING) :
    ∃ u : Fin 6, ∃ c : Fin 2,
      recordedUniquePatterns face_table face_ids arr index = ((u.val + 1 : Nat) : Int) ∧
      recordedConnectedness cube arr index = c.val + 2 := by
  obtain ⟨-, -, h3, h4⟩ := countUniquePatterns_spec (fun i => face_table (face_ids.getD i 0 +
    (arr.getD index.toNat zeroArrangement).faceIds.getD i 0))
  have hu : ∃ u : Fin 6,
      recordedUniquePatterns face_table face_ids arr index = ((u.val + 1 : Nat) : Int) := by
    unfold recordedUniquePatterns
    generalize (countUniquePatterns (fun i => face_table (face_ids.getD i 0 +
      (arr.getD index.toNat zeroArrangement).faceIds.getD i 0))).unique_patterns = up at h3 h4
    refine ⟨⟨(up - 1).toNat, by omega⟩, ?_⟩
    show up = (((up - 1).toNat + 1 : Nat) : Int)
    omega
  obtain ⟨u, hu⟩ := hu
  have hv := cubeConnectedness_values
    (solutionCube cube (arr.getD index.toNat zeroArrangement).arrangement)
  have hc : ∃ c : Fin 2, recordedConnectedness cube arr index = c.val + 2 := by
    unfold recordedConnectedness at h ⊢
    generalize GetColorConnectedness
      (solutionCube cube (arr.getD index.toNat zeroArrangement).arrangement) = c at h hv
    unfold ADJACENT_FACES_TOUCHING at h
    refine ⟨⟨c - 2, by omega⟩, ?_⟩
    show c = c - 2 + 2
    omega
  obtain ⟨c, hc⟩ := hc
  exact ⟨u, c, hu, hc⟩

theorem bucket_facts : ∀ u : Fin 6, ∀ c : Fin 2,
    0 ≤ solutionCountIndex (u.val + 1 : Nat) (c.val + 2) ∧
    solutionCountIndex (u.val + 1 : Nat) (c.val + 2) ≤ 11 ∧
    (solutionFileName (u.val + 1 : Nat) (c.val + 2) =
        "Solutions_" ++ toString (u.val + 1) ++ "_patterns_Perfect.txt" ↔
      c.val + 2 = NOTHING_TOUCHING) ∧
    (solutionFileName (u.val + 1 : Nat) (c.val + 2) =
        "Solutions_" ++ toString (u.val + 1) ++ "_patterns.txt" ↔
      c.val + 2 = ADJACENT_FACES_TOUCHING) := by
  decide

theorem counts_after_record (st : SolutionCounts) (hst : st.solution_counts.length = 12)
    (u : Fin 6) (c : Fin 2) : ∀ k : Nat, k < 12 →
    (st.solution_counts.set
        (solutionCountIndex ((u.val + 1 : Nat) : Int) (c.val + 2)).toNat
        (st.solution_counts.getD
          (solutionCountIndex ((u.val + 1 : Nat) : Int) (c.val + 2)).toNat 0 + 1)).getD k 0 =
      st.solution_counts.getD k 0 +
        (if (k : Int) = solutionCountIndex ((u.val + 1 : Nat) : Int) (c.val + 2) then 1
          else 0) := by
  obtain ⟨b1, b2, -, -⟩ := bucket_facts u c
  intro k hk
  rw [int_getD_set _ _ _ _ (by rw [hst]; omega)]
  by_cases hk2 : (k : Int) = solutionCountIndex ((u.val + 1 : Nat) : Int) (c.val + 2)
  · rw [if_pos hk2, if_pos (by omega)]
    congr 2
    omega
  · rw [if_neg hk2, if_neg (by omega)]
    omega

theorem recordSolution_opens (face_table : Nat → Int) (file_opens : String → Bool)
    (face_ids cube : List Nat) (arr : List CornerArrangement) (index : Int) (st : SolutionCounts)
    (h : ¬ recordedConnectedness cube arr index < ADJACENT_FACES_TOUCHING)
    (ho : file_opens (solutionFileName (recordedUniquePatterns face_table face_ids arr index)
      (recordedConnectedness cube arr index)) = true) :
    RecordSolution face_table file_opens face_ids cube arr index st =
      (⟨st.solution_counts.set
          (solutionCountIndex (recordedUniquePatterns face_table face_ids arr index)
            (recordedConnectedness cube arr index)).toNat
          (st.solution_counts.getD
            (solutionCountIndex (recordedUniquePatterns face_table face_ids arr index)
              (recordedConnectedness cube arr index)).toNat 0 + 1), st.total_solutions + 1⟩,
        some ⟨solutionFileName (recordedUniquePatterns face_table face_ids arr index)
            (recordedConnectedness cube arr index),
          solutionCube cube (arr.getD index.toNat zeroArrangement).arrangement⟩) := by
  unfold RecordSolution
  simp only [if_neg h, ho, Bool.not_true, Bool.false_eq_true, ↓reduceIte]

theorem recordSolution_fails (face_table : Nat → Int) (file_opens : String → Bool)
    (face_ids cube : List Nat) (arr : List CornerArrangement) (index : Int) (st : SolutionCounts)
    (h : ¬ recordedConnectedness cube arr index < ADJACENT_FACES_TOUCHING)
    (ho : file_opens (solutionFileName (recordedUniquePatterns face_table face_ids arr index)
      (recordedConnectedness cube arr index)) = false) :
    RecordSolution face_table file_opens face_ids cube arr index st = (st, none) := by
  unfold RecordSolution
  simp only [if_neg h, ho, Bool.not_false, ↓reduceIte]

/-- C27: a call of `RecordSolution` whose cube passes the guard (`connectedness` is not below
`ADJACENT_FACES_TOUCHING`) is assigned to one of 12 buckets, the file
`solutionFileName unique_patterns connectedness` and the counter with the index
`unique_patterns - 1 + (0 if connectedness = ADJACENT_FACES_TOUCHING else 6)`, which lies in
0..11. Whether or not `fopen_s` opens the file, the call writes to no other file and changes
no other counter; when the file opens it writes exactly one line, the solution cube, to that
file and increments `total_solutions` and exactly that counter, and when the file does not
open it writes nothing and leaves the statics as they are. The file is the `_Perfect` one iff
`connectedness = NOTHING_TOUCHING`, and two calls that pass the guard have the same counter
(and the same file) iff they have the same pair `(unique_patterns, connectedness)`. -/
theorem C27_one_bucket_per_solution (face_table : Nat → Int) (file_opens : String → Bool)
    (face_ids cube : List Nat)
    (arr : List CornerArrangement) (index : Int) (st : SolutionCounts)
    (face_ids2 cube2 : List Nat) (arr2 : List CornerArrangement) (index2 : Int)
    (hst : st.solution_counts.length = 12)
    (h : ¬ recordedConnectedness cube arr index < ADJACENT_FACES_TOUCHING)
    (h2 : ¬ recordedConnectedness cube2 arr2 index2 < ADJACENT_FACES_TOUCHING) :
    (recordedConnectedness cube arr index = ADJACENT_FACES_TOUCHING ∨
      recordedConnectedness cube arr index = NOTHING_TOUCHING) ∧
    (1 ≤ recordedUniquePatterns face_table face_ids arr index ∧
      recordedUniquePatterns face_table face_ids arr index ≤ 6) ∧
    (0 ≤ solutionCountIndex (recordedUniquePatterns face_table face_ids arr index)
        (recordedConnectedness cube arr index) ∧
      solutionCountIndex (recordedUniquePatterns face_table face_ids arr index)
        (recordedConnectedness cube arr index) ≤ 11) ∧
    (file_opens (solutionFileName (recordedUniquePatterns face_table face_ids arr index)
        (recordedConnectedness cube arr index)) = true →
      (RecordSolution face_table file_opens face_ids cube arr index st).2 =
        some ⟨solutionFileName (recordedUniquePatterns face_table face_ids arr index)
            (recordedConnectedness cube arr index),
          solutionCube cube (arr.getD index.toNat zeroArrangement).arrangement⟩ ∧
      (∀ k : Nat, k < 12 →
        (RecordSolution face_table file_opens face_ids cube arr index
            st).1.solution_counts.getD k 0 =
          st.solution_counts.getD k 0 +
            (if (k : Int) =
                solutionCountIndex (recordedUniquePatterns face_table face_ids arr index)
                  (recordedConnectedness cube arr index) then 1 else 0)) ∧
      (RecordSolution face_table file_opens face_ids cube arr index st).1.total_solutions =
        st.total_solutions + 1) ∧
    (file_opens (solutionFileName (recordedUniquePatterns face_table face_ids arr index)
        (recordedConnectedness cube arr index)) = false →
      RecordSolution face_table file_opens face_ids cube arr index st = (st, none)) ∧
    (∀ r, (RecordSolution face_table file_opens face_ids cube arr index st).2 = some r →
      r.filename = solutionFileName (recordedUniquePatterns face_table face_ids arr index)
        (recordedConnectedness cube arr index) ∧
      r.solution_cube = solutionCube cube (arr.getD index.toNat zeroArrangement).arrangement) ∧
    (∀ k : Nat, k < 12 →
      (k : Int) ≠ solutionCountIndex (recordedUniquePatterns face_table face_ids arr index)
        (recordedConnectedness cube arr index) →
      (RecordSolution face_table file_opens face_ids cube arr index
          st).1.solution_counts.getD k 0 = st.solution_counts.getD k 0) ∧
    (RecordSolution face_table file_opens face_ids cube arr index st).1.solution_counts.length
      = 12 ∧
    (solutionFileName (recordedUniquePatterns face_table face_ids arr index)
          (recordedConnectedness cube arr index) =
        "Solutions_" ++ toString (recordedUniquePatterns face_table face_ids arr index) ++
          "_patterns_Perfect.txt" ↔
      recordedConnectedness cube arr index = NOTHING_TOUCHING) ∧
    ((solutionCountIndex (recordedUniquePatterns face_table face_ids arr index)
          (recordedConnectedness cube arr index) =
        solutionCountIndex (recordedUniquePatterns face_table face_ids2 arr2 index2)
          (recordedConnectedness cube2 arr2 index2)) ↔
      (recordedUniquePatterns face_table face_ids arr index =
          recordedUniquePatterns face_table face_ids2 arr2 index2 ∧
        recordedConnectedness cube arr index = recordedConnectedness cube2 arr2 index2)) ∧
    ((solutionFileName (recordedUniquePatterns face_table face_ids arr index)
          (recordedConnectedness cube arr index) =
        solutionFileName (recordedUniquePatterns face_table face_ids2 arr2 index2)
          (recordedConnectedness cube2 arr2 index2)) ↔
      (recordedUniquePatterns face_table face_ids arr index =
          recordedUniquePatterns face_table face_ids2 arr2 index2 ∧
        recordedConnectedness cube arr index = recordedConnectedness cube2 arr2 index2)) := by
  obtain ⟨u, c, hu, hc⟩ := recorded_ranges face_table face_ids cube arr index h
  obtain ⟨u2, c2, hu2, hc2⟩ := recorded_ranges face_table face_ids2 cube2 arr2 index2 h2
  have hopen := recordSolution_opens face_table file_opens face_ids cube arr index st h
  have hfail := recordSolution_fails face_table file_opens face_ids cube arr index st h
  rw [hu, hc] at hopen hfail ⊢
  rw [hu2, hc2]
  obtain ⟨b1, b2, b3, -⟩ := bucket_facts u c
  have hinj := bucket_injective u u2 c c2
  have hcount := counts_after_record st hst u c
  refine ⟨?_, ⟨by push_cast; omega, by have := u.isLt; push_cast; omega⟩, ⟨b1, b2⟩, ?_, hfail,
    ?_, ?_, ?_, ?_, ?_, ?_⟩
  · have := c.isLt
    unfold ADJACENT_FACES_TOUCHING NOTHING_TOUCHING
    omega
  · intro ho
    rw [hopen ho]
    exact ⟨rfl, hcount, rfl⟩
  · intro r hr
    cases ho : file_opens (solutionFileName ((u.val + 1 : Nat) : Int) (c.val + 2)) with
    | false =>
      rw [hfail ho] at hr
      exact absurd hr (by simp)
    | true =>
      rw [hopen ho] at hr
      simp only [Option.some.injEq] at hr
      rw [← hr]
      exact ⟨rfl, rfl⟩
  · intro k hk hne
    cases ho : file_opens (solutionFileName ((u.val + 1 : Nat) : Int) (c.val + 2)) with
    | false => rw [hfail ho]
    | true =>
      rw [hopen ho]
      show (st.solution_counts.set _ _).getD k 0 = _
      rw [hcount k hk, if_neg hne, add_zero]
  · cases ho : file_opens (solutionFileName ((u.val + 1 : Nat) : Int) (c.val + 2)) with
    | false =>
      rw [hfail ho]
      exact hst
    | true =>
      rw [hopen ho]
      show (st.solution_counts.set _ _).length = 12
      rw [List.length_set, hst]
  · have e : toString ((u.val + 1 : Nat) : Int) = toString (u.val + 1) := rfl
    rw [e]
    exact b3
  · constructor
    · intro he
      obtain ⟨e1, e2⟩ := hinj.1 he
      rw [e1, e2]
      exact ⟨rfl, rfl⟩
    · rintro ⟨e1, e2⟩
      rw [e1, e2]
  · constructor
    · intro he
      obtain ⟨e1, e2⟩ := hinj.2 he
      rw [e1, e2]
      exact ⟨rfl, rfl⟩
    · rintro ⟨e1, e2⟩
      rw [e1, e2]

theorem C27_witness :
    ((⟨List.replicate 12 0, 0⟩ : SolutionCounts).solution_counts.length = 12 ∧
      ¬ recordedConnectedness (edgeCube sampleEdgePieces sampleEdgeFlips)
        [storedEntryOf sampleCorners] 0 < ADJACENT_FACES_TOUCHING) ∧
    (0 ≤ solutionCountIndex
        (recordedUniquePatterns sampleFaceTable
          (edgeFaceIds (edgeCube sampleEdgePieces sampleEdgeFlips))
          [storedEntryOf sampleCorners] 0)
        (recordedConnectedness (edgeCube sampleEdgePieces sampleEdgeFlips)
          [storedEntryOf sampleCorners] 0) ∧
      solutionCountIndex
        (recordedUniquePatterns sampleFaceTable
          (edgeFaceIds (edgeCube sampleEdgePieces sampleEdgeFlips))
          [storedEntryOf sampleCorners] 0)
        (recordedConnectedness (edgeCube sampleEdgePieces sampleEdgeFlips)
          [storedEntryOf sampleCorners] 0) ≤ 11) :=
  ⟨⟨rfl, by decide!⟩,
    (C27_one_bucket_per_solution sampleFaceTable (fun _ => true)
      (edgeFaceIds (edgeCube sampleEdgePieces sampleEdgeFlips))
      (edgeCube sampleEdgePieces sampleEdgeFlips) [storedEntryOf sampleCorners] 0
      ⟨List.replicate 12 0, 0⟩
      (edgeFaceIds (edgeCube sampleEdgePieces sampleEdgeFlips))
      (edgeCube sampleEdgePieces sampleEdgeFlips) [storedEntryOf sampleCorners] 0
      rfl (by decide!) (by decide!)).2.2.1⟩

/-! ## The colour loops visit each relabeling once -/

theorem markBody_color_swaps (face_colors sym : List Nat) (pattern_id : Int) (st : SwapState) :
    (markBody face_colors sym pattern_id st).color_swaps = st.color_swaps := by
  unfold markBody
  dsimp only
  split <;> rfl

theorem runBodies_append (body : SwapState → SwapState) (A B : List (List Nat)) (t : Nat → Int) :
    runBodies body (A ++ B) t = runBodies body B (runBodies body A t) := by
  unfold runBodies
  rw [List.foldl_append]

theorem swapFold_runs (body inner : SwapState → SwapState) (n k : Nat) (hk : k < 6)
    (hinner : ∀ (t : Nat → Int) (cs : List Nat), cs.length = 6 →
      inner ⟨t, cs⟩ = ⟨runBodies body (swapOrderFrom n (k + 1) cs) t, cs⟩)
    (L : List Nat) (hL : ∀ c ∈ L, c < 6) (t : Nat → Int) (cs : List Nat) (hcs : cs.length = 6) :
    L.foldl (fun s c =>
        (⟨(inner ⟨s.face_table, swapAt s.color_swaps k c⟩).face_table,
          swapAt (inner ⟨s.face_table, swapAt s.color_swaps k c⟩).color_swaps k c⟩ : SwapState))
        ⟨t, cs⟩ =
      ⟨runBodies body ((L.map (fun c => swapOrderFrom n (k + 1) (swapAt cs k c))).flatten) t, cs⟩ := by
  induction L generalizing t with
  | nil => rfl
  | cons c L ih =>
    rw [List.foldl_cons, List.map_cons, List.flatten_cons, runBodies_append]
    have hc : c < 6 := hL c (List.mem_cons_self _ _)
    have h1 := hinner t (swapAt cs k c) (by rw [swapAt_length, hcs])
    dsimp only
    rw [h1]
    dsimp only
    rw [swapAt_swapAt cs k c (by omega) (by omega)]
    exact ih (fun c' hc' => hL c' (List.mem_cons_of_mem _ hc')) _

theorem nestedSwapLoops_runs (body : SwapState → SwapState)
    (hbody : ∀ s, (body s).color_swaps = s.color_swaps) (n : Nat) :
    ∀ (k : Nat), k + n ≤ 6 → ∀ (t : Nat → Int) (cs : List Nat), cs.length = 6 →
      nestedSwapLoops n k body ⟨t, cs⟩ = ⟨runBodies body (swapOrderFrom n k cs) t, cs⟩ := by
  induction n with
  | zero =>
    intro k _ t cs _
    show body ⟨t, cs⟩ = ⟨(body ⟨t, cs⟩).face_table, cs⟩
    have := hbody ⟨t, cs⟩
    cases hb : body ⟨t, cs⟩ with
    | mk t' cs' =>
      rw [hb] at this
      simp only at this
      rw [this]
  | succ n ih =>
    intro k hk t cs hcs
    show swapLoop k (nestedSwapLoops n (k + 1) body) ⟨t, cs⟩ = _
    unfold swapLoop
    exact swapFold_runs body (nestedSwapLoops n (k + 1) body) n k (by omega)
      (fun t' cs' hcs' => ih (k + 1) (by omega) t' cs' hcs')
      (List.range' k (CUBE_COLORS - k))
      (by intro c hc; rw [List.mem_range'_1] at hc; unfold CUBE_COLORS at hc; omega) t cs hcs

theorem mem_swapOrderFrom (n : Nat) : ∀ (k : Nat) (cs cs' : List Nat),
    cs' ∈ swapOrderFrom n k cs ↔ swapReach n k cs cs' := by
  induction n with
  | zero =>
    intro k cs cs'
    simp [swapOrderFrom, swapReach]
  | succ n ih =>
    intro k cs cs'
    unfold swapOrderFrom swapReach
    simp only [List.mem_flatten, List.mem_map, List.mem_range'_1]
    constructor
    · rintro ⟨l, ⟨c, ⟨h1, h2⟩, rfl⟩, hm⟩
      exact ⟨c, h1, by omega, (ih _ _ _).1 hm⟩
    · rintro ⟨c, h1, h2, hm⟩
      exact ⟨_, ⟨c, ⟨h1, by omega⟩, rfl⟩, (ih _ _ _).2 hm⟩

theorem swapOrderFrom_length (n : Nat) : ∀ (k : Nat) (cs : List Nat),
    (swapOrderFrom n k cs).length = swapOrderCount n k := by
  induction n with
  | zero => intro k cs; rfl
  | succ n ih =>
    intro k cs
    unfold swapOrderFrom swapOrderCount
    rw [List.length_flatten, List.map_map]
    have : (List.length ∘ fun c => swapOrderFrom n (k + 1) (swapAt cs k c)) =
        fun _ => swapOrderCount n (k + 1) := by
      funext c
      exact ih _ _
    rw [this, List.map_const', List.sum_replicate, List.length_range', smul_eq_mul]

theorem swapOrder_length : swapOrder.length = 720 := by
  unfold swapOrder
  rw [swapOrderFrom_length]
  rfl

theorem swapOrderFrom_fixed (n : Nat) : ∀ (k : Nat) (cs cs' : List Nat), cs.length = 6 →
    cs' ∈ swapOrderFrom n k cs → ∀ j, j < k → cs'.getD j 0 = cs.getD j 0 := by
  induction n with
  | zero =>
    intro k cs cs' _ hm j _
    simp only [swapOrderFrom, List.mem_singleton] at hm
    rw [hm]
  | succ n ih =>
    intro k cs cs' hcs hm j hj
    unfold swapOrderFrom at hm
    simp only [List.mem_flatten, List.mem_map, List.mem_range'_1] at hm
    obtain ⟨l, ⟨c, ⟨h1, h2⟩, rfl⟩, hm⟩ := hm
    unfold CUBE_COLORS at h2
    rw [ih (k + 1) _ cs' (by rw [swapAt_length, hcs]) hm j (by omega),
      swapAt_getD cs k c j (by omega) (by omega), if_neg (by omega), if_neg (by omega)]

theorem swapOrderFrom_head (n k c : Nat) (cs cs' : List Nat) (hcs : cs.length = 6)
    (hk : k ≤ c) (hc : c < 6) (hm : cs' ∈ swapOrderFrom n (k + 1) (swapAt cs k c)) :
    cs'.getD k 0 = cs.getD c 0 := by
  rw [swapOrderFrom_fixed n (k + 1) _ cs' (by rw [swapAt_length, hcs]) hm k (by omega),
    swapAt_getD cs k c k (by omega) (by omega)]
  by_cases h : k = c
  · rw [if_pos h]; rw [h]
  · rw [if_neg h, if_pos rfl]

theorem swapOrderFrom_nodup (n : Nat) : ∀ (k : Nat) (t : Equiv.Perm (Fin 6)),
    (swapOrderFrom n k (permList t)).Nodup := by
  induction n with
  | zero => intro k t; simp [swapOrderFrom]
  | succ n ih =>
    intro k t
    unfold swapOrderFrom
    rw [List.nodup_flatten]
    constructor
    · intro l hl
      simp only [List.mem_map, List.mem_range'_1] at hl
      obtain ⟨c, ⟨h1, h2⟩, rfl⟩ := hl
      unfold CUBE_COLORS at h2
      have e := swapAt_permList t ⟨k, by omega⟩ ⟨c, by omega⟩
      simp only at e
      rw [e]
      exact ih _ _
    · rw [List.pairwise_map]
      apply List.Nodup.pairwise_of_forall_ne (List.nodup_range' _ _)
      intro c hc c' hc' hne
      rw [List.mem_range'_1] at hc hc'
      unfold CUBE_COLORS at hc hc'
      intro cs' hm hm'
      have e1 := swapOrderFrom_head n k c _ cs' (permList_length t) hc.1 (by omega) hm
      have e2 := swapOrderFrom_head n k c' _ cs' (permList_length t) hc'.1 (by omega) hm'
      rw [e1, permList_getD t c (by omega), permList_getD t c' (by omega)] at e2
      have := t.injective (Fin.ext e2)
      exact hne (by simpa using congrArg Fin.val this)

theorem swapOrder_nodup : swapOrder.Nodup := by
  unfold swapOrder
  rw [← permList_one]
  exact swapOrderFrom_nodup 5 0 1

theorem mem_swapOrder (cs : List Nat) :
    cs ∈ swapOrder ↔ ∃ p : Equiv.Perm (Fin 6), cs = permList p := by
  unfold swapOrder
  rw [mem_swapOrderFrom, swapReach_iff]

/-- C28: the five nested swap/unswap loops of `BuildFaceTable` (`c0` in 0..5, `c1` in 1..5,
`c2` in 2..5, `c3` in 3..5, `c4` in 4..5), entered with `color_swaps` the identity, run the
innermost body once for each entry of the list `swapOrder`, in this order, with `color_swaps`
equal to that entry, and leave `color_swaps` the identity again; `swapOrder` has 720 entries
without repetition, and its entries are exactly the 720 permutations of 0..5. The innermost
body of `BuildFaceTable` is such a body, so each pass of the loop over the symmetries starts
from the identity: the whole loop runs the body for each of the 8 rows on each entry of
`swapOrder`. -/
theorem C28_color_loops_visit_each_permutation_once :
    (swapOrder.length = 720 ∧ swapOrder.Nodup ∧
      (∀ cs, cs ∈ swapOrder ↔ ∃ p : Equiv.Perm (Fin 6), cs = permList p) ∧
      Fintype.card (Equiv.Perm (Fin 6)) = 720) ∧
    (∀ (body : SwapState → SwapState), (∀ s, (body s).color_swaps = s.color_swaps) →
      ∀ t : Nat → Int,
        swapLoop 0 (swapLoop 1 (swapLoop 2 (swapLoop 3 (swapLoop 4 body))))
            ⟨t, [0, 1, 2, 3, 4, 5]⟩ =
          ⟨runBodies body swapOrder t, [0, 1, 2, 3, 4, 5]⟩) ∧
    (∀ (face_colors : List Nat) (pattern_id : Int) (t : Nat → Int),
      symmetryLoop face_colors pattern_id ⟨t, [0, 1, 2, 3, 4, 5]⟩ =
        ⟨symmetries.foldl
            (fun t sym => runBodies (markBody face_colors sym pattern_id) swapOrder t) t,
          [0, 1, 2, 3, 4, 5]⟩) := by
  have hrun : ∀ (body : SwapState → SwapState), (∀ s, (body s).color_swaps = s.color_swaps) →
      ∀ t : Nat → Int,
        swapLoop 0 (swapLoop 1 (swapLoop 2 (swapLoop 3 (swapLoop 4 body))))
            ⟨t, [0, 1, 2, 3, 4, 5]⟩ =
          ⟨runBodies body swapOrder t, [0, 1, 2, 3, 4, 5]⟩ := by
    intro body hbody t
    exact nestedSwapLoops_runs body hbody 5 0 (by decide) t [0, 1, 2, 3, 4, 5] rfl
  refine ⟨⟨swapOrder_length, swapOrder_nodup, mem_swapOrder, ?_⟩, hrun, ?_⟩
  · rw [Fintype.card_perm, Fintype.card_fin]
    rfl
  · intro face_colors pattern_id t
    unfold symmetryLoop
    generalize symmetries = S
    induction S generalizing t with
    | nil => rfl
    | cons sym S ih =>
      rw [List.foldl_cons, List.foldl_cons,
        hrun _ (markBody_color_swaps face_colors sym pattern_id) t]
      exact ih _

/-! ## The fall-through of `PlaceCornerPiece` at the last depth stores nothing -/

theorem nat_getD_set (l : List Nat) (i x v : Nat) :
    (l.set i v).getD x 0 = if x = i ∧ i < l.length then v else l.getD x 0 := by
  simp only [List.getD_eq_getElem?_getD, List.getElem?_set]
  by_cases h : i = x
  · subst h
    by_cases h2 : i < l.length
    · simp [h2]
    · have hn : l[i]? = none := List.getElem?_eq_none (by omega)
      simp [h2, hn]
  · rw [if_neg h, if_neg (fun hh => h hh.1.symm)]

theorem agreeOff_refl (c : List Nat) : AgreeOffLastCorner c c := ⟨rfl, fun _ _ _ _ => rfl⟩

theorem agreeOff_symm {c1 c2 : List Nat} (h : AgreeOffLastCorner c1 c2) :
    AgreeOffLastCorner c2 c1 := ⟨h.1.symm, fun x a b c => (h.2 x a b c).symm⟩

theorem agreeOff_trans {c1 c2 c3 : List Nat} (h : AgreeOffLastCorner c1 c2)
    (h' : AgreeOffLastCorner c2 c3) : AgreeOffLastCorner c1 c3 :=
  ⟨h.1.trans h'.1, fun x a b c => (h.2 x a b c).trans (h'.2 x a b c)⟩

theorem agreeOff_set {c1 c2 : List Nat} (h : AgreeOffLastCorner c1 c2) (i v : Nat) :
    AgreeOffLastCorner (c1.set i v) (c2.set i v) := by
  refine ⟨by simp [h.1], fun x a b c => ?_⟩
  rw [nat_getD_set, nat_getD_set, h.1, h.2 x a b c]

theorem agreeOff_place {c1 c2 : List Nat} (h : AgreeOffLastCorner c1 c2) (e p o : Nat) :
    AgreeOffLastCorner (placeCorner c1 e p o) (placeCorner c2 e p o) := by
  unfold placeCorner
  exact agreeOff_set (agreeOff_set (agreeOff_set h _ _) _ _) _ _

theorem agreeOff_place_last (c : List Nat) (p o : Nat) :
    AgreeOffLastCorner (placeCorner c 7 p o) c := by
  refine ⟨placeCorner_length c 7 p o, fun x a b d => ?_⟩
  unfold placeCorner
  rw [nat_getD_set, nat_getD_set, nat_getD_set, if_neg (fun hh => d hh.1),
    if_neg (fun hh => b hh.1), if_neg (fun hh => a hh.1)]

theorem place_last_eq {c1 c2 : List Nat} (h : AgreeOffLastCorner c1 c2) (p o : Nat) :
    placeCorner c1 7 p o = placeCorner c2 7 p o := by
  apply list_ext_getD
  · rw [placeCorner_length, placeCorner_length, h.1]
  · intro x hx
    rw [placeCorner_length, h.1] at hx
    unfold placeCorner
    simp only [nat_getD_set, List.length_set, h.1]
    split_ifs with q2 q1 q0
    · rfl
    · rfl
    · rfl
    · exact h.2 x (fun e => q0 ⟨e, by rw [← e]; exact hx⟩)
        (fun e => q1 ⟨e, by rw [← e]; exact hx⟩) (fun e => q2 ⟨e, by rw [← e]; exact hx⟩)

theorem corner_cells_off_last : ∀ e : Fin 7, ∀ j : Fin 3,
    tab2 corners e.val j.val ≠ tab2 corners 7 0 ∧ tab2 corners e.val j.val ≠ tab2 corners 7 1 ∧
      tab2 corners e.val j.val ≠ tab2 corners 7 2 := by
  decide

theorem check_cells_off_last : ∀ e : Fin 7,
    ∀ i ∈ List.range' (corner_count_checks_start.getD e.val 0)
      (corner_count_checks_end.getD e.val 0 + 1 - corner_count_checks_start.getD e.val 0),
    ∀ j : Fin 3,
      tab2 corner_count_checks i j.val ≠ tab2 corners 7 0 ∧
      tab2 corner_count_checks i j.val ≠ tab2 corners 7 1 ∧
      tab2 corner_count_checks i j.val ≠ tab2 corners 7 2 := by
  decide

theorem checks_agreeOff {c1 c2 : List Nat} (h : AgreeOffLastCorner c1 c2) (e : Nat) (he : e < 7) :
    cornerTouchesCenter c1 e = cornerTouchesCenter c2 e ∧
      cornerThreeSame c1 e = cornerThreeSame c2 e := by
  have hc : ∀ j, j < 3 → c1.getD (tab2 corners e j) 0 = c2.getD (tab2 corners e j) 0 := by
    intro j hj
    obtain ⟨a, b, c⟩ := corner_cells_off_last ⟨e, he⟩ ⟨j, hj⟩
    exact h.2 _ a b c
  constructor
  · unfold cornerTouchesCenter
    rw [hc 0 (by decide), hc 1 (by decide), hc 2 (by decide)]
  · unfold cornerThreeSame
    apply any_congr_mem
    intro i hi
    have hk : ∀ j, j < 3 →
        c1.getD (tab2 corner_count_checks i j) 0 = c2.getD (tab2 corner_count_checks i j) 0 := by
      intro j hj
      obtain ⟨a, b, c⟩ := check_cells_off_last ⟨e, he⟩ i hi ⟨j, hj⟩
      exact h.2 _ a b c
    unfold threeSameColor
    rw [hk 0 (by decide), hk 1 (by decide), hk 2 (by decide)]

theorem optionRel_foldlM {α β ι : Type} (R : α → β → Prop) (f : α → ι → Option α)
    (g : β → ι → Option β) (l : List ι)
    (h : ∀ i, i ∈ l → ∀ a b, R a b → OptionRel R (f a i) (g b i)) :
    ∀ a b, R a b → OptionRel R (l.foldlM f a) (l.foldlM g b) := by
  induction l with
  | nil => intro a b hab; exact hab
  | cons i l ih =>
    intro a b hab
    rw [List.foldlM_cons, List.foldlM_cons]
    have h1 := h i (List.mem_cons_self _ _) a b hab
    cases hf : f a i with
    | none =>
      cases hg : g b i with
      | none => exact True.intro
      | some b' => rw [hf, hg] at h1; exact h1.elim
    | some a' =>
      cases hg : g b i with
      | none => rw [hf, hg] at h1; exact h1.elim
      | some b' =>
        rw [hf, hg] at h1
        exact ih (fun j hj => h j (List.mem_cons_of_mem _ hj)) a' b' h1

theorem cornerOriBody_rel (next1 next2 : CornerState → Nat → Nat → Option CornerState)
    (hnext : ∀ a b sp rp, SameStores a b → OptionRel SameStores (next1 a sp rp) (next2 b sp rp))
    (e : Nat) (he : e < 7) (ori : Nat) (s1 s2 : CornerLoopState) (hs : SameLoopStores s1 s2) :
    OptionRel SameLoopStores (cornerOriBody next1 e s1 ori) (cornerOriBody next2 e s2 ori) := by
  obtain ⟨⟨P1, c1, g1⟩, sp1, rp1⟩ := s1
  obtain ⟨⟨P2, c2, g2⟩, sp2, rp2⟩ := s2
  obtain ⟨⟨hP, hg, hc⟩, hsp, hrp⟩ := hs
  simp only at hP hg hc hsp hrp
  subst hP hg hsp hrp
  have hag := agreeOff_place hc e (P1.getD e 0) ori
  have hch := checks_agreeOff hag e he
  unfold cornerOriBody
  dsimp only
  rw [hch.1, hch.2]
  by_cases h1 : cornerTouchesCenter (placeCorner c2 e (P1.getD e 0) ori) e = true
  · rw [if_pos h1, if_pos h1]
    exact ⟨⟨rfl, rfl, hag⟩, rfl, rfl⟩
  · rw [if_neg h1, if_neg h1]
    by_cases h2 : cornerThreeSame (placeCorner c2 e (P1.getD e 0) ori) e = true
    · rw [if_pos h2, if_pos h2]
      exact ⟨⟨rfl, rfl, hag⟩, rfl, rfl⟩
    · rw [if_neg h2, if_neg h2]
      have hn := hnext ⟨P1, placeCorner c1 e (P1.getD e 0) ori, g1⟩
        ⟨P1, placeCorner c2 e (P1.getD e 0) ori, g1⟩ sp1 ((rp1 + ori) % 3) ⟨rfl, rfl, hag⟩
      cases hf : next1 ⟨P1, placeCorner c1 e (P1.getD e 0) ori, g1⟩ sp1 ((rp1 + ori) % 3) with
      | none =>
        cases hg : next2 ⟨P1, placeCorner c2 e (P1.getD e 0) ori, g1⟩ sp1 ((rp1 + ori) % 3) with
        | none => exact True.intro
        | some b' => rw [hf, hg] at hn; exact hn.elim
      | some a' =>
        cases hg : next2 ⟨P1, placeCorner c2 e (P1.getD e 0) ori, g1⟩ sp1 ((rp1 + ori) % 3) with
        | none => rw [hf, hg] at hn; exact hn.elim
        | some b' =>
          rw [hf, hg] at hn
          exact ⟨hn, rfl, rfl⟩

theorem cornerPosBody_rel (next1 next2 : CornerState → Nat → Nat → Option CornerState)
    (hnext : ∀ a b sp rp, SameStores a b → OptionRel SameStores (next1 a sp rp) (next2 b sp rp))
    (e : Nat) (he : e < 7) (pos : Nat) (s1 s2 : CornerLoopState) (hs : SameLoopStores s1 s2) :
    OptionRel SameLoopStores (cornerPosBody next1 e s1 pos) (cornerPosBody next2 e s2 pos) := by
  have hstart : SameLoopStores
      (if pos ≠ e then
        (⟨{ s1.st with pieces := swapAt s1.st.pieces e pos }, s1.swap_parity ^^^ 1,
          s1.rotation_parity⟩ : CornerLoopState)
      else s1)
      (if pos ≠ e then
        (⟨{ s2.st with pieces := swapAt s2.st.pieces e pos }, s2.swap_parity ^^^ 1,
          s2.rotation_parity⟩ : CornerLoopState)
      else s2) := by
    by_cases hp : pos ≠ e
    · rw [if_pos hp, if_pos hp]
      obtain ⟨⟨hP, hg, hc⟩, hsp, hrp⟩ := hs
      exact ⟨⟨by show swapAt _ _ _ = swapAt _ _ _; rw [hP], hg, hc⟩,
        by show _ ^^^ 1 = _ ^^^ 1; rw [hsp], hrp⟩
    · rw [if_neg hp, if_neg hp]
      exact hs
  have hloop := optionRel_foldlM SameLoopStores (cornerOriBody next1 e) (cornerOriBody next2 e)
    [0, 1, 2] (fun ori _ a b hab => cornerOriBody_rel next1 next2 hnext e he ori a b hab) _ _ hstart
  unfold cornerPosBody
  dsimp only
  revert hloop
  generalize ([0, 1, 2] : List Nat).foldlM (cornerOriBody next1 e) _ = r1
  generalize ([0, 1, 2] : List Nat).foldlM (cornerOriBody next2 e) _ = r2
  intro hloop
  cases r1 with
  | none =>
    cases r2 with
    | none => exact True.intro
    | some b' => exact hloop.elim
  | some a' =>
    cases r2 with
    | none => exact hloop.elim
    | some b' =>
      dsimp only
      obtain ⟨⟨hP, hg, hc⟩, hsp, hrp⟩ := hloop
      by_cases hp : pos ≠ e
      · rw [if_pos hp, if_pos hp]
        exact ⟨⟨by show swapAt _ _ _ = swapAt _ _ _; rw [hP], hg, hc⟩,
          by show _ ^^^ 1 = _ ^^^ 1; rw [hsp], hrp⟩
      · rw [if_neg hp, if_neg hp]
        exact ⟨⟨hP, hg, hc⟩, hsp, hrp⟩

theorem placeCornerPieceLeaf_inner (r e : Nat) (he : e + (r + 1) = 8) (hne : e ≠ 7)
    (st : CornerState) (sp rp : Nat) :
    PlaceCornerPieceLeaf (r + 1) st sp rp =
      ((List.range' e (8 - e)).foldlM (cornerPosBody (PlaceCornerPieceLeaf r) e) ⟨st, sp, rp⟩).map
        (fun s => s.st) := by
  have hE : CUBE_CORNERS - (r + 1) = e := by unfold CUBE_CORNERS; omega
  rw [PlaceCornerPieceLeaf]
  simp only [hE, hne, ↓reduceIte]
  have h8 : CUBE_CORNERS = 8 := rfl
  rw [h8]
  cases (List.range' e (8 - e)).foldlM (cornerPosBody (PlaceCornerPieceLeaf r) e) ⟨st, sp, rp⟩ <;>
    rfl

theorem placeCornerPieceLeaf_last (st : CornerState) (sp rp : Nat) :
    PlaceCornerPieceLeaf 1 st sp rp = PlaceLastCornerPiece 7 st sp rp := by
  rw [PlaceCornerPieceLeaf]
  have hE : CUBE_CORNERS - (0 + 1) = 7 := rfl
  simp only [hE, ↓reduceIte]

theorem placeLast_congr {st1 st2 : CornerState} (h : SameStores st1 st2) (sp rp : Nat) :
    PlaceLastCornerPiece 7 st1 sp rp = PlaceLastCornerPiece 7 st2 sp rp := by
  obtain ⟨P1, c1, g1⟩ := st1
  obtain ⟨P2, c2, g2⟩ := st2
  obtain ⟨hP, hg, hc⟩ := h
  simp only at hP hg hc
  subst hP hg
  unfold PlaceLastCornerPiece
  dsimp only
  rw [place_last_eq hc]

theorem lastOriBody_keeps (s : CornerLoopState) (ori : Nat) :
    ∃ s', cornerOriBody (PlaceCornerPiece 0) 7 s ori = some s' ∧ SameStores s'.st s.st := by
  unfold cornerOriBody
  dsimp only
  have hk : SameStores
      (⟨s.st.pieces, placeCorner s.st.cube 7 (s.st.pieces.getD 7 0) ori, s.st.globals⟩ :
        CornerState) s.st := ⟨rfl, rfl, agreeOff_place_last _ _ _⟩
  by_cases h1 : cornerTouchesCenter (placeCorner s.st.cube 7 (s.st.pieces.getD 7 0) ori) 7 = true
  · rw [if_pos h1]
    exact ⟨_, rfl, hk⟩
  · rw [if_neg h1]
    by_cases h2 : cornerThreeSame (placeCorner s.st.cube 7 (s.st.pieces.getD 7 0) ori) 7 = true
    · rw [if_pos h2]
      exact ⟨_, rfl, hk⟩
    · rw [if_neg h2]
      exact ⟨_, rfl, hk⟩

theorem sameStores_trans {a b c : CornerState} (h : SameStores a b) (h' : SameStores b c) :
    SameStores a c :=
  ⟨h.1.trans h'.1, h.2.1.trans h'.2.1, agreeOff_trans h.2.2 h'.2.2⟩

theorem lastPosBody_keeps (s0 : CornerLoopState) :
    ∃ s, cornerPosBody (PlaceCornerPiece 0) 7 s0 7 = some s ∧ SameStores s.st s0.st := by
  obtain ⟨s1, e1, k1⟩ := lastOriBody_keeps s0 0
  obtain ⟨s2, e2, k2⟩ := lastOriBody_keeps s1 1
  obtain ⟨s3, e3, k3⟩ := lastOriBody_keeps s2 2
  have hf : ([0, 1, 2] : List Nat).foldlM (cornerOriBody (PlaceCornerPiece 0) 7) s0 =
      some s3 := by
    rw [List.foldlM_cons, e1]
    show ([1, 2] : List Nat).foldlM (cornerOriBody (PlaceCornerPiece 0) 7) s1 = some s3
    rw [List.foldlM_cons, e2]
    show ([2] : List Nat).foldlM (cornerOriBody (PlaceCornerPiece 0) 7) s2 = some s3
    rw [List.foldlM_cons, e3]
    rfl
  unfold cornerPosBody
  dsimp only
  rw [if_neg (fun h => h rfl), hf]
  dsimp only
  rw [if_neg (fun h => h rfl)]
  exact ⟨s3, rfl, sameStores_trans k3 (sameStores_trans k2 k1)⟩

theorem lastLoop_keeps (st0 : CornerState) (sp rp : Nat) :
    ∃ s, (List.range' 7 1).foldlM (cornerPosBody (PlaceCornerPiece 0) 7) ⟨st0, sp, rp⟩ = some s ∧
      SameStores s.st st0 := by
  obtain ⟨s, e, k⟩ := lastPosBody_keeps ⟨st0, sp, rp⟩
  refine ⟨s, ?_, k⟩
  have hr : List.range' 7 1 = [7] := rfl
  rw [hr, List.foldlM_cons, e]
  rfl

theorem placeCornerPiece_leaf_rel (r : Nat) : r ≤ 8 → ∀ (st1 st2 : CornerState) (sp rp : Nat),
    SameStores st1 st2 →
      OptionRel SameStores (PlaceCornerPiece r st1 sp rp) (PlaceCornerPieceLeaf r st2 sp rp) := by
  induction r with
  | zero =>
    intro _ st1 st2 sp rp h
    exact h
  | succ r ih =>
    intro hr st1 st2 sp rp h
    by_cases h0 : r = 0
    · subst h0
      rw [placeCornerPiece_last, placeCornerPieceLeaf_last, placeLast_congr h]
      cases PlaceLastCornerPiece 7 st2 sp rp with
      | none => exact True.intro
      | some st0 =>
        obtain ⟨s, e, k⟩ := lastLoop_keeps st0 sp rp
        rw [Option.some_bind, e]
        exact k
    · have he : (8 - (r + 1)) + (r + 1) = 8 := by omega
      rw [placeCornerPiece_inner r (8 - (r + 1)) he (by omega),
        placeCornerPieceLeaf_inner r (8 - (r + 1)) he (by omega)]
      have hloop := optionRel_foldlM SameLoopStores
        (cornerPosBody (PlaceCornerPiece r) (8 - (r + 1)))
        (cornerPosBody (PlaceCornerPieceLeaf r) (8 - (r + 1)))
        (List.range' (8 - (r + 1)) (8 - (8 - (r + 1))))
        (fun pos _ a b hab => cornerPosBody_rel _ _
          (fun a b sp rp hab => ih (by omega) a b sp rp hab) (8 - (r + 1)) (by omega) pos a b hab)
        ⟨st1, sp, rp⟩ ⟨st2, sp, rp⟩ ⟨h, rfl, rfl⟩
      revert hloop
      generalize (List.range' (8 - (r + 1)) (8 - (8 - (r + 1)))).foldlM
        (cornerPosBody (PlaceCornerPiece r) (8 - (r + 1))) ⟨st1, sp, rp⟩ = r1
      generalize (List.range' (8 - (r + 1)) (8 - (8 - (r + 1)))).foldlM
        (cornerPosBody (PlaceCornerPieceLeaf r) (8 - (r + 1))) ⟨st2, sp, rp⟩ = r2
      intro hloop
      cases r1 with
      | none =>
        cases r2 with
        | none => exact True.intro
        | some b => exact hloop.elim
      | some a =>
        cases r2 with
        | none => exact hloop.elim
        | some b => exact hloop.1

theorem sameStores_refl (st : CornerState) : SameStores st st := ⟨rfl, rfl, agreeOff_refl _⟩

theorem optionRel_globals {a b : Option CornerState} (h : OptionRel SameStores a b) :
    a.map (fun s => (s.pieces, s.globals)) = b.map (fun s => (s.pieces, s.globals)) := by
  cases a with
  | none =>
    cases b with
    | none => rfl
    | some y => exact h.elim
  | some x =>
    cases b with
    | none => exact h.elim
    | some y =>
      show some (x.pieces, x.globals) = some (y.pieces, y.globals)
      rw [h.1, h.2.1]

theorem optionRel_only_globals {a b : Option CornerState} (h : OptionRel SameStores a b) :
    a.map (fun s => s.globals) = b.map (fun s => s.globals) := by
  cases a with
  | none =>
    cases b with
    | none => rfl
    | some y => exact h.elim
  | some x =>
    cases b with
    | none => exact h.elim
    | some y =>
      show some x.globals = some y.globals
      rw [h.2.1]

theorem leaf_globals_eq (r : Nat) (hr : r ≤ 8) (st : CornerState) (sp rp : Nat) :
    (PlaceCornerPiece r st sp rp).map (fun s => s.globals) =
      (PlaceCornerPieceLeaf r st sp rp).map (fun s => s.globals) :=
  optionRel_only_globals (placeCornerPiece_leaf_rel r hr st st sp rp (sameStores_refl st))

theorem createCornerArrangements_eq_map (capE capO : Nat) :
    CreateCornerArrangements capE capO =
      ((PlaceCornerPiece 8
        ⟨[0, 1, 2, 3, 4, 5, 6, 7], initialCornerCube,
          ⟨List.replicate capE zeroArrangement, List.replicate capO zeroArrangement, 0, 0⟩⟩
        0 0).map (fun s => s.globals)).map (fun g : CornerGlobals =>
        (⟨FillCornerIndexes g.ep_corner_arrangements g.ep_corner_arrangement_count,
          FillCornerIndexes g.op_corner_arrangements g.op_corner_arrangement_count,
          g.ep_corner_arrangement_count, g.op_corner_arrangement_count⟩ : CornerGlobals)) := by
  unfold CreateCornerArrangements
  cases PlaceCornerPiece 8
    ⟨[0, 1, 2, 3, 4, 5, 6, 7], initialCornerCube,
      ⟨List.replicate capE zeroArrangement, List.replicate capO zeroArrangement, 0, 0⟩⟩ 0 0 <;> rfl

theorem createCornerArrangementsLeaf_eq_map (capE capO : Nat) :
    CreateCornerArrangementsLeaf capE capO =
      ((PlaceCornerPieceLeaf 8
        ⟨[0, 1, 2, 3, 4, 5, 6, 7], initialCornerCube,
          ⟨List.replicate capE zeroArrangement, List.replicate capO zeroArrangement, 0, 0⟩⟩
        0 0).map (fun s => s.globals)).map (fun g : CornerGlobals =>
        (⟨FillCornerIndexes g.ep_corner_arrangements g.ep_corner_arrangement_count,
          FillCornerIndexes g.op_corner_arrangements g.op_corner_arrangement_count,
          g.ep_corner_arrangement_count, g.op_corner_arrangement_count⟩ : CornerGlobals)) := by
  unfold CreateCornerArrangementsLeaf
  cases PlaceCornerPieceLeaf 8
    ⟨[0, 1, 2, 3, 4, 5, 6, 7], initialCornerCube,
      ⟨List.replicate capE zeroArrangement, List.replicate capO zeroArrangement, 0, 0⟩⟩ 0 0 <;> rfl

theorem createCornerArrangements_leaf (capE capO : Nat) :
    CreateCornerArrangements capE capO = CreateCornerArrangementsLeaf capE capO := by
  rw [createCornerArrangements_eq_map, createCornerArrangementsLeaf_eq_map,
    leaf_globals_eq 8 (le_refl _)]

theorem map_globals_storeAll (L : List (List Nat × Nat)) (g : CornerGlobals) (P cube2 : List Nat) :
    ((storeAll L g).map (fun g2 => (⟨P, cube2, g2⟩ : CornerState))).map (fun s => s.globals) =
      storeAll L g := by
  cases storeAll L g <;> rfl

theorem lastDepth_stores (st : CornerState) (sp rp : Nat) :
    ∃ L : List (List Nat × Nat), L.length ≤ 1 ∧
      (∀ x ∈ L, x = (placeCorner st.cube 7 (st.pieces.getD 7 0) ((3 - rp) % 3), sp)) ∧
      (PlaceCornerPiece 1 st sp rp).map (fun s => s.globals) = storeAll L st.globals ∧
      (PlaceCornerPieceLeaf 1 st sp rp).map (fun s => s.globals) = storeAll L st.globals := by
  have hg := leaf_globals_eq 1 (by decide) st sp rp
  rw [hg, placeCornerPieceLeaf_last]
  unfold PlaceLastCornerPiece
  dsimp only
  by_cases h1 :
      cornerTouchesCenter (placeCorner st.cube 7 (st.pieces.getD 7 0) ((3 - rp) % 3)) 7 = true
  · rw [if_pos h1]
    exact ⟨[], by decide, fun x hx => absurd hx (List.not_mem_nil _), rfl, rfl⟩
  · rw [if_neg h1]
    by_cases h2 :
        (!cornerCountPassed (placeCorner st.cube 7 (st.pieces.getD 7 0) ((3 - rp) % 3)) 7) = true
    · rw [if_pos h2]
      exact ⟨[], by decide, fun x hx => absurd hx (List.not_mem_nil _), rfl, rfl⟩
    · rw [if_neg h2]
      refine ⟨[(placeCorner st.cube 7 (st.pieces.getD 7 0) ((3 - rp) % 3), sp)], le_refl _,
        fun x hx => List.mem_singleton.1 hx, ?_, ?_⟩
      · rw [storeAll_singleton]
        cases storeByParity (placeCorner st.cube 7 (st.pieces.getD 7 0) ((3 - rp) % 3)) sp
          st.globals <;> rfl
      · rw [storeAll_singleton]
        cases storeByParity (placeCorner st.cube 7 (st.pieces.getD 7 0) ((3 - rp) % 3)) sp
          st.globals <;> rfl

/-- C30: the last corner depth behaves as a pure leaf. `PlaceCornerPiece` as written (which
for `corner_num = 7` calls `PlaceLastCornerPiece` and then falls through into its selection
loop) and the variant `PlaceCornerPieceLeaf` that returns right after `PlaceLastCornerPiece`
both fail or both return, with the same `pieces`, the same arrays and counts, and cubes that
differ at most on the surfaces of the last slot, from every state and at every depth; so
`CreateCornerArrangements` gives the same result with either, and both run the same sequence
of stores from the start. The fall-through loop at depth 7 returns with the arrays and counts
unchanged, its calls at depth 8 return the state as it is, and a call at depth 7 stores at
most one arrangement. -/
theorem C30_last_corner_depth_is_leaf :
    (∀ r, r ≤ 8 → ∀ (st : CornerState) (sp rp : Nat),
      OptionRel SameStores (PlaceCornerPiece r st sp rp) (PlaceCornerPieceLeaf r st sp rp) ∧
      (PlaceCornerPiece r st sp rp).map (fun s => (s.pieces, s.globals)) =
        (PlaceCornerPieceLeaf r st sp rp).map (fun s => (s.pieces, s.globals))) ∧
    (∀ capE capO, CreateCornerArrangements capE capO = CreateCornerArrangementsLeaf capE capO) ∧
    (∃ L : List (List Nat × Nat), L.Nodup ∧ (∀ x, x ∈ L ↔ ValidStore x) ∧
      ∀ g : CornerGlobals,
        (PlaceCornerPiece 8 ⟨[0, 1, 2, 3, 4, 5, 6, 7], initialCornerCube, g⟩ 0 0).map
            (fun s => s.globals) = storeAll L g ∧
        (PlaceCornerPieceLeaf 8 ⟨[0, 1, 2, 3, 4, 5, 6, 7], initialCornerCube, g⟩ 0 0).map
            (fun s => s.globals) = storeAll L g) ∧
    (∀ (st0 : CornerState) (sp rp : Nat), ∃ s,
      (List.range' 7 1).foldlM (cornerPosBody (PlaceCornerPiece 0) 7) ⟨st0, sp, rp⟩ = some s ∧
        s.st.globals = st0.globals ∧ s.st.pieces = st0.pieces) ∧
    (∀ (st : CornerState) (sp rp : Nat), PlaceCornerPiece 0 st sp rp = some st) ∧
    (∀ (st : CornerState) (sp rp : Nat), ∃ L : List (List Nat × Nat), L.length ≤ 1 ∧
      (∀ x ∈ L, x = (placeCorner st.cube 7 (st.pieces.getD 7 0) ((3 - rp) % 3), sp)) ∧
      (PlaceCornerPiece 1 st sp rp).map (fun s => s.globals) = storeAll L st.globals ∧
      (PlaceCornerPieceLeaf 1 st sp rp).map (fun s => s.globals) = storeAll L st.globals) := by
  refine ⟨fun r hr st sp rp => ?_, createCornerArrangements_leaf, ?_, ?_, fun _ _ _ => rfl,
    lastDepth_stores⟩
  · have h := placeCornerPiece_leaf_rel r hr st st sp rp (sameStores_refl st)
    exact ⟨h, optionRel_globals h⟩
  · obtain ⟨cube2, L, hnd, hmem, hrun⟩ := placeCornerPiece_top
    refine ⟨L, hnd, hmem, fun g => ?_⟩
    have h1 : (PlaceCornerPiece 8 ⟨[0, 1, 2, 3, 4, 5, 6, 7], initialCornerCube, g⟩ 0 0).map
        (fun s => s.globals) = storeAll L g := by
      rw [hrun g]
      exact map_globals_storeAll L g _ _
    refine ⟨h1, ?_⟩
    rw [← h1]
    exact (leaf_globals_eq 8 (le_refl _) _ 0 0).symm
  · intro st0 sp rp
    obtain ⟨s, e, k⟩ := lastLoop_keeps st0 sp rp
    exact ⟨s, e, k.2.1, k.1⟩

/-! ## The cross-face table of `GetColorConnectedness` -/

theorem fcorners_cross : ∀ p ∈ cube_fcorners, CrossSeamDiagonal p.1 p.2 := by
  decide!

theorem cross_fcorners : ∀ a c : Fin 54, CrossSeamDiagonal a.val c.val →
    (a.val, c.val) ∈ cube_fcorners := by
  decide!

theorem edges_lt : ∀ e ∈ edges, e.getD 0 0 < 54 ∧ e.getD 1 0 < 54 := by
  decide

theorem cross_lt (a c : Nat) (h : CrossSeamDiagonal a c) : a < 54 ∧ c < 54 := by
  obtain ⟨e, he, h⟩ := h
  rcases h with ⟨h1, h2⟩ | ⟨h1, h2⟩
  · exact ⟨by rw [h1]; exact (edges_lt e he).1, h2.1⟩
  · exact ⟨by rw [h1]; exact (edges_lt e he).2, h2.1⟩

theorem mem_fcorners_iff (a c : Nat) : (a, c) ∈ cube_fcorners ↔ CrossSeamDiagonal a c := by
  constructor
  · intro h
    exact fcorners_cross (a, c) h
  · intro h
    obtain ⟨ha, hc⟩ := cross_lt a c h
    exact cross_fcorners ⟨a, ha⟩ ⟨c, hc⟩ h

theorem faceClean_iff (cube : List Nat) :
    FaceClean cube ↔
      (¬ CubePairMatches cube_sides cube ∧ ¬ CubePairMatches cube_corners cube) := by
  have key : ∀ f a, f < 6 → a < 9 → (faceColors cube f).getD a 0 = cube.getD (9 * f + a) 0 / 9 :=
    fun f a _ ha => faceColors_getD cube f a ha
  constructor
  · intro h
    constructor
    · rintro ⟨p, hp, he⟩
      obtain ⟨h1, h2, h3⟩ := cube_sides_geometry.1 p hp
      have hf := ((faceConnectedness_cases (faceColors cube (p.1 / 9))).2.2.1 (h _ h2)).1
      apply hf
      refine ⟨p.1 % 9, p.2 % 9, Nat.mod_lt _ (by decide), Nat.mod_lt _ (by decide), h3, ?_⟩
      have e1 : 9 * (p.1 / 9) + p.1 % 9 = p.1 := by omega
      have e2 : 9 * (p.1 / 9) + p.2 % 9 = p.2 := by omega
      rw [key _ _ h2 (Nat.mod_lt _ (by decide)), key _ _ h2 (Nat.mod_lt _ (by decide)), e1, e2]
      exact he
    · rintro ⟨p, hp, he⟩
      obtain ⟨h1, h2, h3⟩ := cube_corners_geometry.1 p hp
      have hf := ((faceConnectedness_cases (faceColors cube (p.1 / 9))).2.2.1 (h _ h2)).2
      apply hf
      refine ⟨p.1 % 9, p.2 % 9, Nat.mod_lt _ (by decide), Nat.mod_lt _ (by decide), h3, ?_⟩
      have e1 : 9 * (p.1 / 9) + p.1 % 9 = p.1 := by omega
      have e2 : 9 * (p.1 / 9) + p.2 % 9 = p.2 := by omega
      rw [key _ _ h2 (Nat.mod_lt _ (by decide)), key _ _ h2 (Nat.mod_lt _ (by decide)), e1, e2]
      exact he
  · rintro ⟨hs, hc⟩ f hf
    rw [(faceConnectedness_cases (faceColors cube f)).2.2]
    constructor
    · rintro ⟨a, b, ha, hb, hadj, he⟩
      rw [key f a hf ha, key f b hf hb] at he
      rcases cube_sides_geometry.2 ⟨f, hf⟩ ⟨a, ha⟩ ⟨b, hb⟩ hadj with hm | hm
      · exact hs ⟨_, hm, he⟩
      · exact hs ⟨_, hm, he.symm⟩
    · rintro ⟨a, b, ha, hb, hadj, he⟩
      rw [key f a hf ha, key f b hf hb] at he
      rcases cube_corners_geometry.2 ⟨f, hf⟩ ⟨a, ha⟩ ⟨b, hb⟩ hadj with hm | hm
      · exact hc ⟨_, hm, he⟩
      · exact hc ⟨_, hm, he.symm⟩

/-- C31: the table `fcorners` of `GetColorConnectedness` has 48 entries without repetition, and
a pair `(a, c)` is in it exactly when `a` is a sticker slot of an edge cubie `{a, b}` of the
table `edges` and `c` is one of the two corner cells next to `b` on the face of `b`. Hence a
cube is classified `NOTHING_TOUCHING` iff it is face-clean (each of its six faces is
`NOTHING_TOUCHING` for the face classifier) and no edge sticker has the colour of a corner
sticker that is its diagonal neighbour across the seam. -/
theorem C31_cross_face_table_exact (cube : List Nat) :
    cube_fcorners.length = 48 ∧ cube_fcorners.Nodup ∧
    (∀ a c, (a, c) ∈ cube_fcorners ↔ CrossSeamDiagonal a c) ∧
    (∀ e ∈ edges, ∀ c, CornerNextTo (e.getD 1 0) c → (e.getD 0 0, c) ∈ cube_fcorners) ∧
    (∀ e ∈ edges, ∀ c, CornerNextTo (e.getD 0 0) c → (e.getD 1 0, c) ∈ cube_fcorners) ∧
    (∀ b : Fin 54, b.val % 9 % 2 = 1 →
      ((List.range 54).filter (fun c => decide (CornerNextTo b.val c))).length = 2) ∧
    (GetColorConnectedness cube = NOTHING_TOUCHING ↔
      (FaceClean cube ∧
        ∀ a c, CrossSeamDiagonal a c → cube.getD a 0 / 9 ≠ cube.getD c 0 / 9)) := by
  refine ⟨rfl, by decide!, mem_fcorners_iff, ?_, ?_, by decide!, ?_⟩
  · intro e he c hc
    exact (mem_fcorners_iff _ _).2 ⟨e, he, Or.inl ⟨rfl, hc⟩⟩
  · intro e he c hc
    exact (mem_fcorners_iff _ _).2 ⟨e, he, Or.inr ⟨rfl, hc⟩⟩
  · rw [(cubeConnectedness_cases cube).2.2.2, faceClean_iff, and_assoc]
    refine and_congr_right (fun _ => and_congr_right (fun _ => ?_))
    constructor
    · intro h a c hac he
      exact h ⟨(a, c), (mem_fcorners_iff a c).2 hac, he⟩
    · rintro h ⟨p, hp, he⟩
      exact h p.1 p.2 ((mem_fcorners_iff p.1 p.2).1 hp) he

/-! ## The combined index is the index of the face turned by 180 degrees -/

theorem id_getD : ∀ c : Fin 6, ([0, 1, 2, 3, 4, 5] : List Nat).getD c.val 0 = c.val := by
  decide

theorem colorsOf_faceOfList (c0 c1 c2 c3 c4 c5 c6 c7 c8 : Nat) (h0 : c0 < 6) (h1 : c1 < 6)
    (h2 : c2 < 6) (h3 : c3 < 6) (h4 : c4 < 6) (h5 : c5 < 6) (h6 : c6 < 6) (h7 : c7 < 6)
    (h8 : c8 < 6) :
    colorsOf (faceOfList [c0, c1, c2, c3, c4, c5, c6, c7, c8]) =
      [c0, c1, c2, c3, c4, c5, c6, c7, c8] := by
  unfold colorsOf cell faceOfList
  simp [Nat.mod_eq_of_lt, h0, h1, h2, h3, h4, h5, h6, h7, h8]

theorem table_half_turn (c0 c1 c2 c3 c4 c5 c6 c7 c8 : Nat) (h0 : c0 < 6) (h1 : c1 < 6)
    (h2 : c2 < 6) (h3 : c3 < 6) (h4 : c4 < 6) (h5 : c5 < 6) (h6 : c6 < 6) (h7 : c7 < 6)
    (h8 : c8 < 6) :
    BuildFaceTable (faceIndexOfColors [c8, c7, c6, c5, c4, c3, c2, c1, c0]) =
      BuildFaceTable (faceIndexOfColors [c0, c1, c2, c3, c4, c5, c6, c7, c8]) := by
  have hc := colorsOf_faceOfList c0 c1 c2 c3 c4 c5 c6 c7 c8 h0 h1 h2 h3 h4 h5 h6 h7 h8
  have hi : indexOf (faceOfList [c0, c1, c2, c3, c4, c5, c6, c7, c8]) =
      faceIndexOfColors [c0, c1, c2, c3, c4, c5, c6, c7, c8] := by
    have e : ∀ k, cell (faceOfList [c0, c1, c2, c3, c4, c5, c6, c7, c8]) k =
        (colorsOf (faceOfList [c0, c1, c2, c3, c4, c5, c6, c7, c8])).getD k 0 :=
      fun k => (colorsOf_getD _ k).symm
    unfold indexOf
    simp only [e, hc]
    rfl
  have hj : indexOf (act 2 1 (faceOfList [c0, c1, c2, c3, c4, c5, c6, c7, c8])) =
      faceIndexOfColors [c8, c7, c6, c5, c4, c3, c2, c1, c0] := by
    rw [← transformedIndex_eq, hc, permList_one]
    have hs : symmetries.getD (2 : Fin 8).val [] = [8, 7, 6, 5, 4, 3, 2, 1, 0] := rfl
    rw [hs]
    simp only [transformedIndex, List.foldl_cons, List.foldl_nil, List.getD_cons_zero,
      List.getD_cons_succ, CUBE_COLORS]
    rw [id_getD ⟨c0, h0⟩, id_getD ⟨c1, h1⟩, id_getD ⟨c2, h2⟩, id_getD ⟨c3, h3⟩,
      id_getD ⟨c4, h4⟩, id_getD ⟨c5, h5⟩, id_getD ⟨c6, h6⟩, id_getD ⟨c7, h7⟩, id_getD ⟨c8, h8⟩]
    unfold faceIndexOfColors
    simp only [List.foldr_cons, List.foldr_nil]
    ring
  rw [← hi, ← hj, BuildFaceTable_eq]
  refine (buildInv_final.const _ _ (indexOf_lt _) (indexOf_lt _) ?_).symm
  rw [faceOf_indexOf, faceOf_indexOf]
  exact ⟨2, 1, rfl⟩

theorem face_cells_lt (cube : List Nat) (f : Nat)
    (h : ∀ s, s < 9 → cube.getD (9 * f + s) 0 < 54) (s : Nat) (hs : s < 9) :
    cube.getD (9 * f + s) 0 / 9 < 6 := by
  have := h s hs
  omega

theorem contributions_half_turn (cube : List Nat) (f : Nat)
    (h : ∀ s, s < 9 → cube.getD (9 * f + s) 0 < 54) :
    cornerFaceId cube f + edgeFaceId cube f < FACE_ARRANGEMENTS ∧
    FaceIndexToColors (cornerFaceId cube f + edgeFaceId cube f) = (faceColors cube f).reverse ∧
    FaceIndexToColors (faceIndexOfColors (faceColors cube f)) = faceColors cube f ∧
    faceIndexOfColors (faceColors cube f) < FACE_ARRANGEMENTS ∧
    BuildFaceTable (cornerFaceId cube f + edgeFaceId cube f) =
      BuildFaceTable (faceIndexOfColors (faceColors cube f)) := by
  have b := face_cells_lt cube f h
  have e9 : f * 9 = 9 * f := Nat.mul_comm _ _
  obtain ⟨hlt, hcols⟩ := combined_index (cube.getD (9 * f + 0) 0 / 9)
    (cube.getD (9 * f + 1) 0 / 9) (cube.getD (9 * f + 2) 0 / 9)
    (cube.getD (9 * f + 3) 0 / 9) (cube.getD (9 * f + 4) 0 / 9)
    (cube.getD (9 * f + 5) 0 / 9) (cube.getD (9 * f + 6) 0 / 9)
    (cube.getD (9 * f + 7) 0 / 9) (cube.getD (9 * f + 8) 0 / 9)
    (b 0 (by decide)) (b 1 (by decide)) (b 2 (by decide)) (b 3 (by decide)) (b 4 (by decide))
    (b 5 (by decide)) (b 6 (by decide)) (b 7 (by decide)) (b 8 (by decide))
  have hsum : cornerFaceId cube f + edgeFaceId cube f =
      (((cube.getD (9 * f + 0) 0 / 9 * 36 + cube.getD (9 * f + 2) 0 / 9) * 36 +
        cube.getD (9 * f + 4) 0 / 9) * 36 + cube.getD (9 * f + 6) 0 / 9) * 36 +
        cube.getD (9 * f + 8) 0 / 9 +
      (((cube.getD (9 * f + 1) 0 / 9 * 36 + cube.getD (9 * f + 3) 0 / 9) * 36 +
        cube.getD (9 * f + 5) 0 / 9) * 36 + cube.getD (9 * f + 7) 0 / 9) * CUBE_COLORS := by
    unfold cornerFaceId edgeFaceId
    rw [e9]
    rfl
  have hrev : cornerFaceId cube f + edgeFaceId cube f =
      faceIndexOfColors (faceColors cube f).reverse := by
    rw [faceColors_eq]
    unfold cornerFaceId edgeFaceId faceIndexOfColors CUBE_COLORS
    rw [e9]
    simp only [List.reverse_cons, List.reverse_nil, List.nil_append, List.cons_append,
      List.foldr_cons, List.foldr_nil, Nat.add_zero]
    ring
  have hback := combined_index (cube.getD (9 * f + 8) 0 / 9)
    (cube.getD (9 * f + 7) 0 / 9) (cube.getD (9 * f + 6) 0 / 9)
    (cube.getD (9 * f + 5) 0 / 9) (cube.getD (9 * f + 4) 0 / 9)
    (cube.getD (9 * f + 3) 0 / 9) (cube.getD (9 * f + 2) 0 / 9)
    (cube.getD (9 * f + 1) 0 / 9) (cube.getD (9 * f + 0) 0 / 9)
    (b 8 (by decide)) (b 7 (by decide)) (b 6 (by decide)) (b 5 (by decide)) (b 4 (by decide))
    (b 3 (by decide)) (b 2 (by decide)) (b 1 (by decide)) (b 0 (by decide))
  have hidx : faceIndexOfColors (faceColors cube f) =
      (((cube.getD (9 * f + 8) 0 / 9 * 36 + cube.getD (9 * f + 6) 0 / 9) * 36 +
        cube.getD (9 * f + 4) 0 / 9) * 36 + cube.getD (9 * f + 2) 0 / 9) * 36 +
        cube.getD (9 * f + 0) 0 / 9 +
      (((cube.getD (9 * f + 7) 0 / 9 * 36 + cube.getD (9 * f + 5) 0 / 9) * 36 +
        cube.getD (9 * f + 3) 0 / 9) * 36 + cube.getD (9 * f + 1) 0 / 9) * CUBE_COLORS := by
    rw [faceColors_eq]
    unfold faceIndexOfColors CUBE_COLORS
    simp only [List.foldr_cons, List.foldr_nil]
    ring
  refine ⟨by rw [hsum]; exact hlt, ?_, ?_, by rw [hidx]; exact hback.1, ?_⟩
  · rw [hsum, hcols, faceColors_eq]
    rfl
  · rw [hidx, hback.2, faceColors_eq]
  · rw [hrev, faceColors_eq]
    exact table_half_turn _ _ _ _ _ _ _ _ _ (b 0 (by decide)) (b 1 (by decide)) (b 2 (by decide))
      (b 3 (by decide)) (b 4 (by decide)) (b 5 (by decide)) (b 6 (by decide)) (b 7 (by decide))
      (b 8 (by decide))

theorem face_cell_parity (f : Nat) :
    ¬ (f * 9) % 9 % 2 = 1 ∧ (f * 9 + 1) % 9 % 2 = 1 ∧ ¬ (f * 9 + 2) % 9 % 2 = 1 ∧
    (f * 9 + 3) % 9 % 2 = 1 ∧ ¬ (f * 9 + 4) % 9 % 2 = 1 ∧ (f * 9 + 5) % 9 % 2 = 1 ∧
    ¬ (f * 9 + 6) % 9 % 2 = 1 ∧ (f * 9 + 7) % 9 % 2 = 1 ∧ ¬ (f * 9 + 8) % 9 % 2 = 1 := by
  refine ⟨?_, ?_, ?_, ?_, ?_, ?_, ?_, ?_, ?_⟩ <;> omega

theorem face_cell_lt (f : Nat) (hf : f < 6) :
    f * 9 < 54 ∧ f * 9 + 1 < 54 ∧ f * 9 + 2 < 54 ∧ f * 9 + 3 < 54 ∧ f * 9 + 4 < 54 ∧
    f * 9 + 5 < 54 ∧ f * 9 + 6 < 54 ∧ f * 9 + 7 < 54 ∧ f * 9 + 8 < 54 := by
  refine ⟨?_, ?_, ?_, ?_, ?_, ?_, ?_, ?_, ?_⟩ <;> omega

theorem solution_contributions {P O cube : List Nat} (hcube : CubeInv 12 P O cube)
    (c : CornerArrangement) (hc : StoredEntry c) (f : Nat) (hf : f < 6) :
    c.faceIds.getD f 0 = cornerFaceId (solutionCube cube c.arrangement) f ∧
    edgeFaceId cube f = edgeFaceId (solutionCube cube c.arrangement) f := by
  have hs := solutionCube_cell hcube c hc
  obtain ⟨_, _, hfid, _⟩ := hc
  rw [hfid f hf]
  obtain ⟨m0, m1, m2, m3, m4, m5, m6, m7, m8⟩ := face_cell_parity f
  obtain ⟨l0, l1, l2, l3, l4, l5, l6, l7, l8⟩ := face_cell_lt f hf
  have k0 := hs (f * 9) l0
  have k1 := hs (f * 9 + 1) l1
  have k2 := hs (f * 9 + 2) l2
  have k3 := hs (f * 9 + 3) l3
  have k4 := hs (f * 9 + 4) l4
  have k5 := hs (f * 9 + 5) l5
  have k6 := hs (f * 9 + 6) l6
  have k7 := hs (f * 9 + 7) l7
  have k8 := hs (f * 9 + 8) l8
  rw [if_neg m0] at k0
  rw [if_pos m1] at k1
  rw [if_neg m2] at k2
  rw [if_pos m3] at k3
  rw [if_neg m4] at k4
  rw [if_pos m5] at k5
  rw [if_neg m6] at k6
  rw [if_pos m7] at k7
  rw [if_neg m8] at k8
  unfold cornerFaceId edgeFaceId
  rw [k0, k1, k2, k3, k4, k5, k6, k7, k8]
  exact ⟨rfl, rfl⟩

theorem solution_cells_lt {P O cube : List Nat} (hcube : CubeInv 12 P O cube)
    (hP : ∀ k, k < 12 → P.getD k 0 < 12) (hO : ∀ k, k < 12 → O.getD k 0 < 2)
    (c : CornerArrangement) (hc : StoredEntry c) (x : Nat) (hx : x < 54) :
    (solutionCube cube c.arrangement).getD x 0 < 54 := by
  rw [solutionCube_cell hcube c hc x hx]
  by_cases hodd : x % 9 % 2 = 1
  · rw [if_pos hodd]
    exact cubeInv_edge_lt hcube hP hO x hx hodd
  · rw [if_neg hodd]
    exact (hc.2.2.2 x hx).2.2

/-- C33: for every face `f` of a cube whose nine cells hold sticker ids below 54, with cell
colours `c0..c8` (sticker / 9), the combined index used for lookups, corner contribution plus
edge contribution, is the sum of `c_i * 6 ^ (8 - i)`: the base-6 numeral with cell 0 as the
most significant digit. It is below 6^9 and decodes to the nine colours in reverse order, which
is the face turned by 180 degrees (row 2 of `symmetries`). Nevertheless `BuildFaceTable` has
the same entry at the combined index and at the FaceIndex `sum of c_i * 6 ^ i` of the face
itself. In particular, for a stored corner arrangement and a fully placed edge cube, the entry
at `faceIds[f] + edgeFaceId` that the search and `RecordSolution` look up is the entry at the
FaceIndex of face `f` of the solution cube. -/
theorem C33_lookup_gives_pattern_of_face (cube : List Nat) (f : Nat)
    (h : ∀ s, s < 9 → cube.getD (9 * f + s) 0 < 54) :
    cornerFaceId cube f + edgeFaceId cube f =
      ((List.range 9).map (fun i => (faceColors cube f).getD i 0 * 6 ^ (8 - i))).sum ∧
    faceIndexOfColors (faceColors cube f) =
      ((List.range 9).map (fun i => (faceColors cube f).getD i 0 * 6 ^ i)).sum ∧
    cornerFaceId cube f + edgeFaceId cube f < FACE_ARRANGEMENTS ∧
    faceIndexOfColors (faceColors cube f) < FACE_ARRANGEMENTS ∧
    FaceIndexToColors (cornerFaceId cube f + edgeFaceId cube f) = (faceColors cube f).reverse ∧
    (faceColors cube f).reverse =
      (List.range 9).map (fun s => (faceColors cube f).getD ((symmetries.getD 2 []).getD s 0) 0) ∧
    FaceIndexToColors (faceIndexOfColors (faceColors cube f)) = faceColors cube f ∧
    BuildFaceTable (cornerFaceId cube f + edgeFaceId cube f) =
      BuildFaceTable (faceIndexOfColors (faceColors cube f)) ∧
    (∀ (P O ecube : List Nat) (c : CornerArrangement), CubeInv 12 P O ecube →
      (∀ k, k < 12 → P.getD k 0 < 12) → (∀ k, k < 12 → O.getD k 0 < 2) → StoredEntry c →
      ∀ g, g < 6 →
        BuildFaceTable (c.faceIds.getD g 0 + edgeFaceId ecube g) =
          BuildFaceTable (faceIndexOfColors (faceColors (solutionCube ecube c.arrangement) g))) := by
  obtain ⟨a1, a2, a3, a4, a5⟩ := contributions_half_turn cube f h
  have hr : List.range 9 = [0, 1, 2, 3, 4, 5, 6, 7, 8] := rfl
  refine ⟨?_, ?_, a1, a4, a2, ?_, a3, a5, ?_⟩
  · rw [hr, faceColors_eq]
    unfold cornerFaceId edgeFaceId CUBE_COLORS
    have e9 : f * 9 = 9 * f := Nat.mul_comm _ _
    rw [e9]
    simp only [List.map_cons, List.map_nil, List.sum_cons, List.sum_nil, List.getD_cons_zero,
      List.getD_cons_succ]
    norm_num
    ring
  · rw [hr, faceColors_eq]
    unfold faceIndexOfColors
    simp only [List.map_cons, List.map_nil, List.sum_cons, List.sum_nil, List.getD_cons_zero,
      List.getD_cons_succ, List.foldr_cons, List.foldr_nil]
    norm_num
    ring
  · rw [hr, faceColors_eq]
    rfl
  · intro P O ecube c hcube hP hO hc g hg
    obtain ⟨e1, e2⟩ := solution_contributions hcube c hc g hg
    rw [e1, e2]
    exact (contributions_half_turn (solutionCube ecube c.arrangement) g
      (fun s hs => solution_cells_lt hcube hP hO c hc _ (by omega))).2.2.2.2

theorem C33_witness :
    (∀ s, s < 9 → sampleCube.getD (9 * 0 + s) 0 < 54) ∧
    BuildFaceTable (cornerFaceId sampleCube 0 + edgeFaceId sampleCube 0) =
      BuildFaceTable (faceIndexOfColors (faceColors sampleCube 0)) :=
  ⟨by decide!, (C33_lookup_gives_pattern_of_face sampleCube 0 (by decide!)).2.2.2.2.2.2.2.1⟩

/-! ## `GetCornerArrangementsIndex` terminates within 6 iterations per entry -/

theorem cornerIndexSteps_fst (face_table : Nat → Int) (arr : List CornerArrangement)
    (face_ids : List Nat) (m : Nat) : ∀ (fuel : Nat) (index : Int) (face_num k : Nat),
    (cornerIndexSteps face_table arr face_ids m fuel index face_num k).map Prod.fst =
      cornerIndexLoop face_table arr face_ids m fuel index face_num := by
  intro fuel
  induction fuel with
  | zero => intro index face_num k; rfl
  | succ fuel ih =>
    intro index face_num k
    unfold cornerIndexSteps cornerIndexLoop
    dsimp only
    split
    · split
      · exact ih _ _ _
      · split
        · rfl
        · exact ih _ _ _
    · rfl

theorem measure_step (m n i j : Nat) (hij : i < j) (hj : j < n) :
    m * (n - j) + m ≤ m * (n - i) := by
  have h : n - j + 1 ≤ n - i := by omega
  calc m * (n - j) + m = m * (n - j + 1) := by rw [Nat.mul_succ]
    _ ≤ m * (n - i) := Nat.mul_le_mul_left m h

theorem measure_pos (m n i : Nat) (hi : i < n) : m ≤ m * (n - i) :=
  Nat.le_mul_of_pos_right m (by omega)

theorem nextIndex_larger (arr0 cur : List CornerArrangement) (n : Nat)
    (hinv : FillInv arr0 n n 0 cur) (i f : Nat) (hi : i < n) (hf : f < 6) :
    toInt32 ((cur.getD i zeroArrangement).nextIndex.getD f 0) = -1 ∨
      ∃ j : Nat, toInt32 ((cur.getD i zeroArrangement).nextIndex.getD f 0) = (j : Int) ∧
        i < j ∧ j < n := by
  rcases hinv.done i f hi hf with ⟨e, _⟩ | ⟨j, e, a1, a2, _⟩
  · exact Or.inl e
  · exact Or.inr ⟨j, e, a1, a2⟩

theorem cornerIndexSteps_bound (face_table : Nat → Int) (arr0 cur : List CornerArrangement)
    (n : Nat) (face_ids : List Nat) (m : Nat) (hinv : FillInv arr0 n n 0 cur) (hm : m ≤ 6) :
    ∀ (fuel index face_num k : Nat), index < n → face_num ≤ m →
    m * (n - index) - face_num < fuel →
    ∃ (r : Int) (k2 : Nat),
      cornerIndexSteps face_table cur face_ids m fuel (index : Int) face_num k = some (r, k2) ∧
      k2 + face_num ≤ k + m * (n - index) ∧ k ≤ k2 ∧
      (r = -1 ∨ ((index : Int) ≤ r ∧ r < (n : Int))) := by
  intro fuel
  induction fuel with
  | zero => intro index face_num k _ _ h; omega
  | succ fuel ih =>
    intro index face_num k h2 h3 h4
    have hpos := measure_pos m n index h2
    unfold cornerIndexSteps
    simp only [Int.toNat_ofNat]
    by_cases hfm : face_num < m
    · rw [if_pos hfm]
      by_cases hv : face_table ((cur.getD index zeroArrangement).faceIds.getD face_num 0 +
          face_ids.getD face_num 0) < 16
      · rw [if_pos hv]
        obtain ⟨r, k2, e, b1, b2, b3⟩ := ih index (face_num + 1) (k + 1) h2 (by omega) (by omega)
        exact ⟨r, k2, e, by omega, by omega, b3⟩
      · rw [if_neg hv]
        rcases nextIndex_larger arr0 cur n hinv index face_num h2 (by omega) with e | ⟨j, e, a1, a2⟩
        · rw [if_pos e, e]
          exact ⟨-1, k + 1, rfl, by omega, by omega, Or.inl rfl⟩
        · have hne : ¬ toInt32 ((cur.getD index zeroArrangement).nextIndex.getD face_num 0) = -1 := by
            rw [e]; omega
          rw [if_neg hne, e]
          have hstep := measure_step m n index j a1 a2
          obtain ⟨r, k2, e2, b1, b2, b3⟩ := ih j 0 (k + 1) a2 (by omega) (by omega)
          refine ⟨r, k2, e2, by omega, by omega, ?_⟩
          rcases b3 with b3 | b3
          · exact Or.inl b3
          · exact Or.inr ⟨by omega, b3.2⟩
    · rw [if_neg hfm]
      exact ⟨index, k, rfl, by omega, le_refl _, Or.inr ⟨le_refl _, by omega⟩⟩

/-- C32: on an array of `n` arrangements whose `nextIndex` fields were filled by
`FillCornerIndexes`, every stored `nextIndex` value (read as an `int`) is `-1` or an index
strictly larger than that of its entry and below `n`; so `GetCornerArrangementsIndex`, called
with a start index that is `-1` or at least 0, with `max_index < n` and at most 6 faces, returns
after at most `6 * n` iterations of its loop (fuel `6 * n + 1` is enough for the model), and it
returns `-1` or an index from the start index up to `n - 1`. -/
theorem C32_getCornerArrangementsIndex_terminates (face_table : Nat → Int)
    (arr : List CornerArrangement) (n : Nat) (hn : n ≤ arr.length) (h31 : n < 2147483648)
    (hwf : ∀ i, i < arr.length → (arr.getD i zeroArrangement).nextIndex.length = 6)
    (index max_index : Int) (hidx : -1 ≤ index) (hmax : max_index < (n : Int))
    (face_ids : List Nat) (m : Nat) (hm : m ≤ 6) (fuel : Nat) (hfuel : 6 * n + 1 ≤ fuel) :
    (∀ i f, i < n → f < 6 →
      toInt32 (((FillCornerIndexes arr n).getD i zeroArrangement).nextIndex.getD f 0) = -1 ∨
      ∃ j : Nat,
        toInt32 (((FillCornerIndexes arr n).getD i zeroArrangement).nextIndex.getD f 0) =
          (j : Int) ∧ i < j ∧ j < n) ∧
    ∃ (r : Int) (k : Nat),
      GetCornerArrangementsIndexSteps fuel face_table index (FillCornerIndexes arr n)
        face_ids m max_index = some (r, k) ∧
      k ≤ 6 * n ∧
      GetCornerArrangementsIndex fuel face_table index (FillCornerIndexes arr n)
        face_ids m max_index = some r ∧
      (r = -1 ∨ (index ≤ r ∧ r < (n : Int))) := by
  have hinv := fillCornerIndexes_inv arr n hn h31 hwf
  refine ⟨fun i f hi hf => nextIndex_larger arr _ n hinv i f hi hf, ?_⟩
  unfold GetCornerArrangementsIndexSteps GetCornerArrangementsIndex
  by_cases hc : index > max_index ∨ index = -1
  · rw [if_pos hc, if_pos hc]
    exact ⟨-1, 0, rfl, Nat.zero_le _, rfl, Or.inl rfl⟩
  · rw [if_neg hc, if_neg hc]
    obtain ⟨i, rfl⟩ : ∃ i : Nat, index = (i : Int) := ⟨index.toNat, by omega⟩
    have hi : i < n := by omega
    have hle : m * (n - i) ≤ 6 * n := Nat.mul_le_mul hm (Nat.sub_le n i)
    obtain ⟨r, k, e, b1, _, b3⟩ := cornerIndexSteps_bound face_table arr _ n face_ids m hinv hm
      fuel i 0 0 hi (Nat.zero_le _) (by omega)
    refine ⟨r, k, e, by omega, ?_, b3⟩
    rw [← cornerIndexSteps_fst face_table _ face_ids m fuel (i : Int) 0 0, e]
    rfl

theorem C32_witness :
    (3 ≤ sampleArrangements.length ∧ 3 < 2147483648 ∧ (-1 : Int) ≤ 0 ∧
      (2 : Int) < ((3 : Nat) : Int) ∧ 1 ≤ 6 ∧ 6 * 3 + 1 ≤ 19) ∧
    ∃ (r : Int) (k : Nat),
      GetCornerArrangementsIndexSteps 19 (fun x => if x = 2 then 0 else 16) 0
        (FillCornerIndexes sampleArrangements 3) [0, 0, 0, 0, 0, 0] 1 2 = some (r, k) ∧
      k ≤ 6 * 3 ∧
      GetCornerArrangementsIndex 19 (fun x => if x = 2 then 0 else 16) 0
        (FillCornerIndexes sampleArrangements 3) [0, 0, 0, 0, 0, 0] 1 2 = some r ∧
      (r = -1 ∨ ((0 : Int) ≤ r ∧ r < ((3 : Nat) : Int))) :=
  ⟨by decide, (C32_getCornerArrangementsIndex_terminates (fun x => if x = 2 then 0 else 16)
    sampleArrangements 3 (by decide) (by decide) (by decide) 0 2 (by decide) (by decide)
    [0, 0, 0, 0, 0, 0] 1 (by decide) 19 (by decide)).2⟩

/-! ## No lookup of the two enumerations is out of range -/

theorem foldlM_guarded {σ ι : Type} (f fG : σ → ι → Option σ) (I : σ → Prop) :
    ∀ (l : List ι), (∀ i, i ∈ l → ∀ s, I s → fG s i = f s i ∧ ∀ s', f s i = some s' → I s') →
    ∀ s, I s → l.foldlM fG s = l.foldlM f s := by
  intro l
  induction l with
  | nil => intro _ s _; rfl
  | cons a l ih =>
    intro h s hs
    rw [List.foldlM_cons, List.foldlM_cons, (h a (List.mem_cons_self _ _) s hs).1]
    cases hfa : f s a with
    | none => rfl
    | some s' =>
      exact ih (fun i hi => h i (List.mem_cons_of_mem _ hi)) s'
        ((h a (List.mem_cons_self _ _) s hs).2 s' hfa)

theorem cornerReads_ok {e : Nat} {P T cube : List Nat} (h : CornerCubeInv (e + 1) P T cube)
    (he : e < 8) (hP : ∀ k, k < 8 → P.getD k 0 < 8) : cornerReadsInRange cube e = true := by
  have hval : ∀ k, k < e + 1 → ∀ j, j < 3 → cube.getD (tab2 corners k j) 0 < 54 := by
    intro k hk j hj
    rw [h.2.2 k hk j hj]
    exact (corner_cell_facts _ (hP k (by omega)) _ (Nat.mod_lt _ (by decide))).2.1
  unfold cornerReadsInRange
  rw [Bool.and_eq_true, List.all_eq_true, List.all_eq_true]
  constructor
  · intro j hj
    have hj3 : j < 3 := by
      have : j = 0 ∨ j = 1 ∨ j = 2 := by simpa using hj
      omega
    rw [Bool.and_eq_true, decide_eq_true_eq, decide_eq_true_eq]
    exact ⟨hval e (by omega) j hj3, (corner_cell_facts e he j hj3).2.1⟩
  · intro i hi
    rw [List.mem_range'_1] at hi
    obtain ⟨_, hcells⟩ := corner_check_cells e he i hi.1 (by omega)
    rw [List.all_eq_true]
    intro j hj
    have hj3 : j < 3 := by
      have : j = 0 ∨ j = 1 ∨ j = 2 := by simpa using hj
      omega
    obtain ⟨k, hk, j', hj', hkj⟩ := hcells j hj3
    rw [decide_eq_true_eq, ← hkj]
    exact hval k hk j' hj'

theorem storeReads_ok {P T cube : List Nat} (h : CornerCubeInv 8 P T cube)
    (hP : ∀ k, k < 8 → P.getD k 0 < 8) : storeReadsInRange cube = true := by
  have hcell : ∀ x, x < 54 → x % 9 % 2 = 0 → cube.getD x 0 < 54 := by
    intro x hx hpar
    by_cases h4 : x % 9 = 4
    · rw [h.2.1 x hx (Or.inr h4), (initialCornerCube_cells x hx).2 h4]
      exact hx
    · obtain ⟨k, hk, j, hj, hkj⟩ := corner_cell_surj x hx hpar h4
      rw [← hkj, h.2.2 k hk j hj]
      exact (corner_cell_facts _ (hP k hk) _ (Nat.mod_lt _ (by decide))).2.1
  unfold storeReadsInRange
  rw [List.all_eq_true]
  intro i hi
  have hi6 : i < 6 := by simpa [CUBE_FACES] using hi
  rw [List.all_eq_true]
  intro d hd
  have hd' : d = 0 ∨ d = 2 ∨ d = 4 ∨ d = 6 ∨ d = 8 := by simpa using hd
  rw [decide_eq_true_eq]
  exact hcell _ (by omega) (by omega)

theorem withGlobals_self (s : CornerLoopState) : withGlobals s s.st.globals = s := rfl

theorem writer_keeps {e : Nat} {σ : Equiv.Perm (Fin 8)} {T : List Nat}
    (f : CornerLoopState → Option CornerLoopState) (s s0 : CornerLoopState)
    (L : List (List Nat × Nat)) (hI : CornerLoopInv e σ T s0)
    (h : ∀ g, f (withGlobals s g) = (storeAll L g).map (withGlobals s0))
    (s' : CornerLoopState) (hs' : f s = some s') : CornerLoopInv e σ T s' := by
  have h1 := h s.st.globals
  rw [withGlobals_self, hs'] at h1
  cases hg : storeAll L s.st.globals with
  | none =>
    rw [hg] at h1
    exact absurd h1 (by simp)
  | some g2 =>
    rw [hg] at h1
    simp only [Option.map_some', Option.some.injEq] at h1
    rw [h1]
    exact cornerLoopInv_withGlobals hI g2

theorem cornerLoopInv_swapped {e : Nat} {σ : Equiv.Perm (Fin 8)} {T : List Nat}
    {s : CornerLoopState} (hs : CornerLoopInv e σ T s) (he : e < 8) (pos : Nat) (hpos : e ≤ pos)
    (hpos8 : pos < 8) :
    CornerLoopInv e (σ * Equiv.swap ⟨e, he⟩ ⟨pos, hpos8⟩) T
      (if pos ≠ e then
        ⟨{ s.st with pieces := swapAt s.st.pieces e pos }, s.swap_parity ^^^ 1,
          s.rotation_parity⟩
      else s) := by
  by_cases hpe : pos = e
  · subst hpe
    have hσ : σ * Equiv.swap (⟨pos, he⟩ : Fin 8) ⟨pos, hpos8⟩ = σ := by
      rw [Equiv.swap_self]
      rfl
    rw [hσ]
    simpa using hs
  · have hne : (⟨e, he⟩ : Fin 8) ≠ ⟨pos, hpos8⟩ := by
      intro hc
      exact hpe (congrArg Fin.val hc).symm
    rw [if_pos hpe]
    refine ⟨?_, ?_, hs.tlen, hs.tlt, ?_, hs.rot⟩
    · show swapAt s.st.pieces e pos = _
      rw [hs.pieces]
      exact swapAt_cornerPermList σ ⟨e, he⟩ ⟨pos, hpos8⟩
    · refine cornerCubeInv_congr hs.cube (fun k hk => ?_) (fun _ _ => rfl)
      rw [cornerPermList_getD _ k (by omega), cornerPermList_getD σ k (by omega),
        corner_mul_swap_agree σ e he _ hpos ⟨k, by omega⟩ hk]
    · show s.swap_parity ^^^ 1 = _
      rw [parityBit_mul_swap σ _ _ hne, hs.swap]

theorem cornerOriBody_keeps_inner (r e : Nat) (he : e + (r + 1) = 8) (hr1 : 1 ≤ r)
    (σ : Equiv.Perm (Fin 8)) (T : List Nat) (s1 : CornerLoopState)
    (hs1 : CornerLoopInv e σ T s1) (ori : Nat) (hori : ori < 3) (s' : CornerLoopState)
    (h : cornerOriBody (PlaceCornerPiece r) e s1 ori = some s') : CornerLoopInv e σ T s' := by
  have he8 : e < 8 := by omega
  have ih := cornerPlaceSpec_all r hr1 (by omega)
  unfold CornerPlaceSpec at ih
  have h2 : 8 - r = e + 1 := by omega
  rw [h2] at ih
  have hT := hs1.tlen
  have hb := hs1.tlt
  obtain ⟨s0, L, hI, _, _, hrun⟩ := cornerOriBody_spec (PlaceCornerPiece r) e he8 σ T s1 hs1 ori
    hori (fun x => StoredFrom (e + 1) (e + 1) σ (T ++ [ori]) x)
    (fun x => StoredFrom e (e + 1) σ (T ++ [ori]) x)
    (fun cube1 hc1 => ih _ _ cube1 hc1 (by simp [hT]) (fun k hk => by
      by_cases hke : k = e
      · rw [hke, ← hT, getD_append_last]; exact hori
      · rw [getD_append_left _ _ _ (by omega)]; exact hb k (by omega)))
    (fun cube1 hc1 hfail x => storedFrom_fail e he8 _ _ cube1 hc1 hfail x)
    (fun cube1 hc1 ha hb x => storedFrom_pass e he8 _ _ cube1 hc1 ha hb x)
  exact writer_keeps (fun s => cornerOriBody (PlaceCornerPiece r) e s ori) s1 s0 L hI hrun s' h

theorem cornerOriBody_keeps_last (σ : Equiv.Perm (Fin 8)) (T : List Nat) (s1 : CornerLoopState)
    (hs1 : CornerLoopInv 7 σ T s1) (ori : Nat) (hori : ori < 3) (s' : CornerLoopState)
    (h : cornerOriBody (PlaceCornerPiece 0) 7 s1 ori = some s') : CornerLoopInv 7 σ T s' := by
  obtain ⟨s0, L, hI, _, _, hrun⟩ := cornerOriBody_spec (PlaceCornerPiece 0) 7 (by decide) σ T s1
    hs1 ori hori (fun _ => False) (fun _ => False)
    (fun cube1 hc1 => ⟨cube1, [], hc1, List.nodup_nil, fun x => by simp, fun g => rfl⟩)
    (fun _ _ _ _ => id) (fun _ _ _ _ _ => Iff.rfl)
  exact writer_keeps (fun s => cornerOriBody (PlaceCornerPiece 0) 7 s ori) s1 s0 L hI hrun s' h

theorem mem_three {j : Nat} (hj : j ∈ ([0, 1, 2] : List Nat)) : j < 3 := by
  have : j = 0 ∨ j = 1 ∨ j = 2 := by simpa using hj
  omega

theorem foldlM_keeps {σ ι : Type} (f : σ → ι → Option σ) (I : σ → Prop) :
    ∀ (l : List ι), (∀ i, i ∈ l → ∀ s, I s → ∀ s', f s i = some s' → I s') →
    ∀ s, I s → ∀ s', l.foldlM f s = some s' → I s' := by
  intro l
  induction l with
  | nil =>
    intro _ s hs s' h
    have : s = s' := by simpa using h
    rw [← this]
    exact hs
  | cons a l ih =>
    intro h s hs s' hrun
    rw [List.foldlM_cons] at hrun
    cases hfa : f s a with
    | none =>
      rw [hfa] at hrun
      exact absurd hrun (by simp)
    | some s1 =>
      rw [hfa] at hrun
      exact ih (fun i hi => h i (List.mem_cons_of_mem _ hi)) s1
        (h a (List.mem_cons_self _ _) s hs s1 hfa) s' hrun

theorem cornerLoopInv_unswapped {e : Nat} {σ : Equiv.Perm (Fin 8)} {T : List Nat}
    {s2 : CornerLoopState} (he : e < 8) (pos : Nat) (hpos : e ≤ pos) (hpos8 : pos < 8)
    (hI2 : CornerLoopInv e (σ * Equiv.swap ⟨e, he⟩ ⟨pos, hpos8⟩) T s2) :
    CornerLoopInv e σ T
      (if pos ≠ e then
        ⟨{ s2.st with pieces := swapAt s2.st.pieces e pos }, s2.swap_parity ^^^ 1,
          s2.rotation_parity⟩
      else s2) := by
  have h := cornerLoopInv_swapped hI2 he pos hpos hpos8
  rw [mul_assoc, Equiv.swap_mul_self, mul_one] at h
  exact h

theorem cornerPosBody_keeps (next : CornerState → Nat → Nat → Option CornerState) (e : Nat)
    (he : e < 8) (σ : Equiv.Perm (Fin 8)) (T : List Nat) (pos : Nat) (hpos : e ≤ pos)
    (hpos8 : pos < 8)
    (hbody : ∀ ori, ori < 3 → ∀ s1,
      CornerLoopInv e (σ * Equiv.swap ⟨e, he⟩ ⟨pos, hpos8⟩) T s1 →
      ∀ s', cornerOriBody next e s1 ori = some s' →
        CornerLoopInv e (σ * Equiv.swap ⟨e, he⟩ ⟨pos, hpos8⟩) T s')
    (s : CornerLoopState) (hs : CornerLoopInv e σ T s) (s' : CornerLoopState)
    (h : cornerPosBody next e s pos = some s') : CornerLoopInv e σ T s' := by
  unfold cornerPosBody at h
  simp only at h
  cases hrun : ([0, 1, 2] : List Nat).foldlM (cornerOriBody next e)
      (if pos ≠ e then
        ⟨{ s.st with pieces := swapAt s.st.pieces e pos }, s.swap_parity ^^^ 1,
          s.rotation_parity⟩
      else s) with
  | none =>
    rw [hrun] at h
    exact absurd h (by simp)
  | some s2 =>
    rw [hrun] at h
    have hI2 := foldlM_keeps (cornerOriBody next e)
      (CornerLoopInv e (σ * Equiv.swap ⟨e, he⟩ ⟨pos, hpos8⟩) T) [0, 1, 2]
      (fun i hi s1 hs1 s1' h1 => hbody i (mem_three hi) s1 hs1 s1' h1) _
      (cornerLoopInv_swapped hs he pos hpos hpos8) s2 hrun
    have hfin := cornerLoopInv_unswapped he pos hpos hpos8 hI2
    by_cases hpe : pos = e
    · rw [if_neg (by simpa using hpe)] at hfin
      simp only [ne_eq, hpe, not_true_eq_false, ↓reduceIte, Option.some.injEq] at h
      rw [← h]
      exact hfin
    · rw [if_pos hpe] at hfin
      simp only [ne_eq, hpe, not_false_eq_true, ↓reduceIte, Option.some.injEq] at h
      rw [← h]
      exact hfin

theorem cornerCubeInv_placed {e : Nat} {σ : Equiv.Perm (Fin 8)} {T : List Nat}
    {s : CornerLoopState} (hs : CornerLoopInv e σ T s) (he : e < 8) (ori : Nat) :
    CornerCubeInv (e + 1) (cornerPermList σ) (T ++ [ori])
      (placeCorner s.st.cube e (s.st.pieces.getD e 0) ori) := by
  have hlast : (T ++ [ori]).getD e 0 = ori := by
    have := getD_append_last T ori
    rwa [hs.tlen] at this
  have := cornerCubeInv_place hs.cube he (cornerPermList σ) (T ++ [ori]) (fun _ _ => rfl)
    (fun k hk => getD_append_left T ori k (by rw [hs.tlen]; exact hk))
  have hp : (cornerPermList σ).getD e 0 = s.st.pieces.getD e 0 := by rw [hs.pieces]
  rwa [hlast, hp] at this

theorem cornerOriBody_congr (next1 next2 : CornerState → Nat → Nat → Option CornerState)
    (e : Nat) (he : e < 8) (σ : Equiv.Perm (Fin 8)) (T : List Nat) (s : CornerLoopState)
    (hs : CornerLoopInv e σ T s) (ori : Nat)
    (hagree : ∀ cube1 g, CornerCubeInv (e + 1) (cornerPermList σ) (T ++ [ori]) cube1 →
      next1 ⟨cornerPermList σ, cube1, g⟩ (parityBit σ) ((T ++ [ori]).sum % 3) =
        next2 ⟨cornerPermList σ, cube1, g⟩ (parityBit σ) ((T ++ [ori]).sum % 3)) :
    cornerOriBody next1 e s ori = cornerOriBody next2 e s ori := by
  have hsum : (T ++ [ori]).sum % 3 = (s.rotation_parity + ori) % 3 := by
    rw [sum_append_bit, hs.rot]
    omega
  have h := hagree _ s.st.globals (cornerCubeInv_placed hs he ori)
  rw [hsum, ← hs.pieces, ← hs.swap] at h
  unfold cornerOriBody
  simp only [h]

theorem cornerOriBodyGuarded_eq (nextG next : CornerState → Nat → Nat → Option CornerState)
    (e : Nat) (he : e < 8) (σ : Equiv.Perm (Fin 8)) (T : List Nat) (s : CornerLoopState)
    (hs : CornerLoopInv e σ T s) (ori : Nat)
    (hagree : ∀ cube1 g, CornerCubeInv (e + 1) (cornerPermList σ) (T ++ [ori]) cube1 →
      nextG ⟨cornerPermList σ, cube1, g⟩ (parityBit σ) ((T ++ [ori]).sum % 3) =
        next ⟨cornerPermList σ, cube1, g⟩ (parityBit σ) ((T ++ [ori]).sum % 3)) :
    cornerOriBodyGuarded nextG e s ori = cornerOriBody next e s ori := by
  have hg : (decide (s.st.pieces.getD e 0 < CUBE_CORNERS) &&
      cornerReadsInRange (placeCorner s.st.cube e (s.st.pieces.getD e 0) ori) e) = true := by
    rw [Bool.and_eq_true, decide_eq_true_eq]
    refine ⟨?_, cornerReads_ok (cornerCubeInv_placed hs he ori) he (cornerPermList_lt σ)⟩
    rw [hs.pieces]
    exact cornerPermList_lt σ e he
  unfold cornerOriBodyGuarded
  simp only [hg, ↓reduceIte]
  exact cornerOriBody_congr nextG next e he σ T s hs ori hagree

theorem cornerPosBodyGuarded_eq (nextG next : CornerState → Nat → Nat → Option CornerState)
    (e : Nat) (he : e < 8) (σ : Equiv.Perm (Fin 8)) (T : List Nat) (pos : Nat) (hpos : e ≤ pos)
    (hpos8 : pos < 8)
    (hagree : ∀ ori, ori < 3 → ∀ cube1 g,
      CornerCubeInv (e + 1) (cornerPermList (σ * Equiv.swap ⟨e, he⟩ ⟨pos, hpos8⟩)) (T ++ [ori])
        cube1 →
      nextG ⟨cornerPermList (σ * Equiv.swap ⟨e, he⟩ ⟨pos, hpos8⟩), cube1, g⟩
          (parityBit (σ * Equiv.swap ⟨e, he⟩ ⟨pos, hpos8⟩)) ((T ++ [ori]).sum % 3) =
        next ⟨cornerPermList (σ * Equiv.swap ⟨e, he⟩ ⟨pos, hpos8⟩), cube1, g⟩
          (parityBit (σ * Equiv.swap ⟨e, he⟩ ⟨pos, hpos8⟩)) ((T ++ [ori]).sum % 3))
    (hkeep : ∀ ori, ori < 3 → ∀ s1,
      CornerLoopInv e (σ * Equiv.swap ⟨e, he⟩ ⟨pos, hpos8⟩) T s1 →
      ∀ s', cornerOriBody next e s1 ori = some s' →
        CornerLoopInv e (σ * Equiv.swap ⟨e, he⟩ ⟨pos, hpos8⟩) T s')
    (s : CornerLoopState) (hs : CornerLoopInv e σ T s) :
    cornerPosBodyGuarded nextG e s pos = cornerPosBody next e s pos := by
  have hbody : ∀ i, i ∈ ([0, 1, 2] : List Nat) → ∀ s1,
      CornerLoopInv e (σ * Equiv.swap ⟨e, he⟩ ⟨pos, hpos8⟩) T s1 →
      cornerOriBodyGuarded nextG e s1 i = cornerOriBody next e s1 i ∧
        ∀ s', cornerOriBody next e s1 i = some s' →
          CornerLoopInv e (σ * Equiv.swap ⟨e, he⟩ ⟨pos, hpos8⟩) T s' :=
      by
    intro i hi s1 hs1
    have hi3 : i < 3 := mem_three hi
    have ha := hagree i hi3
    have hk := hkeep i hi3 s1 hs1
    refine ⟨cornerOriBodyGuarded_eq nextG next e he
      (σ * Equiv.swap ⟨e, he⟩ ⟨pos, hpos8⟩) T s1 hs1 i ?_, hk⟩
    exact ha
  have hloop : ([0, 1, 2] : List Nat).foldlM (cornerOriBodyGuarded nextG e)
      (if pos ≠ e then
        ⟨{ s.st with pieces := swapAt s.st.pieces e pos }, s.swap_parity ^^^ 1,
          s.rotation_parity⟩
      else s) =
      ([0, 1, 2] : List Nat).foldlM (cornerOriBody next e)
      (if pos ≠ e then
        ⟨{ s.st with pieces := swapAt s.st.pieces e pos }, s.swap_parity ^^^ 1,
          s.rotation_parity⟩
      else s) :=
    foldlM_guarded (cornerOriBody next e) (cornerOriBodyGuarded nextG e)
      (CornerLoopInv e (σ * Equiv.swap ⟨e, he⟩ ⟨pos, hpos8⟩) T) [0, 1, 2] hbody _
      (cornerLoopInv_swapped hs he pos hpos hpos8)
  unfold cornerPosBodyGuarded cornerPosBody
  simp only [hloop]

theorem placeCornerPieceGuarded_inner (r e : Nat) (he : e + (r + 1) = 8) (hne : e ≠ 7)
    (st : CornerState) (sp rp : Nat) :
    PlaceCornerPieceGuarded (r + 1) st sp rp =
      ((List.range' e (8 - e)).foldlM
        (cornerPosBodyGuarded (PlaceCornerPieceGuarded r) e) ⟨st, sp, rp⟩).map
        (fun s => s.st) := by
  have hE : CUBE_CORNERS - (r + 1) = e := by unfold CUBE_CORNERS; omega
  rw [PlaceCornerPieceGuarded]
  simp only [hE, hne, ↓reduceIte]
  have h8 : CUBE_CORNERS = 8 := rfl
  rw [h8]
  cases (List.range' e (8 - e)).foldlM (cornerPosBodyGuarded (PlaceCornerPieceGuarded r) e)
    ⟨st, sp, rp⟩ <;> rfl

theorem placeCornerPieceGuarded_last (st : CornerState) (sp rp : Nat) :
    PlaceCornerPieceGuarded 1 st sp rp =
      (PlaceLastCornerPieceGuarded 7 st sp rp).bind (fun st0 =>
        ((List.range' 7 1).foldlM (cornerPosBodyGuarded (PlaceCornerPieceGuarded 0) 7)
          ⟨st0, sp, rp⟩).map (fun s => s.st)) := by
  rw [PlaceCornerPieceGuarded]
  have hE : CUBE_CORNERS - (0 + 1) = 7 := rfl
  simp only [hE, ↓reduceIte]
  cases PlaceLastCornerPieceGuarded 7 st sp rp with
  | none => rfl
  | some st0 =>
    have h8 : CUBE_CORNERS - 7 = 1 := rfl
    simp only [h8, Option.some_bind]
    cases (List.range' 7 1).foldlM (cornerPosBodyGuarded (PlaceCornerPieceGuarded 0) 7)
      ⟨st0, sp, rp⟩ <;> rfl

theorem placeLastCornerPieceGuarded_eq (σ : Equiv.Perm (Fin 8)) (T : List Nat) (cube : List Nat)
    (hcube : CornerCubeInv 7 (cornerPermList σ) T cube) (hT : T.length = 7) (g : CornerGlobals)
    (sp rp : Nat) :
    PlaceLastCornerPieceGuarded 7 ⟨cornerPermList σ, cube, g⟩ sp rp =
      PlaceLastCornerPiece 7 ⟨cornerPermList σ, cube, g⟩ sp rp := by
  have hlast : (T ++ [(3 - rp) % 3]).getD 7 0 = (3 - rp) % 3 := by
    have := getD_append_last T ((3 - rp) % 3)
    rwa [hT] at this
  have h8 := cornerCubeInv_place hcube (by decide) (cornerPermList σ) (T ++ [(3 - rp) % 3])
    (fun _ _ => rfl) (fun k hk => getD_append_left T _ k (by rw [hT]; exact hk))
  rw [hlast] at h8
  have hg : (decide ((cornerPermList σ).getD 7 0 < CUBE_CORNERS) &&
      cornerReadsInRange (placeCorner cube 7 ((cornerPermList σ).getD 7 0) ((3 - rp) % 3)) 7 &&
      (cornerTouchesCenter (placeCorner cube 7 ((cornerPermList σ).getD 7 0) ((3 - rp) % 3)) 7 ||
        !cornerCountPassed (placeCorner cube 7 ((cornerPermList σ).getD 7 0) ((3 - rp) % 3)) 7 ||
        storeReadsInRange (placeCorner cube 7 ((cornerPermList σ).getD 7 0) ((3 - rp) % 3))))
      = true := by
    rw [Bool.and_eq_true, Bool.and_eq_true, decide_eq_true_eq,
      storeReads_ok h8 (cornerPermList_lt σ), Bool.or_true]
    exact ⟨⟨cornerPermList_lt σ 7 (by decide), cornerReads_ok h8 (by decide)
      (cornerPermList_lt σ)⟩, rfl⟩
  unfold PlaceLastCornerPieceGuarded
  simp only [hg, ↓reduceIte]

theorem placeCornerPieceGuarded_eq : ∀ r, r ≤ 8 → ∀ (σ : Equiv.Perm (Fin 8)) (T : List Nat)
    (cube : List Nat) (g : CornerGlobals),
    CornerCubeInv (8 - r) (cornerPermList σ) T cube → T.length = 8 - r →
    (∀ k, k < 8 - r → T.getD k 0 < 3) →
    PlaceCornerPieceGuarded r ⟨cornerPermList σ, cube, g⟩ (parityBit σ) (T.sum % 3) =
      PlaceCornerPiece r ⟨cornerPermList σ, cube, g⟩ (parityBit σ) (T.sum % 3) := by
  intro r
  induction r with
  | zero =>
    intro _ σ T cube g _ _ _
    rw [PlaceCornerPieceGuarded, PlaceCornerPiece]
  | succ r ih =>
    intro hr σ T cube g hcube hT hb
    have ih' := ih (by omega)
    by_cases h0 : r = 0
    · subst h0
      have hcube7 : CornerCubeInv 7 (cornerPermList σ) T cube := hcube
      have hT7 : T.length = 7 := hT
      have hb7 : ∀ k, k < 7 → T.getD k 0 < 3 := hb
      rw [placeCornerPieceGuarded_last, placeCornerPiece_last,
        placeLastCornerPieceGuarded_eq σ T cube hcube7 hT7]
      obtain ⟨cube0, L, hcube0, _, _, hrun0⟩ := placeLastCornerPiece_spec σ T cube hcube7 hT7 hb7
      rw [hrun0 g]
      cases storeAll L g with
      | none => rfl
      | some g1 =>
        simp only [Option.map_some', Option.some_bind]
        congr 1
        refine foldlM_guarded _ _ (CornerLoopInv 7 σ T) _ (fun pos hpos s hs => ?_) _
          ⟨rfl, hcube0, hT7, hb7, rfl, rfl⟩
        have hp := (mem_range'_corner 7 pos (by decide)).1 hpos
        exact ⟨cornerPosBodyGuarded_eq _ _ 7 (by decide) σ T pos hp.1 hp.2
            (fun _ _ _ _ _ => by rw [PlaceCornerPieceGuarded, PlaceCornerPiece])
            (fun ori hori s1 hs1 => cornerOriBody_keeps_last _ T s1 hs1 ori hori) s hs,
          cornerPosBody_keeps _ 7 (by decide) σ T pos hp.1 hp.2
            (fun ori hori s1 hs1 => cornerOriBody_keeps_last _ T s1 hs1 ori hori) s hs⟩
    · obtain ⟨e, he⟩ : ∃ e, e + (r + 1) = 8 := ⟨8 - (r + 1), by omega⟩
      have he8 : e < 8 := by omega
      have h1 : 8 - (r + 1) = e := by omega
      have h2 : 8 - r = e + 1 := by omega
      rw [h1] at hcube hT hb
      rw [h2] at ih'
      rw [placeCornerPieceGuarded_inner r e he (by omega), placeCornerPiece_inner r e he (by omega)]
      congr 1
      refine foldlM_guarded _ _ (CornerLoopInv e σ T) _ (fun pos hpos s hs => ?_) _
        ⟨rfl, hcube, hT, hb, rfl, rfl⟩
      have hp := (mem_range'_corner e pos (by omega)).1 hpos
      exact ⟨cornerPosBodyGuarded_eq _ _ e he8 σ T pos hp.1 hp.2
          (fun ori hori cube1 g1 hc1 => ih' _ _ cube1 g1 hc1 (by simp [hT]) (fun k hk => by
            by_cases hke : k = e
            · rw [hke, ← hT, getD_append_last]; exact hori
            · rw [getD_append_left _ _ _ (by omega)]; exact hb k (by omega)))
          (fun ori hori s1 hs1 =>
            cornerOriBody_keeps_inner r e he (by omega) _ T s1 hs1 ori hori) s hs,
        cornerPosBody_keeps _ e he8 σ T pos hp.1 hp.2
          (fun ori hori s1 hs1 =>
            cornerOriBody_keeps_inner r e he (by omega) _ T s1 hs1 ori hori) s hs⟩

theorem placeCornerPieceGuarded_top (g : CornerGlobals) :
    PlaceCornerPieceGuarded 8 ⟨[0, 1, 2, 3, 4, 5, 6, 7], initialCornerCube, g⟩ 0 0 =
      PlaceCornerPiece 8 ⟨[0, 1, 2, 3, 4, 5, 6, 7], initialCornerCube, g⟩ 0 0 := by
  have := placeCornerPieceGuarded_eq 8 (le_refl _) 1 [] initialCornerCube g
    (cornerCubeInv_initial _ _) rfl (fun k hk => absurd hk (Nat.not_lt_zero _))
  rw [cornerPermList_one, parityBit_one] at this
  exact this

theorem createCornerArrangementsGuarded_eq (capE capO : Nat) :
    CreateCornerArrangementsGuarded capE capO = CreateCornerArrangements capE capO := by
  unfold CreateCornerArrangementsGuarded CreateCornerArrangements
  rw [placeCornerPieceGuarded_top]

theorem mem_two {j : Nat} (hj : j ∈ ([0, 1] : List Nat)) : j < 2 := by
  have : j = 0 ∨ j = 1 := by simpa using hj
  omega

theorem edgeReads_ok {e : Nat} {P O cube : List Nat} (h : CubeInv (e + 1) P O cube)
    (he : e < 12) (hP : ∀ k, k < 12 → P.getD k 0 < 12) (hO : ∀ k, k < e + 1 → O.getD k 0 < 2) :
    edgeReadsInRange cube e = true := by
  have hval : ∀ k, k < e + 1 → ∀ j, j < 2 → cube.getD (tab2 edges k j) 0 < 54 :=
    fun k hk j hj => cubeInv_cell_lt h k j hk hj (hP k (by omega)) (hO k hk)
  unfold edgeReadsInRange
  rw [Bool.and_eq_true, List.all_eq_true, List.all_eq_true]
  constructor
  · intro j hj
    rw [Bool.and_eq_true, decide_eq_true_eq, decide_eq_true_eq]
    exact ⟨hval e (by omega) j (mem_two hj), edge_cell_lt e he j (mem_two hj)⟩
  · intro i hi
    rw [List.mem_range'_1] at hi
    obtain ⟨_, ⟨k0, hk0, j0, hj0, h0⟩, ⟨k1, hk1, j1, hj1, h1⟩⟩ :=
      diagonal_cells e he i hi.1 (by omega)
    rw [Bool.and_eq_true, decide_eq_true_eq, decide_eq_true_eq, ← h0, ← h1]
    exact ⟨hval k0 hk0 j0 hj0, hval k1 hk1 j1 hj1⟩

theorem done_face_cell_lt {m : Nat} {P O cube : List Nat} (h : CubeInv m P O cube) (hm : m ≤ 12)
    (hP : ∀ k, k < 12 → P.getD k 0 < 12) (hO : ∀ k, k < m → O.getD k 0 < 2) (f : Nat)
    (hf : f < doneFaces m) (d : Nat) (hd : d < 4) : cube.getD (f * 9 + (2 * d + 1)) 0 < 54 := by
  obtain ⟨k, hk, j, hj, hkj⟩ := doneFaces_cells m (by omega) f hf d hd
  rw [← hkj]
  exact cubeInv_cell_lt h k j hk hj (hP k (by omega)) (hO k hk)

theorem faceIdReads_ok {m : Nat} {P O cube : List Nat} (h : CubeInv m P O cube) (hm : m ≤ 12)
    (hP : ∀ k, k < 12 → P.getD k 0 < 12) (hO : ∀ k, k < m → O.getD k 0 < 2) (first : Nat) :
    faceIdReadsInRange cube first (doneFaces m) = true := by
  unfold faceIdReadsInRange
  rw [List.all_eq_true]
  intro f hf
  rw [List.mem_range'_1] at hf
  have hf1 : f < doneFaces m := by omega
  rw [List.all_eq_true]
  intro d hd
  have hd' : d = 1 ∨ d = 3 ∨ d = 5 ∨ d = 7 := by simpa using hd
  rw [decide_eq_true_eq]
  rcases hd' with rfl | rfl | rfl | rfl
  · exact done_face_cell_lt h hm hP hO f hf1 0 (by decide)
  · exact done_face_cell_lt h hm hP hO f hf1 1 (by decide)
  · exact done_face_cell_lt h hm hP hO f hf1 2 (by decide)
  · exact done_face_cell_lt h hm hP hO f hf1 3 (by decide)

theorem div_nine_lt {x : Nat} (h : x < 54) : x / 9 < 6 := by omega

theorem contribution_sum_lt (c : CornerArrangement) (hc : StoredEntry c) (cube : List Nat)
    (f : Nat) (hf : f < 6) (hcells : ∀ d, d < 4 → cube.getD (f * 9 + (2 * d + 1)) 0 < 54) :
    c.faceIds.getD f 0 + edgeFaceId cube f < FACE_ARRANGEMENTS := by
  have ha : ∀ x, x < 54 → c.arrangement.getD x 0 / 9 < 6 :=
    fun x hx => div_nine_lt (hc.2.2.2 x hx).2.2
  rw [hc.2.2.1 f hf]
  unfold cornerFaceId edgeFaceId
  exact (combined_index _ _ _ _ _ _ _ _ _ (ha _ (by omega)) (div_nine_lt (hcells 0 (by decide)))
    (ha _ (by omega)) (div_nine_lt (hcells 1 (by decide))) (ha _ (by omega))
    (div_nine_lt (hcells 2 (by decide))) (ha _ (by omega)) (div_nine_lt (hcells 3 (by decide)))
    (ha _ (by omega))).1

theorem faceTableReads_ok (arr : List CornerArrangement)
    (harr : ∀ i, i < arr.length → StoredEntry (arr.getD i zeroArrangement))
    (face_ids cube : List Nat) (count : Nat) (hcount : count ≤ 6)
    (hids : ∀ f, f < count → face_ids.getD f 0 = edgeFaceId cube f)
    (hcells : ∀ f, f < count → ∀ d, d < 4 → cube.getD (f * 9 + (2 * d + 1)) 0 < 54) :
    faceTableReadsInRange arr face_ids count = true := by
  unfold faceTableReadsInRange
  rw [List.all_eq_true]
  intro c hc
  obtain ⟨i, hi, rfl⟩ := List.getElem_of_mem hc
  have hst := harr i hi
  rw [List.getD_eq_getElem _ _ hi] at hst
  rw [List.all_eq_true]
  intro f hf
  have hf' : f < count := by simpa using hf
  rw [decide_eq_true_eq, hids f hf']
  exact contribution_sum_lt _ hst cube f (by omega) (hcells f hf')

theorem edgeOriBody_congr (face_table : Nat → Int) (ep op : List CornerArrangement)
    (hep : FilledArray ep) (hop : FilledArray op)
    (next1 next2 : EdgeState → Nat → Nat → Int → Int → Option EdgeState) (e : Nat) (he : e < 12)
    (σ : Equiv.Perm (Fin 12)) (O : List Nat) (s : EdgeLoopState) (hs : EdgeLoopInv e σ O s)
    (ei oi : Int) (hei : -1 ≤ ei) (hoi : -1 ≤ oi) (ori : Nat) (hori : ori < 2)
    (hagree : ∀ st1 a b, EdgeInv (e + 1) σ (O ++ [ori]) st1 → -1 ≤ a → -1 ≤ b →
      next1 st1 (parityBit σ) ((O ++ [ori]).sum % 2) a b =
        next2 st1 (parityBit σ) ((O ++ [ori]).sum % 2) a b) :
    edgeOriBody face_table ep op next1 e ei oi s ori =
      edgeOriBody face_table ep op next2 e ei oi s ori := by
  obtain ⟨_, hflip2⟩ := flip_facts O ori hori
  by_cases hloc : edgeTouchesCenter (placeEdge s.st.cube e (s.st.pieces.getD e 0) ori) e = true ∨
      edgeDiagonalsTouching (placeEdge s.st.cube e (s.st.pieces.getD e 0) ori) e = true
  · rw [edgeOriBody_local face_table ep op next1 e ei oi s ori hloc,
      edgeOriBody_local face_table ep op next2 e ei oi s ori hloc]
  · have hl1 : ¬ edgeTouchesCenter (placeEdge s.st.cube e (s.st.pieces.getD e 0) ori) e = true :=
      fun h => hloc (Or.inl h)
    have hl2 : ¬ edgeDiagonalsTouching (placeEdge s.st.cube e (s.st.pieces.getD e 0) ori) e
        = true := fun h => hloc (Or.inr h)
    have hstep := doneFaces_step e he
    have hmono := doneFaces_mono e he
    by_cases hchk : 0 ≤ edge_face_id_checks_start.getD e 0
    · have hinv1 := edgeInv_next hs.inv he ori hori _ rfl
      rw [if_pos hchk] at hinv1
      obtain ⟨a, ha, hsa⟩ := hep.search face_table
        (fillEdgeFaceIds (placeEdge s.st.cube e (s.st.pieces.getD e 0) ori) s.st.face_ids
          (edge_face_id_checks_start.getD e 0).toNat (edge_face_id_checks_end.getD e 0 + 1).toNat)
        (edge_face_id_checks_end.getD e 0 + 1).toNat ei
        (by rw [(hstep.1 hchk).2]; exact hmono.2) hei
      obtain ⟨b, hb', hsb⟩ := hop.search face_table
        (fillEdgeFaceIds (placeEdge s.st.cube e (s.st.pieces.getD e 0) ori) s.st.face_ids
          (edge_face_id_checks_start.getD e 0).toNat (edge_face_id_checks_end.getD e 0 + 1).toNat)
        (edge_face_id_checks_end.getD e 0 + 1).toNat oi
        (by rw [(hstep.1 hchk).2]; exact hmono.2) hoi
      have hn := hagree _ a b hinv1 (searchSpec_range hsa) (searchSpec_range hsb)
      rw [← hflip2, ← hs.flip, ← hs.swap] at hn
      rw [edgeOriBody_checked face_table ep op next1 e ei oi s ori hl1 hl2 hchk a b ha hb',
        edgeOriBody_checked face_table ep op next2 e ei oi s ori hl1 hl2 hchk a b ha hb', hn]
    · have hinv1 := edgeInv_next hs.inv he ori hori _ rfl
      rw [if_neg hchk] at hinv1
      have hn := hagree _ ei oi hinv1 hei hoi
      rw [← hflip2, ← hs.flip, ← hs.swap] at hn
      rw [edgeOriBody_plain face_table ep op next1 e ei oi s ori hl1 hl2 hchk,
        edgeOriBody_plain face_table ep op next2 e ei oi s ori hl1 hl2 hchk, hn]

theorem edgeOriBodyGuarded_eq (face_table : Nat → Int) (ep op : List CornerArrangement)
    (hep : FilledArray ep) (hop : FilledArray op)
    (nextG next : EdgeState → Nat → Nat → Int → Int → Option EdgeState) (e : Nat) (he : e < 12)
    (σ : Equiv.Perm (Fin 12)) (O : List Nat) (s : EdgeLoopState) (hs : EdgeLoopInv e σ O s)
    (ei oi : Int) (hei : -1 ≤ ei) (hoi : -1 ≤ oi) (ori : Nat) (hori : ori < 2)
    (hagree : ∀ st1 a b, EdgeInv (e + 1) σ (O ++ [ori]) st1 → -1 ≤ a → -1 ≤ b →
      nextG st1 (parityBit σ) ((O ++ [ori]).sum % 2) a b =
        next st1 (parityBit σ) ((O ++ [ori]).sum % 2) a b) :
    edgeOriBodyGuarded face_table ep op nextG e ei oi s ori =
      edgeOriBody face_table ep op next e ei oi s ori := by
  have hinv1 := edgeInv_next hs.inv he ori hori _ rfl
  have hr := edgeReads_ok hinv1.cube he (edgePermList_lt σ) hinv1.obit
  have hp : s.st.pieces.getD e 0 < CUBE_EDGES := by
    rw [hs.inv.pieces]
    exact edgePermList_lt σ e he
  unfold edgeOriBodyGuarded
  simp only []
  rw [if_pos, edgeOriBody_congr face_table ep op hep hop nextG next e he σ O s hs ei oi hei hoi
    ori hori hagree]
  rw [Bool.and_eq_true, Bool.and_eq_true, decide_eq_true_eq]
  refine ⟨⟨hp, hr⟩, ?_⟩
  by_cases hchk : 0 ≤ edge_face_id_checks_start.getD e 0
  · rw [if_pos hchk] at hinv1
    have hstep := (doneFaces_step e he).1 hchk
    rw [hstep.2] at hinv1 ⊢
    have hcells : ∀ f, f < doneFaces (e + 1) → ∀ d, d < 4 →
        (placeEdge s.st.cube e (s.st.pieces.getD e 0) ori).getD (f * 9 + (2 * d + 1)) 0 < 54 :=
      fun f hf d hd => done_face_cell_lt hinv1.cube (by omega) (edgePermList_lt σ) hinv1.obit f
        hf d hd
    have h1 := faceIdReads_ok hinv1.cube (by omega) (edgePermList_lt σ) hinv1.obit
      (edge_face_id_checks_start.getD e 0).toNat
    have h2 := faceTableReads_ok ep hep.stored _ _ (doneFaces (e + 1)) (doneFaces_mono e he).2
      hinv1.faces hcells
    have h3 := faceTableReads_ok op hop.stored _ _ (doneFaces (e + 1)) (doneFaces_mono e he).2
      hinv1.faces hcells
    simp only at h1 h2 h3
    rw [h1, h2, h3]
    simp only [Bool.and_self, Bool.or_true]
  · have hd : decide (edge_face_id_checks_start.getD e 0 ≥ 0) = false := by
      rw [decide_eq_false_iff_not]
      exact hchk
    rw [hd]
    simp only [Bool.not_false, Bool.or_true, Bool.true_or]

theorem edgeLoopInv_swapped {e : Nat} {σ : Equiv.Perm (Fin 12)} {O : List Nat}
    {s : EdgeLoopState} (hs : EdgeLoopInv e σ O s) (he : e < 12) (pos : Nat) (hpos : e ≤ pos)
    (hpos12 : pos < 12) :
    EdgeLoopInv e (σ * Equiv.swap ⟨e, he⟩ ⟨pos, hpos12⟩) O
      (if pos ≠ e then
        ⟨{ s.st with pieces := swapAt s.st.pieces e pos }, s.swap_parity ^^^ 1, s.flip_parity⟩
      else s) := by
  by_cases hpe : pos = e
  · subst hpe
    have hσ : σ * Equiv.swap (⟨pos, he⟩ : Fin 12) ⟨pos, hpos12⟩ = σ := by
      rw [Equiv.swap_self]
      rfl
    rw [hσ]
    simpa using hs
  · have hne : (⟨e, he⟩ : Fin 12) ≠ ⟨pos, hpos12⟩ := by
      intro hc
      exact hpe (congrArg Fin.val hc).symm
    rw [if_pos hpe]
    refine ⟨edgeInv_congr hs.inv _ ?_ (fun k hk => mul_swap_agree σ e he _ hpos k hk)
      (by omega), ?_, hs.flip⟩
    · rw [hs.inv.pieces]
      exact swapAt_edgePermList σ ⟨e, he⟩ ⟨pos, hpos12⟩
    · show s.swap_parity ^^^ 1 = _
      rw [parityBit_mul_swap σ _ _ hne, hs.swap]

theorem edgePosBodyGuarded_eq (face_table : Nat → Int) (ep op : List CornerArrangement)
    (hep : FilledArray ep) (hop : FilledArray op)
    (nextG next : EdgeState → Nat → Nat → Int → Int → Option EdgeState) (e : Nat) (he : e < 12)
    (σ : Equiv.Perm (Fin 12)) (O : List Nat) (ei oi : Int) (hei : -1 ≤ ei) (hoi : -1 ≤ oi)
    (pos : Nat) (hpos : e ≤ pos) (hpos12 : pos < 12)
    (hagree : ∀ ori, ori < 2 → ∀ st1 a b,
      EdgeInv (e + 1) (σ * Equiv.swap ⟨e, he⟩ ⟨pos, hpos12⟩) (O ++ [ori]) st1 → -1 ≤ a →
      -1 ≤ b →
      nextG st1 (parityBit (σ * Equiv.swap ⟨e, he⟩ ⟨pos, hpos12⟩)) ((O ++ [ori]).sum % 2) a b =
        next st1 (parityBit (σ * Equiv.swap ⟨e, he⟩ ⟨pos, hpos12⟩)) ((O ++ [ori]).sum % 2) a b)
    (hkeep : ∀ ori, ori < 2 → ∀ s1,
      EdgeLoopInv e (σ * Equiv.swap ⟨e, he⟩ ⟨pos, hpos12⟩) O s1 →
      ∀ s', edgeOriBody face_table ep op next e ei oi s1 ori = some s' →
        EdgeLoopInv e (σ * Equiv.swap ⟨e, he⟩ ⟨pos, hpos12⟩) O s')
    (s : EdgeLoopState) (hs : EdgeLoopInv e σ O s) :
    edgePosBodyGuarded face_table ep op nextG e ei oi s pos =
      edgePosBody face_table ep op next e ei oi s pos := by
  have hbody : ∀ i, i ∈ ([0, 1] : List Nat) → ∀ s1,
      EdgeLoopInv e (σ * Equiv.swap ⟨e, he⟩ ⟨pos, hpos12⟩) O s1 →
      edgeOriBodyGuarded face_table ep op nextG e ei oi s1 i =
          edgeOriBody face_table ep op next e ei oi s1 i ∧
        ∀ s', edgeOriBody face_table ep op next e ei oi s1 i = some s' →
          EdgeLoopInv e (σ * Equiv.swap ⟨e, he⟩ ⟨pos, hpos12⟩) O s' := by
    intro i hi s1 hs1
    have hi2 : i < 2 := mem_two hi
    have ha := hagree i hi2
    have hk := hkeep i hi2 s1 hs1
    refine ⟨edgeOriBodyGuarded_eq face_table ep op hep hop nextG next e he
      (σ * Equiv.swap ⟨e, he⟩ ⟨pos, hpos12⟩) O s1 hs1 ei oi hei hoi i hi2 ?_, hk⟩
    exact ha
  have hloop : ([0, 1] : List Nat).foldlM (edgeOriBodyGuarded face_table ep op nextG e ei oi)
      (if pos ≠ e then
        ⟨{ s.st with pieces := swapAt s.st.pieces e pos }, s.swap_parity ^^^ 1, s.flip_parity⟩
      else s) =
      ([0, 1] : List Nat).foldlM (edgeOriBody face_table ep op next e ei oi)
      (if pos ≠ e then
        ⟨{ s.st with pieces := swapAt s.st.pieces e pos }, s.swap_parity ^^^ 1, s.flip_parity⟩
      else s) :=
    foldlM_guarded (edgeOriBody face_table ep op next e ei oi)
      (edgeOriBodyGuarded face_table ep op nextG e ei oi)
      (EdgeLoopInv e (σ * Equiv.swap ⟨e, he⟩ ⟨pos, hpos12⟩) O) [0, 1] hbody _
      (edgeLoopInv_swapped hs he pos hpos hpos12)
  unfold edgePosBodyGuarded edgePosBody
  simp only [hloop]

theorem edgeOriBody_keeps_inner (face_table : Nat → Int)
    (hft : ∀ i, i < FACE_ARRANGEMENTS → face_table i < 16 → PerfectFace (FaceIndexToColors i))
    (ep op : List CornerArrangement) (hep : FilledArray ep) (hop : FilledArray op) (r e : Nat)
    (he : e + (r + 1) = 12) (hr1 : 1 ≤ r) (σ : Equiv.Perm (Fin 12)) (O : List Nat)
    (ei oi : Int) (hei : -1 ≤ ei) (hoi : -1 ≤ oi) (s1 : EdgeLoopState)
    (hs1 : EdgeLoopInv e σ O s1) (ori : Nat) (hori : ori < 2) (s' : EdgeLoopState)
    (h : edgeOriBody face_table ep op (PlaceEdgePiece face_table ep op r) e ei oi s1 ori =
      some s') : EdgeLoopInv e σ O s' := by
  have he12 : e < 12 := by omega
  have ih := placeSpec_all face_table hft ep op hep hop r hr1 (by omega)
  unfold PlaceSpec at ih
  have h2 : 12 - r = e + 1 := by omega
  rw [h2] at ih
  have hmono := doneFaces_mono e he12
  obtain ⟨s0, L, h1, hI, _⟩ := edgeOriBody_spec face_table ep op hep hop
    (PlaceEdgePiece face_table ep op r) e he12 σ O s1 hs1 ei oi hei hoi ori hori
    (fun a b call => RecordedSpec face_table ep op (e + 1) σ (O ++ [ori]) a b call)
    (fun st1 a b hst1 ha hb => ih _ _ st1 a b hst1 ha hb)
    (fun cube hcube hfail call =>
      recordedSpec_local face_table hft ep op hep hop e he12 _ _ ei oi cube hcube hfail call)
    (fun st1 a b hst1 _ hsa hsb =>
      recordedSpec_idx face_table ep op (e + 1) (by omega) _ _ ei oi a b st1 hst1 hsa hsb
        hmono.2)
  rw [h1] at h
  cases h
  exact hI

theorem edgeOriBody_keeps_last (face_table : Nat → Int) (ep op : List CornerArrangement)
    (hep : FilledArray ep) (hop : FilledArray op) (σ : Equiv.Perm (Fin 12)) (O : List Nat)
    (ei oi : Int) (hei : -1 ≤ ei) (hoi : -1 ≤ oi) (s1 : EdgeLoopState)
    (hs1 : EdgeLoopInv 11 σ O s1) (ori : Nat) (hori : ori < 2) (s' : EdgeLoopState)
    (h : edgeOriBody face_table ep op (PlaceEdgePiece face_table ep op 0) 11 ei oi s1 ori =
      some s') : EdgeLoopInv 11 σ O s' := by
  obtain ⟨s0, L, h1, hI, _⟩ := edgeOriBody_spec face_table ep op hep hop
    (PlaceEdgePiece face_table ep op 0) 11 (by decide) σ O s1 hs1 ei oi hei hoi ori hori
    (fun _ _ _ => False)
    (fun st1 a b hst1 _ _ => ⟨st1, [], rfl, hst1, by simp, List.nodup_nil,
      fun call => by simp⟩)
    (fun _ _ _ call => id)
    (fun _ _ _ _ _ _ _ => ⟨fun _ => Iff.rfl, fun _ _ _ => id⟩)
  rw [h1] at h
  cases h
  exact hI

theorem edgeLoopInv_unswapped {e : Nat} {σ : Equiv.Perm (Fin 12)} {O : List Nat}
    {s2 : EdgeLoopState} (he : e < 12) (pos : Nat) (hpos : e ≤ pos) (hpos12 : pos < 12)
    (hI2 : EdgeLoopInv e (σ * Equiv.swap ⟨e, he⟩ ⟨pos, hpos12⟩) O s2) :
    EdgeLoopInv e σ O
      (if pos ≠ e then
        ⟨{ s2.st with pieces := swapAt s2.st.pieces e pos }, s2.swap_parity ^^^ 1,
          s2.flip_parity⟩
      else s2) := by
  have h := edgeLoopInv_swapped hI2 he pos hpos hpos12
  rw [mul_assoc, Equiv.swap_mul_self, mul_one] at h
  exact h

theorem edgePosBody_keeps (face_table : Nat → Int) (ep op : List CornerArrangement)
    (next : EdgeState → Nat → Nat → Int → Int → Option EdgeState) (e : Nat) (he : e < 12)
    (σ : Equiv.Perm (Fin 12)) (O : List Nat) (ei oi : Int) (pos : Nat) (hpos : e ≤ pos)
    (hpos12 : pos < 12)
    (hbody : ∀ ori, ori < 2 → ∀ s1,
      EdgeLoopInv e (σ * Equiv.swap ⟨e, he⟩ ⟨pos, hpos12⟩) O s1 →
      ∀ s', edgeOriBody face_table ep op next e ei oi s1 ori = some s' →
        EdgeLoopInv e (σ * Equiv.swap ⟨e, he⟩ ⟨pos, hpos12⟩) O s')
    (s : EdgeLoopState) (hs : EdgeLoopInv e σ O s) (s' : EdgeLoopState)
    (h : edgePosBody face_table ep op next e ei oi s pos = some s') : EdgeLoopInv e σ O s' := by
  unfold edgePosBody at h
  simp only at h
  cases hrun : ([0, 1] : List Nat).foldlM (edgeOriBody face_table ep op next e ei oi)
      (if pos ≠ e then
        ⟨{ s.st with pieces := swapAt s.st.pieces e pos }, s.swap_parity ^^^ 1, s.flip_parity⟩
      else s) with
  | none =>
    rw [hrun] at h
    exact absurd h (by simp)
  | some s2 =>
    rw [hrun] at h
    have hI2 := foldlM_keeps (edgeOriBody face_table ep op next e ei oi)
      (EdgeLoopInv e (σ * Equiv.swap ⟨e, he⟩ ⟨pos, hpos12⟩) O) [0, 1]
      (fun i hi s1 hs1 s1' h1 => hbody i (mem_two hi) s1 hs1 s1' h1) _
      (edgeLoopInv_swapped hs he pos hpos hpos12) s2 hrun
    have hfin := edgeLoopInv_unswapped he pos hpos hpos12 hI2
    by_cases hpe : pos = e
    · rw [if_neg (by simpa using hpe)] at hfin
      simp only [ne_eq, hpe, not_true_eq_false, ↓reduceIte, Option.some.injEq] at h
      rw [← h]
      exact hfin
    · rw [if_pos hpe] at hfin
      simp only [ne_eq, hpe, not_false_eq_true, ↓reduceIte, Option.some.injEq] at h
      rw [← h]
      exact hfin

theorem placeEdgePiece_inner_eq (face_table : Nat → Int) (ep op : List CornerArrangement)
    (r e : Nat) (he : e + (r + 1) = 12) (hne : e ≠ 11) (st : EdgeState) (sp fp : Nat)
    (ei oi : Int) :
    PlaceEdgePiece face_table ep op (r + 1) st sp fp ei oi =
      ((List.range' e (12 - e)).foldlM
        (edgePosBody face_table ep op (PlaceEdgePiece face_table ep op r) e ei oi)
        ⟨st, sp, fp⟩).map (fun s => s.st) := by
  have hE : CUBE_EDGES - (r + 1) = e := by unfold CUBE_EDGES; omega
  rw [PlaceEdgePiece]
  simp only [hE, hne, ↓reduceIte]
  have h12 : CUBE_EDGES = 12 := rfl
  rw [h12]
  cases (List.range' e (12 - e)).foldlM
    (edgePosBody face_table ep op (PlaceEdgePiece face_table ep op r) e ei oi)
    ⟨st, sp, fp⟩ <;> rfl

theorem placeEdgePieceGuarded_inner_eq (face_table : Nat → Int)
    (ep op : List CornerArrangement) (r e : Nat) (he : e + (r + 1) = 12) (hne : e ≠ 11)
    (st : EdgeState) (sp fp : Nat) (ei oi : Int) :
    PlaceEdgePieceGuarded face_table ep op (r + 1) st sp fp ei oi =
      ((List.range' e (12 - e)).foldlM
        (edgePosBodyGuarded face_table ep op (PlaceEdgePieceGuarded face_table ep op r) e ei oi)
        ⟨st, sp, fp⟩).map (fun s => s.st) := by
  have hE : CUBE_EDGES - (r + 1) = e := by unfold CUBE_EDGES; omega
  rw [PlaceEdgePieceGuarded]
  simp only [hE, hne, ↓reduceIte]
  have h12 : CUBE_EDGES = 12 := rfl
  rw [h12]
  cases (List.range' e (12 - e)).foldlM
    (edgePosBodyGuarded face_table ep op (PlaceEdgePieceGuarded face_table ep op r) e ei oi)
    ⟨st, sp, fp⟩ <;> rfl

theorem placeEdgePiece_last_eq (face_table : Nat → Int) (ep op : List CornerArrangement)
    (st : EdgeState) (sp fp : Nat) (ei oi : Int) :
    PlaceEdgePiece face_table ep op 1 st sp fp ei oi =
      (PlaceLastEdgePiece face_table ep op 11 st sp fp (if sp = 0 then ei else oi)).bind
        (fun st0 => ((List.range' 11 1).foldlM
          (edgePosBody face_table ep op (PlaceEdgePiece face_table ep op 0) 11 ei oi)
          ⟨st0, sp, fp⟩).map (fun s => s.st)) := by
  rw [PlaceEdgePiece]
  have hE : CUBE_EDGES - (0 + 1) = 11 := rfl
  simp only [hE, ↓reduceIte]
  cases PlaceLastEdgePiece face_table ep op 11 st sp fp (if sp = 0 then ei else oi) with
  | none => rfl
  | some st0 =>
    have h12 : CUBE_EDGES - 11 = 1 := rfl
    simp only [h12, Option.some_bind]
    cases (List.range' 11 1).foldlM
      (edgePosBody face_table ep op (PlaceEdgePiece face_table ep op 0) 11 ei oi)
      ⟨st0, sp, fp⟩ <;> rfl

theorem placeEdgePieceGuarded_last_eq (face_table : Nat → Int)
    (ep op : List CornerArrangement) (st : EdgeState) (sp fp : Nat) (ei oi : Int) :
    PlaceEdgePieceGuarded face_table ep op 1 st sp fp ei oi =
      (PlaceLastEdgePieceGuarded face_table ep op 11 st sp fp (if sp = 0 then ei else oi)).bind
        (fun st0 => ((List.range' 11 1).foldlM
          (edgePosBodyGuarded face_table ep op (PlaceEdgePieceGuarded face_table ep op 0) 11 ei
            oi) ⟨st0, sp, fp⟩).map (fun s => s.st)) := by
  rw [PlaceEdgePieceGuarded]
  have hE : CUBE_EDGES - (0 + 1) = 11 := rfl
  simp only [hE, ↓reduceIte]
  cases PlaceLastEdgePieceGuarded face_table ep op 11 st sp fp (if sp = 0 then ei else oi) with
  | none => rfl
  | some st0 =>
    have h12 : CUBE_EDGES - 11 = 1 := rfl
    simp only [h12, Option.some_bind]
    cases (List.range' 11 1).foldlM
      (edgePosBodyGuarded face_table ep op (PlaceEdgePieceGuarded face_table ep op 0) 11 ei oi)
      ⟨st0, sp, fp⟩ <;> rfl

theorem placeLastEdgePieceGuarded_eq (face_table : Nat → Int) (ep op : List CornerArrangement)
    (hep : FilledArray ep) (hop : FilledArray op) (σ : Equiv.Perm (Fin 12)) (O : List Nat)
    (st : EdgeState) (hinv : EdgeInv 11 σ O st) (sp : Nat) (idx : Int) :
    PlaceLastEdgePieceGuarded face_table ep op 11 st sp (O.sum % 2) idx =
      PlaceLastEdgePiece face_table ep op 11 st sp (O.sum % 2) idx := by
  have hfp : O.sum % 2 < 2 := Nat.mod_lt _ (by decide)
  obtain ⟨hchk, _, hend, hd12, _⟩ := last_slot_facts
  have hinv1 := edgeInv_next hinv (by decide) (O.sum % 2) hfp _ rfl
  rw [if_pos hchk] at hinv1
  have hr := edgeReads_ok hinv1.cube (by decide) (edgePermList_lt σ) hinv1.obit
  have hp : st.pieces.getD 11 0 < CUBE_EDGES := by
    rw [hinv.pieces]
    exact edgePermList_lt σ 11 (by decide)
  have hsix : CUBE_FACES = 6 := rfl
  unfold PlaceLastEdgePieceGuarded
  simp only []
  rw [if_pos]
  rw [Bool.and_eq_true, Bool.and_eq_true, decide_eq_true_eq]
  refine ⟨⟨hp, hr⟩, ?_⟩
  rw [hend] at hinv1 ⊢
  rw [hsix]
  have hlt : ∀ f, f < 6 → f < doneFaces 12 := fun f hf => by rw [hd12]; exact hf
  have hcells : ∀ f, f < 6 → ∀ d, d < 4 →
      (placeEdge st.cube 11 (st.pieces.getD 11 0) (O.sum % 2)).getD (f * 9 + (2 * d + 1)) 0
        < 54 :=
    fun f hf d hd => done_face_cell_lt hinv1.cube (le_refl _) (edgePermList_lt σ) hinv1.obit f
      (hlt f hf) d hd
  have h1 := faceIdReads_ok hinv1.cube (le_refl _) (edgePermList_lt σ) hinv1.obit
    (edge_face_id_checks_start.getD 11 0).toNat
  have hd12' : doneFaces (11 + 1) = 6 := hd12
  rw [hd12'] at h1
  have h2 := faceTableReads_ok (if sp = 0 then ep else op)
    (by split_ifs; exact hep.stored; exact hop.stored) _ _ 6
    (le_refl _) (fun f hf => hinv1.faces f (hlt f hf)) hcells
  simp only at h1 h2
  rw [h1, h2]
  simp only [Bool.and_self, Bool.or_true]

theorem placeEdgePieceGuarded_eq (face_table : Nat → Int)
    (hft : ∀ i, i < FACE_ARRANGEMENTS → face_table i < 16 → PerfectFace (FaceIndexToColors i))
    (ep op : List CornerArrangement) (hep : FilledArray ep) (hop : FilledArray op) :
    ∀ r, r ≤ 12 → ∀ (σ : Equiv.Perm (Fin 12)) (O : List Nat) (st : EdgeState) (ei oi : Int),
    EdgeInv (12 - r) σ O st → -1 ≤ ei → -1 ≤ oi →
    PlaceEdgePieceGuarded face_table ep op r st (parityBit σ) (O.sum % 2) ei oi =
      PlaceEdgePiece face_table ep op r st (parityBit σ) (O.sum % 2) ei oi := by
  intro r
  induction r with
  | zero =>
    intro _ σ O st ei oi _ _ _
    rw [PlaceEdgePieceGuarded, PlaceEdgePiece]
  | succ r ih =>
    intro hr σ O st ei oi hinv hei hoi
    have ih' := ih (by omega)
    by_cases h0 : r = 0
    · subst h0
      have hinv11 : EdgeInv 11 σ O st := hinv
      rw [placeEdgePieceGuarded_last_eq, placeEdgePiece_last_eq,
        placeLastEdgePieceGuarded_eq face_table ep op hep hop σ O st hinv11]
      obtain ⟨st0, L, h0, hinv0, _⟩ :=
        placeLastEdgePiece_spec face_table hft ep op hep hop σ O st hinv11 ei oi hei hoi
      rw [h0]
      simp only [Option.some_bind]
      congr 1
      refine foldlM_guarded _ _ (EdgeLoopInv 11 σ O) _ (fun pos hpos s hs => ?_) _
        ⟨hinv0, rfl, rfl⟩
      have hp := (mem_range'_iff 11 pos (by decide)).1 hpos
      exact ⟨edgePosBodyGuarded_eq face_table ep op hep hop _ _ 11 (by decide) σ O ei oi hei hoi
          pos hp.1 hp.2
          (fun _ _ _ _ _ _ _ _ => by rw [PlaceEdgePieceGuarded, PlaceEdgePiece])
          (fun ori hori s1 hs1 =>
            edgeOriBody_keeps_last face_table ep op hep hop _ O ei oi hei hoi s1 hs1 ori hori)
          s hs,
        edgePosBody_keeps face_table ep op _ 11 (by decide) σ O ei oi pos hp.1 hp.2
          (fun ori hori s1 hs1 =>
            edgeOriBody_keeps_last face_table ep op hep hop _ O ei oi hei hoi s1 hs1 ori hori)
          s hs⟩
    · obtain ⟨e, he⟩ : ∃ e, e + (r + 1) = 12 := ⟨12 - (r + 1), by omega⟩
      have he12 : e < 12 := by omega
      have h1 : 12 - (r + 1) = e := by omega
      have h2 : 12 - r = e + 1 := by omega
      rw [h1] at hinv
      rw [h2] at ih'
      rw [placeEdgePieceGuarded_inner_eq face_table ep op r e he (by omega),
        placeEdgePiece_inner_eq face_table ep op r e he (by omega)]
      congr 1
      refine foldlM_guarded _ _ (EdgeLoopInv e σ O) _ (fun pos hpos s hs => ?_) _
        ⟨hinv, rfl, rfl⟩
      have hp := (mem_range'_iff e pos (by omega)).1 hpos
      exact ⟨edgePosBodyGuarded_eq face_table ep op hep hop _ _ e he12 σ O ei oi hei hoi
          pos hp.1 hp.2
          (fun ori _ st1 a b hst1 ha hb => ih' _ _ st1 a b hst1 ha hb)
          (fun ori hori s1 hs1 =>
            edgeOriBody_keeps_inner face_table hft ep op hep hop r e he (by omega) _ O ei oi
              hei hoi s1 hs1 ori hori)
          s hs,
        edgePosBody_keeps face_table ep op _ e he12 σ O ei oi pos hp.1 hp.2
          (fun ori hori s1 hs1 =>
            edgeOriBody_keeps_inner face_table hft ep op hep hop r e he (by omega) _ O ei oi
              hei hoi s1 hs1 ori hori)
          s hs⟩

theorem tryEdgeArrangementsGuarded_eq (face_table : Nat → Int)
    (hft : ∀ i, i < FACE_ARRANGEMENTS → face_table i < 16 → PerfectFace (FaceIndexToColors i))
    (ep op : List CornerArrangement) (hep : FilledArray ep) (hop : FilledArray op) :
    TryEdgeArrangementsGuarded face_table ep op = TryEdgeArrangements face_table ep op := by
  have h := placeEdgePieceGuarded_eq face_table hft ep op hep hop 12 (le_refl _) 1 []
    ⟨[0, 1, 2, 3, 4, 5, 6, 7, 8, 9, 10, 11], initialEdgeCube, [0, 0, 0, 0, 0, 0], []⟩ 0 0
    edgeInv_start (by decide) (by decide)
  rw [parityBit_one] at h
  have h0 : ([] : List Nat).sum % 2 = 0 := rfl
  rw [h0] at h
  unfold TryEdgeArrangementsGuarded TryEdgeArrangements
  rw [h]

theorem face_window_cells (e : Nat) (he : e < 12)
    (hchk : 0 ≤ edge_face_id_checks_start.getD e 0) (f : Nat)
    (hf : f < (edge_face_id_checks_end.getD e 0 + 1).toNat) (d : Nat) (hd : d < 4) :
    ∃ k, k < e + 1 ∧ ∃ j, j < 2 ∧ tab2 edges k j = f * 9 + (2 * d + 1) := by
  rw [((doneFaces_step e he).1 hchk).2] at hf
  exact doneFaces_cells (e + 1) (by omega) f hf d hd

/-- C34: no table lookup of the two enumerations is out of range.
`CreateCornerArrangementsGuarded` and `TryEdgeArrangementsGuarded` are the two enumerations
with a guard in front of every loop body, which gives up when a value the body passes to
`ColorOf` or divides by 9 is not a sticker id below 54, or an index
`corner.faceIds[f] + face_ids[f]` it uses on `face_table` is not below `6 ^ 9`. The guards
never fire: the guarded corner enumeration is the unguarded one for all array sizes and
returns when the arrays have room, and on corner arrays whose entries are as
`StoreCornerArrangement` writes them and whose indexes `FillCornerIndexes` filled, the guarded
edge enumeration returns, with the calls of `RecordSolution` of the unguarded one. The
surfaces of each check window and of each face-contribution window belong to slots filled
before or by the current slot, and a guard does fire on a surface that still holds the
placeholder 99. -/
theorem C34_table_lookups_in_range (ep0 op0 : List CornerArrangement)
    (hep : ∀ c, c ∈ ep0 → StoredEntry c) (hop : ∀ c, c ∈ op0 → StoredEntry c)
    (hne : ep0.length < 2147483648) (hno : op0.length < 2147483648) :
    (∀ capE capO,
      CreateCornerArrangementsGuarded capE capO = CreateCornerArrangements capE capO) ∧
    (∀ capE capO, capE < 2147483648 → capO < 2147483648 → CornerRoom capE capO →
      ∃ g, CreateCornerArrangementsGuarded capE capO = some g) ∧
    (∃ sols, TryEdgeArrangementsGuarded BuildFaceTable (FillCornerIndexes ep0 ep0.length)
        (FillCornerIndexes op0 op0.length) = some sols ∧
      TryEdgeArrangements BuildFaceTable (FillCornerIndexes ep0 ep0.length)
        (FillCornerIndexes op0 op0.length) = some sols) ∧
    (∀ n, n < 8 → ∀ i, corner_count_checks_start.getD n 0 ≤ i →
      i < corner_count_checks_end.getD n 0 + 1 → ∀ d, d < 3 →
      ∃ k, k < n + 1 ∧ ∃ j, j < 3 ∧ tab2 corners k j = tab2 corner_count_checks i d) ∧
    (∀ e, e < 12 → ∀ i, edge_diagonal_checks_start.getD e 0 ≤ i →
      i < edge_diagonal_checks_end.getD e 0 + 1 → ∀ d, d < 2 →
      ∃ k, k < e + 1 ∧ ∃ j, j < 2 ∧ tab2 edges k j = tab2 edge_diagonal_checks i d) ∧
    (∀ e, e < 12 → 0 ≤ edge_face_id_checks_start.getD e 0 →
      ∀ f, f < (edge_face_id_checks_end.getD e 0 + 1).toNat → ∀ d, d < 4 →
      ∃ k, k < e + 1 ∧ ∃ j, j < 2 ∧ tab2 edges k j = f * 9 + (2 * d + 1)) ∧
    cornerReadsInRange initialCornerCube 0 = false ∧
    storeReadsInRange initialCornerCube = false ∧
    edgeReadsInRange initialEdgeCube 0 = false ∧
    faceIdReadsInRange initialEdgeCube 0 1 = false := by
  have hA := filledArray_of_fill ep0 hep hne
  have hB := filledArray_of_fill op0 hop hno
  refine ⟨createCornerArrangementsGuarded_eq, fun capE capO hE hO hroom => ?_, ?_,
    fun n hn i h1 h2 d hd => (corner_check_cells n hn i h1 h2).2 d hd,
    fun e he i h1 h2 d hd => ?_,
    fun e he hchk f hf d hd => face_window_cells e he hchk f hf d hd,
    by decide, by decide, by decide, by decide⟩
  · obtain ⟨g, _, hg, _⟩ := createCornerArrangements_spec capE capO hE hO hroom
    exact ⟨g, by rw [createCornerArrangementsGuarded_eq, hg]⟩
  · obtain ⟨sols, h1, _⟩ := tryEdgeArrangements_spec BuildFaceTable buildFaceTable_sound
      _ _ hA hB
    exact ⟨sols, by rw [tryEdgeArrangementsGuarded_eq BuildFaceTable buildFaceTable_sound _ _
      hA hB, h1], h1⟩
  · obtain ⟨_, h0, h1'⟩ := diagonal_cells e he i h1 h2
    have hd' : d = 0 ∨ d = 1 := by omega
    rcases hd' with rfl | rfl
    · exact h0
    · exact h1'

theorem C34_witness :
    ((∀ c, c ∈ [storedEntryOf sampleCorners] → StoredEntry c) ∧
      (∀ c, c ∈ ([] : List CornerArrangement) → StoredEntry c)) ∧
    ∃ sols, TryEdgeArrangementsGuarded BuildFaceTable
        (FillCornerIndexes [storedEntryOf sampleCorners] [storedEntryOf sampleCorners].length)
        (FillCornerIndexes [] ([] : List CornerArrangement).length) = some sols ∧
      TryEdgeArrangements BuildFaceTable
        (FillCornerIndexes [storedEntryOf sampleCorners] [storedEntryOf sampleCorners].length)
        (FillCornerIndexes [] ([] : List CornerArrangement).length) = some sols :=
  ⟨⟨by decide!, by decide⟩, (C34_table_lookups_in_range [storedEntryOf sampleCorners] []
    (by decide!) (by decide) (by decide) (by decide)).2.2.1⟩

end PerfectScramble

